import Mathlib

/-!
# Maze generator (`src/src/maze_generator.cpp`): embedding and properties

The C++ `MazeGenerator` is embedded function by function.

* `int` is `Int` (no overflow is modelled: grid sizes are far below `2^31`).
* A `float` value is the exact fraction (`Frac`) it stands for, and an operation that can
  round gives the nearest `float` (`Frac.f32`: 24 significant bits, halves to the even
  neighbour): a conversion of an `int`, a sum, a difference, a product and a quotient.
  Multiplying or dividing a `float` by 2 or 4 is exact and is written without rounding;
  `double` arithmetic on `int` values is exact.  Overflow to infinity is not modelled (an
  `int` is far below `2^127`).  The base of the reservation probability (line 41) is
  computed in `float`; the power `std::pow(base, 1.6f)` is not rounded: a draw is compared
  with `base ^ (8 / 5)` in exact arithmetic.
* `std::vector<std::vector<int>>` is `List (List Int)`, indexed `[x][y]`.  An
  access outside the vector (undefined behaviour in C++) makes the embedded
  function return `none`.
* `std::mt19937` and the two distributions are library code: they are the
  parameter `RandomSource`.  Two sources are defined: `mt19937`, the engine and the
  distributions of libstdc++ for the first 227 outputs of the engine, and `lcg`, a small
  generator for sample runs of theorems that hold for every source.
* The loader `Tilemap::loadFromCSV` of `src/src/tilemap.cpp` is embedded on the text of
  the file as a list of characters: `std::getline` is the list of tokens of the unread
  text, `std::stoi` converts white space, a sign and digits (an exception is `none`),
  and `static_cast<TileType>` converts to the underlying type `uint8_t`.
-/

namespace MazeGenerator

/-! ## Exact fractions standing for `float` values -/

/-- A fraction `num / den` (meant with `0 < den`), the exact value of a `float`. -/
structure Frac where
  num : Int
  den : Nat
deriving DecidableEq, Repr

namespace Frac

/-- An `int` converted to `float`. -/
def ofInt (n : Int) : Frac := ⟨n, 1⟩

/-- The comparison `a < b`. -/
def lt (a b : Frac) : Bool := decide (a.num * b.den < b.num * a.den)

/-- The sum `a + b`. -/
def add (a b : Frac) : Frac := ⟨a.num * b.den + b.num * a.den, a.den * b.den⟩

/-- The difference `a - b`. -/
def sub (a b : Frac) : Frac := ⟨a.num * b.den - b.num * a.den, a.den * b.den⟩

/-- The product `a * b`. -/
def mul (a b : Frac) : Frac := ⟨a.num * b.num, a.den * b.den⟩

/-- The quotient `a / b`, used only with a positive divisor `b`. -/
def div (a b : Frac) : Frac := ⟨a.num * b.den, a.den * b.num.toNat⟩

/-- `std::max(a, b)`, which is `(a < b) ? b : a`. -/
def max (a b : Frac) : Frac := if lt a b then b else a

/-- `std::min(a, b)`, which is `(b < a) ? b : a`. -/
def min (a b : Frac) : Frac := if lt b a then b else a

/-- `std::floor` followed by the conversion to `int`. -/
def floor (a : Frac) : Int := a.num / a.den

/-- `std::ceil` followed by the conversion to `int`. -/
def ceil (a : Frac) : Int := -((-a.num) / a.den)

/-- The implicit conversion of a floating value to `int` (truncation towards zero). -/
def trunc (a : Frac) : Int := Int.tdiv a.num a.den

/-- `std::round` (halves away from zero) followed by the conversion to `int`. -/
def round (a : Frac) : Int :=
  if 0 ≤ a.num then (2 * a.num + a.den) / (2 * a.den)
  else -((2 * (-a.num) + a.den) / (2 * a.den))

/-- The integer nearest to `n / d` for `0 < d`, the even one of two nearest. -/
def roundHalfEven (n d : Nat) : Nat :=
  if 2 * (n % d) < d then n / d
  else if d < 2 * (n % d) then n / d + 1
  else n / d + (n / d) % 2

/-- The number of halvings that bring `n` below 2, at most `fuel` of them. -/
def halvings : Nat → Nat → Nat
  | 0, _ => 0
  | fuel + 1, n => if n < 2 then 0 else halvings fuel (n / 2) + 1

/-- The exponent `⌊log2 n⌋` of a natural number `0 < n`. -/
def log2Nat (n : Nat) : Nat := halvings n n

/-- The exponent `⌊log2 (n / d)⌋` of a fraction with `0 < n` and `0 < d`. -/
def log2Floor (n d : Nat) : Int :=
  if d * 2 ^ (log2Nat n - log2Nat d) ≤ n * 2 ^ (log2Nat d - log2Nat n) then
    (log2Nat n : Int) - (log2Nat d : Int)
  else (log2Nat n : Int) - (log2Nat d : Int) - 1

/-- The `float` nearest to `n / d` for `0 < n` and `0 < d`: a multiple of the unit
`2 ^ e`, where `e` is the exponent of `n / d` less 23 and at least `-149`. -/
def f32Pos (n d : Nat) : Frac :=
  if 0 ≤ Max.max (log2Floor n d - 23) (-149) then
    ⟨((roundHalfEven n (d * 2 ^ (Max.max (log2Floor n d - 23) (-149)).toNat) *
      2 ^ (Max.max (log2Floor n d - 23) (-149)).toNat : Nat) : Int), 1⟩
  else
    ⟨((roundHalfEven (n * 2 ^ (-(Max.max (log2Floor n d - 23) (-149))).toNat) d : Nat) : Int),
      2 ^ (-(Max.max (log2Floor n d - 23) (-149))).toNat⟩

/-- The `float` nearest to a fraction (IEEE 754 binary32, round to nearest, ties to even):
the rounding of every `float` operation and of the conversion of an integer to `float`. -/
def f32 (a : Frac) : Frac :=
  if a.den = 0 ∨ a.num = 0 then a
  else if 0 < a.num then f32Pos a.num.toNat a.den
  else ⟨-(f32Pos (-a.num).toNat a.den).num, (f32Pos (-a.num).toNat a.den).den⟩

end Frac

/-- The conversion of an integer to `float` (as in `w / 4.0f`, where `w` is an `int`),
read back as an integer: the `float` nearest to an integer is an integer. -/
def floatOfInt (n : Int) : Int := Frac.trunc (Frac.f32 (Frac.ofInt n))

/-! ## Configuration (`maze_generator.h`) -/

/-- `MazeConfig::Axis`. -/
structure Axis where
  symmetry : Bool
  border : Int
  loop : Bool
deriving DecidableEq, Repr

/-- `MazeConfig`. -/
structure MazeConfig where
  horizontal : Axis
  vertical : Axis
  straightness : Frac
  imperfect : Frac
  fill : Frac
  roomsFraction : Frac
  hallWidth : Int
  wallWidth : Int
  seed : Nat
deriving DecidableEq, Repr

/-- `DeadEnd`. -/
structure DeadEnd where
  x : Int
  y : Int
deriving DecidableEq, Repr

/-- `MazeGenerator::Direction`. -/
structure Direction where
  x : Int
  y : Int
deriving DecidableEq, Repr

/-- `MazeGenerator::StackEntry`. -/
structure StackEntry where
  x : Int
  y : Int
  step : Direction
deriving DecidableEq, Repr

/-- `MazeGenerator::SOLID`. -/
abbrev SOLID : Int := 255

/-- `MazeGenerator::RESERVED`. -/
abbrev RESERVED : Int := 127

/-- `MazeGenerator::EMPTY`, the Passage state. -/
abbrev EMPTY : Int := 0

/-! ## The grid -/

/-- The grid `std::vector<std::vector<int>>`: a list of columns, indexed `[x][y]`. -/
abbrev Grid := List (List Int)

/-- The read `maze[x][y]`; `none` when an index is outside the vector. -/
def Grid.read (m : Grid) (x y : Int) : Option Int :=
  if 0 ≤ x ∧ 0 ≤ y then
    match m[x.toNat]? with
    | some col => col[y.toNat]?
    | none => none
  else none

/-- The write `maze[x][y] = v`; `none` when an index is outside the vector. -/
def Grid.write (m : Grid) (x y : Int) (v : Int) : Option Grid :=
  if 0 ≤ x ∧ 0 ≤ y then
    match m[x.toNat]? with
    | some col =>
      if y.toNat < col.length then some (m.set x.toNat (col.set y.toNat v)) else none
    | none => none
  else none

/-- The constructor `maze(w, std::vector<int>(h, SOLID))`; a negative size does not
construct a vector. -/
def Grid.solid (w h : Int) : Option Grid :=
  if 0 ≤ w ∧ 0 ≤ h then some (List.replicate w.toNat (List.replicate h.toNat SOLID)) else none

/-- The C++ operator `%` on `int` (truncated remainder); division by zero is undefined. -/
def cmod (a b : Int) : Option Int := if b = 0 then none else some (Int.tmod a b)

/-! ## The random source -/

/-- The random stream of `generate`: `seed` is `rng.seed(s)`, `real` is one use of
`dist(rng)` for `std::uniform_real_distribution<float>(0, 1)` and `int a b` is one use of
a `std::uniform_int_distribution<int>(a, b)`; each returns the drawn value and the next
state of the generator. -/
structure RandomSource (σ : Type) where
  seed : Nat → σ
  real : σ → Frac × σ
  int : Int → Int → σ → Int × σ
  real_nonneg : ∀ s, 0 ≤ (real s).1.num
  real_lt_one : ∀ s, (real s).1.num < (real s).1.den
  int_ge : ∀ a b s, a ≤ b → a ≤ (int a b s).1
  int_le : ∀ a b s, a ≤ b → (int a b s).1 ≤ b

/-! ## Tile export -/

/-- `MazeGenerator::convertTileValue`. -/
def convertTileValue (mazeValue : Int) : Int :=
  if mazeValue = EMPTY then 1
  else if mazeValue = SOLID then 2
  else if mazeValue = RESERVED then 2
  else 1

/-- The inner loop of `exportToCSV` for row `y`, over the remaining columns `xs`,
appending to the text `out` written so far. -/
def writeRow (maze : Grid) (y : Nat) : List Nat → String → Option String
  | [], out => some out
  | x :: xs, out =>
    match maze.read x y with
    | some v =>
      writeRow maze y xs
        ((if x > 0 then out ++ "," else out) ++ toString (convertTileValue v))
    | none => none

/-- The outer loop of `exportToCSV`, over the remaining rows `ys`. -/
def writeRows (maze : Grid) (width : Nat) : List Nat → String → Option String
  | [], out => some out
  | y :: ys, out =>
    match writeRow maze y (List.range width) out with
    | some out1 => writeRows maze width ys (out1 ++ "\n")
    | none => none

/-- Line 179: `maze.empty() ? 0 : maze[0].size()`. -/
def gridHeight (maze : Grid) : Nat :=
  match maze with
  | [] => 0
  | col :: _ => col.length

/-- The text `exportToCSV` writes to the file once it is open (lines 178-191). -/
def csvText (maze : Grid) : Option String :=
  writeRows maze maze.length (List.range (gridHeight maze))
    (toString (maze.length : Int) ++ "," ++ toString (gridHeight maze : Int) ++ "\n")

/-- `MazeGenerator::exportToCSV`: the returned flag and the text written, given whether
the file could be opened. -/
def exportToCSV (maze : Grid) (fileOpens : Bool) : Option (Bool × String) :=
  if fileOpens then (csvText maze).map (fun t => (true, t)) else some (false, "")

/-! ## Dimension normalizer (lines 10-16 and 28-62 of `generate`) -/

/-- The effective wrap `loop && !(symmetry && border)` of an axis (`hWrap`, `vWrap`). -/
def effectiveWrap (a : Axis) : Bool := a.loop && !(a.symmetry && (a.border != 0))

/-- The C++ expression `n & 1` on a two's complement `int`. -/
def lowBit (n : Int) : Int := n % 2

/-- The C++ expression `~n` on a two's complement `int`. -/
def bitNot (n : Int) : Int := -n - 1

/-- Lines 28-37: `if (!border) { ++size; if (!wrap) ++size; }`. -/
def accountForEdges (a : Axis) (size : Int) : Int :=
  if a.border = 0 then (if effectiveWrap a then size + 1 else size + 1 + 1) else size

/-- Lines 46 and 56: `std::round((size - 2) / 4.0f) * 4 + 2`, converted to `int`.  The
difference `size - 2` is converted to `float`, the division by `4.0f` and the product with
`4` are exact, and the sum with `2` is rounded to `float`. -/
def roundToFour (size : Int) : Int :=
  Frac.trunc (Frac.f32 (Frac.ofInt
    (Frac.round (Frac.div (Frac.f32 (Frac.ofInt (size - 2))) ⟨4, 1⟩) * 4 + 2)))

/-- Lines 43-62: the parity adjustment of one axis. -/
def ensureDimension (a : Axis) (size : Int) : Int :=
  if effectiveWrap a then
    if a.symmetry then roundToFour size
    else size + lowBit size
  else size + bitNot (lowBit size)

/-- The size of one axis of the grid that `generate` allocates. -/
def normalizeSize (a : Axis) (size : Int) : Int := ensureDimension a (accountForEdges a size)

/-! ## Reservation seeder (lines 39-41 and 64-76) -/

/-- The base `1.0f - min(max(0.0f, fill * 0.9f + 0.1f), 1.0f)` of `reserveProb` (line 41),
computed in `float`. -/
def reserveBase (fill : Frac) : Frac :=
  Frac.f32 (Frac.sub (Frac.ofInt 1)
    (Frac.min (Frac.max (Frac.ofInt 0)
      (Frac.f32 (Frac.add (Frac.f32 (Frac.mul fill (Frac.f32 ⟨9, 10⟩))) (Frac.f32 ⟨1, 10⟩))))
      (Frac.ofInt 1)))

/-- The test `reserveProb > 0`, where `reserveProb = pow(base, 1.6)`: a power of a
non-negative base is positive exactly when the base is. -/
def reservePositive (fill : Frac) : Bool := Frac.lt (Frac.ofInt 0) (reserveBase fill)

/-- The test `u < reserveProb` for a draw `u` in `[0, 1)`: `u < base ^ (8 / 5)` holds
exactly when `u ^ 5 < base ^ 8`. -/
def belowReserveProb (u fill : Frac) : Bool :=
  Frac.lt ⟨u.num ^ 5, u.den ^ 5⟩ ⟨(reserveBase fill).num ^ 8, (reserveBase fill).den ^ 8⟩

/-- The values `1, 3, 5, ...` below `n` of a loop `for (i = 1; i < n; i += 2)`. -/
def oddCoords (n : Int) : List Int :=
  (List.range (n.toNat / 2)).map (fun (i : Nat) => 2 * (i : Int) + 1)

/-- The inner loop of the seeder over the rows `ys` of column `x`. -/
def reserveColumn {σ : Type} (R : RandomSource σ) (fill : Frac) (x : Int) :
    List Int → Grid → σ → Option (Grid × σ)
  | [], m, s => some (m, s)
  | y :: ys, m, s =>
    if belowReserveProb (R.real s).1 fill then
      match m.write x y RESERVED with
      | some m1 => reserveColumn R fill x ys m1 (R.real s).2
      | none => none
    else reserveColumn R fill x ys m (R.real s).2

/-- The outer loop of the seeder over the columns `xs`. -/
def reserveCells {σ : Type} (R : RandomSource σ) (fill : Frac) (h : Int) :
    List Int → Grid → σ → Option (Grid × σ)
  | [], m, s => some (m, s)
  | x :: xs, m, s =>
    match reserveColumn R fill x (oddCoords h) m s with
    | some (m1, s1) => reserveCells R fill h xs m1 s1
    | none => none

/-- Lines 67-76: `if (reserveProb > 0) { ... }`. -/
def seedReservations {σ : Type} (R : RandomSource σ) (fill : Frac) (w h : Int)
    (m : Grid) (s : σ) : Option (Grid × σ) :=
  if reservePositive fill then reserveCells R fill h (oddCoords w) m s else some (m, s)

/-! ## The cell writer and the carver helpers -/

/-- `MazeGenerator::unexplored`. -/
def unexplored (maze : Grid) (x y : Int) (ignoreReserved : Int) : Option Bool :=
  match maze.read x y with
  | some c => some (decide (c = SOLID) || (decide (c = RESERVED) && decide (ignoreReserved > 0)))
  | none => none

/-- `MazeGenerator::setMaze`. -/
def setMaze (maze : Grid) (x y value : Int) (config : MazeConfig) (w h : Int) : Option Grid :=
  match cmod (x + w) w, cmod (y + h) h with
  | some x1, some y1 =>
    match maze.write x1 y1 value with
    | none => none
    | some m0 =>
      let hSymmetry := config.horizontal.symmetry
      let vSymmetry := config.vertical.symmetry
      let hBorderOffset : Int := if effectiveWrap config.horizontal then 0 else 1
      let vBorderOffset : Int := if effectiveWrap config.vertical then 0 else 1
      let u := w - x1 - hBorderOffset
      let v := h - y1 - vBorderOffset
      let m2 : Option Grid :=
        if hSymmetry && decide (u < w) then
          match m0.write u y1 value with
          | none => none
          | some m1 => if vSymmetry && decide (v < h) then m1.write u v value else some m1
        else some m0
      match m2 with
      | none => none
      | some m3 => if vSymmetry && decide (v < h) then m3.write x1 v value else some m3
  | _, _ => none

/-- `std::swap(directions[i], directions[j])`. -/
def swapAt (l : List Direction) (i j : Nat) : List Direction :=
  match l[i]?, l[j]? with
  | some a, some b => (l.set i b).set j a
  | _, _ => l

/-- The loop of `shuffle`, running `i` down to `1`. -/
def shuffleFrom {σ : Type} (R : RandomSource σ) : Nat → List Direction → σ → List Direction × σ
  | 0, ds, s => (ds, s)
  | i + 1, ds, s =>
    shuffleFrom R i (swapAt ds (i + 1) (R.int 0 ((i : Int) + 1) s).1.toNat)
      (R.int 0 ((i : Int) + 1) s).2

/-- `MazeGenerator::shuffle` (Fisher-Yates). -/
def shuffle {σ : Type} (R : RandomSource σ) (ds : List Direction) (s : σ) :
    List Direction × σ :=
  shuffleFrom R (ds.length - 1) ds s

/-- Lines 108-113: swap the first of the four entries that equals the arrival step with
the entry in slot 3. -/
def prioritize (ds : List Direction) (step : Direction) : List Direction :=
  match (List.range 4).find? (fun i => decide (ds[i]? = some step)) with
  | some i => swapAt ds i 3
  | none => ds

/-- Lines 117-129: the neighbour loop over the remaining directions; returns the stack
(top first) and the `deadEnd` flag. -/
def pushNeighbours (maze : Grid) (hWrap vWrap : Bool) (w h : Int) (cur : StackEntry)
    (ignoreReserved : Int) : List Direction → List StackEntry → Bool →
    Option (List StackEntry × Bool)
  | [], stack, deadEnd => some (stack, deadEnd)
  | step :: rest, stack, deadEnd =>
    match (if hWrap then cmod (cur.x + step.x * 2 + w) w else some (cur.x + step.x * 2)),
          (if vWrap then cmod (cur.y + step.y * 2 + h) h else some (cur.y + step.y * 2)) with
    | some x, some y =>
      if 0 ≤ x ∧ 0 ≤ y ∧ x < w ∧ y < h then
        match unexplored maze x y ignoreReserved with
        | some true =>
          pushNeighbours maze hWrap vWrap w h cur ignoreReserved rest (⟨x, y, step⟩ :: stack) false
        | some false =>
          pushNeighbours maze hWrap vWrap w h cur ignoreReserved rest stack deadEnd
        | none => none
      else pushNeighbours maze hWrap vWrap w h cur ignoreReserved rest stack deadEnd
    | _, _ => none

/-! ## Carver (lines 78-135) -/

/-- The variables of the carver loop: the grid, the stack (its `back()` first), the
dead ends in `push_back` order, the direction list (shuffled in place, so it persists
from one iteration to the next), `ignoreReserved` and the generator. -/
structure CarveState (σ : Type) where
  maze : Grid
  stack : List StackEntry
  deadEnds : List DeadEnd
  directions : List Direction
  ignoreReserved : Int
  rng : σ

/-- The body of the carver loop (lines 94-134) for the popped entry `cur`; `st.stack` is
the stack after the pop. -/
def carveStep {σ : Type} (R : RandomSource σ) (config : MazeConfig) (w h : Int)
    (cur : StackEntry) (st : CarveState σ) : Option (CarveState σ) :=
  match unexplored st.maze cur.x cur.y st.ignoreReserved with
  | none => none
  | some false => some st
  | some true =>
    match setMaze st.maze cur.x cur.y EMPTY config w h with
    | none => none
    | some m1 =>
      match setMaze m1 (cur.x - cur.step.x) (cur.y - cur.step.y) EMPTY config w h with
      | none => none
      | some m2 =>
        let shuffled := shuffle R st.directions st.rng
        let draw := R.real shuffled.2
        let ds := if Frac.lt draw.1 config.straightness then prioritize shuffled.1 cur.step
          else shuffled.1
        match pushNeighbours m2 (effectiveWrap config.horizontal) (effectiveWrap config.vertical)
            w h cur (st.ignoreReserved - 1) ds st.stack true with
        | none => none
        | some (stack1, deadEnd) =>
          some { maze := m2
                 stack := stack1
                 deadEnds := if deadEnd then st.deadEnds ++ [⟨cur.x, cur.y⟩] else st.deadEnds
                 directions := ds
                 ignoreReserved := st.ignoreReserved - 1
                 rng := draw.2 }

/-- The loop `while (!stack.empty())`, run for at most `fuel` iterations; `none` when the
fuel is used up before the stack is empty. -/
def carveLoop {σ : Type} (R : RandomSource σ) (config : MazeConfig) (w h : Int) :
    Nat → CarveState σ → Option (CarveState σ)
  | 0, st =>
    match st.stack with
    | [] => some st
    | _ :: _ => none
  | fuel + 1, st =>
    match st.stack with
    | [] => some st
    | cur :: rest =>
      match carveStep R config w h cur { st with stack := rest } with
      | some st1 => carveLoop R config w h fuel st1
      | none => none

/-- The start coordinate `std::floor(size / 4.0f) * 2 - 1` of one axis, converted to `int`.
The size is converted to `float`, the division by `4.0f` and the product with `2` are
exact, and the difference with `1` is rounded to `float`. -/
def startCoord (size : Int) : Int :=
  Frac.trunc (Frac.f32 (Frac.ofInt
    (Frac.floor (Frac.div (Frac.f32 (Frac.ofInt size)) ⟨4, 1⟩) * 2 - 1)))

/-- The state in which the carver loop starts (lines 79-88). -/
def carveInit {σ : Type} (w h : Int) (maze : Grid) (rng : σ) : CarveState σ :=
  { maze := maze
    stack := [⟨startCoord w, startCoord h, ⟨0, 0⟩⟩]
    deadEnds := [⟨startCoord w, startCoord h⟩]
    directions := [⟨-1, 0⟩, ⟨1, 0⟩, ⟨0, 1⟩, ⟨0, -1⟩]
    ignoreReserved := max w h
    rng := rng }

/-- Iterations granted to the carver loop of a `w` by `h` grid: every iteration pops one
entry, only the first entry is not pushed by an iteration that carves a cell, and such an
iteration pushes at most four.  `carveFuel_enough` shows that more fuel gives the same
result. -/
def carveFuel (w h : Int) : Nat := 4 * (w * h).toNat + 2

/-! ## Imperfection injector (lines 137-159) -/

/-- The lambda `remove` (lines 142-150). -/
def remove (maze : Grid) (x y : Int) (config : MazeConfig) (w h : Int) : Option Grid :=
  match cmod (y + 1) h, cmod (y - 1 + h) h, cmod (x + 1) w, cmod (x - 1 + w) w with
  | some yp, some ym, some xp, some xm =>
    match maze.read x yp, maze.read x ym, maze.read xp y, maze.read xm y with
    | some a, some b, some c, some d =>
      if min a (min b (min c d)) = EMPTY then setMaze maze x y EMPTY config w h else some maze
    | _, _, _, _ => none
  | _, _, _, _ => none

/-- The loop of lines 155-158, with `n` iterations left; the two distributions draw from
`[0, xHi]` and `[0, yHi]`.  C++ leaves the order of the two draws in the arguments of a
call of `remove` open; the compiler of the repository's build (g++) evaluates the arguments
from right to left, so `yDist(rng)` is drawn before `xDist(rng)`. -/
def imperfectLoop {σ : Type} (R : RandomSource σ) (config : MazeConfig) (w h : Int)
    (hBdry vBdry xHi yHi : Int) : Nat → Grid → σ → Option (Grid × σ)
  | 0, m, s => some (m, s)
  | n + 1, m, s =>
    let y1 := R.int 0 yHi s
    let x1 := R.int 0 xHi y1.2
    match remove m (x1.1 * 2 + 1) (y1.1 * 2 + vBdry * 2) config w h with
    | none => none
    | some m1 =>
      let y2 := R.int 0 yHi x1.2
      let x2 := R.int 0 xHi y2.2
      match remove m1 (x2.1 * 2 + hBdry * 2) (y2.1 * 2 + 1) config w h with
      | none => none
      | some m2 => imperfectLoop R config w h hBdry vBdry xHi yHi n m2 x2.2

/-- The clamped `imperfect` of line 39. -/
def clampImperfect (config : MazeConfig) : Frac :=
  Frac.min (Frac.ofInt 1) (Frac.max (Frac.ofInt 0) config.imperfect)

/-- The upper bound `size * 0.5 - bdry * 2 - 1` of a wall distribution, computed in
`double`, where it is exact, and converted to `int`. -/
def wallDistHi (size bdry : Int) : Int :=
  Frac.trunc (Frac.sub (Frac.sub (Frac.mul (Frac.ofInt size) ⟨1, 2⟩) (Frac.ofInt (bdry * 2)))
    (Frac.ofInt 1))

/-- The iteration budget `std::ceil(imperfect * w * h / 3.0f)`: the two products and the
quotient are `float` operations. -/
def imperfectBudget (imperfect : Frac) (w h : Int) : Int :=
  Frac.ceil (Frac.f32 (Frac.div
    (Frac.f32 (Frac.mul (Frac.f32 (Frac.mul imperfect (Frac.f32 (Frac.ofInt w))))
      (Frac.f32 (Frac.ofInt h)))) ⟨3, 1⟩))

/-- The value `hBdry` or `vBdry` of an axis (lines 139-140). -/
def boundary (a : Axis) : Int := if effectiveWrap a then 0 else 1

/-- Lines 137-159: `if (imperfect > 0) { ... }`; a distribution whose upper bound is
below its lower bound is undefined. -/
def addImperfections {σ : Type} (R : RandomSource σ) (config : MazeConfig) (w h : Int)
    (m : Grid) (s : σ) : Option (Grid × σ) :=
  if Frac.lt (Frac.ofInt 0) (clampImperfect config) then
    if 0 ≤ wallDistHi w (boundary config.horizontal) ∧
        0 ≤ wallDistHi h (boundary config.vertical) then
      imperfectLoop R config w h (boundary config.horizontal) (boundary config.vertical)
        (wallDistHi w (boundary config.horizontal)) (wallDistHi h (boundary config.vertical))
        (imperfectBudget (clampImperfect config) w h).toNat m s
    else none
  else some (m, s)

/-! ## Room placement (`addRooms`, lines 250-294) -/

/-- The values `lo, lo + 1, ..., hi` of a loop `for (i = lo; i <= hi; ++i)`. -/
def intRange (lo hi : Int) : List Int :=
  (List.range (hi + 1 - lo).toNat).map (fun (i : Nat) => lo + (i : Int))

/-- The inner loop of lines 269-272 over the rows `ys` of column `x`. -/
def carveColumn (x : Int) : List Int → Grid → Option Grid
  | [], m => some m
  | y :: ys, m =>
    match m.write x y EMPTY with
    | some m1 => carveColumn x ys m1
    | none => none

/-- The loop of lines 267-273 over the columns `xs`, each with the rows `ys`. -/
def carveRect (ys : List Int) : List Int → Grid → Option Grid
  | [], m => some m
  | x :: xs, m =>
    match carveColumn x ys m with
    | some m1 => carveRect ys xs m1
    | none => none

/-- The room half-size `a` (and `b`) of line 257, for the clamped `roomsFraction`:
`std::ceil(0.6f * (hallWidth + wallWidth) / std::max(roomsFraction, 0.4f))`, where `0.6f`
and `0.4f` are the `float` values nearest to `3 / 5` and `2 / 5` and the product and the
quotient are `float` operations. -/
def roomSize (config : MazeConfig) (roomsFraction : Frac) : Int :=
  Frac.ceil (Frac.f32 (Frac.div
    (Frac.f32 (Frac.mul (Frac.f32 ⟨3, 5⟩)
      (Frac.f32 (Frac.ofInt (config.hallWidth + config.wallWidth)))))
    (Frac.max roomsFraction (Frac.f32 ⟨2, 5⟩))))

/-- The corner coordinate `std::floor(c - a / 2.0f)` of lines 264-265: the division by
`2.0f` is exact, the difference is a `float` operation. -/
def roomCorner (c a : Int) : Int :=
  Frac.floor (Frac.f32 (Frac.sub (Frac.f32 (Frac.ofInt c))
    (Frac.div (Frac.f32 (Frac.ofInt a)) ⟨2, 1⟩)))

/-- The room loop of lines 261-274 over the remaining dead-end indices. -/
def carveRooms (config : MazeConfig) (w h a b : Int) (deadEnds : List DeadEnd) :
    List Nat → Grid → Option Grid
  | [], m => some m
  | i :: rest, m =>
    match deadEnds[i]? with
    | none => none
    | some c =>
      match carveRect
          (intRange (max config.wallWidth (roomCorner c.y b - b))
            (min (h - config.wallWidth) (roomCorner c.y b + b)))
          (intRange (max config.wallWidth (roomCorner c.x a - a))
            (min (w - config.wallWidth - 1) (roomCorner c.x a + a))) m with
      | some m1 => carveRooms config w h a b deadEnds rest m1
      | none => none

/-- The value `deadEnds.size() - 1` of the unsigned 64-bit size type. -/
def sizeMinusOne (n : Nat) : Int := if n = 0 then 2 ^ 64 - 1 else (n : Int) - 1

/-- The index `last` of line 260, `std::floor((deadEnds.size() - 1) * roomsFraction)`: the
size is converted to `float` and the product is a `float` operation. -/
def lastRoom (deadEnds : List DeadEnd) (roomsFraction : Frac) : Int :=
  Frac.floor (Frac.f32 (Frac.mul (Frac.f32 (Frac.ofInt (sizeMinusOne deadEnds.length)))
    roomsFraction))

/-- The indices `last, last - 1, ..., 0` of the loop of line 261. -/
def roomIndices (last : Int) : List Nat := (List.range (last + 1).toNat).reverse

/-- The inner loop of lines 280-282: `maze[w - offset - x][y] = maze[x][y]` over `xs`. -/
def mirrorRow (w offset y : Int) : List Int → Grid → Option Grid
  | [], m => some m
  | x :: xs, m =>
    match m.read x y with
    | none => none
    | some v =>
      match m.write (w - offset - x) y v with
      | some m1 => mirrorRow w offset y xs m1
      | none => none

/-- The loop of lines 279-283 over the rows `ys`. -/
def mirrorRows (w offset : Int) (xs : List Int) : List Int → Grid → Option Grid
  | [], m => some m
  | y :: ys, m =>
    match mirrorRow w offset y xs m with
    | some m1 => mirrorRows w offset xs ys m1
    | none => none

/-- The inner loop of lines 289-291: `maze[x][h - offset - y] = maze[x][y]` over `ys`. -/
def mirrorColumn (h offset x : Int) : List Int → Grid → Option Grid
  | [], m => some m
  | y :: ys, m =>
    match m.read x y with
    | none => none
    | some v =>
      match m.write x (h - offset - y) v with
      | some m1 => mirrorColumn h offset x ys m1
      | none => none

/-- The loop of lines 288-292 over the columns `xs`. -/
def mirrorColumns (h offset : Int) (ys : List Int) : List Int → Grid → Option Grid
  | [], m => some m
  | x :: xs, m =>
    match mirrorColumn h offset x ys m with
    | some m1 => mirrorColumns h offset ys xs m1
    | none => none

/-- The clamped `roomsFraction` of line 255. -/
def clampRooms (config : MazeConfig) : Frac :=
  Frac.max (Frac.ofInt 0) (Frac.min (Frac.ofInt 1) config.roomsFraction)

/-- Lines 255-274 of `addRooms`: the grid after the room loop, before symmetry is
restored. -/
def roomsCarved (maze : Grid) (deadEnds : List DeadEnd) (config : MazeConfig) : Option Grid :=
  match maze with
  | [] => none
  | col :: _ =>
    carveRooms config maze.length col.length (roomSize config (clampRooms config))
      (roomSize config (clampRooms config)) deadEnds
      (roomIndices (lastRoom deadEnds (clampRooms config))) maze

/-- Lines 276-293 of `addRooms`: the two symmetry-restoring copies. -/
def restoreSymmetry (maze : Grid) (config : MazeConfig) (w h : Int) : Option Grid :=
  let m1 : Option Grid :=
    if config.horizontal.symmetry then
      mirrorRows w (if config.horizontal.loop then config.hallWidth + 1 else 1)
        (intRange 0 (Int.tdiv w 2)) (intRange 0 (h - 1)) maze
    else some maze
  match m1 with
  | none => none
  | some m2 =>
    if config.vertical.symmetry then
      mirrorColumns h (if config.vertical.loop then config.hallWidth + 1 else 1)
        (intRange 0 (Int.tdiv h 2)) (intRange 0 (w - 1)) m2
    else some m2

/-- `MazeGenerator::addRooms`. -/
def addRooms (maze : Grid) (deadEnds : List DeadEnd) (config : MazeConfig) : Option Grid :=
  match maze with
  | [] => none
  | col :: _ =>
    match roomsCarved maze deadEnds config with
    | none => none
    | some m1 => restoreSymmetry m1 config maze.length col.length

/-! ## `generate` -/

/-- Lines 18-25: the generator is seeded from `config.seed`, or from the value `entropy`
that `std::random_device` returns when `config.seed` is `0`. -/
def initialRng {σ : Type} (R : RandomSource σ) (entropy : Nat) (config : MazeConfig) : σ :=
  if config.seed = 0 then R.seed entropy else R.seed config.seed

/-- Lines 9-135 of `generate`: the variables of the carver when its loop has finished. -/
def carved {σ : Type} (R : RandomSource σ) (entropy : Nat) (w h : Int) (config : MazeConfig) :
    Option (CarveState σ) :=
  match Grid.solid (normalizeSize config.horizontal w) (normalizeSize config.vertical h) with
  | none => none
  | some m0 =>
    match seedReservations R config.fill (normalizeSize config.horizontal w)
        (normalizeSize config.vertical h) m0 (initialRng R entropy config) with
    | none => none
    | some (m1, s1) =>
      carveLoop R config (normalizeSize config.horizontal w) (normalizeSize config.vertical h)
        (carveFuel (normalizeSize config.horizontal w) (normalizeSize config.vertical h))
        (carveInit (normalizeSize config.horizontal w) (normalizeSize config.vertical h) m1 s1)

/-- Lines 9-159 of `generate`: the grid after the imperfection injector, with the dead
ends the carver recorded. -/
def imperfected {σ : Type} (R : RandomSource σ) (entropy : Nat) (w h : Int)
    (config : MazeConfig) : Option (Grid × List DeadEnd) :=
  match carved R entropy w h config with
  | none => none
  | some st =>
    match addImperfections R config (normalizeSize config.horizontal w)
        (normalizeSize config.vertical h) st.maze st.rng with
    | none => none
    | some (m, _) => some (m, st.deadEnds)

/-- `MazeGenerator::generate`. -/
def generate {σ : Type} (R : RandomSource σ) (entropy : Nat) (w h : Int) (config : MazeConfig) :
    Option Grid :=
  match imperfected R entropy w h config with
  | none => none
  | some (m, deadEnds) =>
    if Frac.lt (Frac.ofInt 0) config.roomsFraction then addRooms m deadEnds config else some m

/-! ## Concrete random sources -/

/-- A linear congruential generator as a random source: the state is a number, `real`
draws a multiple of `1 / 1024` and `int a b` draws `a + r % (b - a + 1)`. -/
def lcg : RandomSource Nat where
  seed := fun n => n
  real := fun s => (⟨((s * 1103515245 + 12345) / 65536 % 1024 : Nat), 1024⟩,
    (s * 1103515245 + 12345) % 4294967296)
  int := fun a b s => (a + (((s * 1103515245 + 12345) / 65536 : Nat) : Int) % (b - a + 1),
    (s * 1103515245 + 12345) % 4294967296)
  real_nonneg := fun s => Int.ofNat_nonneg _
  real_lt_one := fun s => by
    show (((s * 1103515245 + 12345) / 65536 % 1024 : Nat) : Int) < ((1024 : Nat) : Int)
    omega
  int_ge := fun a b s hab => by
    have := Int.emod_nonneg (((s * 1103515245 + 12345) / 65536 : Nat) : Int)
      (show b - a + 1 ≠ 0 by omega)
    show a ≤ a + _
    omega
  int_le := fun a b s hab => by
    have := Int.emod_lt_of_pos (((s * 1103515245 + 12345) / 65536 : Nat) : Int)
      (show 0 < b - a + 1 by omega)
    show a + _ ≤ b
    omega

/-! ## The stream of `std::mt19937` -/

/-- The words `mt[i], mt[i + 1], ...` (`n` of them) of the state of `std::mt19937` after
`seed(s)`, from the word `prev = mt[i - 1]`:
`mt[i] = (1812433253 * (mt[i-1] ^ (mt[i-1] >> 30)) + i) mod 2^32`. -/
def mtSeedWords : Nat → Nat → Nat → List Nat
  | 0, _, _ => []
  | n + 1, i, prev =>
    ((1812433253 * (prev ^^^ (prev >>> 30)) + i) % 4294967296) ::
      mtSeedWords n (i + 1) ((1812433253 * (prev ^^^ (prev >>> 30)) + i) % 4294967296)

/-- The 624 words of the state of `std::mt19937` after `seed(s)`. -/
def mtSeedState (s : Nat) : List Nat :=
  (s % 4294967296) :: mtSeedWords 623 1 (s % 4294967296)

/-- The word `i` of the state after its first regeneration, for `i < 227`, where the words
`i`, `i + 1` and `i + 397` it is computed from are still those of the seeded state:
`mt[i + 397] ^ (y >> 1) ^ (y odd ? 0x9908b0df : 0)` with
`y = (mt[i] & 0x80000000) | (mt[i + 1] & 0x7fffffff)`. -/
def mtTwistWord (ws : List Nat) (i : Nat) : Nat :=
  let y := ((ws.getD i 0) &&& 2147483648) ||| ((ws.getD (i + 1) 0) &&& 2147483647)
  ws.getD (i + 397) 0 ^^^ (y >>> 1) ^^^ (if y % 2 = 1 then 2567483615 else 0)

/-- The tempering of a state word into an output of `std::mt19937`. -/
def mtTemper (y : Nat) : Nat :=
  let y1 := y ^^^ (y >>> 11)
  let y2 := y1 ^^^ ((y1 <<< 7) &&& 2636928640)
  let y3 := y2 ^^^ ((y2 <<< 15) &&& 4022730752)
  y3 ^^^ (y3 >>> 18)

/-- The first 227 outputs of `std::mt19937` after `seed(s)`. -/
def mt19937Outputs (s : Nat) : List Nat :=
  (List.range 227).map (fun (i : Nat) => mtTemper (mtTwistWord (mtSeedState s) i))

/-- One use of `std::uniform_real_distribution<float>(0, 1)` of libstdc++ on the 32-bit
output `r` of the engine (`std::generate_canonical<float, 24>`): the output is converted to
`float` and divided by `2^32`; a quotient that is not below 1 is replaced by the largest
`float` below 1. -/
def canonicalFloat (r : Nat) : Frac :=
  if Frac.lt (Frac.div (Frac.f32 (Frac.ofInt ((r % 4294967296 : Nat) : Int))) ⟨4294967296, 1⟩)
      (Frac.ofInt 1)
  then Frac.div (Frac.f32 (Frac.ofInt ((r % 4294967296 : Nat) : Int))) ⟨4294967296, 1⟩
  else ⟨16777215, 16777216⟩

/-- The scaling of `std::uniform_int_distribution` of libstdc++ for a range of `range`
values below `2^32` (`_S_nd`, Lemire's method): the 32-bit output `r` gives
`r * range / 2^32`, unless the low word of the product is below `(2^32 - range) % range`,
in which case the next output is taken.  The result is the drawn value and the outputs
that are left. -/
def lemire (range : Nat) : List Nat → Nat × List Nat
  | [] => (0, [])
  | r :: rest =>
    if (r % 4294967296 * range) % 4294967296 < (4294967296 - range) % range then
      lemire range rest
    else ((r % 4294967296 * range) / 4294967296, rest)

/-- One use of a `std::uniform_int_distribution<int>(a, b)` of libstdc++ on the outputs of
the engine: a range of fewer than `2^32` values is scaled by `lemire`, a range of `2^32`
values takes the output as it is. -/
def uniformInt (a b : Int) (s : List Nat) : Int × List Nat :=
  if b - a < 4294967295 then
    (a + ((lemire (b - a + 1).toNat s).1 : Int), (lemire (b - a + 1).toNat s).2)
  else
    match s with
    | [] => (a, [])
    | r :: rest => (a + ((r % 4294967296 : Nat) : Int), rest)

/-- The random stream of `generate` with the engine and the distributions of the
repository's build: the first 227 outputs of `std::mt19937` and the two distributions of
libstdc++.  The state is the list of the outputs not yet used; a run that draws more than
227 outputs is not covered (a draw from the exhausted list is the lower bound). -/
def mt19937 : RandomSource (List Nat) where
  seed := mt19937Outputs
  real := fun s =>
    match s with
    | [] => (⟨0, 1⟩, [])
    | r :: rest => (canonicalFloat r, rest)
  int := uniformInt
  real_nonneg := fun s => by
    cases s with
    | nil => exact le_refl _
    | cons r rest =>
      show 0 ≤ (canonicalFloat r).num
      unfold canonicalFloat
      split_ifs with hc
      · show 0 ≤ (Frac.f32 (Frac.ofInt ((r % 4294967296 : Nat) : Int))).num * _
        have hn : (0 : Int) ≤ ((r % 4294967296 : Nat) : Int) := Int.natCast_nonneg _
        have hf : 0 ≤ (Frac.f32 (Frac.ofInt ((r % 4294967296 : Nat) : Int))).num := by
          unfold Frac.f32
          split_ifs with h1 h2
          · exact hn
          · unfold Frac.f32Pos
            split_ifs <;> exact Int.natCast_nonneg _
          · have h3 : (Frac.ofInt ((r % 4294967296 : Nat) : Int)).num =
                ((r % 4294967296 : Nat) : Int) := rfl
            have h4 : (Frac.ofInt ((r % 4294967296 : Nat) : Int)).den = 1 := rfl
            rw [h3] at h2
            rw [h3, h4] at h1
            omega
        exact mul_nonneg hf (by simp)
      · decide
  real_lt_one := fun s => by
    cases s with
    | nil => decide
    | cons r rest =>
      show (canonicalFloat r).num < ((canonicalFloat r).den : Int)
      unfold canonicalFloat
      split_ifs with hc
      · have h1 := hc
        unfold Frac.lt at h1
        simp only [Frac.ofInt, decide_eq_true_eq, one_mul, Nat.cast_one, mul_one] at h1
        exact h1
      · decide
  int_ge := fun a b s hab => by
    unfold uniformInt
    split_ifs
    · show a ≤ a + _
      have : (0 : Int) ≤ ((lemire (b - a + 1).toNat s).1 : Int) := Int.natCast_nonneg _
      omega
    · cases s with
      | nil => exact le_refl _
      | cons r rest =>
        show a ≤ a + _
        have : (0 : Int) ≤ ((r % 4294967296 : Nat) : Int) := Int.natCast_nonneg _
        omega
  int_le := fun a b s hab => by
    have hl : ∀ (n : Nat) (s : List Nat), 0 < n → (lemire n s).1 < n := by
      intro n s hn
      induction s with
      | nil => simpa [lemire] using hn
      | cons r rest ih =>
        unfold lemire
        split_ifs
        · exact ih
        · show r % 4294967296 * n / 4294967296 < n
          apply Nat.div_lt_of_lt_mul
          have : r % 4294967296 < 4294967296 := Nat.mod_lt _ (by decide)
          exact Nat.mul_lt_mul_of_pos_right this hn
    unfold uniformInt
    split_ifs with hr
    · show a + _ ≤ b
      have h1 := hl (b - a + 1).toNat s (by omega)
      omega
    · cases s with
      | nil => exact hab
      | cons r rest =>
        show a + _ ≤ b
        have : r % 4294967296 < 4294967296 := Nat.mod_lt _ (by decide)
        omega

/-! ## The export format in the words of the specification -/

/-- Values separated by single commas. -/
def commaSeparated : List String → String
  | [] => ""
  | [a] => a
  | a :: b :: rest => a ++ "," ++ commaSeparated (b :: rest)

/-- The concatenation of a list of lines. -/
def concatLines : List String → String
  | [] => ""
  | a :: rest => a ++ concatLines rest

/-- The exported value of the cell `(x, y)`, in decimal. -/
def tileText (maze : Grid) (y x : Nat) : String :=
  toString (convertTileValue ((maze.read x y).getD 0))

/-- Data line `y` of the format: the `w` values of row `y` for `x = 0 .. w - 1`, separated
by single commas and terminated by a newline. -/
def formatLine (maze : Grid) (w y : Nat) : String :=
  commaSeparated ((List.range w).map (tileText maze y)) ++ "\n"

/-- The export format of a `w` by `h` grid: the line `w,h`, then the `h` data lines for
`y = 0 .. h - 1`. -/
def formatText (maze : Grid) (w h : Nat) : String :=
  toString (w : Int) ++ "," ++ toString (h : Int) ++ "\n" ++
    concatLines ((List.range h).map (formatLine maze w))


/-! ## Sample configurations -/

/-- Scenario A of the specification: border on both axes, `straightness = 0`,
`imperfect = 0`, `fill = 1`, no rooms, `seed = 42`. -/
def scenarioA : MazeConfig :=
  { horizontal := ⟨false, 1, false⟩
    vertical := ⟨false, 1, false⟩
    straightness := ⟨0, 1⟩
    imperfect := ⟨0, 1⟩
    fill := ⟨1, 1⟩
    roomsFraction := ⟨0, 1⟩
    hallWidth := 1
    wallWidth := 1
    seed := 42 }

/-- The symmetric configuration of the sample maps, without rooms: horizontal symmetry,
border on both axes, no wrap. -/
def mirrored : MazeConfig := { scenarioA with horizontal := ⟨true, 1, false⟩ }

/-- Horizontal symmetry with a border, `fill = 0` (the seeder reserves most cells),
no rooms, `seed = 7`. -/
def mirroredSparse : MazeConfig :=
  { scenarioA with horizontal := ⟨true, 1, false⟩, fill := ⟨0, 1⟩, seed := 7 }

/-- Border on both axes, no symmetry, a room at every dead end (`roomsFraction = 1`). -/
def roomsEverywhere : MazeConfig := { scenarioA with roomsFraction := ⟨1, 1⟩ }

/-- Horizontal symmetry with a border and a room at every dead end, with the given `loop`
flag of the horizontal axis and the given seed. -/
def mirroredRooms (loop : Bool) (seed : Nat) : MazeConfig :=
  { scenarioA with horizontal := ⟨true, 1, loop⟩, roomsFraction := ⟨1, 1⟩, seed := seed }

/-- The grid the carver leaves for `mirrored` on a 6 by 6 request with the source `lcg`. -/
def mirroredCarve : Grid :=
  [[255, 255, 255, 255, 255], [255, 0, 0, 0, 255], [255, 255, 255, 255, 255],
    [255, 0, 0, 0, 255], [255, 255, 255, 255, 255]]

/-- Horizontal symmetry with a border, `fill = 0` (the seeder reserves most cells),
no rooms, `seed = 8`. -/
def mirroredSparseEight : MazeConfig := { mirroredSparse with seed := 8 }

/-- The configuration with the `loop` flag of the horizontal axis set to `loop`. -/
def withHorizontalLoop (c : MazeConfig) (loop : Bool) : MazeConfig :=
  { c with horizontal := { c.horizontal with loop := loop } }

/-- The configuration with the `loop` flag of the vertical axis set to `loop`. -/
def withVerticalLoop (c : MazeConfig) (loop : Bool) : MazeConfig :=
  { c with vertical := { c.vertical with loop := loop } }

/-! ## Notions used to state the properties: the grid -/

/-- The cells inside the grid are exactly those of the `w` by `h` rectangle. -/
def Dom (w h : Int) (m : Grid) : Prop :=
  ∀ x y, (m.read x y).isSome ↔ (0 ≤ x ∧ x < w ∧ 0 ≤ y ∧ y < h)

/-- The grid has `w` columns of `h` cells. -/
def Rect (w h : Int) (m : Grid) : Prop := (m.length : Int) = w ∧ ∀ col ∈ m, (col.length : Int) = h

/-- No cell of the grid is Passage. -/
def NoPassage (m : Grid) : Prop := ∀ x y, m.read x y ≠ some EMPTY

/-- Every cell of the grid holds one of the three cell states. -/
def StatesOnly (m : Grid) : Prop :=
  ∀ x y v, m.read x y = some v → v = EMPTY ∨ v = RESERVED ∨ v = SOLID

/-- Every Passage cell of `m` is a Passage cell of `m1`. -/
def PassageKept (m m1 : Grid) : Prop := ∀ x y, m.read x y = some EMPTY → m1.read x y = some EMPTY

/-- The number of cells of the grid that are not Passage. -/
def unopened (m : Grid) : Nat :=
  (m.map (fun col => col.countP (fun v => decide (v ≠ EMPTY)))).sum

/-- The grid `m1` is `m` with the cells of `S`, all inside the grid, set to `v`. -/
def Updated (m m1 : Grid) (v : Int) (S : Int → Int → Prop) : Prop :=
  (∀ p q, S p q → m1.read p q = some v ∧ (m.read p q).isSome) ∧
  (∀ p q, ¬ S p q → m1.read p q = m.read p q)

/-! ## Notions used to state the properties: mirror symmetry -/

/-- The mirror coordinate `size - c - borderOffset` of `setMaze` (`mirrorX`, `mirrorY`). -/
def mirrorCoord (a : Axis) (size c : Int) : Int := size - c - (if effectiveWrap a then 0 else 1)

/-- The cells `(p, q)` that `setMaze` writes when the wrapped target is `(x1, y1)`. -/
def Written (c : MazeConfig) (w h x1 y1 p q : Int) : Prop :=
  (p = x1 ∧ q = y1) ∨
  (c.horizontal.symmetry = true ∧ mirrorCoord c.horizontal w x1 < w ∧
    p = mirrorCoord c.horizontal w x1 ∧ q = y1) ∨
  (c.horizontal.symmetry = true ∧ mirrorCoord c.horizontal w x1 < w ∧
    c.vertical.symmetry = true ∧ mirrorCoord c.vertical h y1 < h ∧
    p = mirrorCoord c.horizontal w x1 ∧ q = mirrorCoord c.vertical h y1) ∨
  (c.vertical.symmetry = true ∧ mirrorCoord c.vertical h y1 < h ∧
    p = x1 ∧ q = mirrorCoord c.vertical h y1)

/-- Horizontal mirror symmetry of the Passage set of a grid `w` columns wide. -/
def MirrorH (c : MazeConfig) (w : Int) (m : Grid) : Prop :=
  ∀ x y, 0 ≤ x → x < w → 0 ≤ mirrorCoord c.horizontal w x → mirrorCoord c.horizontal w x < w →
    (m.read x y = some EMPTY ↔ m.read (mirrorCoord c.horizontal w x) y = some EMPTY)

/-- Vertical mirror symmetry of the Passage set of a grid `h` rows high. -/
def MirrorV (c : MazeConfig) (h : Int) (m : Grid) : Prop :=
  ∀ x y, 0 ≤ y → y < h → 0 ≤ mirrorCoord c.vertical h y → mirrorCoord c.vertical h y < h →
    (m.read x y = some EMPTY ↔ m.read x (mirrorCoord c.vertical h y) = some EMPTY)

/-- One copy `line[size - offset - i] = line[i]` on a row or column seen as a function of
the coordinate. -/
def copyStep (size offset : Int) (line : Int → Option Int) (i : Int) : Int → Option Int :=
  fun j => if j = size - offset - i then line i else line j

/-- The copies `line[size - offset - i] = line[i]` for `i` running through `is`. -/
def copied (size offset : Int) (is : List Int) (line : Int → Option Int) : Int → Option Int :=
  is.foldl (copyStep size offset) line

/-! ## Notions used to state the properties: connectivity -/

/-- Neighbouring coordinates `a`, `b` on one axis of the given size: they differ by one,
or, on a wrapping axis, they are the first and the last coordinate. -/
def adjacentCoord (wrap : Bool) (size a b : Int) : Prop :=
  b = a + 1 ∨ a = b + 1 ∨ (wrap = true ∧ ((a = size - 1 ∧ b = 0) ∨ (a = 0 ∧ b = size - 1)))

/-- 4-adjacency of the cells `p` and `q` of a `w` by `h` grid, taken modulo the size on an
axis that effectively wraps. -/
def adjacent (c : MazeConfig) (w h : Int) (p q : Int × Int) : Prop :=
  (p.2 = q.2 ∧ adjacentCoord (effectiveWrap c.horizontal) w p.1 q.1) ∨
  (p.1 = q.1 ∧ adjacentCoord (effectiveWrap c.vertical) h p.2 q.2)

/-- One step of a path: from `p` to an adjacent Passage cell `q`. -/
def passageStep (c : MazeConfig) (w h : Int) (m : Grid) (p q : Int × Int) : Prop :=
  adjacent c w h p q ∧ m.read q.1 q.2 = some EMPTY

/-- The cell `q` is reachable from the Passage cell `p` by a path of adjacent Passage
cells. -/
def Reachable (c : MazeConfig) (w h : Int) (m : Grid) (p q : Int × Int) : Prop :=
  m.read p.1 p.2 = some EMPTY ∧ Relation.ReflTransGen (passageStep c w h m) p q

/-- One of the four axis-aligned unit steps. -/
def UnitStep (d : Direction) : Prop :=
  (d.x = 1 ∧ d.y = 0) ∨ (d.x = -1 ∧ d.y = 0) ∨ (d.x = 0 ∧ d.y = 1) ∨ (d.x = 0 ∧ d.y = -1)

/-- The wall cell of a stack entry is adjacent to a Passage cell of the grid and to the
cell of the entry. -/
def EntryLinked (c : MazeConfig) (w h : Int) (m : Grid) (e : StackEntry) : Prop :=
  ∃ wx wy ox oy, cmod (e.x - e.step.x + w) w = some wx ∧ cmod (e.y - e.step.y + h) h = some wy ∧
    m.read ox oy = some EMPTY ∧ adjacent c w h (ox, oy) (wx, wy) ∧
    adjacent c w h (wx, wy) (e.x, e.y)

/-- The mirror coordinate that `setMaze` writes, or the coordinate itself when that mirror
falls outside the grid (column 0 of a wrapping axis). -/
def mirrorOrSelf (a : Axis) (size x : Int) : Int :=
  if mirrorCoord a size x < size then mirrorCoord a size x else x

/-- Every Passage cell of the grid is reachable from the cell `s` or from one of the
mirror images of `s` that `setMaze` writes together with `s`. -/
def AllReachableMirrored (c : MazeConfig) (w h : Int) (m : Grid) (s : Int × Int) : Prop :=
  ∀ x y, m.read x y = some EMPTY →
    ∃ p : Int × Int, Written c w h s.1 s.2 p.1 p.2 ∧ Reachable c w h m p (x, y)

/-- The invariant of the carver loop, for the start cell `s`: the Passage set is mirrored
on every symmetric axis; before the first cell is carved the stack holds at most the start
entry, afterwards every Passage cell is reachable from `s` or one of its mirror images and
every stack entry is linked to a Passage cell. -/
def CarveInv {σ : Type} (c : MazeConfig) (w h : Int) (s : Int × Int) (st : CarveState σ) :
    Prop :=
  Dom w h st.maze ∧ (∀ d ∈ st.directions, UnitStep d) ∧
  (c.horizontal.symmetry = true → MirrorH c w st.maze) ∧
  (c.vertical.symmetry = true → MirrorV c h st.maze) ∧
  ((NoPassage st.maze ∧ (st.stack = [] ∨ st.stack = [⟨s.1, s.2, ⟨0, 0⟩⟩])) ∨
   (AllReachableMirrored c w h st.maze s ∧ ∀ e ∈ st.stack, EntryLinked c w h st.maze e))

/-- Border on both axes, no symmetry, `roomsFraction = 1 / 2`, `seed = 17`. -/
def roomsHalf : MazeConfig := { scenarioA with roomsFraction := ⟨1, 2⟩, seed := 17 }

/-- Border on both axes, no symmetry, `roomsFraction = 0.7f`, the `float` nearest to 0.7. -/
def roomsSeventy : MazeConfig :=
  { scenarioA with roomsFraction := ⟨11744051, 16777216⟩, seed := 1 }

/-! ## Notions used to state the properties: the course of the carver loop -/

/-- Lines 9-88 of `generate`: the variables of the carver before its loop starts. -/
def carveStart {σ : Type} (R : RandomSource σ) (entropy : Nat) (w h : Int)
    (config : MazeConfig) : Option (CarveState σ) :=
  match Grid.solid (normalizeSize config.horizontal w) (normalizeSize config.vertical h) with
  | none => none
  | some m0 =>
    match seedReservations R config.fill (normalizeSize config.horizontal w)
        (normalizeSize config.vertical h) m0 (initialRng R entropy config) with
    | none => none
    | some (m1, s1) =>
      some (carveInit (normalizeSize config.horizontal w) (normalizeSize config.vertical h) m1 s1)

/-- One iteration of the loop `while (!stack.empty())`: the top entry `cur` is popped and
the body runs, leading from the state `st` to the state `st1`. -/
def carveNext {σ : Type} (R : RandomSource σ) (c : MazeConfig) (w h : Int)
    (st st1 : CarveState σ) : Prop :=
  ∃ cur rest, st.stack = cur :: rest ∧ carveStep R c w h cur { st with stack := rest } = some st1

/-- The carver loop started in the state `st0` reaches the state `st` after some number of
iterations. -/
def CarveReached {σ : Type} (R : RandomSource σ) (c : MazeConfig) (w h : Int)
    (st0 st : CarveState σ) : Prop :=
  Relation.ReflTransGen (carveNext R c w h) st0 st

/-! ## Notions used to state the properties: cells and walls -/

/-- No cell of the grid with both coordinates even is Passage. -/
def NoEvenPassage (m : Grid) : Prop :=
  ∀ x y, x % 2 = 0 → y % 2 = 0 → m.read x y ≠ some EMPTY

/-- The parity of a normalized size: even on an effectively wrapping axis, odd otherwise. -/
def SizeParity (a : Axis) (size : Int) : Prop :=
  (effectiveWrap a = true → size % 2 = 0) ∧ (effectiveWrap a = false → size % 2 = 1)

/-- The invariant of the carver loop about parity: every stack entry has odd coordinates
and a step that is zero or a unit step, and no cell with two even coordinates is
Passage. -/
def CarveOdd {σ : Type} (w h : Int) (st : CarveState σ) : Prop :=
  Dom w h st.maze ∧ (∀ d ∈ st.directions, UnitStep d) ∧
  (∀ e ∈ st.stack, e.x % 2 = 1 ∧ e.y % 2 = 1 ∧
    (UnitStep e.step ∨ (e.step.x = 0 ∧ e.step.y = 0))) ∧
  NoEvenPassage st.maze

/-- Horizontal symmetry and wrap without border, imperfections (`imperfect = 1 / 2`), no
rooms. -/
def braided : MazeConfig :=
  { scenarioA with horizontal := ⟨true, 0, true⟩, imperfect := ⟨1, 2⟩ }

/-- The invariant of the carver loop about index safety: the grid is the `w` by `h`
rectangle, the direction list holds at most four unit steps, and every stack entry lies
inside the grid with a step that is zero or a unit step. -/
def CarveSafe {σ : Type} (w h : Int) (st : CarveState σ) : Prop :=
  Dom w h st.maze ∧ (∀ d ∈ st.directions, UnitStep d) ∧ st.directions.length ≤ 4 ∧
  ∀ e ∈ st.stack, 0 ≤ e.x ∧ e.x < w ∧ 0 ≤ e.y ∧ e.y < h ∧
    (UnitStep e.step ∨ (e.step.x = 0 ∧ e.step.y = 0))


/-! ## The tile map (`tilemap.h`, `tilemap.cpp`) -/

/-- `TileType::EMPTY`, as a value of the underlying type `uint8_t`. -/
abbrev TileType.EMPTY : Nat := 0

/-- `TileType::WALL_BRICK`. -/
abbrev TileType.WALL_BRICK : Nat := 2

/-- `TileType::WALL_INNER_BOTTOM_RIGHT`. -/
abbrev TileType.WALL_INNER_BOTTOM_RIGHT : Nat := 14

/-- `Tile`; the field `type` holds the value of the `uint8_t` enumeration `TileType`. -/
structure Tile where
  type : Nat
  variant : Nat
  solid : Bool
deriving DecidableEq, Repr

/-- The default-constructed `Tile()`: `TileType::EMPTY`, variant 0, not solid. -/
def emptyTile : Tile := ⟨TileType.EMPTY, 0, false⟩

/-- The data members `width_`, `height_` and `tiles_` of `Tilemap` (the texture members
play no part in loading). -/
structure Tilemap where
  width_ : Int
  height_ : Int
  tiles_ : List Tile
deriving DecidableEq, Repr

/-- `Tilemap::getWidth`. -/
def Tilemap.getWidth (t : Tilemap) : Int := t.width_

/-- `Tilemap::getHeight`. -/
def Tilemap.getHeight (t : Tilemap) : Int := t.height_

/-- `Tilemap::resize`: `tiles_.resize(width_ * height_)` keeps the leading tiles and
appends default tiles; the product of the two `int` values is undefined above `2^31 - 1`,
and a negative product is no size of a vector. -/
def Tilemap.resize (t : Tilemap) (width height : Int) : Option Tilemap :=
  if 0 ≤ width * height ∧ width * height ≤ 2147483647 then
    some ⟨width, height, t.tiles_.take (width * height).toNat ++
      List.replicate ((width * height).toNat - t.tiles_.length) emptyTile⟩
  else none

/-- `Tilemap::clear`. -/
def Tilemap.clear (t : Tilemap) : Tilemap := { t with tiles_ := t.tiles_.map (fun _ => emptyTile) }

/-- `Tilemap::isValidPosition`. -/
def Tilemap.isValidPosition (t : Tilemap) (x y : Int) : Bool :=
  decide (x ≥ 0) && decide (x < t.width_) && decide (y ≥ 0) && decide (y < t.height_)

/-- `Tilemap::getTile`; `none` when the index `y * width_ + x` is outside `tiles_`. -/
def Tilemap.getTile (t : Tilemap) (x y : Int) : Option Tile :=
  if t.isValidPosition x y then
    (if 0 ≤ y * t.width_ + x then t.tiles_[(y * t.width_ + x).toNat]? else none)
  else some emptyTile

/-- `Tilemap::setTile`; `none` when the index `y * width_ + x` is outside `tiles_`. -/
def Tilemap.setTile (t : Tilemap) (x y : Int) (type : Nat) (solid : Bool) (variant : Nat) :
    Option Tilemap :=
  if t.isValidPosition x y then
    (if 0 ≤ y * t.width_ + x ∧ (y * t.width_ + x).toNat < t.tiles_.length then
      some { t with tiles_ := t.tiles_.set (y * t.width_ + x).toNat ⟨type, variant, solid⟩ }
    else none)
  else some t

/-- `Tilemap::isSolid`. -/
def Tilemap.isSolid (t : Tilemap) (x y : Int) : Option Bool := (t.getTile x y).map (fun tile => tile.solid)

/-- The tokens that successive calls `std::getline(stream, token, delim)` return until a call
fails: a call at the end of the stream fails, otherwise it returns the characters up to the
next delimiter, which it consumes, or up to the end of the stream. -/
def tokens (delim : Char) : List Char → List (List Char)
  | [] => []
  | c :: cs =>
    if c = delim then [] :: tokens delim cs
    else
      match tokens delim cs with
      | [] => [[c]]
      | t :: ts => (c :: t) :: ts

/-- `std::isspace` in the "C" locale: space and the control characters 9 to 13. -/
def isSpace (c : Char) : Bool := decide (c.toNat = 32) || (decide (9 ≤ c.toNat) && decide (c.toNat ≤ 13))

/-- The value of a decimal digit. -/
def digitValue (c : Char) : Option Nat :=
  if 48 ≤ c.toNat ∧ c.toNat ≤ 57 then some (c.toNat - 48) else none

/-- The value of the longest run of decimal digits at the front of the text, after the
digits of value `acc`; `seen` tells whether a digit was read; `none` when there is none. -/
def readDigits : List Char → Nat → Bool → Option Nat
  | [], acc, seen => if seen then some acc else none
  | c :: cs, acc, seen =>
    match digitValue c with
    | some d => readDigits cs (acc * 10 + d) true
    | none => if seen then some acc else none

/-- `std::stoi(cell)`: white space is skipped, then an optional sign and the longest run of
decimal digits are converted; `none` stands for the exceptions `std::invalid_argument` (no
digit) and `std::out_of_range` (the value is no `int`). -/
def stoi (cell : List Char) : Option Int :=
  let value : Option Int :=
    match cell.dropWhile isSpace with
    | [] => none
    | c :: cs =>
      if c.toNat = 45 then (readDigits cs 0 false).map (fun (n : Nat) => -(n : Int))
      else if c.toNat = 43 then (readDigits cs 0 false).map (fun (n : Nat) => (n : Int))
      else (readDigits (c :: cs) 0 false).map (fun (n : Nat) => (n : Int))
  match value with
  | none => none
  | some v => if -2147483648 ≤ v ∧ v ≤ 2147483647 then some v else none

/-- Lines 360-362 of `loadFromCSV`: the tile stored for a tile id; the cast
`static_cast<TileType>(tileId)` converts to the underlying type `uint8_t`. -/
def tileOfId (tileId : Int) : Tile :=
  ⟨(tileId % 256).toNat, 0,
    decide ((tileId % 256).toNat ≥ TileType.WALL_BRICK) &&
      decide ((tileId % 256).toNat ≤ TileType.WALL_INNER_BOTTOM_RIGHT)⟩

/-- The inner loop of `loadFromCSV` (lines 359-365) over the remaining cells of row `row`,
with the column counter `col`. -/
def loadCells (row : Int) : List (List Char) → Int → Tilemap → Option Tilemap
  | [], _, t => some t
  | cell :: rest, col, t =>
    if col < t.width_ then
      match stoi cell with
      | none => none
      | some tileId =>
        match t.setTile col row (tileOfId tileId).type (tileOfId tileId).solid 0 with
        | none => none
        | some t1 => loadCells row rest (col + 1) t1
    else some t

/-- The outer loop of `loadFromCSV` (lines 355-367) over the remaining lines of the file,
with the row counter `row`. -/
def loadRows : List (List Char) → Int → Tilemap → Option Tilemap
  | [], _, t => some t
  | line :: rest, row, t =>
    if row < t.height_ then
      match loadCells row (tokens (Char.ofNat 44) line) 0 t with
      | none => none
      | some t1 => loadRows rest (row + 1) t1
    else some t

/-- `Tilemap::loadFromCSV`: the returned flag and the tile map, given the text of the file,
or `none` for a file that cannot be opened; the result `none` stands for an exception. -/
def loadFromCSV (t : Tilemap) (file : Option (List Char)) : Option (Bool × Tilemap) :=
  match file with
  | none => some (false, t)
  | some text =>
    match tokens (Char.ofNat 10) text with
    | [] => some (false, t)
    | line :: rest =>
      match tokens (Char.ofNat 44) line with
      | [] => some (false, t)
      | cell :: cells =>
        match stoi cell with
        | none => none
        | some newWidth =>
          match cells with
          | [] => some (false, t)
          | cell2 :: _ =>
            match stoi cell2 with
            | none => none
            | some newHeight =>
              match t.resize newWidth newHeight with
              | none => none
              | some t1 => (loadRows rest 0 t1.clear).map (fun t2 => (true, t2))

/-- The tile map has width `w`, height `h` and holds `w * h` tiles. -/
def Tilemap.Sized (t : Tilemap) (w h : Nat) : Prop :=
  t.width_ = (w : Int) ∧ t.height_ = (h : Int) ∧ t.tiles_.length = w * h

/-- The tile values of the sample map file with the rows `1,2,3` and `14,15,-254`, by
column `x` and row `y`. -/
def sampleTiles (x y : Nat) : Int :=
  (([[1, 2, 3], [14, 15, -254]] : List (List Int)).getD y []).getD x 0

/-- Every neighbour inside the grid, two steps away (modulo the size on a wrapping axis), of
a Passage cell with odd coordinates is Passage or is written by `setMaze` together with the
cell of an entry of `stack`. -/
def Frontier (c : MazeConfig) (w h : Int) (m : Grid) (stack : List StackEntry) : Prop :=
  ∀ p q, p % 2 = 1 → q % 2 = 1 → m.read p q = some EMPTY → ∀ d : Direction, UnitStep d →
    ∀ x y,
      (if effectiveWrap c.horizontal = true then cmod (p + d.x * 2 + w) w
        else some (p + d.x * 2)) = some x →
      (if effectiveWrap c.vertical = true then cmod (q + d.y * 2 + h) h
        else some (q + d.y * 2)) = some y →
      0 ≤ x → x < w → 0 ≤ y → y < h →
      m.read x y = some EMPTY ∨ ∃ e ∈ stack, Written c w h e.x e.y x y

/-- The invariant of the carver loop about the cells it has still to visit: before the
first cell is carved the stack holds the start entry, afterwards the start cell is Passage
and the frontier of the Passage cells is on the stack. -/
def CarveSpan {σ : Type} (c : MazeConfig) (w h : Int) (st : CarveState σ) : Prop :=
  (NoPassage st.maze ∧ st.stack = [⟨startCoord w, startCoord h, ⟨0, 0⟩⟩]) ∨
  (st.maze.read (startCoord w) (startCoord h) = some EMPTY ∧
    Frontier c w h st.maze st.stack)

/-! ## Notions used to state the properties: the graph of cell centres -/

/-- A cell centre: both coordinates are odd. -/
def isCentre (p : Int × Int) : Bool := decide (p.1 % 2 = 1) && decide (p.2 % 2 = 1)

/-- A wall cell: exactly one coordinate is even. -/
def isWall (p : Int × Int) : Bool := xor (decide (p.1 % 2 = 0)) (decide (p.2 % 2 = 0))

/-- The cells of a `w` by `h` grid. -/
def gridCells (w h : Int) : List (Int × Int) :=
  List.product (intRange 0 (w - 1)) (intRange 0 (h - 1))

/-- The Passage cells of a `w` by `h` grid among the cells that `sel` selects. -/
def passageCells (sel : Int × Int → Bool) (w h : Int) (m : Grid) : List (Int × Int) :=
  (gridCells w h).filter (fun p => sel p && decide (m.read p.1 p.2 = some EMPTY))

/-- The coordinate one step `s` away from `a` on an axis, modulo the size on a wrapping
axis. -/
def stepCoord (wrap : Bool) (size a s : Int) : Int :=
  if wrap then (a + s + size) % size else a + s

/-- The two cells on either side of a wall cell: to the left and to the right of a wall
cell with an even `x`, above and below a wall cell with an even `y`. -/
def wallSides (c : MazeConfig) (w h : Int) (p : Int × Int) : (Int × Int) × (Int × Int) :=
  if p.1 % 2 = 0 then
    ((stepCoord (effectiveWrap c.horizontal) w p.1 (-1), p.2),
      (stepCoord (effectiveWrap c.horizontal) w p.1 1, p.2))
  else
    ((p.1, stepCoord (effectiveWrap c.vertical) h p.2 (-1)),
      (p.1, stepCoord (effectiveWrap c.vertical) h p.2 1))

/-- The Passage wall cell `e` joins the cells `a` and `b` on either side of it. -/
def Joins (c : MazeConfig) (w h : Int) (m : Grid) (e a b : Int × Int) : Prop :=
  isWall e = true ∧ m.read e.1 e.2 = some EMPTY ∧
    (wallSides c w h e = (a, b) ∨ wallSides c w h e = (b, a))

/-- An edge of the Passage graph on cell centres: a Passage wall cell joins `a` and `b`. -/
def Linked (c : MazeConfig) (w h : Int) (m : Grid) (a b : Int × Int) : Prop :=
  ∃ e, Joins c w h m e a b

/-- A certificate that the Passage graph is a forest: every Passage wall cell has Passage
cell centres on both sides, one of them, its `child`, deeper than the other, and no two
Passage wall cells have the same child. -/
def TreeCert (c : MazeConfig) (w h : Int) (m : Grid) (depth : Int × Int → Nat)
    (child : Int × Int → Int × Int) : Prop :=
  (∀ e, isWall e = true → m.read e.1 e.2 = some EMPTY →
    isCentre (wallSides c w h e).1 = true ∧ isCentre (wallSides c w h e).2 = true ∧
    m.read (wallSides c w h e).1.1 (wallSides c w h e).1.2 = some EMPTY ∧
    m.read (wallSides c w h e).2.1 (wallSides c w h e).2.2 = some EMPTY ∧
    ((child e = (wallSides c w h e).1 ∧
        depth (wallSides c w h e).2 < depth (wallSides c w h e).1) ∨
      (child e = (wallSides c w h e).2 ∧
        depth (wallSides c w h e).1 < depth (wallSides c w h e).2))) ∧
  (∀ e e2, isWall e = true → m.read e.1 e.2 = some EMPTY → isWall e2 = true →
    m.read e2.1 e2.2 = some EMPTY → child e = child e2 → e = e2)

/-- The wall cell of a stack entry with a unit step lies between the cell of the entry and
a Passage cell centre. -/
def EntryParent (c : MazeConfig) (w h : Int) (m : Grid) (e : StackEntry) : Prop :=
  UnitStep e.step ∧
  ∃ wx wy par, cmod (e.x - e.step.x + w) w = some wx ∧ cmod (e.y - e.step.y + h) h = some wy ∧
    isWall (wx, wy) = true ∧ isCentre par = true ∧ m.read par.1 par.2 = some EMPTY ∧
    (wallSides c w h (wx, wy) = (par, (e.x, e.y)) ∨
      wallSides c w h (wx, wy) = ((e.x, e.y), par))

/-- The invariant of the carver loop without symmetry about the shape of the carve: before
the first cell is carved the stack holds the start entry and `ignoreReserved` is positive;
afterwards there is one Passage cell centre more than there are Passage wall cells, the
Passage graph has a forest certificate, every Passage cell centre is linked to the start
cell, and the wall cell of every stack entry leads to a Passage cell centre. -/
def CarveTree {σ : Type} (c : MazeConfig) (w h : Int) (st : CarveState σ) : Prop :=
  (NoPassage st.maze ∧ st.stack = [⟨startCoord w, startCoord h, ⟨0, 0⟩⟩] ∧
    0 < st.ignoreReserved) ∨
  ((passageCells isWall w h st.maze).length + 1 = (passageCells isCentre w h st.maze).length ∧
    (∃ depth child, TreeCert c w h st.maze depth child) ∧
    (∀ a, isCentre a = true → st.maze.read a.1 a.2 = some EMPTY →
      Relation.ReflTransGen (Linked c w h st.maze) (startCoord w, startCoord h) a) ∧
    ∀ e ∈ st.stack, EntryParent c w h st.maze e)

/-! ## Notions used to state the properties: a start cell on an even column -/

/-- Border on both axes, no symmetry, wrap on the horizontal axis: the configuration of the
wide sample run, a request of 33554436 by 8. -/
def wide : MazeConfig := { scenarioA with horizontal := ⟨false, 1, true⟩ }

/-- A cell with an even x-coordinate and an odd y-coordinate. -/
def isShifted (p : Int × Int) : Bool := decide (p.1 % 2 = 0) && decide (p.2 % 2 = 1)

/-- The invariant of the carver loop for a start cell with an even x-coordinate and an odd
y-coordinate: every stack entry has an even x-coordinate and an odd y-coordinate, and
either no cell is Passage and all entries have the step zero, or the Passage cells with two
odd coordinates are fewer than the Passage cells with an even x-coordinate and an odd
y-coordinate. -/
def CarveShifted {σ : Type} (w h : Int) (st : CarveState σ) : Prop :=
  (∀ e ∈ st.stack, e.x % 2 = 0 ∧ e.y % 2 = 1) ∧
  ((NoPassage st.maze ∧ ∀ e ∈ st.stack, e.step.x = 0 ∧ e.step.y = 0) ∨
    (passageCells isCentre w h st.maze).length + 1
      ≤ (passageCells isShifted w h st.maze).length)

/-! # Properties -/

/-! ## Tile export -/

theorem commaSeparated_cons (a : String) (l : List String) :
    commaSeparated (a :: l) = a ++ concatLines (l.map (fun b => "," ++ b)) := by
  induction l generalizing a with
  | nil => simp [commaSeparated, concatLines]
  | cons b rest ih =>
    rw [commaSeparated, ih b]
    simp [concatLines, String.append_assoc]

theorem read_isSome_of_rect (maze : Grid) (w h : Nat) (hw : maze.length = w)
    (hh : ∀ col ∈ maze, col.length = h) (x y : Nat) (hx : x < w) (hy : y < h) :
    ∃ v, maze.read x y = some v := by
  have hx1 : x < maze.length := by omega
  have hcol : maze[x]? = some maze[x] := List.getElem?_eq_getElem hx1
  have hlen : (maze[x]).length = h := hh _ (List.getElem_mem _)
  have hy1 : y < (maze[x]).length := by omega
  refine ⟨(maze[x])[y], ?_⟩
  simp [Grid.read, hcol, List.getElem?_eq_getElem hy1]

theorem writeRow_tail (maze : Grid) (w h : Nat) (hw : maze.length = w)
    (hh : ∀ col ∈ maze, col.length = h) (y : Nat) (hy : y < h) (xs : List Nat) :
    ∀ out, (∀ x ∈ xs, 0 < x ∧ x < w) →
      writeRow maze y xs out =
        some (out ++ concatLines (xs.map (fun x => "," ++ tileText maze y x))) := by
  induction xs with
  | nil => intro out _; simp [writeRow, concatLines]
  | cons x rest ih =>
    intro out hxs
    obtain ⟨hx0, hxw⟩ := hxs x (List.mem_cons_self _ _)
    obtain ⟨v, hv⟩ := read_isSome_of_rect maze w h hw hh x y hxw hy
    rw [writeRow, hv]
    simp only [gt_iff_lt, hx0, if_true]
    rw [ih _ (fun x1 h1 => hxs x1 (List.mem_cons_of_mem _ h1))]
    simp [concatLines, tileText, hv, String.append_assoc]

theorem writeRow_range (maze : Grid) (w h : Nat) (hw : maze.length = w)
    (hh : ∀ col ∈ maze, col.length = h) (y : Nat) (hy : y < h) (out : String) :
    writeRow maze y (List.range w) out =
      some (out ++ commaSeparated ((List.range w).map (tileText maze y))) := by
  cases w with
  | zero => simp [writeRow, commaSeparated]
  | succ n =>
    obtain ⟨v, hv⟩ := read_isSome_of_rect maze (n + 1) h hw hh 0 y (by omega) hy
    rw [List.range_succ_eq_map, writeRow]
    simp only [Nat.cast_zero] at hv ⊢
    rw [hv]
    simp only [gt_iff_lt, lt_self_iff_false, if_false]
    rw [writeRow_tail maze (n + 1) h hw hh y hy]
    · rw [List.map_cons, commaSeparated_cons]
      simp [tileText, hv, String.append_assoc, List.map_map, Function.comp_def]
    · intro x hx
      simp only [List.mem_map, List.mem_range] at hx
      obtain ⟨a, ha, rfl⟩ := hx
      exact ⟨Nat.succ_pos _, by omega⟩

theorem writeRows_lines (maze : Grid) (w h : Nat) (hw : maze.length = w)
    (hh : ∀ col ∈ maze, col.length = h) (ys : List Nat) :
    ∀ out, (∀ y ∈ ys, y < h) →
      writeRows maze w ys out = some (out ++ concatLines (ys.map (formatLine maze w))) := by
  induction ys with
  | nil => intro out _; simp [writeRows, concatLines]
  | cons y rest ih =>
    intro out hys
    rw [writeRows, writeRow_range maze w h hw hh y (hys y (List.mem_cons_self _ _))]
    simp only
    rw [ih _ (fun y1 h1 => hys y1 (List.mem_cons_of_mem _ h1))]
    simp [concatLines, formatLine, String.append_assoc]

/-- C5: for a rectangular grid with `w` columns of `h` cells (an empty grid has height
`0`), `exportToCSV` on a file that opens returns `true` and writes exactly the line `w,h`
followed by the `h` lines of `w` comma-separated values `convertTileValue(maze[x][y])`,
row by row. -/
theorem exportToCSV_text (maze : Grid) (w h : Nat) (hw : maze.length = w)
    (hh : ∀ col ∈ maze, col.length = h) (h0 : w = 0 → h = 0) :
    exportToCSV maze true = some (true, formatText maze w h) := by
  have hheight : gridHeight maze = h := by
    cases maze with
    | nil => simp at hw; simp [gridHeight, h0 hw.symm]
    | cons col rest => exact hh col (List.mem_cons_self _ _)
  simp only [exportToCSV, if_true, csvText, hheight, hw]
  rw [writeRows_lines maze w h hw hh _ _ (fun y hy => List.mem_range.mp hy)]
  simp [formatText]

/-- Witness of `exportToCSV_text` on a 2 by 3 grid. -/
theorem exportToCSV_text_witness :
    exportToCSV [[255, 0, 255], [0, 127, 7]] true =
      some (true, formatText [[255, 0, 255], [0, 127, 7]] 2 3) :=
  exportToCSV_text [[255, 0, 255], [0, 127, 7]] 2 3 (by decide) (by decide) (by decide)

/-- C6: `convertTileValue` maps Passage to 1 and Solid and Reserved to 2, every result
is 1 or 2, a value that is none of the three states maps to 1, and so every value of
every data line of the export is 1 or 2. -/
theorem convertTileValue_range :
    convertTileValue EMPTY = 1 ∧ convertTileValue SOLID = 2 ∧ convertTileValue RESERVED = 2 ∧
    (∀ v : Int, convertTileValue v = 1 ∨ convertTileValue v = 2) ∧
    (∀ v : Int, v ≠ EMPTY → v ≠ SOLID → v ≠ RESERVED → convertTileValue v = 1) ∧
    (∀ (maze : Grid) (y x : Nat), tileText maze y x = "1" ∨ tileText maze y x = "2") := by
  have hall : ∀ v : Int, convertTileValue v = 1 ∨ convertTileValue v = 2 := by
    intro v
    unfold convertTileValue
    split_ifs <;> simp
  refine ⟨by decide, by decide, by decide, hall, ?_, ?_⟩
  · intro v h0 h1 h2
    simp [convertTileValue, h0, h1, h2]
  · intro maze y x
    unfold tileText
    rcases hall ((maze.read x y).getD 0) with h | h <;> rw [h]
    · left; rfl
    · right; rfl

/-! ## The stream of `std::mt19937` -/

set_option maxRecDepth 1000000 in
/-- The generator on known values: the first outputs of `std::mt19937` with its default
seed 5489 are 3499211612, 581869302 and 3890346734; the first outputs for the seeds 6 and 8
of the sample runs. -/
theorem mt19937Outputs_sample :
    (mt19937Outputs 5489).take 3 = [3499211612, 581869302, 3890346734] ∧
    (mt19937Outputs 6).take 3 = [3834805130, 4069378761, 1425842403] ∧
    (mt19937Outputs 8).take 3 = [3751350723, 47736148, 4159850481] ∧
    (mt19937Outputs 8).length = 227 := by
  decide

/-! ## Rounding to `float` -/

theorem halvings_spec (fuel : Nat) : ∀ n : Nat, n ≤ fuel → 0 < n →
    2 ^ Frac.halvings fuel n ≤ n ∧ n < 2 ^ (Frac.halvings fuel n + 1) := by
  induction fuel with
  | zero => intro n h1 h2; omega
  | succ f ih =>
    intro n h1 h2
    unfold Frac.halvings
    split_ifs with h
    · constructor
      · simpa using h2
      · simpa using h
    · have h3 := ih (n / 2) (by omega) (by omega)
      constructor
      · rw [pow_succ]; omega
      · rw [pow_succ]; omega

theorem log2Nat_spec (n : Nat) (h : 0 < n) :
    2 ^ Frac.log2Nat n ≤ n ∧ n < 2 ^ (Frac.log2Nat n + 1) :=
  halvings_spec n n (le_refl n) h

theorem log2Floor_one (n : Nat) (h : 0 < n) : Frac.log2Floor n 1 = (Frac.log2Nat n : Int) := by
  have h1 := (log2Nat_spec n h).1
  have h0 : Frac.log2Nat 1 = 0 := by decide
  unfold Frac.log2Floor
  rw [h0]
  simp only [Nat.sub_zero, Nat.zero_sub, pow_zero, mul_one, one_mul]
  rw [if_pos h1]
  simp

theorem roundHalfEven_near (n d : Nat) (hd : 0 < d) :
    2 * (Frac.roundHalfEven n d * d) ≤ 2 * n + d ∧ 2 * n ≤ 2 * (Frac.roundHalfEven n d * d) + d := by
  have h1 := Nat.div_add_mod n d
  have h2 := Nat.mod_lt n hd
  have h3 : n / d * d = d * (n / d) := Nat.mul_comm _ _
  unfold Frac.roundHalfEven
  split_ifs with ha hb
  · constructor <;> omega
  · rw [Nat.add_mul]; constructor <;> omega
  · rw [Nat.add_mul]
    have h4 : n / d % 2 * d ≤ d := by
      have : n / d % 2 ≤ 1 := by omega
      calc n / d % 2 * d ≤ 1 * d := Nat.mul_le_mul_right d this
        _ = d := one_mul d
    constructor <;> omega

theorem roundHalfEven_one (n : Nat) : Frac.roundHalfEven n 1 = n := by
  unfold Frac.roundHalfEven
  simp [Nat.mod_one]

/-- The `float` nearest to a positive integer `n` is an integer `r` within `n / 2^24` of
`n`, even from `2^24` on; the fraction that stands for it is `r * 2^k / 2^k`. -/
theorem f32Pos_int (n : Nat) (h : 0 < n) :
    ∃ (r k : Nat), Frac.f32Pos n 1 = ⟨((r * 2 ^ k : Nat) : Int), 2 ^ k⟩ ∧
      2 ^ 24 * r ≤ 2 ^ 24 * n + n ∧ 2 ^ 24 * n ≤ 2 ^ 24 * r + n ∧
      (2 ^ 24 ≤ n → r % 2 = 0) := by
  obtain ⟨hl1, hl2⟩ := log2Nat_spec n h
  have hL := log2Floor_one n h
  generalize Frac.log2Nat n = L at hl1 hl2 hL
  have he : Max.max (Frac.log2Floor n 1 - 23) (-149) = (L : Int) - 23 := by
    rw [hL]; exact max_eq_left (by omega)
  unfold Frac.f32Pos
  rw [he]
  by_cases h23 : L < 23
  · rw [if_neg (by omega)]
    refine ⟨n, 23 - L, ?_, le_add_right (le_refl _), le_add_right (le_refl _), ?_⟩
    · have : (-((L : Int) - 23)).toNat = 23 - L := by omega
      rw [this, roundHalfEven_one]
    · intro h24
      have : 2 ^ (L + 1) ≤ 2 ^ 24 := Nat.pow_le_pow_right (by decide) (by omega)
      omega
  · rw [if_pos (by omega)]
    have ht : ((L : Int) - 23).toNat = L - 23 := by omega
    rw [ht, one_mul]
    refine ⟨Frac.roundHalfEven n (2 ^ (L - 23)) * 2 ^ (L - 23), 0, by simp, ?_⟩
    have hpos : 0 < 2 ^ (L - 23) := pow_pos (by decide) _
    obtain ⟨hn1, hn2⟩ := roundHalfEven_near n (2 ^ (L - 23)) hpos
    have hp : 2 ^ 23 * 2 ^ (L - 23) = 2 ^ L := by
      rw [← pow_add]; congr 1; omega
    have hev : 2 ^ 24 ≤ n → Frac.roundHalfEven n (2 ^ (L - 23)) * 2 ^ (L - 23) % 2 = 0 := by
      intro h24
      have hL24 : 24 ≤ L := by
        by_contra hc
        have : 2 ^ (L + 1) ≤ 2 ^ 24 := Nat.pow_le_pow_right (by decide) (by omega)
        omega
      have : 2 ^ (L - 23) = 2 ^ (L - 24) * 2 := by
        rw [← pow_succ]; congr 1; omega
      rw [this, ← Nat.mul_assoc]
      exact Nat.mul_mod_left _ _
    generalize Frac.roundHalfEven n (2 ^ (L - 23)) * 2 ^ (L - 23) = r at hn1 hn2 hev ⊢
    generalize 2 ^ (L - 23) = u at hn1 hn2 hp hpos
    exact ⟨by omega, by omega, hev⟩

/-- The conversion of an integer to `float`: the fraction is an integer `r` over a power of
two, `r` is within `|n| / 2^24` of `n`, and even when `|n|` is at least `2^24`. -/
theorem f32_ofInt (n : Int) :
    ∃ (r : Int) (k : Nat), Frac.f32 (Frac.ofInt n) = ⟨r * 2 ^ k, 2 ^ k⟩ ∧
      (0 ≤ n → 16777215 * n ≤ 16777216 * r ∧ 16777216 * r ≤ 16777217 * n) ∧
      (n ≤ 0 → 16777217 * n ≤ 16777216 * r ∧ 16777216 * r ≤ 16777215 * n) ∧
      (16777216 ≤ n ∨ n ≤ -16777216 → r % 2 = 0) := by
  unfold Frac.f32 Frac.ofInt
  simp only [one_ne_zero, false_or]
  split_ifs with h0 hpos
  · exact ⟨0, 0, by simp [h0], by omega, by omega, by omega⟩
  · obtain ⟨r, k, he, h1, h2, h3⟩ := f32Pos_int n.toNat (by omega)
    refine ⟨r, k, ?_, ?_, ?_, ?_⟩
    · rw [he]; simp
    · intro _; constructor <;> omega
    · intro _; omega
    · intro h; have := h3 (by omega); omega
  · obtain ⟨r, k, he, h1, h2, h3⟩ := f32Pos_int (-n).toNat (by omega)
    refine ⟨-r, k, ?_, ?_, ?_, ?_⟩
    · rw [he]; simp
    · intro _; omega
    · intro _; constructor <;> omega
    · intro h; have := h3 (by omega); omega

theorem trunc_scaled (r : Int) (k : Nat) : Frac.trunc ⟨r * 2 ^ k, 2 ^ k⟩ = r := by
  unfold Frac.trunc
  simp only [Nat.cast_pow, Nat.cast_ofNat]
  exact Int.mul_tdiv_cancel _ (pow_ne_zero _ (by decide))

theorem floor_quarter (r : Int) (k : Nat) :
    Frac.floor (Frac.div ⟨r * 2 ^ k, 2 ^ k⟩ ⟨4, 1⟩) = r / 4 := by
  have h4 : Int.toNat 4 = 4 := rfl
  unfold Frac.floor Frac.div
  simp only [h4, mul_one, Nat.cast_one, Nat.cast_mul, Nat.cast_pow, Nat.cast_ofNat]
  rw [mul_comm ((2 : Int) ^ k) 4]
  exact Int.mul_ediv_mul_of_pos_left _ _ (pow_pos (by decide) _)

theorem round_quarter (r : Int) (k : Nat) :
    Frac.round (Frac.div ⟨r * 2 ^ k, 2 ^ k⟩ ⟨4, 1⟩) =
      if 0 ≤ r then (r + 2) / 4 else -((2 - r) / 4) := by
  have hp : (0 : Int) < 2 ^ k := pow_pos (by decide) _
  have h4 : Int.toNat 4 = 4 := rfl
  unfold Frac.round Frac.div
  simp only [h4, mul_one, Nat.cast_one, Nat.cast_mul, Nat.cast_pow, Nat.cast_ofNat]
  have h1 : (0 ≤ r * 2 ^ k) ↔ 0 ≤ r := by
    constructor
    · intro h; by_contra hc
      have : r * 2 ^ k < 0 := mul_neg_of_neg_of_pos (by omega) hp
      omega
    · intro h; exact mul_nonneg h (le_of_lt hp)
  by_cases hr : 0 ≤ r
  · rw [if_pos (h1.mpr hr), if_pos hr]
    have : 2 * (r * 2 ^ k) + 2 ^ k * 4 = (2 * (r + 2)) * 2 ^ k := by ring
    rw [this]
    have h2 : 2 * ((2 : Int) ^ k * 4) = (2 * 4) * 2 ^ k := by ring
    rw [h2, Int.mul_ediv_mul_of_pos_left _ _ hp]
    omega
  · rw [if_neg (fun h => hr (h1.mp h)), if_neg hr]
    have : 2 * -(r * 2 ^ k) + 2 ^ k * 4 = (2 * (2 - r)) * 2 ^ k := by ring
    rw [this]
    have h2 : 2 * ((2 : Int) ^ k * 4) = (2 * 4) * 2 ^ k := by ring
    rw [h2, Int.mul_ediv_mul_of_pos_left _ _ hp]
    omega

/-- The fraction of an integer converted to `float` is `floatOfInt` over a power of two. -/
theorem f32_floatOfInt (n : Int) :
    ∃ k : Nat, Frac.f32 (Frac.ofInt n) = ⟨floatOfInt n * 2 ^ k, 2 ^ k⟩ := by
  obtain ⟨r, k, he, -⟩ := f32_ofInt n
  refine ⟨k, ?_⟩
  unfold floatOfInt
  rw [he, trunc_scaled]

/-- The `float` nearest to an integer `n` is within `|n| / 2^24` of `n`, and even when
`|n|` is at least `2^24`. -/
theorem floatOfInt_near (n : Int) :
    (0 ≤ n → 16777215 * n ≤ 16777216 * floatOfInt n ∧
      16777216 * floatOfInt n ≤ 16777217 * n) ∧
    (n ≤ 0 → 16777217 * n ≤ 16777216 * floatOfInt n ∧
      16777216 * floatOfInt n ≤ 16777215 * n) ∧
    (16777216 ≤ n ∨ n ≤ -16777216 → floatOfInt n % 2 = 0) := by
  obtain ⟨r, k, he, h⟩ := f32_ofInt n
  unfold floatOfInt
  rw [he, trunc_scaled]
  exact h

/-- Integers up to `2^24` in absolute value are `float` values. -/
theorem floatOfInt_exact (n : Int) (h1 : -16777216 ≤ n) (h2 : n ≤ 16777216) :
    floatOfInt n = n := by
  obtain ⟨ha, hb, hc⟩ := floatOfInt_near n
  by_cases h0 : 0 ≤ n
  · have := ha h0
    by_cases h3 : n = 16777216
    · have := hc (Or.inl (by omega)); omega
    · omega
  · have := hb (by omega)
    by_cases h3 : n = -16777216
    · have := hc (Or.inr (by omega)); omega
    · omega

/-- The start coordinate of an axis: `size` is converted to `float`, the quotient by 4 is
exact, and `2 * floor - 1` is converted to `float` and back. -/
theorem startCoord_eq (size : Int) :
    startCoord size = floatOfInt (floatOfInt size / 4 * 2 - 1) := by
  obtain ⟨k, hk⟩ := f32_floatOfInt size
  unfold startCoord
  rw [hk, floor_quarter]
  rfl

theorem roundToFour_eq (size : Int) :
    roundToFour size = floatOfInt ((if 0 ≤ floatOfInt (size - 2) then
      (floatOfInt (size - 2) + 2) / 4 else -((2 - floatOfInt (size - 2)) / 4)) * 4 + 2) := by
  obtain ⟨k, hk⟩ := f32_floatOfInt (size - 2)
  unfold roundToFour
  rw [hk, round_quarter]
  rfl

/-- The start coordinate is `2 * floor(size / 4) - 1`, an odd number, for every size up to
`2^25`. -/
theorem startCoord_small (size : Int) (h1 : -16777216 ≤ size) (h2 : size ≤ 33554432) :
    startCoord size % 2 = 1 := by
  rw [startCoord_eq]
  obtain ⟨ha, hb, hc⟩ := floatOfInt_near size
  have h3 : -16777216 ≤ floatOfInt size ∧ floatOfInt size ≤ 33554434 := by
    by_cases h0 : 0 ≤ size
    · have := ha h0; constructor <;> omega
    · have := hb (by omega); constructor <;> omega
  rw [floatOfInt_exact _ (by omega) (by omega)]
  omega

theorem startCoord_exact (size : Int) (h1 : -16777216 ≤ size) (h2 : size ≤ 16777216) :
    startCoord size = size / 4 * 2 - 1 := by
  rw [startCoord_eq, floatOfInt_exact size h1 h2, floatOfInt_exact _ (by omega) (by omega)]

/-- The start coordinate lies inside an axis exactly when the size is at least 4. -/
theorem startCoord_range (size : Int) :
    (0 ≤ startCoord size ∧ startCoord size < size) ↔ 4 ≤ size := by
  rw [startCoord_eq]
  obtain ⟨ha, hb, hc⟩ := floatOfInt_near size
  obtain ⟨ha2, hb2, hc2⟩ := floatOfInt_near (floatOfInt size / 4 * 2 - 1)
  generalize floatOfInt (floatOfInt size / 4 * 2 - 1) = r2 at *
  generalize floatOfInt size = r1 at *
  constructor
  · rintro ⟨h1, h2⟩
    by_contra hc
    by_cases h0 : 0 ≤ size
    · have := ha h0
      have hq : r1 / 4 * 2 - 1 ≤ 0 := by omega
      have := hb2 hq
      omega
    · have := hb (by omega)
      have hq : r1 / 4 * 2 - 1 ≤ 0 := by omega
      have := hb2 hq
      omega
  · intro h4
    have := ha (by omega)
    have hq : 0 ≤ r1 / 4 * 2 - 1 := by omega
    have := ha2 hq
    constructor <;> omega

theorem startCoord_tiny (size : Int) (h0 : 0 ≤ size) (h4 : size < 4) : startCoord size = -1 := by
  rw [startCoord_exact size (by omega) (by omega)]
  omega

/-- The start coordinate of an axis of a size below 4 is negative. -/
theorem startCoord_neg (size : Int) (h4 : size < 4) : startCoord size < 0 := by
  by_cases h0 : 0 ≤ size
  · rw [startCoord_tiny size h0 h4]; decide
  · rw [startCoord_eq]
    obtain ⟨-, hb, -⟩ := floatOfInt_near size
    obtain ⟨-, hb2, -⟩ := floatOfInt_near (floatOfInt size / 4 * 2 - 1)
    have h1 := hb (by omega)
    have h2 := hb2 (by omega)
    omega

theorem roundToFour_even (size : Int) : roundToFour size % 2 = 0 := by
  rw [roundToFour_eq]
  generalize (if 0 ≤ floatOfInt (size - 2) then
      (floatOfInt (size - 2) + 2) / 4 else -((2 - floatOfInt (size - 2)) / 4)) = q
  obtain ⟨ha, hb, hc⟩ := floatOfInt_near (q * 4 + 2)
  by_cases h : 16777216 ≤ q * 4 + 2 ∨ q * 4 + 2 ≤ -16777216
  · exact hc h
  · rw [floatOfInt_exact _ (by omega) (by omega)]
    omega

theorem roundToFour_small (size : Int) (h1 : -16777212 ≤ size) (h2 : size ≤ 16777214) :
    roundToFour size % 4 = 2 := by
  rw [roundToFour_eq, floatOfInt_exact (size - 2) (by omega) (by omega)]
  split_ifs with h
  · rw [floatOfInt_exact _ (by omega) (by omega)]; omega
  · rw [floatOfInt_exact _ (by omega) (by omega)]; omega

theorem roundHalfEven_le (n d M : Nat) (hd : 0 < d) (h : n ≤ M * d) :
    Frac.roundHalfEven n d ≤ M := by
  have h1 := Nat.div_add_mod n d
  have h2 := Nat.mod_lt n hd
  have h3 : n / d ≤ M := Nat.div_le_of_le_mul (by rw [Nat.mul_comm]; exact h)
  unfold Frac.roundHalfEven
  split_ifs with ha hb
  · exact h3
  · by_contra hc
    have h4 : n / d = M := by omega
    rw [h4] at h1
    have : d * M = M * d := Nat.mul_comm _ _
    omega
  · by_contra hc
    have h4 : n / d = M := by omega
    rw [h4] at h1
    have : d * M = M * d := Nat.mul_comm _ _
    omega

theorem roundHalfEven_ge (n d K : Nat) (hd : 0 < d) (h : K * d ≤ n) :
    K ≤ Frac.roundHalfEven n d := by
  have h3 : K ≤ n / d := (Nat.le_div_iff_mul_le hd).mpr h
  unfold Frac.roundHalfEven
  split_ifs <;> omega

/-- The exponent of a fraction is not above the fraction: `2 ^ e * d <= n`. -/
theorem log2Floor_lower (n d : Nat) (hn : 0 < n) (hd : 0 < d) (e : Nat)
    (he : Frac.log2Floor n d = (e : Int)) : d * 2 ^ e ≤ n := by
  obtain ⟨ha1, ha2⟩ := log2Nat_spec n hn
  obtain ⟨hb1, hb2⟩ := log2Nat_spec d hd
  unfold Frac.log2Floor at he
  generalize Frac.log2Nat n = a at *
  generalize Frac.log2Nat d = b at *
  split_ifs at he with hc
  · have hab : a = b + e := by omega
    subst hab
    have h1 : b + e - b = e := by omega
    have h2 : b - (b + e) = 0 := by omega
    rw [h1, h2, pow_zero, mul_one] at hc
    exact hc
  · have hab : a = b + e + 1 := by omega
    subst hab
    have h1 : d * 2 ^ e ≤ 2 ^ (b + 1) * 2 ^ e := Nat.mul_le_mul_right _ (le_of_lt hb2)
    have h2 : 2 ^ (b + 1) * 2 ^ e = 2 ^ (b + e + 1) := by
      rw [← pow_add]; congr 1; omega
    omega

/-- Rounding to `float` does not pass an integer `m` up to `2^24`: a positive fraction that
is at most `m` rounds to a `float` that is at most `m`. -/
theorem f32Pos_le_int (n d m : Nat) (hn : 0 < n) (hd : 0 < d) (hm : m ≤ 16777216)
    (h : n ≤ m * d) :
    (Frac.f32Pos n d).num ≤ (m : Int) * ((Frac.f32Pos n d).den : Int) ∧
      0 < (Frac.f32Pos n d).den := by
  unfold Frac.f32Pos
  by_cases he : 0 ≤ Max.max (Frac.log2Floor n d - 23) (-149)
  · rw [if_pos he]
    simp only [Nat.cast_one, mul_one, Nat.lt_one_iff, pos_of_gt, and_true]
    have hmax : Max.max (Frac.log2Floor n d - 23) (-149) = Frac.log2Floor n d - 23 := by
      apply max_eq_left
      by_contra hc
      rw [max_eq_right (by omega)] at he
      omega
    rw [hmax] at he ⊢
    obtain ⟨e, hee⟩ : ∃ e : Nat, Frac.log2Floor n d = ((e + 23 : Nat) : Int) :=
      ⟨(Frac.log2Floor n d - 23).toNat, by push_cast; omega⟩
    have hlow := log2Floor_lower n d hn hd _ hee
    have hto : (Frac.log2Floor n d - 23).toNat = e := by rw [hee]; push_cast; omega
    rw [hto]
    have hpe : 0 < 2 ^ e := pow_pos (by decide) _
    have h2 : 2 ^ (e + 23) ≤ m := by
      have : d * 2 ^ (e + 23) ≤ m * d := le_trans hlow h
      rw [Nat.mul_comm d] at this
      exact Nat.le_of_mul_le_mul_right this hd
    have he1 : e ≤ 1 := by
      by_contra hc
      have : 2 ^ 25 ≤ 2 ^ (e + 23) := Nat.pow_le_pow_right (by decide) (by omega)
      omega
    have hcase : e = 0 ∨ e = 1 := by omega
    rcases hcase with h0 | h1
    · subst h0
      simp only [pow_zero, mul_one]
      exact_mod_cast roundHalfEven_le n d m hd h
    · subst h1
      have hm24 : m = 16777216 := by
        have : 2 ^ (1 + 23) = 16777216 := by norm_num
        omega
      subst hm24
      have := roundHalfEven_le n (d * 2 ^ 1) 8388608 (by omega) (by omega)
      have h5 : Frac.roundHalfEven n (d * 2 ^ 1) * 2 ^ 1 ≤ 16777216 := by omega
      exact_mod_cast h5
  · rw [if_neg he]
    simp only
    generalize (-(Max.max (Frac.log2Floor n d - 23) (-149))).toNat = u
    have hpu : 0 < 2 ^ u := pow_pos (by decide) _
    refine ⟨?_, hpu⟩
    have := roundHalfEven_le (n * 2 ^ u) d (m * 2 ^ u) hd (by
      calc n * 2 ^ u ≤ m * d * 2 ^ u := Nat.mul_le_mul_right _ h
        _ = m * 2 ^ u * d := by ring)
    exact_mod_cast this

/-- Rounding to `float` does not pass an integer `k` up to `2^24` from above. -/
theorem f32Pos_ge_int (n d k : Nat) (hn : 0 < n) (hd : 0 < d) (hk : k ≤ 16777216)
    (h : k * d ≤ n) :
    (k : Int) * ((Frac.f32Pos n d).den : Int) ≤ (Frac.f32Pos n d).num := by
  unfold Frac.f32Pos
  by_cases he : 0 ≤ Max.max (Frac.log2Floor n d - 23) (-149)
  · rw [if_pos he]
    simp only [Nat.cast_one, mul_one]
    have hmax : Max.max (Frac.log2Floor n d - 23) (-149) = Frac.log2Floor n d - 23 := by
      apply max_eq_left
      by_contra hc
      rw [max_eq_right (by omega)] at he
      omega
    rw [hmax] at he ⊢
    obtain ⟨e, hee⟩ : ∃ e : Nat, Frac.log2Floor n d = ((e + 23 : Nat) : Int) :=
      ⟨(Frac.log2Floor n d - 23).toNat, by push_cast; omega⟩
    have hlow := log2Floor_lower n d hn hd _ hee
    have hto : (Frac.log2Floor n d - 23).toNat = e := by rw [hee]; push_cast; omega
    rw [hto]
    have hpe : 0 < 2 ^ e := pow_pos (by decide) _
    rcases Nat.eq_zero_or_pos e with h0 | h1
    · subst h0
      simp only [pow_zero, mul_one]
      exact_mod_cast roundHalfEven_ge n d k hd h
    · have h3 := roundHalfEven_ge n (d * 2 ^ e) (2 ^ 23) (by positivity) (by
        calc 2 ^ 23 * (d * 2 ^ e) = d * 2 ^ (e + 23) := by ring
          _ ≤ n := hlow)
      have h4 : 2 ^ 1 ≤ 2 ^ e := Nat.pow_le_pow_right (by decide) h1
      have h5 : k ≤ Frac.roundHalfEven n (d * 2 ^ e) * 2 ^ e := by
        calc k ≤ 2 ^ 23 * 2 ^ 1 := by norm_num; exact hk
          _ ≤ Frac.roundHalfEven n (d * 2 ^ e) * 2 ^ e := Nat.mul_le_mul h3 h4
      exact_mod_cast h5
  · rw [if_neg he]
    simp only
    generalize (-(Max.max (Frac.log2Floor n d - 23) (-149))).toNat = u
    have := roundHalfEven_ge (n * 2 ^ u) d (k * 2 ^ u) hd (by
      calc k * 2 ^ u * d = k * d * 2 ^ u := by ring
        _ ≤ n * 2 ^ u := Nat.mul_le_mul_right _ h)
    exact_mod_cast this

/-- The floor of a non-negative fraction rounded to `float` lies between the integers that
enclose the fraction, when these are at most `2^24`. -/
theorem floor_f32_between (a : Frac) (k m : Int) (hd : 0 < a.den) (h0 : 0 ≤ k)
    (hm : m ≤ 16777216) (hk : k * a.den ≤ a.num) (hu : a.num ≤ m * a.den) :
    k ≤ Frac.floor (Frac.f32 a) ∧ Frac.floor (Frac.f32 a) ≤ m := by
  have hden : (0 : Int) < a.den := by exact_mod_cast hd
  have hnum : 0 ≤ a.num := le_trans (mul_nonneg h0 (le_of_lt hden)) hk
  have hkm : k ≤ m := by
    by_contra hc
    have : m * a.den < k * a.den := mul_lt_mul_of_pos_right (by omega) hden
    omega
  unfold Frac.f32
  split_ifs with h1 h2
  · rcases h1 with h1 | h1
    · omega
    · unfold Frac.floor
      rw [h1] at hk hu ⊢
      rw [Int.zero_ediv]
      constructor
      · by_contra hc
        have : 0 < k * a.den := mul_pos (by omega) hden
        omega
      · by_contra hc
        have : m * a.den < 0 := mul_neg_of_neg_of_pos (by omega) hden
        omega
  · have hn : ((a.num.toNat : Nat) : Int) = a.num := Int.toNat_of_nonneg hnum
    obtain ⟨hle, hpos⟩ := f32Pos_le_int a.num.toNat a.den m.toNat (by omega) hd (by omega) (by
      have hmn : ((m.toNat : Nat) : Int) = m := Int.toNat_of_nonneg (by omega)
      have : (a.num.toNat : Int) ≤ ((m.toNat * a.den : Nat) : Int) := by
        push_cast; rw [hn, hmn]; exact hu
      exact_mod_cast this)
    have hge := f32Pos_ge_int a.num.toNat a.den k.toNat (by omega) hd (by omega) (by
      have hkn : ((k.toNat : Nat) : Int) = k := Int.toNat_of_nonneg h0
      have : ((k.toNat * a.den : Nat) : Int) ≤ (a.num.toNat : Int) := by
        push_cast; rw [hn, hkn]; exact hk
      exact_mod_cast this)
    have hmn : ((m.toNat : Nat) : Int) = m := Int.toNat_of_nonneg (by omega)
    have hkn : ((k.toNat : Nat) : Int) = k := Int.toNat_of_nonneg h0
    rw [hmn] at hle
    rw [hkn] at hge
    have hden2 : (0 : Int) < ((Frac.f32Pos a.num.toNat a.den).den : Int) := by exact_mod_cast hpos
    unfold Frac.floor
    constructor
    · exact Int.le_ediv_of_mul_le hden2 hge
    · exact Int.ediv_le_of_le_mul hden2 hle
  · omega

/-! ## Dimension normalizer -/

theorem normalizeSize_plain_odd (a : Axis) (size : Int) (hw : effectiveWrap a = false) :
    normalizeSize a size % 2 = 1 := by
  simp only [normalizeSize, ensureDimension, hw, lowBit, bitNot]
  simp only [Bool.false_eq_true, if_false]
  omega

theorem normalizeSize_wrap_even (a : Axis) (size : Int) (hw : effectiveWrap a = true) :
    normalizeSize a size % 2 = 0 := by
  simp only [normalizeSize, ensureDimension, hw, lowBit, if_true]
  split_ifs
  · exact roundToFour_even _
  · omega

/-- What the dimension normalizer keeps of the parity rule: the normalized size of an axis is
odd when the axis does not effectively wrap and even when it does; on a wrapping axis
without symmetry it is the border-adjusted size plus `size & 1`; on a wrapping symmetric
axis it is congruent to 2 modulo 4 when the border-adjusted size is at most `2^24 - 2` in
absolute value, the range in which the `float` operations of line 46 are exact. -/
theorem normalizeSize_parity (a : Axis) (size : Int) :
    (effectiveWrap a = false → normalizeSize a size % 2 = 1) ∧
    (effectiveWrap a = true → normalizeSize a size % 2 = 0) ∧
    (effectiveWrap a = true → a.symmetry = false →
      normalizeSize a size = accountForEdges a size + lowBit (accountForEdges a size)) ∧
    (effectiveWrap a = true → a.symmetry = true → -16777212 ≤ accountForEdges a size →
      accountForEdges a size ≤ 16777214 → normalizeSize a size % 4 = 2) := by
  refine ⟨normalizeSize_plain_odd a size, normalizeSize_wrap_even a size, ?_, ?_⟩
  · intro hw hs
    simp [normalizeSize, ensureDimension, hw, hs]
  · intro hw hs h1 h2
    simp only [normalizeSize, ensureDimension, hw, hs, if_true]
    exact roundToFour_small _ h1 h2

/-- C7 (the code at the failing input): the size of a wrapping symmetric axis is not always
congruent to 2 modulo 4.  For
the request 33554431 on an axis with symmetry, no border and wrap the border-adjusted size
is 33554432; line 46 converts `w - 2 = 33554430` to `float` exactly, `round` of the
quotient `8388607.5` is `8388608`, and the `float` sum `33554432 + 2` rounds to the `float`
`33554432`, which is the normalized size: it is a multiple of 4. -/
theorem normalizeSize_float_rounding :
    effectiveWrap ⟨true, 0, true⟩ = true ∧
    accountForEdges ⟨true, 0, true⟩ 33554431 = 33554432 ∧
    floatOfInt (33554432 - 2) = 33554430 ∧
    Frac.round (Frac.div (Frac.f32 (Frac.ofInt (33554432 - 2))) ⟨4, 1⟩) = 8388608 ∧
    floatOfInt (8388608 * 4 + 2) = 33554432 ∧
    normalizeSize ⟨true, 0, true⟩ 33554431 = 33554432 ∧
    normalizeSize ⟨true, 0, true⟩ 33554431 % 4 = 0 := by
  decide

/-! ## Determinism and the rooms guard -/

/-- C1: with a nonzero seed the grid `generate` returns does not depend on the entropy
source, the only input besides `(width, height, config)`: two calls with the same
arguments return the same result. -/
theorem generate_deterministic {σ : Type} (R : RandomSource σ) (entropy1 entropy2 : Nat)
    (w h : Int) (config : MazeConfig) (hseed : config.seed ≠ 0) :
    generate R entropy1 w h config = generate R entropy2 w h config := by
  simp [generate, imperfected, carved, initialRng, hseed]

set_option maxRecDepth 1000000 in
/-- Witness of `generate_deterministic`: scenario A run twice returns the same 9 by 9
grid. -/
theorem generate_deterministic_witness :
    scenarioA.seed ≠ 0 ∧ generate lcg 1 10 10 scenarioA = generate lcg 2 10 10 scenarioA ∧
    generate lcg 1 10 10 scenarioA =
      some [[255, 255, 255, 255, 255, 255, 255, 255, 255], [255, 0, 0, 0, 255, 0, 0, 0, 255],
        [255, 0, 255, 255, 255, 0, 255, 0, 255], [255, 0, 255, 0, 255, 0, 255, 0, 255],
        [255, 0, 255, 0, 255, 0, 255, 0, 255], [255, 0, 255, 0, 0, 0, 255, 0, 255],
        [255, 0, 255, 255, 255, 255, 255, 0, 255], [255, 0, 0, 0, 0, 0, 0, 0, 255],
        [255, 255, 255, 255, 255, 255, 255, 255, 255]] :=
  ⟨by decide, generate_deterministic lcg 1 2 10 10 scenarioA (by decide), by decide⟩

/-- C10: with `roomsFraction = 0` the grid `generate` returns is the grid as it stood
after the imperfection injector. -/
theorem generate_rooms_zero {σ : Type} (R : RandomSource σ) (entropy : Nat) (w h : Int)
    (config : MazeConfig) (hrooms : config.roomsFraction.num = 0) :
    generate R entropy w h config = (imperfected R entropy w h config).map Prod.fst := by
  have hlt : Frac.lt (Frac.ofInt 0) config.roomsFraction = false := by
    simp [Frac.lt, Frac.ofInt, hrooms]
  unfold generate
  rw [hlt]
  cases imperfected R entropy w h config with
  | none => rfl
  | some p => cases p; rfl

/-- Witness of `generate_rooms_zero`: scenario A has `roomsFraction = 0`. -/
theorem generate_rooms_zero_witness :
    scenarioA.roomsFraction.num = 0 ∧
      generate lcg 0 10 10 scenarioA = (imperfected lcg 0 10 10 scenarioA).map Prod.fst :=
  ⟨by decide, generate_rooms_zero lcg 0 10 10 scenarioA (by decide)⟩

/-! ## Reading and writing the grid -/

theorem write_some {m m1 : Grid} {x y v : Int} (hw : m.write x y v = some m1) :
    0 ≤ x ∧ 0 ≤ y ∧ ∃ col, m[x.toNat]? = some col ∧ y.toNat < col.length ∧
      m1 = m.set x.toNat (col.set y.toNat v) := by
  unfold Grid.write at hw
  split_ifs at hw with h0
  refine ⟨h0.1, h0.2, ?_⟩
  cases hcol : m[x.toNat]? with
  | none => simp [hcol] at hw
  | some col =>
    simp only [hcol] at hw
    split_ifs at hw with hy
    exact ⟨col, rfl, hy, (Option.some.inj hw).symm⟩

theorem read_of_write {m m1 : Grid} {x y v : Int} (hw : m.write x y v = some m1) :
    ∃ c, m.read x y = some c := by
  obtain ⟨hx, hy, col, hcol, hlen, _⟩ := write_some hw
  exact ⟨col[y.toNat], by simp [Grid.read, hx, hy, hcol, List.getElem?_eq_getElem hlen]⟩

theorem write_of_read {m : Grid} {x y c : Int} (v : Int) (hr : m.read x y = some c) :
    ∃ m1, m.write x y v = some m1 := by
  unfold Grid.read at hr
  split_ifs at hr with h0
  cases hcol : m[x.toNat]? with
  | none => simp [hcol] at hr
  | some col =>
    simp only [hcol] at hr
    have hy : y.toNat < col.length := by
      by_contra hcon
      rw [List.getElem?_eq_none (by omega)] at hr
      exact Option.noConfusion hr
    exact ⟨m.set x.toNat (col.set y.toNat v), by simp [Grid.write, h0, hcol, hy]⟩

theorem read_write_same {m m1 : Grid} {x y v : Int} (hw : m.write x y v = some m1) :
    m1.read x y = some v := by
  obtain ⟨hx, hy, col, hcol, hlen, rfl⟩ := write_some hw
  have hxl : x.toNat < m.length := by
    by_contra hcon
    rw [List.getElem?_eq_none (by omega)] at hcol
    exact Option.noConfusion hcol
  simp [Grid.read, hx, hy, List.getElem?_set, hxl, hlen]

theorem read_write_other {m m1 : Grid} {x y v : Int} (hw : m.write x y v = some m1) (p q : Int)
    (hne : ¬ (p = x ∧ q = y)) : m1.read p q = m.read p q := by
  obtain ⟨hx, hy, col, hcol, hlen, rfl⟩ := write_some hw
  unfold Grid.read
  by_cases h0 : 0 ≤ p ∧ 0 ≤ q
  · simp only [h0, and_self, if_true]
    by_cases hpx : x.toNat = p.toNat
    · have hpx1 : p = x := by omega
      have hqy : y.toNat ≠ q.toNat := by
        intro hcon
        exact hne ⟨hpx1, by omega⟩
      have hxl : x.toNat < m.length := by
        by_contra hcon
        rw [List.getElem?_eq_none (by omega)] at hcol
        exact Option.noConfusion hcol
      rw [← hpx]
      simp [List.getElem?_set, hxl, hcol, hqy]
    · simp [List.getElem?_set, hpx]
  · simp [h0]

/-- A write changes exactly the written cell. -/
theorem read_write {m m1 : Grid} {x y v : Int} (hw : m.write x y v = some m1) (p q : Int) :
    (p = x ∧ q = y → m1.read p q = some v) ∧ (¬ (p = x ∧ q = y) → m1.read p q = m.read p q) :=
  ⟨fun h => by rw [h.1, h.2]; exact read_write_same hw, read_write_other hw p q⟩


theorem updated_write {m m1 : Grid} {x y v : Int} (hw : m.write x y v = some m1) :
    Updated m m1 v (fun p q => p = x ∧ q = y) := by
  refine ⟨fun p q hpq => ⟨(read_write hw p q).1 hpq, ?_⟩, fun p q hpq => (read_write hw p q).2 hpq⟩
  obtain ⟨c, hc⟩ := read_of_write hw
  rw [hpq.1, hpq.2, hc]
  rfl

theorem updated_trans {m m1 m2 : Grid} {v : Int} {S T : Int → Int → Prop}
    (h1 : Updated m m1 v S) (h2 : Updated m1 m2 v T) :
    Updated m m2 v (fun p q => S p q ∨ T p q) := by
  classical
  refine ⟨fun p q hpq => ?_, fun p q hpq => ?_⟩
  · by_cases hT : T p q
    · refine ⟨(h2.1 p q hT).1, ?_⟩
      by_cases hS : S p q
      · exact (h1.1 p q hS).2
      · rw [← h1.2 p q hS]
        exact (h2.1 p q hT).2
    · have hS : S p q := hpq.resolve_right hT
      rw [h2.2 p q hT]
      exact h1.1 p q hS
  · rw [h2.2 p q (fun hT => hpq (Or.inr hT)), h1.2 p q (fun hS => hpq (Or.inl hS))]

theorem updated_congr {m m1 : Grid} {v : Int} {S T : Int → Int → Prop}
    (h1 : Updated m m1 v S) (hST : ∀ p q, S p q ↔ T p q) : Updated m m1 v T :=
  ⟨fun p q hpq => h1.1 p q ((hST p q).2 hpq), fun p q hpq => h1.2 p q (fun hS => hpq ((hST p q).1 hS))⟩

theorem setMaze_spec {m m1 : Grid} {x y v : Int} {c : MazeConfig} {w h : Int}
    (hs : setMaze m x y v c w h = some m1) :
    ∃ x1 y1, cmod (x + w) w = some x1 ∧ cmod (y + h) h = some y1 ∧
      Updated m m1 v (Written c w h x1 y1) := by
  unfold setMaze at hs
  cases hx : cmod (x + w) w with
  | none => simp [hx] at hs
  | some x1 =>
    cases hy : cmod (y + h) h with
    | none => simp [hx, hy] at hs
    | some y1 =>
      simp only [hx, hy] at hs
      refine ⟨x1, y1, rfl, rfl, ?_⟩
      cases h0 : m.write x1 y1 v with
      | none => simp [h0] at hs
      | some m0 =>
        simp only [h0] at hs
        have e0 := updated_write h0
        have hu : (w - x1 - if effectiveWrap c.horizontal = true then 0 else 1)
            = mirrorCoord c.horizontal w x1 := rfl
        have hv : (h - y1 - if effectiveWrap c.vertical = true then 0 else 1)
            = mirrorCoord c.vertical h y1 := rfl
        rw [hu, hv] at hs
        unfold Written
        generalize mirrorCoord c.horizontal w x1 = u at *
        generalize mirrorCoord c.vertical h y1 = v1 at *
        by_cases hA : c.horizontal.symmetry = true ∧ u < w
        · have hA1 : (c.horizontal.symmetry && decide (u < w)) = true := by simp [hA]
          simp only [hA1, if_true] at hs
          cases h1 : m0.write u y1 v with
          | none => simp [h1] at hs
          | some ma =>
            simp only [h1] at hs
            have e1 := updated_trans e0 (updated_write h1)
            by_cases hB : c.vertical.symmetry = true ∧ v1 < h
            · have hB1 : (c.vertical.symmetry && decide (v1 < h)) = true := by simp [hB]
              simp only [hB1, if_true] at hs
              cases h2 : ma.write u v1 v with
              | none => simp [h2] at hs
              | some mb =>
                simp only [h2] at hs
                have e3 := updated_trans (updated_trans e1 (updated_write h2)) (updated_write hs)
                refine updated_congr e3 (fun p q => ?_)
                simp only [hA, hB, true_and]
                tauto
            · have hB1 : (c.vertical.symmetry && decide (v1 < h)) = false := by
                simpa [Bool.and_eq_false_iff] using hB
              simp only [hB1, Bool.false_eq_true, if_false] at hs
              cases hs
              refine updated_congr e1 (fun p q => ?_)
              simp only [hA, true_and]
              tauto
        · have hA1 : (c.horizontal.symmetry && decide (u < w)) = false := by
            simpa [Bool.and_eq_false_iff] using hA
          simp only [hA1, Bool.false_eq_true, if_false] at hs
          by_cases hB : c.vertical.symmetry = true ∧ v1 < h
          · have hB1 : (c.vertical.symmetry && decide (v1 < h)) = true := by simp [hB]
            simp only [hB1, if_true] at hs
            have e1 := updated_trans e0 (updated_write hs)
            refine updated_congr e1 (fun p q => ?_)
            simp only [hB, true_and]
            tauto
          · have hB1 : (c.vertical.symmetry && decide (v1 < h)) = false := by
              simpa [Bool.and_eq_false_iff] using hB
            simp only [hB1, Bool.false_eq_true, if_false] at hs
            cases hs
            refine updated_congr e0 (fun p q => ?_)
            tauto

/-! ## What the stages keep -/

theorem carveStep_maze {σ : Type} {R : RandomSource σ} {c : MazeConfig} {w h : Int}
    {cur : StackEntry} {st st1 : CarveState σ} (hs : carveStep R c w h cur st = some st1) :
    st1.maze = st.maze ∨
      ∃ m1, setMaze st.maze cur.x cur.y EMPTY c w h = some m1 ∧
        setMaze m1 (cur.x - cur.step.x) (cur.y - cur.step.y) EMPTY c w h = some st1.maze := by
  unfold carveStep at hs
  cases hu : unexplored st.maze cur.x cur.y st.ignoreReserved with
  | none => simp [hu] at hs
  | some b =>
    cases b with
    | false =>
      simp only [hu] at hs
      cases hs
      exact Or.inl rfl
    | true =>
      simp only [hu] at hs
      cases h1 : setMaze st.maze cur.x cur.y EMPTY c w h with
      | none => simp [h1] at hs
      | some m1 =>
        simp only [h1] at hs
        cases h2 : setMaze m1 (cur.x - cur.step.x) (cur.y - cur.step.y) EMPTY c w h with
        | none => simp [h2] at hs
        | some m2 =>
          simp only [h2] at hs
          split at hs
          · exact Option.noConfusion hs
          · cases hs
            exact Or.inr ⟨m1, rfl, h2⟩

/-- A property of the grid that every `setMaze(.., EMPTY, ..)` keeps is kept by one
iteration of the carver. -/
theorem carveStep_preserves {σ : Type} {R : RandomSource σ} {c : MazeConfig} {w h : Int}
    (P : Grid → Prop)
    (hP : ∀ m x y m1, P m → setMaze m x y EMPTY c w h = some m1 → P m1)
    {cur : StackEntry} {st st1 : CarveState σ} (h0 : P st.maze)
    (hs : carveStep R c w h cur st = some st1) : P st1.maze := by
  rcases carveStep_maze hs with heq | ⟨m1, h1, h2⟩
  · rw [heq]; exact h0
  · exact hP _ _ _ _ (hP _ _ _ _ h0 h1) h2

theorem carveLoop_preserves {σ : Type} {R : RandomSource σ} {c : MazeConfig} {w h : Int}
    (P : Grid → Prop)
    (hP : ∀ m x y m1, P m → setMaze m x y EMPTY c w h = some m1 → P m1)
    (fuel : Nat) : ∀ (st st1 : CarveState σ), P st.maze →
      carveLoop R c w h fuel st = some st1 → P st1.maze := by
  induction fuel with
  | zero =>
    intro st st1 h0 hs
    unfold carveLoop at hs
    split at hs
    · cases hs; exact h0
    · exact Option.noConfusion hs
  | succ n ih =>
    intro st st1 h0 hs
    unfold carveLoop at hs
    split at hs
    · cases hs; exact h0
    · rename_i cur rest hstack
      cases hstep : carveStep R c w h cur { st with stack := rest } with
      | none => simp [hstep] at hs
      | some st2 =>
        simp only [hstep] at hs
        exact ih st2 st1 (carveStep_preserves P hP (show P ({ st with stack := rest } : CarveState σ).maze from h0) hstep) hs

theorem remove_preserves {c : MazeConfig} {w h : Int} (P : Grid → Prop)
    (hP : ∀ m x y m1, P m → setMaze m x y EMPTY c w h = some m1 → P m1)
    {m m1 : Grid} {x y : Int} (h0 : P m) (hs : remove m x y c w h = some m1) : P m1 := by
  unfold remove at hs
  split at hs
  · split at hs
    · split_ifs at hs
      · exact hP _ _ _ _ h0 hs
      · cases hs; exact h0
    · exact Option.noConfusion hs
  · exact Option.noConfusion hs

theorem imperfectLoop_preserves {σ : Type} {R : RandomSource σ} {c : MazeConfig} {w h : Int}
    (P : Grid → Prop)
    (hP : ∀ m x y m1, P m → setMaze m x y EMPTY c w h = some m1 → P m1)
    (hBdry vBdry xHi yHi : Int) (n : Nat) : ∀ (m : Grid) (s : σ) (r : Grid × σ), P m →
      imperfectLoop R c w h hBdry vBdry xHi yHi n m s = some r → P r.1 := by
  induction n with
  | zero =>
    intro m s r h0 hs
    unfold imperfectLoop at hs
    cases hs; exact h0
  | succ k ih =>
    intro m s r h0 hs
    unfold imperfectLoop at hs
    simp only at hs
    split at hs
    · exact Option.noConfusion hs
    · rename_i m1 h1
      split at hs
      · exact Option.noConfusion hs
      · rename_i m2 h2
        exact ih _ _ _ (remove_preserves P hP (remove_preserves P hP h0 h1) h2) hs

theorem addImperfections_preserves {σ : Type} {R : RandomSource σ} {c : MazeConfig} {w h : Int}
    (P : Grid → Prop)
    (hP : ∀ m x y m1, P m → setMaze m x y EMPTY c w h = some m1 → P m1)
    {m : Grid} {s : σ} {r : Grid × σ} (h0 : P m)
    (hs : addImperfections R c w h m s = some r) : P r.1 := by
  unfold addImperfections at hs
  split_ifs at hs
  · exact imperfectLoop_preserves P hP _ _ _ _ _ _ _ _ h0 hs
  · cases hs; exact h0

theorem reserveColumn_preserves {σ : Type} {R : RandomSource σ} {fill : Frac} (P : Grid → Prop)
    (hP : ∀ m x y m1, P m → m.write x y RESERVED = some m1 → P m1) (x : Int) (ys : List Int) :
    ∀ (m : Grid) (s : σ) (r : Grid × σ), P m →
      reserveColumn R fill x ys m s = some r → P r.1 := by
  induction ys with
  | nil => intro m s r h0 hs; unfold reserveColumn at hs; cases hs; exact h0
  | cons y rest ih =>
    intro m s r h0 hs
    unfold reserveColumn at hs
    split_ifs at hs
    · split at hs
      · rename_i m1 h1
        exact ih _ _ _ (hP _ _ _ _ h0 h1) hs
      · exact Option.noConfusion hs
    · exact ih _ _ _ h0 hs

theorem reserveCells_preserves {σ : Type} {R : RandomSource σ} {fill : Frac} (P : Grid → Prop)
    (hP : ∀ m x y m1, P m → m.write x y RESERVED = some m1 → P m1) (h : Int) (xs : List Int) :
    ∀ (m : Grid) (s : σ) (r : Grid × σ), P m →
      reserveCells R fill h xs m s = some r → P r.1 := by
  induction xs with
  | nil => intro m s r h0 hs; unfold reserveCells at hs; cases hs; exact h0
  | cons x rest ih =>
    intro m s r h0 hs
    unfold reserveCells at hs
    split at hs
    · rename_i m1 s1 h1
      exact ih _ _ _ (reserveColumn_preserves P hP x _ _ _ _ h0 h1) hs
    · exact Option.noConfusion hs

theorem seedReservations_preserves {σ : Type} {R : RandomSource σ} {fill : Frac}
    (P : Grid → Prop)
    (hP : ∀ m x y m1, P m → m.write x y RESERVED = some m1 → P m1) {w h : Int}
    {m : Grid} {s : σ} {r : Grid × σ} (h0 : P m)
    (hs : seedReservations R fill w h m s = some r) : P r.1 := by
  unfold seedReservations at hs
  split_ifs at hs
  · exact reserveCells_preserves P hP _ _ _ _ _ h0 hs
  · cases hs; exact h0

/-! ## Symmetry of the Passage set -/

theorem solid_read {w h : Int} {m : Grid} (hs : Grid.solid w h = some m) (x y v : Int)
    (hr : m.read x y = some v) : v = SOLID := by
  unfold Grid.solid at hs
  split_ifs at hs
  cases hs
  unfold Grid.read at hr
  split_ifs at hr
  split at hr
  · rename_i col hcol
    rw [List.getElem?_replicate] at hcol
    split_ifs at hcol
    cases hcol
    rw [List.getElem?_replicate] at hr
    split_ifs at hr
    exact (Option.some.inj hr).symm
  · exact Option.noConfusion hr

/-- After `setMaze(.., EMPTY, ..)` the Passage cells are the old ones and the written ones. -/
theorem setMaze_passage {m m1 : Grid} {x y : Int} {c : MazeConfig} {w h : Int}
    (hs : setMaze m x y EMPTY c w h = some m1) :
    ∃ x1 y1, cmod (x + w) w = some x1 ∧ cmod (y + h) h = some y1 ∧
      ∀ p q, m1.read p q = some EMPTY ↔ (m.read p q = some EMPTY ∨ Written c w h x1 y1 p q) := by
  classical
  obtain ⟨x1, y1, hx, hy, hup⟩ := setMaze_spec hs
  refine ⟨x1, y1, hx, hy, fun p q => ?_⟩
  by_cases hW : Written c w h x1 y1 p q
  · simp [(hup.1 p q hW).1, hW]
  · simp [hup.2 p q hW, hW]

theorem written_mirrorH {c : MazeConfig} {w h x1 y1 p q : Int}
    (hsym : c.horizontal.symmetry = true) (h1 : mirrorCoord c.horizontal w p < w) :
    Written c w h x1 y1 p q → Written c w h x1 y1 (mirrorCoord c.horizontal w p) q := by
  unfold Written mirrorCoord at *
  simp only [hsym, true_and]
  rintro (⟨h2, h3⟩ | ⟨h2, h3, h4⟩ | ⟨h2, h3, h4, h5, h6⟩ | ⟨h2, h3, h4, h5⟩)
  · exact Or.inr (Or.inl ⟨by omega, by omega, h3⟩)
  · exact Or.inl ⟨by omega, h4⟩
  · exact Or.inr (Or.inr (Or.inr ⟨h3, h4, by omega, h6⟩))
  · exact Or.inr (Or.inr (Or.inl ⟨by omega, h2, h3, by omega, h5⟩))

theorem written_mirrorV {c : MazeConfig} {w h x1 y1 p q : Int}
    (hsym : c.vertical.symmetry = true) (h1 : mirrorCoord c.vertical h q < h) :
    Written c w h x1 y1 p q → Written c w h x1 y1 p (mirrorCoord c.vertical h q) := by
  unfold Written mirrorCoord at *
  simp only [hsym, true_and]
  rintro (⟨h2, h3⟩ | ⟨h2, h3, h4, h5⟩ | ⟨h2, h3, h4, h5, h6⟩ | ⟨h2, h3, h4⟩)
  · exact Or.inr (Or.inr (Or.inr ⟨by omega, h2, by omega⟩))
  · exact Or.inr (Or.inr (Or.inl ⟨h2, h3, by omega, h4, by omega⟩))
  · exact Or.inr (Or.inl ⟨h2, h3, h5, by omega⟩)
  · exact Or.inl ⟨h3, by omega⟩

theorem mirrorCoord_involutive (a : Axis) (size c : Int) :
    mirrorCoord a size (mirrorCoord a size c) = c := by
  unfold mirrorCoord
  omega

theorem setMaze_mirrorH {c : MazeConfig} {w h : Int} (hsym : c.horizontal.symmetry = true)
    (m : Grid) (x y : Int) (m1 : Grid) (h0 : MirrorH c w m)
    (hs : setMaze m x y EMPTY c w h = some m1) : MirrorH c w m1 := by
  obtain ⟨x1, y1, -, -, hp⟩ := setMaze_passage hs
  intro p q hp0 hp1 hm0 hm1
  rw [hp, hp, h0 p q hp0 hp1 hm0 hm1]
  constructor
  · rintro (hl | hr)
    · exact Or.inl hl
    · exact Or.inr (written_mirrorH hsym hm1 hr)
  · rintro (hl | hr)
    · exact Or.inl hl
    · have := written_mirrorH (p := mirrorCoord c.horizontal w p) hsym
        (by rw [mirrorCoord_involutive]; exact hp1) hr
      rw [mirrorCoord_involutive] at this
      exact Or.inr this

theorem setMaze_mirrorV {c : MazeConfig} {w h : Int} (hsym : c.vertical.symmetry = true)
    (m : Grid) (x y : Int) (m1 : Grid) (h0 : MirrorV c h m)
    (hs : setMaze m x y EMPTY c w h = some m1) : MirrorV c h m1 := by
  obtain ⟨x1, y1, -, -, hp⟩ := setMaze_passage hs
  intro p q hq0 hq1 hm0 hm1
  rw [hp, hp, h0 p q hq0 hq1 hm0 hm1]
  constructor
  · rintro (hl | hr)
    · exact Or.inl hl
    · exact Or.inr (written_mirrorV hsym hm1 hr)
  · rintro (hl | hr)
    · exact Or.inl hl
    · have := written_mirrorV (q := mirrorCoord c.vertical h q) hsym
        (by rw [mirrorCoord_involutive]; exact hq1) hr
      rw [mirrorCoord_involutive] at this
      exact Or.inr this

theorem write_noPassage (m : Grid) (x y : Int) (m1 : Grid) (h0 : NoPassage m)
    (hw : m.write x y RESERVED = some m1) : NoPassage m1 := by
  intro p q hpq
  by_cases hc : p = x ∧ q = y
  · rw [(read_write hw p q).1 hc] at hpq
    exact absurd (Option.some.inj hpq) (by decide)
  · rw [(read_write hw p q).2 hc] at hpq
    exact h0 p q hpq

theorem write_statesOnly (m : Grid) (x y : Int) (m1 : Grid) (h0 : StatesOnly m)
    (hw : m.write x y RESERVED = some m1) : StatesOnly m1 := by
  intro p q v hpq
  by_cases hc : p = x ∧ q = y
  · rw [(read_write hw p q).1 hc] at hpq
    exact Or.inr (Or.inl (Option.some.inj hpq).symm)
  · rw [(read_write hw p q).2 hc] at hpq
    exact h0 p q v hpq

theorem setMaze_statesOnly {c : MazeConfig} {w h : Int} (m : Grid) (x y : Int) (m1 : Grid)
    (h0 : StatesOnly m) (hs : setMaze m x y EMPTY c w h = some m1) : StatesOnly m1 := by
  classical
  obtain ⟨x1, y1, -, -, hup⟩ := setMaze_spec hs
  intro p q v hpq
  by_cases hW : Written c w h x1 y1 p q
  · rw [(hup.1 p q hW).1] at hpq
    exact Or.inl (Option.some.inj hpq).symm
  · rw [hup.2 p q hW] at hpq
    exact h0 p q v hpq

/-! ## Invariants of the whole pipeline -/

/-- A grid property `P` that holds for the solid grid and is kept by the seeder's writes,
and a property `Q` that follows from `P` and is kept by `setMaze(.., EMPTY, ..)`: `Q` holds
when the carver loop has finished. -/
theorem carved_invariant {σ : Type} {R : RandomSource σ} {entropy : Nat} {w h : Int}
    {c : MazeConfig} (P Q : Grid → Prop)
    (h0 : ∀ m0, Grid.solid (normalizeSize c.horizontal w) (normalizeSize c.vertical h) = some m0 →
      P m0)
    (hW : ∀ m x y m1, P m → m.write x y RESERVED = some m1 → P m1)
    (hPQ : ∀ m, P m → Q m)
    (hS : ∀ m x y m1, Q m →
      setMaze m x y EMPTY c (normalizeSize c.horizontal w) (normalizeSize c.vertical h) = some m1 →
      Q m1)
    {st : CarveState σ} (hc : carved R entropy w h c = some st) : Q st.maze := by
  unfold carved at hc
  split at hc
  · exact Option.noConfusion hc
  · rename_i m0 hm0
    split at hc
    · exact Option.noConfusion hc
    · rename_i m1 s1 hseed
      have h1 : P m1 := seedReservations_preserves P hW (h0 m0 hm0) hseed
      exact carveLoop_preserves Q hS _ _ _ (hPQ _ h1) hc

theorem imperfected_invariant {σ : Type} {R : RandomSource σ} {entropy : Nat} {w h : Int}
    {c : MazeConfig} (P Q : Grid → Prop)
    (h0 : ∀ m0, Grid.solid (normalizeSize c.horizontal w) (normalizeSize c.vertical h) = some m0 →
      P m0)
    (hW : ∀ m x y m1, P m → m.write x y RESERVED = some m1 → P m1)
    (hPQ : ∀ m, P m → Q m)
    (hS : ∀ m x y m1, Q m →
      setMaze m x y EMPTY c (normalizeSize c.horizontal w) (normalizeSize c.vertical h) = some m1 →
      Q m1)
    {r : Grid × List DeadEnd} (hc : imperfected R entropy w h c = some r) : Q r.1 := by
  unfold imperfected at hc
  split at hc
  · exact Option.noConfusion hc
  · rename_i st hst
    split at hc
    · exact Option.noConfusion hc
    · rename_i m s hm
      cases hc
      have hfin := addImperfections_preserves Q hS (carved_invariant P Q h0 hW hPQ hS hst) hm
      exact hfin

/-- Without rooms (`roomsFraction <= 0`) the returned grid is the grid of `imperfected`. -/
theorem generate_eq_imperfected {σ : Type} {R : RandomSource σ} {entropy : Nat} {w h : Int}
    {c : MazeConfig} (hrooms : c.roomsFraction.num ≤ 0) {g : Grid}
    (hg : generate R entropy w h c = some g) :
    ∃ d, imperfected R entropy w h c = some (g, d) := by
  have hlt : Frac.lt (Frac.ofInt 0) c.roomsFraction = false := by
    simp only [Frac.lt, Frac.ofInt, decide_eq_false_iff_not]
    omega
  unfold generate at hg
  rw [hlt] at hg
  split at hg
  · exact Option.noConfusion hg
  · rename_i m d hm
    simp only [Bool.false_eq_true, if_false] at hg
    cases hg
    exact ⟨d, hm⟩

theorem solid_noPassage {w h : Int} (m0 : Grid) (hs : Grid.solid w h = some m0) :
    NoPassage m0 := by
  intro x y hxy
  exact absurd (solid_read hs x y _ hxy) (by decide)

theorem solid_statesOnly {w h : Int} (m0 : Grid) (hs : Grid.solid w h = some m0) :
    StatesOnly m0 := fun x y v hv => Or.inr (Or.inr (solid_read hs x y v hv))

theorem noPassage_mirrorH (c : MazeConfig) (w : Int) (m : Grid) (h0 : NoPassage m) :
    MirrorH c w m := fun _ _ _ _ _ _ => ⟨fun h => absurd h (h0 _ _), fun h => absurd h (h0 _ _)⟩

theorem noPassage_mirrorV (c : MazeConfig) (h : Int) (m : Grid) (h0 : NoPassage m) :
    MirrorV c h m := fun _ _ _ _ _ _ => ⟨fun h => absurd h (h0 _ _), fun h => absurd h (h0 _ _)⟩

theorem solid_dom {w h : Int} (m0 : Grid) (hs : Grid.solid w h = some m0) : Dom w h m0 := by
  unfold Grid.solid at hs
  split_ifs at hs with hwh
  cases hs
  intro x y
  constructor
  · intro hsome
    obtain ⟨v, hv⟩ := Option.isSome_iff_exists.1 hsome
    unfold Grid.read at hv
    split_ifs at hv with h0
    split at hv
    · rename_i col hcol
      rw [List.getElem?_replicate] at hcol
      split_ifs at hcol with hx
      cases hcol
      rw [List.getElem?_replicate] at hv
      split_ifs at hv with hy
      refine ⟨h0.1, ?_, h0.2, ?_⟩ <;> omega
    · exact Option.noConfusion hv
  · rintro ⟨hx0, hx1, hy0, hy1⟩
    have hx : x.toNat < w.toNat := by omega
    have hy : y.toNat < h.toNat := by omega
    simp [Grid.read, hx0, hy0, List.getElem?_replicate, hx, hy]

theorem write_dom {w h : Int} {v : Int} (m : Grid) (x y : Int) (m1 : Grid) (h0 : Dom w h m)
    (hw : m.write x y v = some m1) : Dom w h m1 := by
  intro p q
  rw [← h0 p q]
  by_cases hc : p = x ∧ q = y
  · obtain ⟨c0, hc0⟩ := read_of_write hw
    rw [(read_write hw p q).1 hc, hc.1, hc.2, hc0]
    rfl
  · rw [(read_write hw p q).2 hc]

theorem updated_dom {w h : Int} {v : Int} {S : Int → Int → Prop} {m m1 : Grid}
    (h0 : Dom w h m) (hu : Updated m m1 v S) : Dom w h m1 := by
  classical
  intro p q
  rw [← h0 p q]
  by_cases hS : S p q
  · rw [(hu.1 p q hS).1, (hu.1 p q hS).2]
    rfl
  · rw [hu.2 p q hS]

theorem setMaze_dom {c : MazeConfig} {w h : Int} {v : Int} (m : Grid) (x y : Int) (m1 : Grid)
    (h0 : Dom w h m) (hs : setMaze m x y v c w h = some m1) : Dom w h m1 := by
  obtain ⟨x1, y1, -, -, hup⟩ := setMaze_spec hs
  exact updated_dom h0 hup

/-- Cells holding cell states export equal tiles exactly when both or neither is Passage. -/
theorem tile_eq_of_passage_iff {m : Grid} (hst : StatesOnly m) {x y p q : Int} {a b : Int}
    (ha : m.read x y = some a) (hb : m.read p q = some b)
    (hiff : m.read x y = some EMPTY ↔ m.read p q = some EMPTY) :
    convertTileValue a = convertTileValue b := by
  rw [ha, hb] at hiff
  have hab : a = EMPTY ↔ b = EMPTY := by
    constructor
    · intro h; exact Option.some.inj (hiff.1 (by rw [h]))
    · intro h; exact Option.some.inj (hiff.2 (by rw [h]))
  rcases hst x y a ha with h1 | h1 | h1 <;> rcases hst p q b hb with h2 | h2 | h2 <;>
    subst h1 <;> subst h2 <;> first
      | rfl
      | exact absurd (hab.1 rfl) (by decide)
      | exact absurd (hab.2 rfl) (by decide)

/-- Without rooms, a cell of the returned grid and its mirror image are both Passage or
both not, and their exported tile values are equal. -/
theorem norooms_mirror_tiles {σ : Type} (R : RandomSource σ) (entropy : Nat) (w h : Int)
    (c : MazeConfig) (g : Grid) (hrooms : c.roomsFraction.num ≤ 0)
    (hg : generate R entropy w h c = some g) :
    (c.horizontal.symmetry = true → ∀ x y a b,
      g.read x y = some a →
      g.read (mirrorCoord c.horizontal (normalizeSize c.horizontal w) x) y = some b →
      ((a = EMPTY ↔ b = EMPTY) ∧ convertTileValue a = convertTileValue b)) ∧
    (c.vertical.symmetry = true → ∀ x y a b,
      g.read x y = some a →
      g.read x (mirrorCoord c.vertical (normalizeSize c.vertical h) y) = some b →
      ((a = EMPTY ↔ b = EMPTY) ∧ convertTileValue a = convertTileValue b)) := by
  obtain ⟨d, hi⟩ := generate_eq_imperfected hrooms hg
  have hst : StatesOnly g :=
    imperfected_invariant StatesOnly StatesOnly solid_statesOnly write_statesOnly
      (fun _ hm => hm) setMaze_statesOnly hi
  have hdom : Dom (normalizeSize c.horizontal w) (normalizeSize c.vertical h) g :=
    imperfected_invariant (Dom _ _) (Dom _ _) solid_dom write_dom (fun _ hm => hm) setMaze_dom hi
  constructor
  · intro hsym x y a b ha hb
    have hM : MirrorH c (normalizeSize c.horizontal w) g :=
      imperfected_invariant NoPassage (MirrorH c _) solid_noPassage write_noPassage
        (noPassage_mirrorH c _) (setMaze_mirrorH hsym) hi
    have hx := (hdom x y).1 (by rw [ha]; rfl)
    have hmx := (hdom _ y).1 (by rw [hb]; rfl)
    have hiff := hM x y hx.1 hx.2.1 hmx.1 hmx.2.1
    refine ⟨?_, tile_eq_of_passage_iff hst ha hb hiff⟩
    rw [ha, hb] at hiff
    exact ⟨fun h1 => Option.some.inj (hiff.1 (by rw [h1])),
      fun h1 => Option.some.inj (hiff.2 (by rw [h1]))⟩
  · intro hsym x y a b ha hb
    have hM : MirrorV c (normalizeSize c.vertical h) g :=
      imperfected_invariant NoPassage (MirrorV c _) solid_noPassage write_noPassage
        (noPassage_mirrorV c _) (setMaze_mirrorV hsym) hi
    have hy := (hdom x y).1 (by rw [ha]; rfl)
    have hmy := (hdom x _).1 (by rw [hb]; rfl)
    have hiff := hM x y hy.2.2.1 hy.2.2.2 hmy.2.2.1 hmy.2.2.2
    refine ⟨?_, tile_eq_of_passage_iff hst ha hb hiff⟩
    rw [ha, hb] at hiff
    exact ⟨fun h1 => Option.some.inj (hiff.1 (by rw [h1])),
      fun h1 => Option.some.inj (hiff.2 (by rw [h1]))⟩

/-! ## The code on sample inputs -/

set_option maxRecDepth 1000000 in
/-- C2 (counterexample): `generate(12, 10)` with horizontal symmetry, a border, `fill = 0`,
no rooms and the seed 8, on the stream of `std::mt19937`: the returned 11 by 9 grid holds
Reserved at `(1, 7)` and Solid at the mirror cell `(9, 7)`. -/
theorem generate_mirror_states_differ :
    mirroredSparseEight.horizontal.symmetry = true ∧
    normalizeSize mirroredSparseEight.horizontal 12 = 11 ∧
    mirrorCoord mirroredSparseEight.horizontal
      (normalizeSize mirroredSparseEight.horizontal 12) 1 = 9 ∧
    ∃ g, generate mt19937 0 12 10 mirroredSparseEight = some g ∧
      g.read 1 7 = some RESERVED ∧ g.read 9 7 = some SOLID :=
  ⟨by decide, by decide, by decide,
    [[255, 255, 255, 255, 255, 255, 255, 255, 255], [255, 0, 0, 0, 0, 0, 255, 127, 255],
     [255, 0, 255, 255, 255, 255, 255, 255, 255], [255, 0, 255, 0, 0, 0, 0, 0, 255],
     [255, 0, 255, 255, 255, 255, 255, 0, 255], [255, 0, 0, 0, 0, 0, 0, 0, 255],
     [255, 0, 255, 255, 255, 255, 255, 0, 255], [255, 0, 255, 0, 0, 0, 0, 0, 255],
     [255, 0, 255, 255, 255, 255, 255, 255, 255], [255, 0, 0, 0, 0, 0, 255, 255, 255],
     [255, 255, 255, 255, 255, 255, 255, 255, 255]],
    by decide, by decide, by decide⟩

set_option maxRecDepth 1000000 in
/-- C3 (the code at the failing input): with a border on both axes, no wrap and a room at
every dead end, the carve of the 5 by 5 grid records the dead ends `(1, 1)` and `(1, 3)`;
the room at `(1, 3)` spans the rows `1 .. 4`, so the returned grid has Passage cells in
its last row `y = 4`, which `convertTileValue` exports as floor. -/
theorem generate_rooms_break_border :
    effectiveWrap roomsEverywhere.vertical = false ∧ roomsEverywhere.vertical.border = 1 ∧
    normalizeSize roomsEverywhere.vertical 6 = 5 ∧
    imperfected lcg 0 6 6 roomsEverywhere =
      some ([[255, 255, 255, 255, 255], [255, 0, 255, 0, 255], [255, 0, 255, 0, 255],
        [255, 0, 0, 0, 255], [255, 255, 255, 255, 255]], [⟨1, 1⟩, ⟨1, 3⟩]) ∧
    addRooms [[255, 255, 255, 255, 255], [255, 0, 255, 0, 255], [255, 0, 255, 0, 255],
        [255, 0, 0, 0, 255], [255, 255, 255, 255, 255]] [⟨1, 1⟩, ⟨1, 3⟩] roomsEverywhere =
      some [[255, 255, 255, 255, 255], [255, 0, 0, 0, 0], [255, 0, 0, 0, 0],
        [255, 0, 0, 0, 255], [255, 255, 255, 255, 255]] ∧
    generate lcg 0 6 6 roomsEverywhere =
      some [[255, 255, 255, 255, 255], [255, 0, 0, 0, 0], [255, 0, 0, 0, 0],
        [255, 0, 0, 0, 255], [255, 255, 255, 255, 255]] ∧
    Grid.read [[255, 255, 255, 255, 255], [255, 0, 0, 0, 0], [255, 0, 0, 0, 0],
        [255, 0, 0, 0, 255], [255, 255, 255, 255, 255]] 1 4 = some EMPTY ∧
    convertTileValue EMPTY = 1 := by
  refine ⟨by decide, by decide, by decide, by decide, by decide, by decide, by decide,
    by decide⟩

set_option maxRecDepth 1000000 in
/-- C9 (the code at the failing input): with horizontal symmetry, a border and rooms, the
two values of the `loop` flag of the horizontal axis give the same carve and dead ends,
and `addRooms` turns them into different grids: with `loop = true` the restoring copy
writes column `3 - x` instead of column `4 - x`. -/
theorem generate_loop_flag_matters :
    (mirroredRooms true 42).horizontal.symmetry = true ∧
    (mirroredRooms true 42).horizontal.border = 1 ∧
    mirroredRooms true 42 = withHorizontalLoop (mirroredRooms false 42) true ∧
    imperfected lcg 0 6 6 (mirroredRooms true 42) = some (mirroredCarve, [⟨1, 1⟩, ⟨1, 3⟩]) ∧
    imperfected lcg 0 6 6 (mirroredRooms false 42) = some (mirroredCarve, [⟨1, 1⟩, ⟨1, 3⟩]) ∧
    generate lcg 0 6 6 (mirroredRooms true 42) =
      some [[255, 255, 255, 255, 255], [255, 0, 0, 0, 0], [255, 0, 0, 0, 0],
        [255, 255, 255, 255, 255], [255, 255, 255, 255, 255]] ∧
    generate lcg 0 6 6 (mirroredRooms false 42) =
      some [[255, 255, 255, 255, 255], [255, 0, 0, 0, 0], [255, 0, 0, 0, 0],
        [255, 0, 0, 0, 0], [255, 255, 255, 255, 255]] ∧
    generate lcg 0 6 6 (mirroredRooms true 42) ≠ generate lcg 0 6 6 (mirroredRooms false 42) := by
  refine ⟨by decide, by decide, by decide, by decide, by decide, by decide, by decide,
    by decide⟩

set_option maxRecDepth 1000000 in
/-- C8 (counterexample): `generate(8, 8)` with horizontal symmetry, a border, no loop,
`roomsFraction = 1` and the seed 6, on the stream of `std::mt19937`.  The carve records the
dead ends `(1, 1)`, `(5, 5)`, `(3, 1)`; the room loop turns `(5, 4)` into Passage, and the
symmetry-restoring copy overwrites it with the Solid cell `(1, 4)`: the cell is Solid in
the returned grid. -/
theorem generate_rooms_revert_passage :
    ∃ m d g1 g, imperfected mt19937 0 8 8 (mirroredRooms false 6) = some (m, d) ∧
      d = [⟨1, 1⟩, ⟨5, 5⟩, ⟨3, 1⟩] ∧
      roomsCarved m d (mirroredRooms false 6) = some g1 ∧
      generate mt19937 0 8 8 (mirroredRooms false 6) = some g ∧
      m.read 5 4 = some SOLID ∧ g1.read 5 4 = some EMPTY ∧ g.read 5 4 = some SOLID :=
  ⟨[[255, 255, 255, 255, 255, 255, 255], [255, 0, 0, 0, 255, 0, 255],
     [255, 255, 255, 0, 255, 0, 255], [255, 0, 0, 0, 0, 0, 255],
     [255, 255, 255, 0, 255, 0, 255], [255, 0, 0, 0, 255, 0, 255],
     [255, 255, 255, 255, 255, 255, 255]],
    [⟨1, 1⟩, ⟨5, 5⟩, ⟨3, 1⟩],
    [[255, 255, 255, 255, 255, 255, 255], [255, 0, 0, 0, 255, 0, 255],
     [255, 0, 0, 0, 0, 0, 0], [255, 0, 0, 0, 0, 0, 0], [255, 0, 0, 0, 0, 0, 0],
     [255, 0, 0, 0, 0, 0, 0], [255, 255, 255, 255, 255, 255, 255]],
    [[255, 255, 255, 255, 255, 255, 255], [255, 0, 0, 0, 255, 0, 255],
     [255, 0, 0, 0, 0, 0, 0], [255, 0, 0, 0, 0, 0, 0], [255, 0, 0, 0, 0, 0, 0],
     [255, 0, 0, 0, 255, 0, 255], [255, 255, 255, 255, 255, 255, 255]],
    by decide, rfl, by decide, by decide, by decide, by decide, by decide⟩

/-! ## Cells only move to Passage -/

theorem passageKept_refl (m : Grid) : PassageKept m m := fun _ _ hxy => hxy

theorem passageKept_trans {m m1 m2 : Grid} (h1 : PassageKept m m1) (h2 : PassageKept m1 m2) :
    PassageKept m m2 := fun x y hxy => h2 x y (h1 x y hxy)

theorem setMaze_passageKept {c : MazeConfig} {w h : Int} {m m1 : Grid} {x y : Int}
    (hs : setMaze m x y EMPTY c w h = some m1) : PassageKept m m1 := by
  obtain ⟨x1, y1, -, -, hp⟩ := setMaze_passage hs
  intro p q hpq
  exact (hp p q).2 (Or.inl hpq)

theorem write_passageKept {m m1 : Grid} {x y : Int} (hw : m.write x y EMPTY = some m1) :
    PassageKept m m1 := by
  intro p q hpq
  by_cases hc : p = x ∧ q = y
  · exact (read_write hw p q).1 hc
  · rw [(read_write hw p q).2 hc]
    exact hpq

theorem carveColumn_passageKept (x : Int) (ys : List Int) :
    ∀ m m1, carveColumn x ys m = some m1 → PassageKept m m1 := by
  induction ys with
  | nil => intro m m1 hs; unfold carveColumn at hs; cases hs; exact passageKept_refl m
  | cons y rest ih =>
    intro m m1 hs
    unfold carveColumn at hs
    split at hs
    · rename_i m2 h2
      exact passageKept_trans (write_passageKept h2) (ih _ _ hs)
    · exact Option.noConfusion hs

theorem carveRect_passageKept (ys xs : List Int) :
    ∀ m m1, carveRect ys xs m = some m1 → PassageKept m m1 := by
  induction xs with
  | nil => intro m m1 hs; unfold carveRect at hs; cases hs; exact passageKept_refl m
  | cons x rest ih =>
    intro m m1 hs
    unfold carveRect at hs
    split at hs
    · rename_i m2 h2
      exact passageKept_trans (carveColumn_passageKept x ys _ _ h2) (ih _ _ hs)
    · exact Option.noConfusion hs

theorem carveRooms_passageKept (c : MazeConfig) (w h a b : Int) (d : List DeadEnd)
    (idx : List Nat) : ∀ m m1, carveRooms c w h a b d idx m = some m1 → PassageKept m m1 := by
  induction idx with
  | nil => intro m m1 hs; unfold carveRooms at hs; cases hs; exact passageKept_refl m
  | cons i rest ih =>
    intro m m1 hs
    unfold carveRooms at hs
    split at hs
    · exact Option.noConfusion hs
    · split at hs
      · rename_i m2 h2
        exact passageKept_trans (carveRect_passageKept _ _ _ _ h2) (ih _ _ hs)
      · exact Option.noConfusion hs

theorem roomsCarved_passageKept {c : MazeConfig} {d : List DeadEnd} {m m1 : Grid}
    (hs : roomsCarved m d c = some m1) : PassageKept m m1 := by
  unfold roomsCarved at hs
  split at hs
  · exact Option.noConfusion hs
  · exact carveRooms_passageKept _ _ _ _ _ _ _ _ _ hs

/-- Without symmetry `addRooms` is its room loop. -/
theorem addRooms_eq_roomsCarved {c : MazeConfig} (hh : c.horizontal.symmetry = false)
    (hv : c.vertical.symmetry = false) (m : Grid) (d : List DeadEnd) :
    addRooms m d c = roomsCarved m d c := by
  unfold addRooms
  cases m with
  | nil => simp [roomsCarved]
  | cons col rest =>
    simp only
    cases roomsCarved (col :: rest) d c with
    | none => rfl
    | some m1 => simp [restoreSymmetry, hh, hv]

/-! ## Connectivity of the carve -/

theorem tmod_cases (n w : Int) (h0 : 0 ≤ n) (hw : 0 < w) (h3 : n < 3 * w) :
    (n < w ∧ Int.tmod n w = n) ∨ (w ≤ n ∧ n < 2 * w ∧ Int.tmod n w = n - w) ∨
      (2 * w ≤ n ∧ Int.tmod n w = n - 2 * w) := by
  rw [Int.tmod_eq_emod h0 (le_of_lt hw)]
  by_cases h1 : n < w
  · exact Or.inl ⟨h1, Int.emod_eq_of_lt h0 h1⟩
  · by_cases h2 : n < 2 * w
    · refine Or.inr (Or.inl ⟨by omega, h2, ?_⟩)
      have : n % w = (n - w) % w := by
        rw [Int.sub_emod, Int.emod_self, sub_zero, Int.emod_emod_of_dvd _ (dvd_refl w)]
      rw [this]
      exact Int.emod_eq_of_lt (by omega) (by omega)
    · refine Or.inr (Or.inr ⟨by omega, ?_⟩)
      have : n % w = (n - 2 * w) % w := by
        rw [Int.sub_emod, Int.mul_emod_left, sub_zero, Int.emod_emod_of_dvd _ (dvd_refl w)]
      rw [this]
      exact Int.emod_eq_of_lt (by omega) (by omega)

theorem cmod_inRange (a w : Int) (h0 : 0 ≤ a) (h1 : a < w) : cmod (a + w) w = some a := by
  unfold cmod
  rw [if_neg (by omega)]
  rcases tmod_cases (a + w) w (by omega) (by omega) (by omega) with h | h | h
  · omega
  · rw [h.2.2]; congr 1; omega
  · omega

/-- The wall between a cell and its neighbour two steps away is adjacent to both. -/
theorem wall_adjacent (wrap : Bool) (w a s x : Int) (hs : s = 1 ∨ s = -1)
    (ha0 : 0 ≤ a) (ha1 : a < w) (hw : wrap = true → 2 ≤ w)
    (hx : (if wrap = true then cmod (a + s * 2 + w) w else some (a + s * 2)) = some x)
    (hx0 : 0 ≤ x) (hx1 : x < w) :
    ∃ wx, cmod (x - s + w) w = some wx ∧ adjacentCoord wrap w a wx ∧ adjacentCoord wrap w wx x := by
  unfold cmod adjacentCoord
  rw [if_neg (by omega)]
  refine ⟨_, rfl, ?_⟩
  cases wrap with
  | false =>
    simp only [Bool.false_eq_true, if_false, Option.some.injEq] at hx
    simp only [Bool.false_eq_true, false_and, or_false]
    rcases tmod_cases (x - s + w) w (by omega) (by omega) (by omega) with h | h | h <;>
      rcases hs with hs | hs <;> constructor <;> omega
  | true =>
    have hw2 := hw rfl
    simp only [if_true] at hx
    unfold cmod at hx
    rw [if_neg (by omega)] at hx
    have hx2 := Option.some.inj hx
    simp only [true_and]
    rcases tmod_cases (a + s * 2 + w) w (by omega) (by omega) (by omega) with h | h | h <;>
      rcases tmod_cases (x - s + w) w (by omega) (by omega) (by omega) with h4 | h4 | h4 <;>
      rcases hs with hs | hs <;> constructor <;> omega

/-- A step of zero leaves the coordinate where it is. -/
theorem still_coord (wrap : Bool) (w a x : Int) (ha0 : 0 ≤ a) (ha1 : a < w)
    (hx : (if wrap = true then cmod (a + 0 * 2 + w) w else some (a + 0 * 2)) = some x) :
    x = a ∧ cmod (x - 0 + w) w = some a := by
  have hxa : x = a := by
    cases wrap with
    | false => simpa using hx.symm
    | true =>
      simp only [if_true, zero_mul, add_zero] at hx
      rw [cmod_inRange a w ha0 ha1] at hx
      exact (Option.some.inj hx).symm
  subst hxa
  exact ⟨rfl, by rw [sub_zero]; exact cmod_inRange x w ha0 ha1⟩

theorem reachable_mono {c : MazeConfig} {w h : Int} {m m1 : Grid} (hk : PassageKept m m1)
    {p q : Int × Int} (hr : Reachable c w h m p q) : Reachable c w h m1 p q :=
  ⟨hk _ _ hr.1, Relation.ReflTransGen.mono (fun _ b hab => ⟨hab.1, hk b.1 b.2 hab.2⟩) hr.2⟩

theorem reachable_step {c : MazeConfig} {w h : Int} {m : Grid} {p q r : Int × Int}
    (hr : Reachable c w h m p q) (ha : adjacent c w h q r) (hp : m.read r.1 r.2 = some EMPTY) :
    Reachable c w h m p r :=
  ⟨hr.1, Relation.ReflTransGen.tail hr.2 ⟨ha, hp⟩⟩

theorem entryLinked_mono {c : MazeConfig} {w h : Int} {m m1 : Grid} (hk : PassageKept m m1)
    {e : StackEntry} (he : EntryLinked c w h m e) : EntryLinked c w h m1 e := by
  obtain ⟨wx, wy, ox, oy, h1, h2, h3, h4, h5⟩ := he
  exact ⟨wx, wy, ox, oy, h1, h2, hk _ _ h3, h4, h5⟩

theorem swapAt_mem (l : List Direction) (i j : Nat) (d : Direction) (hd : d ∈ swapAt l i j) :
    d ∈ l := by
  unfold swapAt at hd
  split at hd
  · rename_i a b ha hb
    rcases List.mem_or_eq_of_mem_set hd with h1 | h1
    · rcases List.mem_or_eq_of_mem_set h1 with h2 | h2
      · exact h2
      · rw [h2]; exact List.getElem?_mem hb
    · rw [h1]; exact List.getElem?_mem ha
  · exact hd

theorem shuffleFrom_mem {σ : Type} (R : RandomSource σ) (i : Nat) :
    ∀ (l : List Direction) (s : σ) (d : Direction), d ∈ (shuffleFrom R i l s).1 → d ∈ l := by
  induction i with
  | zero => intro l s d hd; exact hd
  | succ n ih =>
    intro l s d hd
    unfold shuffleFrom at hd
    exact swapAt_mem _ _ _ _ (ih _ _ _ hd)

theorem prioritize_mem (l : List Direction) (step d : Direction) (hd : d ∈ prioritize l step) :
    d ∈ l := by
  unfold prioritize at hd
  split at hd
  · exact swapAt_mem _ _ _ _ hd
  · exact hd

/-- Without symmetry `setMaze` writes the wrapped target cell only. -/
theorem written_plain {c : MazeConfig} (hh : c.horizontal.symmetry = false)
    (hv : c.vertical.symmetry = false) (w h x1 y1 p q : Int) :
    Written c w h x1 y1 p q ↔ (p = x1 ∧ q = y1) := by
  unfold Written
  simp [hh, hv]

/-- The entries that the neighbour loop pushes: the step is one of the directions and the
cell, inside the grid, lies two steps from `cur` (modulo the size on a wrapping axis). -/
theorem pushNeighbours_spec (m : Grid) (hWrap vWrap : Bool) (w h : Int) (cur : StackEntry)
    (ign : Int) (ds : List Direction) :
    ∀ (stack : List StackEntry) (dead : Bool) (r : List StackEntry × Bool),
      pushNeighbours m hWrap vWrap w h cur ign ds stack dead = some r →
      ∀ e ∈ r.1, e ∈ stack ∨ (e.step ∈ ds ∧
        (if hWrap = true then cmod (cur.x + e.step.x * 2 + w) w
          else some (cur.x + e.step.x * 2)) = some e.x ∧
        (if vWrap = true then cmod (cur.y + e.step.y * 2 + h) h
          else some (cur.y + e.step.y * 2)) = some e.y ∧
        0 ≤ e.x ∧ e.x < w ∧ 0 ≤ e.y ∧ e.y < h) := by
  induction ds with
  | nil =>
    intro stack dead r hs e he
    unfold pushNeighbours at hs
    cases hs
    exact Or.inl he
  | cons step rest ih =>
    intro stack dead r hs e he
    unfold pushNeighbours at hs
    have lift : (e ∈ stack ∨ (e.step ∈ rest ∧
        (if hWrap = true then cmod (cur.x + e.step.x * 2 + w) w
          else some (cur.x + e.step.x * 2)) = some e.x ∧
        (if vWrap = true then cmod (cur.y + e.step.y * 2 + h) h
          else some (cur.y + e.step.y * 2)) = some e.y ∧
        0 ≤ e.x ∧ e.x < w ∧ 0 ≤ e.y ∧ e.y < h)) → (e ∈ stack ∨ (e.step ∈ step :: rest ∧
        (if hWrap = true then cmod (cur.x + e.step.x * 2 + w) w
          else some (cur.x + e.step.x * 2)) = some e.x ∧
        (if vWrap = true then cmod (cur.y + e.step.y * 2 + h) h
          else some (cur.y + e.step.y * 2)) = some e.y ∧
        0 ≤ e.x ∧ e.x < w ∧ 0 ≤ e.y ∧ e.y < h)) := by
      rintro (h1 | ⟨h1, h2⟩)
      · exact Or.inl h1
      · exact Or.inr ⟨List.mem_cons_of_mem _ h1, h2⟩
    split at hs
    · rename_i x y hx hy
      split_ifs at hs with hr
      · split at hs
        · rcases ih _ _ _ hs e he with h1 | h1
          · rcases List.mem_cons.1 h1 with h2 | h2
            · subst h2
              exact Or.inr ⟨List.mem_cons_self _ _, hx, hy, hr.1, hr.2.2.1, hr.2.1, hr.2.2.2⟩
            · exact Or.inl h2
          · exact lift (Or.inr h1)
        · exact lift (ih _ _ _ hs e he)
        · exact Option.noConfusion hs
      · exact lift (ih _ _ _ hs e he)
    · exact Option.noConfusion hs

/-- The two outcomes of one iteration of the carver. -/
theorem carveStep_cases {σ : Type} {R : RandomSource σ} {c : MazeConfig} {w h : Int}
    {cur : StackEntry} {st st1 : CarveState σ} (hs : carveStep R c w h cur st = some st1) :
    (unexplored st.maze cur.x cur.y st.ignoreReserved = some false ∧ st1 = st) ∨
    (unexplored st.maze cur.x cur.y st.ignoreReserved = some true ∧
      ∃ m1 dead, setMaze st.maze cur.x cur.y EMPTY c w h = some m1 ∧
        setMaze m1 (cur.x - cur.step.x) (cur.y - cur.step.y) EMPTY c w h = some st1.maze ∧
        pushNeighbours st1.maze (effectiveWrap c.horizontal) (effectiveWrap c.vertical) w h cur
          (st.ignoreReserved - 1) st1.directions st.stack true = some (st1.stack, dead) ∧
        (∀ d ∈ st1.directions, d ∈ st.directions)) := by
  unfold carveStep at hs
  cases hu : unexplored st.maze cur.x cur.y st.ignoreReserved with
  | none => simp [hu] at hs
  | some b =>
    cases b with
    | false =>
      simp only [hu] at hs
      cases hs
      exact Or.inl ⟨rfl, rfl⟩
    | true =>
      simp only [hu] at hs
      cases h1 : setMaze st.maze cur.x cur.y EMPTY c w h with
      | none => simp [h1] at hs
      | some m1 =>
        simp only [h1] at hs
        cases h2 : setMaze m1 (cur.x - cur.step.x) (cur.y - cur.step.y) EMPTY c w h with
        | none => simp [h2] at hs
        | some m2 =>
          simp only [h2] at hs
          split at hs
          · exact Option.noConfusion hs
          · rename_i stack1 dead hpush
            cases hs
            refine Or.inr ⟨rfl, m1, dead, rfl, h2, hpush, ?_⟩
            intro d hd
            simp only at hd
            split_ifs at hd
            · exact shuffleFrom_mem R _ _ _ _ (prioritize_mem _ _ _ hd)
            · exact shuffleFrom_mem R _ _ _ _ hd

theorem unexplored_some {m : Grid} {x y ign : Int} {b : Bool}
    (hu : unexplored m x y ign = some b) : ∃ v, m.read x y = some v := by
  unfold unexplored at hu
  split at hu
  · rename_i v hv; exact ⟨v, hv⟩
  · exact Option.noConfusion hu

/-- A pushed neighbour entry is linked to the cell it was pushed from. -/
theorem neighbour_linked {c : MazeConfig} {w h : Int}
    (hwH : effectiveWrap c.horizontal = true → 2 ≤ w)
    (hwV : effectiveWrap c.vertical = true → 2 ≤ h) {m : Grid} {cur e : StackEntry}
    (hcx0 : 0 ≤ cur.x) (hcx1 : cur.x < w) (hcy0 : 0 ≤ cur.y) (hcy1 : cur.y < h)
    (hp : m.read cur.x cur.y = some EMPTY) (hstep : UnitStep e.step)
    (hx : (if effectiveWrap c.horizontal = true then cmod (cur.x + e.step.x * 2 + w) w
      else some (cur.x + e.step.x * 2)) = some e.x)
    (hy : (if effectiveWrap c.vertical = true then cmod (cur.y + e.step.y * 2 + h) h
      else some (cur.y + e.step.y * 2)) = some e.y)
    (hex0 : 0 ≤ e.x) (hex1 : e.x < w) (hey0 : 0 ≤ e.y) (hey1 : e.y < h) :
    EntryLinked c w h m e := by
  unfold EntryLinked
  rcases hstep with ⟨h1, h2⟩ | ⟨h1, h2⟩ | ⟨h1, h2⟩ | ⟨h1, h2⟩
  · rw [h1] at hx; rw [h2] at hy; rw [h1, h2]
    obtain ⟨wx, hwx, ha, hb⟩ := wall_adjacent _ w cur.x 1 e.x (Or.inl rfl) hcx0 hcx1 hwH hx hex0 hex1
    obtain ⟨hye, hwy⟩ := still_coord _ h cur.y e.y hcy0 hcy1 hy
    exact ⟨wx, cur.y, cur.x, cur.y, hwx, hwy, hp, Or.inl ⟨rfl, ha⟩, Or.inl ⟨hye.symm, hb⟩⟩
  · rw [h1] at hx; rw [h2] at hy; rw [h1, h2]
    obtain ⟨wx, hwx, ha, hb⟩ := wall_adjacent _ w cur.x (-1) e.x (Or.inr rfl) hcx0 hcx1 hwH hx hex0 hex1
    obtain ⟨hye, hwy⟩ := still_coord _ h cur.y e.y hcy0 hcy1 hy
    exact ⟨wx, cur.y, cur.x, cur.y, hwx, hwy, hp, Or.inl ⟨rfl, ha⟩, Or.inl ⟨hye.symm, hb⟩⟩
  · rw [h1] at hx; rw [h2] at hy; rw [h1, h2]
    obtain ⟨wy, hwy, ha, hb⟩ := wall_adjacent _ h cur.y 1 e.y (Or.inl rfl) hcy0 hcy1 hwV hy hey0 hey1
    obtain ⟨hxe, hwx⟩ := still_coord _ w cur.x e.x hcx0 hcx1 hx
    exact ⟨cur.x, wy, cur.x, cur.y, hwx, hwy, hp, Or.inr ⟨rfl, ha⟩, Or.inr ⟨hxe.symm, hb⟩⟩
  · rw [h1] at hx; rw [h2] at hy; rw [h1, h2]
    obtain ⟨wy, hwy, ha, hb⟩ := wall_adjacent _ h cur.y (-1) e.y (Or.inr rfl) hcy0 hcy1 hwV hy hey0 hey1
    obtain ⟨hxe, hwx⟩ := still_coord _ w cur.x e.x hcx0 hcx1 hx
    exact ⟨cur.x, wy, cur.x, cur.y, hwx, hwy, hp, Or.inr ⟨rfl, ha⟩, Or.inr ⟨hxe.symm, hb⟩⟩

/-! ## Connectivity of the carve with symmetry -/

theorem mirrorOrSelf_range (a : Axis) (size x : Int) (h0 : 0 ≤ x) (h1 : x < size) :
    0 ≤ mirrorOrSelf a size x ∧ mirrorOrSelf a size x < size := by
  unfold mirrorOrSelf mirrorCoord
  split_ifs <;> constructor <;> omega

/-- Mirroring keeps neighbouring coordinates neighbouring. -/
theorem adjacentCoord_mirror (a : Axis) (size x y : Int) (hx0 : 0 ≤ x) (hx1 : x < size)
    (hy0 : 0 ≤ y) (hy1 : y < size) (hadj : adjacentCoord (effectiveWrap a) size x y) :
    adjacentCoord (effectiveWrap a) size (mirrorOrSelf a size x) (mirrorOrSelf a size y) := by
  unfold adjacentCoord mirrorOrSelf mirrorCoord at *
  cases hw : effectiveWrap a with
  | false =>
    rw [hw] at hadj
    simp only [Bool.false_eq_true, false_and, or_false, if_false] at hadj ⊢
    split_ifs <;> omega
  | true =>
    rw [hw] at hadj
    simp only [true_and, if_true] at hadj ⊢
    split_ifs <;> omega

/-- A cell that `setMaze` writes is the target or a mirror image of it, per axis. -/
theorem written_cases {c : MazeConfig} {w h x1 y1 p q : Int} (hW : Written c w h x1 y1 p q) :
    (p = x1 ∨ (c.horizontal.symmetry = true ∧ p = mirrorOrSelf c.horizontal w x1)) ∧
    (q = y1 ∨ (c.vertical.symmetry = true ∧ q = mirrorOrSelf c.vertical h y1)) := by
  unfold Written at hW
  unfold mirrorOrSelf
  rcases hW with ⟨h1, h2⟩ | ⟨h1, h2, h3, h4⟩ | ⟨h1, h2, h3, h4, h5, h6⟩ | ⟨h1, h2, h3, h4⟩
  · exact ⟨Or.inl h1, Or.inl h2⟩
  · exact ⟨Or.inr ⟨h1, by rw [if_pos h2]; exact h3⟩, Or.inl h4⟩
  · exact ⟨Or.inr ⟨h1, by rw [if_pos h2]; exact h5⟩, Or.inr ⟨h3, by rw [if_pos h4]; exact h6⟩⟩
  · exact ⟨Or.inl h3, Or.inr ⟨h1, by rw [if_pos h2]; exact h4⟩⟩

/-- The cells written with a target are closed under the horizontal mirror. -/
theorem written_mirrorOrSelfH {c : MazeConfig} {w h x1 y1 p q : Int}
    (hsym : c.horizontal.symmetry = true) (hW : Written c w h x1 y1 p q) :
    Written c w h x1 y1 (mirrorOrSelf c.horizontal w p) q := by
  unfold mirrorOrSelf
  split_ifs with hlt
  · exact written_mirrorH hsym hlt hW
  · exact hW

/-- The cells written with a target are closed under the vertical mirror. -/
theorem written_mirrorOrSelfV {c : MazeConfig} {w h x1 y1 p q : Int}
    (hsym : c.vertical.symmetry = true) (hW : Written c w h x1 y1 p q) :
    Written c w h x1 y1 p (mirrorOrSelf c.vertical h q) := by
  unfold mirrorOrSelf
  split_ifs with hlt
  · exact written_mirrorV hsym hlt hW
  · exact hW

theorem passage_mirrorOrSelfH {c : MazeConfig} {w h : Int} {m : Grid} (hdom : Dom w h m)
    (hM : MirrorH c w m) {x y : Int} (hp : m.read x y = some EMPTY) :
    m.read (mirrorOrSelf c.horizontal w x) y = some EMPTY := by
  have hx := (hdom x y).1 (by rw [hp]; rfl)
  unfold mirrorOrSelf
  split_ifs with hlt
  · exact (hM x y hx.1 hx.2.1 (by unfold mirrorCoord; split_ifs <;> omega) hlt).1 hp
  · exact hp

theorem passage_mirrorOrSelfV {c : MazeConfig} {w h : Int} {m : Grid} (hdom : Dom w h m)
    (hM : MirrorV c h m) {x y : Int} (hp : m.read x y = some EMPTY) :
    m.read x (mirrorOrSelf c.vertical h y) = some EMPTY := by
  have hy := (hdom x y).1 (by rw [hp]; rfl)
  unfold mirrorOrSelf
  split_ifs with hlt
  · exact (hM x y hy.2.2.1 hy.2.2.2 (by unfold mirrorCoord; split_ifs <;> omega) hlt).1 hp
  · exact hp

/-- The horizontal mirror image of a path of Passage cells is a path of Passage cells. -/
theorem reachable_mirrorH {c : MazeConfig} {w h : Int} {m : Grid} (hdom : Dom w h m)
    (hM : MirrorH c w m) {p q : Int × Int} (hr : Reachable c w h m p q) :
    Reachable c w h m (mirrorOrSelf c.horizontal w p.1, p.2)
      (mirrorOrSelf c.horizontal w q.1, q.2) := by
  obtain ⟨hp, hpath⟩ := hr
  refine ⟨passage_mirrorOrSelfH hdom hM hp, ?_⟩
  have key : ∀ r, Relation.ReflTransGen (passageStep c w h m) p r →
      m.read r.1 r.2 = some EMPTY ∧
      Relation.ReflTransGen (passageStep c w h m) (mirrorOrSelf c.horizontal w p.1, p.2)
        (mirrorOrSelf c.horizontal w r.1, r.2) := by
    intro r hr1
    induction hr1 with
    | refl => exact ⟨hp, Relation.ReflTransGen.refl⟩
    | @tail b r1 _ hstep ih =>
      obtain ⟨hb, hpathb⟩ := ih
      obtain ⟨hadj, hr1p⟩ := hstep
      refine ⟨hr1p, Relation.ReflTransGen.tail hpathb ⟨?_, passage_mirrorOrSelfH hdom hM hr1p⟩⟩
      have hbr := (hdom b.1 b.2).1 (by rw [hb]; rfl)
      have hrr := (hdom r1.1 r1.2).1 (by rw [hr1p]; rfl)
      rcases hadj with ⟨h1, h2⟩ | ⟨h1, h2⟩
      · exact Or.inl ⟨h1, adjacentCoord_mirror _ _ _ _ hbr.1 hbr.2.1 hrr.1 hrr.2.1 h2⟩
      · refine Or.inr ⟨?_, h2⟩
        show mirrorOrSelf c.horizontal w b.1 = mirrorOrSelf c.horizontal w r1.1
        rw [h1]
  exact (key q hpath).2

/-- The vertical mirror image of a path of Passage cells is a path of Passage cells. -/
theorem reachable_mirrorV {c : MazeConfig} {w h : Int} {m : Grid} (hdom : Dom w h m)
    (hM : MirrorV c h m) {p q : Int × Int} (hr : Reachable c w h m p q) :
    Reachable c w h m (p.1, mirrorOrSelf c.vertical h p.2)
      (q.1, mirrorOrSelf c.vertical h q.2) := by
  obtain ⟨hp, hpath⟩ := hr
  refine ⟨passage_mirrorOrSelfV hdom hM hp, ?_⟩
  have key : ∀ r, Relation.ReflTransGen (passageStep c w h m) p r →
      m.read r.1 r.2 = some EMPTY ∧
      Relation.ReflTransGen (passageStep c w h m) (p.1, mirrorOrSelf c.vertical h p.2)
        (r.1, mirrorOrSelf c.vertical h r.2) := by
    intro r hr1
    induction hr1 with
    | refl => exact ⟨hp, Relation.ReflTransGen.refl⟩
    | @tail b r1 _ hstep ih =>
      obtain ⟨hb, hpathb⟩ := ih
      obtain ⟨hadj, hr1p⟩ := hstep
      refine ⟨hr1p, Relation.ReflTransGen.tail hpathb ⟨?_, passage_mirrorOrSelfV hdom hM hr1p⟩⟩
      have hbr := (hdom b.1 b.2).1 (by rw [hb]; rfl)
      have hrr := (hdom r1.1 r1.2).1 (by rw [hr1p]; rfl)
      rcases hadj with ⟨h1, h2⟩ | ⟨h1, h2⟩
      · refine Or.inl ⟨?_, h2⟩
        show mirrorOrSelf c.vertical h b.2 = mirrorOrSelf c.vertical h r1.2
        rw [h1]
      · exact Or.inr ⟨h1, adjacentCoord_mirror _ _ _ _ hbr.2.2.1 hbr.2.2.2 hrr.2.2.1 hrr.2.2.2 h2⟩
  exact (key q hpath).2

/-- A cell written together with a cell that is reachable from a mirror image of `s` is
reachable from a mirror image of `s`. -/
theorem reachable_written {c : MazeConfig} {w h : Int} {m : Grid} (hdom : Dom w h m)
    (hMH : c.horizontal.symmetry = true → MirrorH c w m)
    (hMV : c.vertical.symmetry = true → MirrorV c h m) {s p0 : Int × Int} {a b x y : Int}
    (hsrc : Written c w h s.1 s.2 p0.1 p0.2) (hr : Reachable c w h m p0 (a, b))
    (hW : Written c w h a b x y) :
    ∃ p : Int × Int, Written c w h s.1 s.2 p.1 p.2 ∧ Reachable c w h m p (x, y) := by
  obtain ⟨hx, hy⟩ := written_cases hW
  rcases hx with hx | ⟨hsh, hx⟩ <;> rcases hy with hy | ⟨hsv, hy⟩
  · subst hx; subst hy
    exact ⟨p0, hsrc, hr⟩
  · subst hx; subst hy
    exact ⟨(p0.1, mirrorOrSelf c.vertical h p0.2), written_mirrorOrSelfV hsv hsrc,
      reachable_mirrorV hdom (hMV hsv) hr⟩
  · subst hx; subst hy
    exact ⟨(mirrorOrSelf c.horizontal w p0.1, p0.2), written_mirrorOrSelfH hsh hsrc,
      reachable_mirrorH hdom (hMH hsh) hr⟩
  · subst hx; subst hy
    have h1 := reachable_mirrorH hdom (hMH hsh) hr
    exact ⟨(mirrorOrSelf c.horizontal w p0.1, mirrorOrSelf c.vertical h p0.2),
      written_mirrorOrSelfV hsv (written_mirrorOrSelfH hsh hsrc),
      reachable_mirrorV hdom (hMV hsv) h1⟩

/-- One iteration of the carver keeps the invariant. -/
theorem carveStep_inv {σ : Type} {R : RandomSource σ} {c : MazeConfig} {w h : Int}
    (hwH : effectiveWrap c.horizontal = true → w % 2 = 0)
    (hwV : effectiveWrap c.vertical = true → h % 2 = 0) (s : Int × Int)
    {cur : StackEntry} {rest : List StackEntry} {st st1 : CarveState σ}
    (hstack : st.stack = cur :: rest) (hinv : CarveInv c w h s st)
    (hs : carveStep R c w h cur { st with stack := rest } = some st1) :
    CarveInv c w h s st1 := by
  obtain ⟨hdom, hdir, hMH, hMV, hphase⟩ := hinv
  rcases carveStep_cases hs with ⟨-, heq⟩ | ⟨hu, m1, dead, hs1, hs2, hpush, hds⟩
  · subst heq
    refine ⟨hdom, hdir, hMH, hMV, ?_⟩
    rcases hphase with ⟨hno, hst⟩ | ⟨hall, hst⟩
    · refine Or.inl ⟨hno, Or.inl ?_⟩
      rw [hstack] at hst
      rcases hst with hst | hst
      · exact absurd hst (List.cons_ne_nil _ _)
      · exact (List.cons.inj hst).2
    · refine Or.inr ⟨hall, fun e he => hst e ?_⟩
      rw [hstack]
      exact List.mem_cons_of_mem _ he
  · simp only at hu hs1 hpush hds
    obtain ⟨v0, hv0⟩ := unexplored_some hu
    have hcur := (hdom cur.x cur.y).1 (by rw [hv0]; rfl)
    obtain ⟨hcx0, hcx1, hcy0, hcy1⟩ := hcur
    have hw2 : effectiveWrap c.horizontal = true → 2 ≤ w := fun hw => by
      have := hwH hw
      omega
    have hh2 : effectiveWrap c.vertical = true → 2 ≤ h := fun hw => by
      have := hwV hw
      omega
    -- the two writes
    obtain ⟨x1, y1, hx1, hy1, hp1⟩ := setMaze_passage hs1
    rw [cmod_inRange _ _ hcx0 hcx1] at hx1
    rw [cmod_inRange _ _ hcy0 hcy1] at hy1
    cases hx1
    cases hy1
    obtain ⟨wx, wy, hwx, hwy, hp2⟩ := setMaze_passage hs2
    have hk1 : PassageKept st.maze m1 := setMaze_passageKept hs1
    have hk2 : PassageKept m1 st1.maze := setMaze_passageKept hs2
    have hk : PassageKept st.maze st1.maze := passageKept_trans hk1 hk2
    have hcurP : st1.maze.read cur.x cur.y = some EMPTY :=
      hk2 _ _ ((hp1 cur.x cur.y).2 (Or.inr (Or.inl ⟨rfl, rfl⟩)))
    have hwallP : st1.maze.read wx wy = some EMPTY :=
      (hp2 wx wy).2 (Or.inr (Or.inl ⟨rfl, rfl⟩))
    have hdom1 : Dom w h st1.maze := setMaze_dom _ _ _ _ (setMaze_dom _ _ _ _ hdom hs1) hs2
    have hMH1 : c.horizontal.symmetry = true → MirrorH c w st1.maze := fun hsym =>
      setMaze_mirrorH hsym _ _ _ _ (setMaze_mirrorH hsym _ _ _ _ (hMH hsym) hs1) hs2
    have hMV1 : c.vertical.symmetry = true → MirrorV c h st1.maze := fun hsym =>
      setMaze_mirrorV hsym _ _ _ _ (setMaze_mirrorV hsym _ _ _ _ (hMV hsym) hs1) hs2
    have hall1 : AllReachableMirrored c w h st1.maze s := by
      rcases hphase with ⟨hno, hst⟩ | ⟨hall, hst⟩
      · -- the first carve: the stack held the start entry
        rw [hstack] at hst
        have hcs : cur = ⟨s.1, s.2, ⟨0, 0⟩⟩ := by
          rcases hst with hst | hst
          · exact absurd hst (List.cons_ne_nil _ _)
          · exact (List.cons.inj hst).1
        have hcx : cur.x = s.1 := by rw [hcs]
        have hcy : cur.y = s.2 := by rw [hcs]
        have hsx : cur.step.x = 0 := by rw [hcs]
        have hsy : cur.step.y = 0 := by rw [hcs]
        rw [hsx, sub_zero, cmod_inRange _ _ hcx0 hcx1] at hwx
        rw [hsy, sub_zero, cmod_inRange _ _ hcy0 hcy1] at hwy
        cases hwx
        cases hwy
        intro x y hxy
        have hxy1 : Written c w h cur.x cur.y x y := by
          rcases (hp2 x y).1 hxy with h1 | h1
          · rcases (hp1 x y).1 h1 with h2 | h2
            · exact absurd h2 (hno x y)
            · exact h2
          · exact h1
        rw [hcx, hcy] at hxy1
        exact ⟨(x, y), hxy1, hxy, Relation.ReflTransGen.refl⟩
      · -- a later carve: the wall joins the new cell to a Passage cell
        obtain ⟨wx1, wy1, ox, oy, hwx1, hwy1, hoP, ha1, ha2⟩ :=
          hst cur (by rw [hstack]; exact List.mem_cons_self _ _)
        rw [hwx] at hwx1
        rw [hwy] at hwy1
        cases hwx1
        cases hwy1
        obtain ⟨p0, hsrc, hoR0⟩ := hall ox oy hoP
        have hoR : Reachable c w h st1.maze p0 (ox, oy) := reachable_mono hk hoR0
        have hwR : Reachable c w h st1.maze p0 (wx, wy) := reachable_step hoR ha1 hwallP
        have hcR : Reachable c w h st1.maze p0 (cur.x, cur.y) := reachable_step hwR ha2 hcurP
        intro x y hxy
        rcases (hp2 x y).1 hxy with h1 | h1
        · rcases (hp1 x y).1 h1 with h2 | h2
          · obtain ⟨p, hp, hpr⟩ := hall x y h2
            exact ⟨p, hp, reachable_mono hk hpr⟩
          · exact reachable_written hdom1 hMH1 hMV1 hsrc hcR h2
        · exact reachable_written hdom1 hMH1 hMV1 hsrc hwR h1
    refine ⟨hdom1, fun d hd => hdir d (hds d hd), hMH1, hMV1, Or.inr ⟨hall1, ?_⟩⟩
    intro e he
    rcases pushNeighbours_spec _ _ _ _ _ _ _ _ _ _ _ hpush e he with h1 | ⟨h1, h2, h3, h4, h5, h6, h7⟩
    · rcases hphase with ⟨hno, hst⟩ | ⟨hall, hst⟩
      · rw [hstack] at hst
        have hrest : rest = [] := by
          rcases hst with hst | hst
          · exact absurd hst (List.cons_ne_nil _ _)
          · exact (List.cons.inj hst).2
        rw [hrest] at h1
        exact absurd h1 (List.not_mem_nil _)
      · exact entryLinked_mono hk (hst e (by rw [hstack]; exact List.mem_cons_of_mem _ h1))
    · exact neighbour_linked hw2 hh2 hcx0 hcx1 hcy0 hcy1 hcurP (hdir _ (hds _ h1)) h2 h3 h4 h5 h6 h7

/-- The carver loop keeps the invariant. -/
theorem carveLoop_inv {σ : Type} {R : RandomSource σ} {c : MazeConfig} {w h : Int}
    (hwH : effectiveWrap c.horizontal = true → w % 2 = 0)
    (hwV : effectiveWrap c.vertical = true → h % 2 = 0) (s : Int × Int) (fuel : Nat) :
    ∀ (st st1 : CarveState σ), CarveInv c w h s st →
      carveLoop R c w h fuel st = some st1 → CarveInv c w h s st1 := by
  induction fuel with
  | zero =>
    intro st st1 hinv hs
    unfold carveLoop at hs
    split at hs
    · cases hs; exact hinv
    · exact Option.noConfusion hs
  | succ n ih =>
    intro st st1 hinv hs
    unfold carveLoop at hs
    split at hs
    · cases hs; exact hinv
    · rename_i cur rest hstack
      cases hstep : carveStep R c w h cur { st with stack := rest } with
      | none => simp [hstep] at hs
      | some st2 =>
        simp only [hstep] at hs
        exact ih st2 st1 (carveStep_inv hwH hwV s hstack hinv hstep) hs

/-- The state in which the carver loop starts, on a grid without Passage cells, satisfies
the invariant. -/
theorem carveInit_inv {σ : Type} (c : MazeConfig) (w h : Int) (m : Grid) (s : σ)
    (hdom : Dom w h m) (hno : NoPassage m) :
    CarveInv c w h (startCoord w, startCoord h) (carveInit w h m s) := by
  refine ⟨hdom, ?_, ?_, ?_, Or.inl ⟨hno, Or.inr rfl⟩⟩
  · intro d hd
    simp only [carveInit, List.mem_cons, List.mem_singleton, List.not_mem_nil, or_false] at hd
    rcases hd with hd | hd | hd | hd <;> subst hd <;> simp [UnitStep]
  · intro _ x y _ _ _ _
    exact ⟨fun hp => absurd hp (hno _ _), fun hp => absurd hp (hno _ _)⟩
  · intro _ x y _ _ _ _
    exact ⟨fun hp => absurd hp (hno _ _), fun hp => absurd hp (hno _ _)⟩

/-- C4 (amended): when the carver loop has finished, every Passage cell is reachable, by a
path of 4-adjacent Passage cells (adjacency modulo the size on a wrapping axis), from the
start cell or from one of the mirror images of the start cell that the symmetric write
rule carves together with it; for a configuration without symmetry on either axis the
path starts at the start cell itself. -/
theorem carved_connected {σ : Type} (R : RandomSource σ) (entropy : Nat) (w h : Int)
    (c : MazeConfig) (st : CarveState σ) (hc : carved R entropy w h c = some st) :
    (∀ x y, st.maze.read x y = some EMPTY →
      ∃ p : Int × Int,
        Written c (normalizeSize c.horizontal w) (normalizeSize c.vertical h)
          (startCoord (normalizeSize c.horizontal w)) (startCoord (normalizeSize c.vertical h))
          p.1 p.2 ∧
        Reachable c (normalizeSize c.horizontal w) (normalizeSize c.vertical h) st.maze p
          (x, y)) ∧
    (c.horizontal.symmetry = false → c.vertical.symmetry = false →
      ∀ x y, st.maze.read x y = some EMPTY →
        Reachable c (normalizeSize c.horizontal w) (normalizeSize c.vertical h) st.maze
          (startCoord (normalizeSize c.horizontal w), startCoord (normalizeSize c.vertical h))
          (x, y)) := by
  have hgen : ∀ x y, st.maze.read x y = some EMPTY →
      ∃ p : Int × Int,
        Written c (normalizeSize c.horizontal w) (normalizeSize c.vertical h)
          (startCoord (normalizeSize c.horizontal w)) (startCoord (normalizeSize c.vertical h))
          p.1 p.2 ∧
        Reachable c (normalizeSize c.horizontal w) (normalizeSize c.vertical h) st.maze p
          (x, y) := by
    unfold carved at hc
    split at hc
    · exact Option.noConfusion hc
    · rename_i m0 hm0
      split at hc
      · exact Option.noConfusion hc
      · rename_i m1 s1 hseed
        have hno : NoPassage m1 :=
          seedReservations_preserves NoPassage write_noPassage (solid_noPassage m0 hm0) hseed
        have hdom : Dom (normalizeSize c.horizontal w) (normalizeSize c.vertical h) m1 :=
          seedReservations_preserves (Dom _ _) write_dom (solid_dom m0 hm0) hseed
        have hinv := carveLoop_inv (normalizeSize_wrap_even _ w) (normalizeSize_wrap_even _ h)
          _ _ _ _ (carveInit_inv c _ _ m1 s1 hdom hno) hc
        intro x y hxy
        rcases hinv.2.2.2.2 with ⟨hno1, -⟩ | ⟨hall, -⟩
        · exact absurd hxy (hno1 x y)
        · exact hall x y hxy
  refine ⟨hgen, fun hh hv x y hxy => ?_⟩
  obtain ⟨p, hp, hr⟩ := hgen x y hxy
  have hp1 := (written_plain hh hv _ _ _ _ _ _).1 hp
  have : p = (startCoord (normalizeSize c.horizontal w),
      startCoord (normalizeSize c.vertical h)) := Prod.ext hp1.1 hp1.2
  rw [← this]
  exact hr

set_option maxRecDepth 1000000 in
/-- Witness of `carved_connected`: the horizontally mirrored sample on a 6 by 6 request,
whose start cell `(1, 1)` is carved together with its mirror image `(3, 1)`, and scenario
A, without symmetry, on the same request. -/
theorem carved_connected_witness :
    (∃ st, carved lcg 0 6 6 mirrored = some st ∧
      Written mirrored 5 5 1 1 3 1 ∧
      ∀ x y, st.maze.read x y = some EMPTY →
        ∃ p : Int × Int,
          Written mirrored (normalizeSize mirrored.horizontal 6)
            (normalizeSize mirrored.vertical 6)
            (startCoord (normalizeSize mirrored.horizontal 6))
            (startCoord (normalizeSize mirrored.vertical 6)) p.1 p.2 ∧
          Reachable mirrored (normalizeSize mirrored.horizontal 6)
            (normalizeSize mirrored.vertical 6) st.maze p (x, y)) ∧
    (∃ st, carved lcg 0 6 6 scenarioA = some st ∧
      scenarioA.horizontal.symmetry = false ∧ scenarioA.vertical.symmetry = false ∧
      ∀ x y, st.maze.read x y = some EMPTY →
        Reachable scenarioA (normalizeSize scenarioA.horizontal 6)
          (normalizeSize scenarioA.vertical 6) st.maze
          (startCoord (normalizeSize scenarioA.horizontal 6),
            startCoord (normalizeSize scenarioA.vertical 6)) (x, y)) := by
  have hsome : (carved lcg 0 6 6 mirrored).isSome = true := by decide
  obtain ⟨st, hst⟩ := Option.isSome_iff_exists.1 hsome
  have hsomeA : (carved lcg 0 6 6 scenarioA).isSome = true := by decide
  obtain ⟨stA, hstA⟩ := Option.isSome_iff_exists.1 hsomeA
  exact ⟨⟨st, hst, by unfold Written; decide, (carved_connected lcg 0 6 6 mirrored st hst).1⟩,
    ⟨stA, hstA, by decide, by decide,
      (carved_connected lcg 0 6 6 scenarioA stA hstA).2 (by decide) (by decide)⟩⟩

theorem solid_column_no_passage (n : Nat) :
    ([255, 255, 255, 255, 255] : List Int)[n]? ≠ some EMPTY := by
  rcases n with _ | _ | _ | _ | _ | n <;> simp

theorem mirroredCarve_column (x y : Int) (hx : x = 0 ∨ x = 2) :
    Grid.read mirroredCarve x y ≠ some EMPTY := by
  unfold Grid.read
  split_ifs with h0
  · rcases hx with hx | hx <;> subst hx
    · exact solid_column_no_passage _
    · exact solid_column_no_passage _
  · exact fun hcon => Option.noConfusion hcon

set_option maxRecDepth 1000000 in
/-- C4 (counterexample): with horizontal symmetry the carver of a 5 by 5 grid leaves the
Passage cell `(3, 1)` unreachable from the start cell `(1, 1)`: the columns 1 and 3 are
carved as mirror images and column 2 between them stays Solid. -/
theorem carved_mirrored_disconnected :
    mirrored.horizontal.symmetry = true ∧
    normalizeSize mirrored.horizontal 6 = 5 ∧ normalizeSize mirrored.vertical 6 = 5 ∧
    startCoord 5 = 1 ∧
    ∃ st, carved lcg 0 6 6 mirrored = some st ∧ st.maze = mirroredCarve ∧
      st.maze.read 3 1 = some EMPTY ∧ ¬ Reachable mirrored 5 5 st.maze (1, 1) (3, 1) := by
  refine ⟨by decide, by decide, by decide, by decide, ?_⟩
  have hmaze : (carved lcg 0 6 6 mirrored).map (fun st => st.maze) = some mirroredCarve := by
    decide
  cases hst : carved lcg 0 6 6 mirrored with
  | none => rw [hst] at hmaze; exact Option.noConfusion hmaze
  | some st =>
    rw [hst] at hmaze
    have hm : st.maze = mirroredCarve := Option.some.inj hmaze
    refine ⟨st, rfl, hm, by rw [hm]; decide, ?_⟩
    rw [hm]
    rintro ⟨-, hpath⟩
    have hcol : ∀ q : Int × Int,
        Relation.ReflTransGen (passageStep mirrored 5 5 mirroredCarve) (1, 1) q → q.1 = 1 := by
      intro q hq
      induction hq with
      | refl => rfl
      | @tail b q1 _ hstep ih =>
        obtain ⟨hadj, hpass⟩ := hstep
        have hwrap : effectiveWrap mirrored.horizontal = false := by decide
        rcases hadj with ⟨-, hx⟩ | ⟨hx, -⟩
        · unfold adjacentCoord at hx
          rw [hwrap] at hx
          simp only [Bool.false_eq_true, false_and, or_false] at hx
          exact absurd hpass (mirroredCarve_column _ _ (by omega))
        · omega
    have := hcol (3, 1) hpath
    omega

/-! ## The symmetry-restoring copy of `addRooms` -/

theorem solid_rect {w h : Int} (m0 : Grid) (hs : Grid.solid w h = some m0) : Rect w h m0 := by
  unfold Grid.solid at hs
  split_ifs at hs with hwh
  cases hs
  refine ⟨?_, fun col hcol => ?_⟩
  · rw [List.length_replicate]; omega
  · rw [List.eq_of_mem_replicate hcol, List.length_replicate]; omega

theorem write_rect {w h : Int} {v : Int} (m : Grid) (x y : Int) (m1 : Grid) (h0 : Rect w h m)
    (hw : m.write x y v = some m1) : Rect w h m1 := by
  obtain ⟨-, -, col, hcol, -, rfl⟩ := write_some hw
  refine ⟨by rw [List.length_set]; exact h0.1, fun col1 hcol1 => ?_⟩
  rcases List.mem_or_eq_of_mem_set hcol1 with h1 | h1
  · exact h0.2 col1 h1
  · rw [h1, List.length_set]
    exact h0.2 col (List.getElem?_mem hcol)

/-- A grid property kept by every write is kept by `setMaze`. -/
theorem setMaze_preserves {c : MazeConfig} {w h : Int} {v : Int} (P : Grid → Prop)
    (hP : ∀ m x y m1, P m → m.write x y v = some m1 → P m1)
    {m m1 : Grid} {x y : Int} (h0 : P m) (hs : setMaze m x y v c w h = some m1) : P m1 := by
  unfold setMaze at hs
  cases hx : cmod (x + w) w with
  | none => simp [hx] at hs
  | some x1 =>
    cases hy : cmod (y + h) h with
    | none => simp [hx, hy] at hs
    | some y1 =>
      simp only [hx, hy] at hs
      cases hm0 : m.write x1 y1 v with
      | none => simp [hm0] at hs
      | some m0 =>
        simp only [hm0] at hs
        have p0 := hP _ _ _ _ h0 hm0
        generalize (w - x1 - if effectiveWrap c.horizontal = true then 0 else 1) = u at hs
        generalize (h - y1 - if effectiveWrap c.vertical = true then 0 else 1) = v1 at hs
        by_cases hA : (c.horizontal.symmetry && decide (u < w)) = true
        · simp only [hA, if_true] at hs
          cases h1 : m0.write u y1 v with
          | none => simp [h1] at hs
          | some ma =>
            simp only [h1] at hs
            have pa := hP _ _ _ _ p0 h1
            by_cases hB : (c.vertical.symmetry && decide (v1 < h)) = true
            · simp only [hB, if_true] at hs
              cases h2 : ma.write u v1 v with
              | none => simp [h2] at hs
              | some mb =>
                simp only [h2] at hs
                exact hP _ _ _ _ (hP _ _ _ _ pa h2) hs
            · simp only [hB, if_false] at hs
              cases hs
              exact pa
        · simp only [hA, if_false] at hs
          by_cases hB : (c.vertical.symmetry && decide (v1 < h)) = true
          · simp only [hB, if_true] at hs
            exact hP _ _ _ _ p0 hs
          · simp only [hB, if_false] at hs
            cases hs
            exact p0

theorem setMaze_rect {c : MazeConfig} {w h : Int} {v : Int} (m : Grid) (x y : Int) (m1 : Grid)
    (h0 : Rect w h m) (hs : setMaze m x y v c w h = some m1) : Rect w h m1 :=
  setMaze_preserves (Rect w h) (fun m x y m1 hm hw => write_rect m x y m1 hm hw) h0 hs

theorem carveColumn_rect {w h : Int} (x : Int) (ys : List Int) :
    ∀ m m1, Rect w h m → carveColumn x ys m = some m1 → Rect w h m1 := by
  induction ys with
  | nil => intro m m1 h0 hs; unfold carveColumn at hs; cases hs; exact h0
  | cons y rest ih =>
    intro m m1 h0 hs
    unfold carveColumn at hs
    split at hs
    · rename_i m2 h2
      exact ih _ _ (write_rect _ _ _ _ h0 h2) hs
    · exact Option.noConfusion hs

theorem carveRect_rect {w h : Int} (ys xs : List Int) :
    ∀ m m1, Rect w h m → carveRect ys xs m = some m1 → Rect w h m1 := by
  induction xs with
  | nil => intro m m1 h0 hs; unfold carveRect at hs; cases hs; exact h0
  | cons x rest ih =>
    intro m m1 h0 hs
    unfold carveRect at hs
    split at hs
    · rename_i m2 h2
      exact ih _ _ (carveColumn_rect x ys _ _ h0 h2) hs
    · exact Option.noConfusion hs

theorem carveRooms_rect {w h : Int} (c : MazeConfig) (w1 h1 a b : Int) (d : List DeadEnd)
    (idx : List Nat) :
    ∀ m m1, Rect w h m → carveRooms c w1 h1 a b d idx m = some m1 → Rect w h m1 := by
  induction idx with
  | nil => intro m m1 h0 hs; unfold carveRooms at hs; cases hs; exact h0
  | cons i rest ih =>
    intro m m1 h0 hs
    unfold carveRooms at hs
    split at hs
    · exact Option.noConfusion hs
    · split at hs
      · rename_i m2 h2
        exact ih _ _ (carveRect_rect _ _ _ _ h0 h2) hs
      · exact Option.noConfusion hs

theorem roomsCarved_rect {w h : Int} {c : MazeConfig} {d : List DeadEnd} {m m1 : Grid}
    (h0 : Rect w h m) (hs : roomsCarved m d c = some m1) : Rect w h m1 := by
  unfold roomsCarved at hs
  split at hs
  · exact Option.noConfusion hs
  · exact carveRooms_rect _ _ _ _ _ _ _ _ _ h0 hs

theorem rect_dom {w h : Int} {m : Grid} (hr : Rect w h m) : Dom w h m := by
  intro x y
  constructor
  · intro hsome
    obtain ⟨v, hv⟩ := Option.isSome_iff_exists.1 hsome
    unfold Grid.read at hv
    split_ifs at hv with h0
    split at hv
    · rename_i col hcol
      have hx : x.toNat < m.length := by
        by_contra hcon
        rw [List.getElem?_eq_none (by omega)] at hcol
        exact Option.noConfusion hcol
      have hy : y.toNat < col.length := by
        by_contra hcon
        rw [List.getElem?_eq_none (by omega)] at hv
        exact Option.noConfusion hv
      have hlen := hr.2 col (List.getElem?_mem hcol)
      have hw := hr.1
      refine ⟨h0.1, ?_, h0.2, ?_⟩ <;> omega
    · exact Option.noConfusion hv
  · rintro ⟨hx0, hx1, hy0, hy1⟩
    have hw := hr.1
    have hx : x.toNat < m.length := by omega
    have hlen := hr.2 _ (List.getElem_mem hx)
    have hy : y.toNat < (m[x.toNat]).length := by omega
    simp [Grid.read, hx0, hy0, List.getElem?_eq_getElem hx, List.getElem?_eq_getElem hy]

theorem mem_intRange (lo hi q : Int) : q ∈ intRange lo hi ↔ lo ≤ q ∧ q ≤ hi := by
  unfold intRange
  simp only [List.mem_map, List.mem_range]
  constructor
  · rintro ⟨a, ha, rfl⟩
    constructor <;> omega
  · rintro ⟨h1, h2⟩
    exact ⟨(q - lo).toNat, by omega, by omega⟩

theorem nodup_intRange (lo hi : Int) : (intRange lo hi).Nodup := by
  unfold intRange
  refine List.Nodup.map (fun a b hab => ?_) (List.nodup_range _)
  simp only at hab
  omega

theorem intRange_succ (lo : Int) (n : Nat) :
    intRange lo (lo + n) = intRange lo (lo + n - 1) ++ [lo + n] := by
  unfold intRange
  have h1 : (lo + n + 1 - lo).toNat = n + 1 := by omega
  have h2 : (lo + n - 1 + 1 - lo).toNat = n := by omega
  rw [h1, h2, List.range_succ, List.map_append]
  rfl

/-- One pass of the inner loop of the horizontal copy acts on row `y` as `copied`. -/
theorem mirrorRow_spec (w offset y : Int) (xs : List Int) :
    ∀ m m1, mirrorRow w offset y xs m = some m1 →
      (∀ p, m1.read p y = copied w offset xs (fun p => m.read p y) p) ∧
      (∀ p q, q ≠ y → m1.read p q = m.read p q) := by
  induction xs with
  | nil => intro m m1 hs; unfold mirrorRow at hs; cases hs; exact ⟨fun p => rfl, fun p q _ => rfl⟩
  | cons x rest ih =>
    intro m m1 hs
    unfold mirrorRow at hs
    split at hs
    · exact Option.noConfusion hs
    · rename_i v hv
      split at hs
      · rename_i m2 hm2
        obtain ⟨i1, i2⟩ := ih _ _ hs
        have hline : (fun p => m2.read p y) = copyStep w offset (fun p => m.read p y) x := by
          funext p
          unfold copyStep
          dsimp only
          by_cases hp : p = w - offset - x
          · rw [if_pos hp, hv]
            exact (read_write hm2 p y).1 ⟨hp, rfl⟩
          · rw [if_neg hp]
            exact (read_write hm2 p y).2 (fun hc => hp hc.1)
        refine ⟨fun p => ?_, fun p q hq => ?_⟩
        · rw [i1 p, hline]
          rfl
        · rw [i2 p q hq]
          exact (read_write hm2 p q).2 (fun hc => hq hc.2)
      · exact Option.noConfusion hs

/-- The horizontal copy acts on every row of `ys` as `copied` and leaves the other cells. -/
theorem mirrorRows_spec (w offset : Int) (xs ys : List Int) :
    ∀ m m1, mirrorRows w offset xs ys m = some m1 → ys.Nodup →
      ∀ p q, m1.read p q =
        if q ∈ ys then copied w offset xs (fun p => m.read p q) p else m.read p q := by
  induction ys with
  | nil => intro m m1 hs _ p q; unfold mirrorRows at hs; cases hs; simp
  | cons y rest ih =>
    intro m m1 hs hnd p q
    unfold mirrorRows at hs
    split at hs
    · rename_i m2 hm2
      obtain ⟨r1, r2⟩ := mirrorRow_spec _ _ _ _ _ _ hm2
      have hnd1 := List.nodup_cons.1 hnd
      rw [ih _ _ hs hnd1.2 p q]
      by_cases hqy : q = y
      · subst hqy
        rw [if_neg hnd1.1, if_pos (List.mem_cons_self _ _)]
        exact r1 p
      · by_cases hqr : q ∈ rest
        · rw [if_pos hqr, if_pos (List.mem_cons_of_mem _ hqr)]
          have : (fun p => m2.read p q) = (fun p => m.read p q) := by
            funext p1
            exact r2 p1 q hqy
          rw [this]
        · rw [if_neg hqr, if_neg (by simp [hqy, hqr])]
          exact r2 p q hqy
    · exact Option.noConfusion hs

/-- One pass of the inner loop of the vertical copy acts on column `x` as `copied`. -/
theorem mirrorColumn_spec (h offset x : Int) (ys : List Int) :
    ∀ m m1, mirrorColumn h offset x ys m = some m1 →
      (∀ q, m1.read x q = copied h offset ys (fun q => m.read x q) q) ∧
      (∀ p q, p ≠ x → m1.read p q = m.read p q) := by
  induction ys with
  | nil =>
    intro m m1 hs; unfold mirrorColumn at hs; cases hs; exact ⟨fun q => rfl, fun p q _ => rfl⟩
  | cons y rest ih =>
    intro m m1 hs
    unfold mirrorColumn at hs
    split at hs
    · exact Option.noConfusion hs
    · rename_i v hv
      split at hs
      · rename_i m2 hm2
        obtain ⟨i1, i2⟩ := ih _ _ hs
        have hline : (fun q => m2.read x q) = copyStep h offset (fun q => m.read x q) y := by
          funext q
          unfold copyStep
          dsimp only
          by_cases hq : q = h - offset - y
          · rw [if_pos hq, hv]
            exact (read_write hm2 x q).1 ⟨rfl, hq⟩
          · rw [if_neg hq]
            exact (read_write hm2 x q).2 (fun hc => hq hc.2)
        refine ⟨fun q => ?_, fun p q hp => ?_⟩
        · rw [i1 q, hline]
          rfl
        · rw [i2 p q hp]
          exact (read_write hm2 p q).2 (fun hc => hp hc.1)
      · exact Option.noConfusion hs

/-- The vertical copy acts on every column of `xs` as `copied` and leaves the other cells. -/
theorem mirrorColumns_spec (h offset : Int) (ys xs : List Int) :
    ∀ m m1, mirrorColumns h offset ys xs m = some m1 → xs.Nodup →
      ∀ p q, m1.read p q =
        if p ∈ xs then copied h offset ys (fun q => m.read p q) q else m.read p q := by
  induction xs with
  | nil => intro m m1 hs _ p q; unfold mirrorColumns at hs; cases hs; simp
  | cons x rest ih =>
    intro m m1 hs hnd p q
    unfold mirrorColumns at hs
    split at hs
    · rename_i m2 hm2
      obtain ⟨r1, r2⟩ := mirrorColumn_spec _ _ _ _ _ _ hm2
      have hnd1 := List.nodup_cons.1 hnd
      rw [ih _ _ hs hnd1.2 p q]
      by_cases hpx : p = x
      · subst hpx
        rw [if_neg hnd1.1, if_pos (List.mem_cons_self _ _)]
        exact r1 q
      · by_cases hpr : p ∈ rest
        · rw [if_pos hpr, if_pos (List.mem_cons_of_mem _ hpr)]
          have : (fun q => m2.read p q) = (fun q => m.read p q) := by
            funext q1
            exact r2 p q1 hpx
          rw [this]
        · rw [if_neg hpr, if_neg (by simp [hpx, hpr])]
          exact r2 p q hpx
    · exact Option.noConfusion hs

theorem copied_snoc (size offset : Int) (l : List Int) (i : Int) (line : Int → Option Int) :
    copied size offset (l ++ [i]) line = copyStep size offset (copied size offset l line) i := by
  unfold copied
  rw [List.foldl_append]
  rfl

/-- The copies for `i = 0 .. n - 1` with offset 1, as long as no copy reads a cell that an
earlier copy wrote: the last `n` cells of the line hold the mirror images. -/
theorem copied_prefix (size : Int) (line : Int → Option Int) (n : Nat)
    (hn : 2 * (n : Int) ≤ size + 1) :
    ∀ j, copied size 1 (intRange 0 ((n : Int) - 1)) line j =
      if size - 1 - n < j ∧ j ≤ size - 1 then line (size - 1 - j) else line j := by
  induction n with
  | zero =>
    intro j
    have hnil : intRange 0 (((0 : Nat) : Int) - 1) = [] := by decide
    rw [hnil, if_neg (by push_cast; omega)]
    rfl
  | succ k ih =>
    intro j
    have hsplit : intRange 0 (((k + 1 : Nat) : Int) - 1) = intRange 0 ((k : Int) - 1) ++ [(k : Int)] := by
      have := intRange_succ 0 k
      simp only [zero_add] at this
      rw [← this]
      congr 1
      push_cast
      omega
    rw [hsplit, copied_snoc]
    have ih1 := ih (by push_cast at hn; omega)
    unfold copyStep
    rw [ih1 j, ih1 k]
    push_cast at hn ⊢
    by_cases hj : j = size - 1 - k
    · rw [if_pos hj, if_neg (by omega), if_pos (by omega)]
      congr 1
      omega
    · rw [if_neg hj]
      by_cases hc : size - 1 - k < j ∧ j ≤ size - 1
      · rw [if_pos hc, if_pos (by omega)]
      · rw [if_neg hc, if_neg (by omega)]

/-- The copy loop of an odd line `2 k + 1` long with offset 1: the cells from the middle on
hold the mirror images of the cells up to the middle. -/
theorem copied_odd (size k : Int) (hk : 0 ≤ k) (hs : size = 2 * k + 1)
    (line : Int → Option Int) (j : Int) :
    copied size 1 (intRange 0 (Int.tdiv size 2)) line j =
      if k ≤ j ∧ j ≤ 2 * k then line (size - 1 - j) else line j := by
  have hdiv : Int.tdiv size 2 = (((k + 1).toNat : Nat) : Int) - 1 := by
    rw [Int.tdiv_eq_ediv (by omega) (by omega)]
    omega
  rw [hdiv, copied_prefix size line (k + 1).toNat (by omega) j]
  by_cases hc : k ≤ j ∧ j ≤ 2 * k
  · rw [if_pos hc, if_pos (by omega)]
  · rw [if_neg hc, if_neg (by omega)]

/-- After the horizontal copy with offset 1 on a grid of odd width every cell equals its
mirror cell. -/
theorem mirrorRows_symmetric {w h : Int} (hw0 : 0 ≤ w) (hodd : w % 2 = 1) (m m1 : Grid)
    (hdom : Dom w h m)
    (hs : mirrorRows w 1 (intRange 0 (Int.tdiv w 2)) (intRange 0 (h - 1)) m = some m1) :
    ∀ x y, m1.read (w - 1 - x) y = m1.read x y := by
  intro x y
  have hspec := mirrorRows_spec _ _ _ _ _ _ hs (nodup_intRange _ _)
  have hnone : ∀ p q, ¬ (0 ≤ p ∧ p < w ∧ 0 ≤ q ∧ q < h) → m.read p q = none := by
    intro p q hpq
    cases hr : m.read p q with
    | none => rfl
    | some v => exact absurd ((hdom p q).1 (by rw [hr]; rfl)) hpq
  rw [hspec, hspec]
  by_cases hy : y ∈ intRange 0 (h - 1)
  · rw [if_pos hy, if_pos hy]
    have hy1 := (mem_intRange _ _ _).1 hy
    obtain ⟨k, hk⟩ : ∃ k, w = 2 * k + 1 := ⟨w / 2, by omega⟩
    have hk0 : 0 ≤ k := by omega
    rw [copied_odd w k hk0 hk, copied_odd w k hk0 hk]
    by_cases hx : 0 ≤ x ∧ x < w
    · by_cases hc : k ≤ x ∧ x ≤ 2 * k
      · rw [if_pos hc]
        by_cases hc1 : k ≤ w - 1 - x ∧ w - 1 - x ≤ 2 * k
        · rw [if_pos hc1]
          have hxk : x = k := by omega
          subst hxk
          congr 1
          omega
        · rw [if_neg hc1]
      · rw [if_neg hc, if_pos (by omega)]
        congr 1
        omega
    · rw [if_neg (by omega), if_neg (by omega)]
      rw [hnone x y (by omega), hnone (w - 1 - x) y (by omega)]
  · rw [if_neg hy, if_neg hy]
    have hy1 : ¬ (0 ≤ y ∧ y ≤ h - 1) := fun hc => hy ((mem_intRange _ _ _).2 hc)
    rw [hnone x y (by omega), hnone (w - 1 - x) y (by omega)]

/-- After the vertical copy with offset 1 on a grid of odd height every cell equals its
mirror cell. -/
theorem mirrorColumns_symmetric {w h : Int} (hh0 : 0 ≤ h) (hodd : h % 2 = 1) (m m1 : Grid)
    (hdom : Dom w h m)
    (hs : mirrorColumns h 1 (intRange 0 (Int.tdiv h 2)) (intRange 0 (w - 1)) m = some m1) :
    ∀ x y, m1.read x (h - 1 - y) = m1.read x y := by
  intro x y
  have hspec := mirrorColumns_spec _ _ _ _ _ _ hs (nodup_intRange _ _)
  have hnone : ∀ p q, ¬ (0 ≤ p ∧ p < w ∧ 0 ≤ q ∧ q < h) → m.read p q = none := by
    intro p q hpq
    cases hr : m.read p q with
    | none => rfl
    | some v => exact absurd ((hdom p q).1 (by rw [hr]; rfl)) hpq
  rw [hspec, hspec]
  by_cases hx : x ∈ intRange 0 (w - 1)
  · rw [if_pos hx, if_pos hx]
    have hx1 := (mem_intRange _ _ _).1 hx
    obtain ⟨k, hk⟩ : ∃ k, h = 2 * k + 1 := ⟨h / 2, by omega⟩
    have hk0 : 0 ≤ k := by omega
    rw [copied_odd h k hk0 hk, copied_odd h k hk0 hk]
    by_cases hy : 0 ≤ y ∧ y < h
    · by_cases hc : k ≤ y ∧ y ≤ 2 * k
      · rw [if_pos hc]
        by_cases hc1 : k ≤ h - 1 - y ∧ h - 1 - y ≤ 2 * k
        · rw [if_pos hc1]
          have hyk : y = k := by omega
          subst hyk
          congr 1
          omega
        · rw [if_neg hc1]
      · rw [if_neg hc, if_pos (by omega)]
        congr 1
        omega
    · rw [if_neg (by omega), if_neg (by omega)]
      rw [hnone x y (by omega), hnone x (h - 1 - y) (by omega)]
  · rw [if_neg hx, if_neg hx]
    have hx1 : ¬ (0 ≤ x ∧ x ≤ w - 1) := fun hc => hx ((mem_intRange _ _ _).2 hc)
    rw [hnone x y (by omega), hnone x (h - 1 - y) (by omega)]

/-- The vertical copy treats every column alike, so it keeps the equality of the cells
with their horizontal mirror cells. -/
theorem mirrorColumns_keeps_rows {w h offset : Int} (ys : List Int) (m m1 : Grid)
    (hsym : ∀ x y, m.read (w - 1 - x) y = m.read x y)
    (hs : mirrorColumns h offset ys (intRange 0 (w - 1)) m = some m1) :
    ∀ x y, m1.read (w - 1 - x) y = m1.read x y := by
  intro x y
  have hspec := mirrorColumns_spec _ _ _ _ _ _ hs (nodup_intRange _ _)
  rw [hspec, hspec]
  have hline : (fun q => m.read (w - 1 - x) q) = (fun q => m.read x q) := by
    funext q
    exact hsym x q
  by_cases hx : x ∈ intRange 0 (w - 1)
  · have hx1 := (mem_intRange _ _ _).1 hx
    rw [if_pos hx, if_pos ((mem_intRange _ _ _).2 (by omega)), hline]
  · have hx1 : ¬ (0 ≤ x ∧ x ≤ w - 1) := fun hc => hx ((mem_intRange _ _ _).2 hc)
    rw [if_neg hx, if_neg (fun hc => hx1 (by have := (mem_intRange _ _ _).1 hc; omega))]
    exact hsym x y

theorem mirrorRow_preserves (P : Grid → Prop)
    (hP : ∀ m x y v m1, P m → m.write x y v = some m1 → P m1) (w offset y : Int)
    (xs : List Int) : ∀ m m1, P m → mirrorRow w offset y xs m = some m1 → P m1 := by
  induction xs with
  | nil => intro m m1 h0 hs; unfold mirrorRow at hs; cases hs; exact h0
  | cons x rest ih =>
    intro m m1 h0 hs
    unfold mirrorRow at hs
    split at hs
    · exact Option.noConfusion hs
    · split at hs
      · rename_i m2 hm2
        exact ih _ _ (hP _ _ _ _ _ h0 hm2) hs
      · exact Option.noConfusion hs

theorem mirrorRows_preserves (P : Grid → Prop)
    (hP : ∀ m x y v m1, P m → m.write x y v = some m1 → P m1) (w offset : Int)
    (xs ys : List Int) : ∀ m m1, P m → mirrorRows w offset xs ys m = some m1 → P m1 := by
  induction ys with
  | nil => intro m m1 h0 hs; unfold mirrorRows at hs; cases hs; exact h0
  | cons y rest ih =>
    intro m m1 h0 hs
    unfold mirrorRows at hs
    split at hs
    · rename_i m2 hm2
      exact ih _ _ (mirrorRow_preserves P hP _ _ _ _ _ _ h0 hm2) hs
    · exact Option.noConfusion hs

theorem effectiveWrap_of_loop_false (a : Axis) (hl : a.loop = false) :
    effectiveWrap a = false := by
  simp [effectiveWrap, hl]

/-- What `addRooms` restores on a `w` by `h` grid: on a symmetric axis with `loop = false`
and odd size every cell of the result equals its mirror cell. -/
theorem addRooms_restores {w h : Int} {c : MazeConfig} {d : List DeadEnd} {m g : Grid}
    (hr : Rect w h m) (hs : addRooms m d c = some g) :
    (c.horizontal.symmetry = true → c.horizontal.loop = false → w % 2 = 1 →
      ∀ x y, g.read (w - 1 - x) y = g.read x y) ∧
    (c.vertical.symmetry = true → c.vertical.loop = false → h % 2 = 1 →
      ∀ x y, g.read x (h - 1 - y) = g.read x y) := by
  unfold addRooms at hs
  split at hs
  · exact Option.noConfusion hs
  · rename_i col rest
    split at hs
    · exact Option.noConfusion hs
    · rename_i m1 hm1
      have hlen : (((col :: rest).length : Nat) : Int) = w := hr.1
      have hcol : ((col.length : Nat) : Int) = h := hr.2 col (List.mem_cons_self _ _)
      rw [hlen, hcol] at hs
      have hw0 : 0 ≤ w := by omega
      have hh0 : 0 ≤ h := by omega
      have hr1 : Rect w h m1 := roomsCarved_rect hr hm1
      unfold restoreSymmetry at hs
      simp only at hs
      split at hs
      · exact Option.noConfusion hs
      · rename_i m2 hm2
        have hr2 : Rect w h m2 := by
          by_cases hsym : c.horizontal.symmetry = true
          · rw [if_pos hsym] at hm2
            exact mirrorRows_preserves (Rect w h)
              (fun m x y v m1 hm hw => write_rect m x y m1 hm hw) _ _ _ _ _ _ hr1 hm2
          · rw [if_neg hsym] at hm2
            cases hm2
            exact hr1
        have hrows : c.horizontal.symmetry = true → c.horizontal.loop = false → w % 2 = 1 →
            ∀ x y, m2.read (w - 1 - x) y = m2.read x y := by
          intro hsym hloop hodd
          rw [if_pos hsym, hloop] at hm2
          simp only [Bool.false_eq_true, if_false] at hm2
          exact mirrorRows_symmetric hw0 hodd m1 m2 (rect_dom hr1) hm2
        constructor
        · intro hsym hloop hodd
          by_cases hvs : c.vertical.symmetry = true
          · rw [if_pos hvs] at hs
            exact mirrorColumns_keeps_rows _ m2 g (hrows hsym hloop hodd) hs
          · rw [if_neg hvs] at hs
            cases hs
            exact hrows hsym hloop hodd
        · intro hsym hloop hodd
          rw [if_pos hsym, hloop] at hs
          simp only [Bool.false_eq_true, if_false] at hs
          exact mirrorColumns_symmetric hh0 hodd m2 g (rect_dom hr2) hs

/-- With `roomsFraction > 0` the returned grid is the grid of `addRooms`. -/
theorem generate_eq_addRooms {σ : Type} {R : RandomSource σ} {entropy : Nat} {w h : Int}
    {c : MazeConfig} (hrooms : 0 < c.roomsFraction.num) {g : Grid}
    (hg : generate R entropy w h c = some g) :
    ∃ m d, imperfected R entropy w h c = some (m, d) ∧ addRooms m d c = some g := by
  have hlt : Frac.lt (Frac.ofInt 0) c.roomsFraction = true := by
    simp [Frac.lt, Frac.ofInt, hrooms]
  unfold generate at hg
  rw [hlt] at hg
  split at hg
  · exact Option.noConfusion hg
  · rename_i m d hm
    simp only [if_true] at hg
    exact ⟨m, d, hm, hg⟩

/-- With rooms, on a symmetric axis with `loop = false` every cell of the returned grid
holds the state of its mirror cell. -/
theorem generate_rooms_mirror {σ : Type} {R : RandomSource σ} {entropy : Nat} {w h : Int}
    {c : MazeConfig} (hrooms : 0 < c.roomsFraction.num) {g : Grid}
    (hg : generate R entropy w h c = some g) :
    (c.horizontal.symmetry = true → c.horizontal.loop = false →
      ∀ x y, g.read (mirrorCoord c.horizontal (normalizeSize c.horizontal w) x) y = g.read x y) ∧
    (c.vertical.symmetry = true → c.vertical.loop = false →
      ∀ x y, g.read x (mirrorCoord c.vertical (normalizeSize c.vertical h) y) = g.read x y) := by
  obtain ⟨m, d, hi, ha⟩ := generate_eq_addRooms hrooms hg
  have hr : Rect (normalizeSize c.horizontal w) (normalizeSize c.vertical h) m :=
    imperfected_invariant (Rect _ _) (Rect _ _) solid_rect write_rect (fun _ hm => hm)
      setMaze_rect hi
  obtain ⟨h1, h2⟩ := addRooms_restores hr ha
  constructor
  · intro hsym hloop x y
    have hwrap := effectiveWrap_of_loop_false _ hloop
    have := h1 hsym hloop (normalizeSize_plain_odd _ w hwrap) x y
    unfold mirrorCoord
    rw [hwrap]
    simp only [Bool.false_eq_true, if_false]
    rw [← this]
    congr 1
    omega
  · intro hsym hloop x y
    have hwrap := effectiveWrap_of_loop_false _ hloop
    have := h2 hsym hloop (normalizeSize_plain_odd _ h hwrap) x y
    unfold mirrorCoord
    rw [hwrap]
    simp only [Bool.false_eq_true, if_false]
    rw [← this]
    congr 1
    omega

/-- C2 (amended): in the grid `generate` returns, (a) without rooms (`roomsFraction <= 0`)
a cell and its mirror cell are both Passage or both not, so their exported tile values are
equal, on every axis with symmetry enabled; (b) with rooms (`roomsFraction > 0`) every cell
holds the same state as its mirror cell on every axis with symmetry enabled and
`loop = false`.  The mirror is `mirrorX(x) = width - x - hBorderOffset`, likewise
`mirrorY`. -/
theorem generate_mirror_tiles {σ : Type} (R : RandomSource σ) (entropy : Nat) (w h : Int)
    (c : MazeConfig) (g : Grid) (hg : generate R entropy w h c = some g) :
    (c.roomsFraction.num ≤ 0 →
      (c.horizontal.symmetry = true → ∀ x y a b,
        g.read x y = some a →
        g.read (mirrorCoord c.horizontal (normalizeSize c.horizontal w) x) y = some b →
        ((a = EMPTY ↔ b = EMPTY) ∧ convertTileValue a = convertTileValue b)) ∧
      (c.vertical.symmetry = true → ∀ x y a b,
        g.read x y = some a →
        g.read x (mirrorCoord c.vertical (normalizeSize c.vertical h) y) = some b →
        ((a = EMPTY ↔ b = EMPTY) ∧ convertTileValue a = convertTileValue b))) ∧
    (0 < c.roomsFraction.num →
      (c.horizontal.symmetry = true → c.horizontal.loop = false → ∀ x y,
        g.read (mirrorCoord c.horizontal (normalizeSize c.horizontal w) x) y = g.read x y) ∧
      (c.vertical.symmetry = true → c.vertical.loop = false → ∀ x y,
        g.read x (mirrorCoord c.vertical (normalizeSize c.vertical h) y) = g.read x y)) :=
  ⟨fun hrooms => norooms_mirror_tiles R entropy w h c g hrooms hg,
    fun hrooms => generate_rooms_mirror hrooms hg⟩

set_option maxRecDepth 1000000 in
/-- Witness of `generate_mirror_tiles`: the symmetric 5 by 5 maze without rooms, whose
tiles mirror, and with a room at every dead end, whose cell states mirror. -/
theorem generate_mirror_tiles_witness :
    (generate lcg 0 6 6 mirrored = some mirroredCarve ∧
      ∀ x y a b, mirroredCarve.read x y = some a →
        mirroredCarve.read (mirrorCoord mirrored.horizontal
          (normalizeSize mirrored.horizontal 6) x) y = some b →
        ((a = EMPTY ↔ b = EMPTY) ∧ convertTileValue a = convertTileValue b)) ∧
    (generate lcg 0 6 6 (mirroredRooms false 42) =
        some [[255, 255, 255, 255, 255], [255, 0, 0, 0, 0], [255, 0, 0, 0, 0],
          [255, 0, 0, 0, 0], [255, 255, 255, 255, 255]] ∧
      ∀ x y, Grid.read [[255, 255, 255, 255, 255], [255, 0, 0, 0, 0], [255, 0, 0, 0, 0],
          [255, 0, 0, 0, 0], [255, 255, 255, 255, 255]]
          (mirrorCoord (mirroredRooms false 42).horizontal
            (normalizeSize (mirroredRooms false 42).horizontal 6) x) y =
        Grid.read [[255, 255, 255, 255, 255], [255, 0, 0, 0, 0], [255, 0, 0, 0, 0],
          [255, 0, 0, 0, 0], [255, 255, 255, 255, 255]] x y) :=
  ⟨⟨by decide,
      ((generate_mirror_tiles lcg 0 6 6 mirrored mirroredCarve (by decide)).1 (by decide)).1
        (by decide)⟩,
    ⟨by decide,
      ((generate_mirror_tiles lcg 0 6 6 (mirroredRooms false 42) _ (by decide)).2
        (by decide)).1 (by decide) (by decide)⟩⟩

/-! ## The fuel of the carver loop is enough -/

theorem sum_set_nat (l : List Nat) (i : Nat) (a : Nat) (hi : i < l.length) :
    (l.set i a).sum + l[i] = l.sum + a := by
  induction l generalizing i with
  | nil => simp at hi
  | cons b t ih =>
    cases i with
    | zero => simp only [List.set_cons_zero, List.sum_cons, List.getElem_cons_zero]; omega
    | succ j =>
      simp only [List.set_cons_succ, List.sum_cons, List.getElem_cons_succ]
      have := ih j (by simpa using hi)
      omega

/-- A write changes the number of cells that are not Passage by what the old and the new
value of the written cell count. -/
theorem write_unopened {m m1 : Grid} {x y v c0 : Int} (hw : m.write x y v = some m1)
    (hr : m.read x y = some c0) :
    unopened m1 + (if c0 ≠ EMPTY then 1 else 0) = unopened m + (if v ≠ EMPTY then 1 else 0) := by
  obtain ⟨hx, hy, col, hcol, hlen, rfl⟩ := write_some hw
  have hxl : x.toNat < m.length := by
    by_contra hcon
    rw [List.getElem?_eq_none (by omega)] at hcol
    exact Option.noConfusion hcol
  have hcol1 : m[x.toNat] = col := by
    rw [List.getElem?_eq_getElem hxl] at hcol
    exact Option.some.inj hcol
  have hc0 : col[y.toNat] = c0 := by
    unfold Grid.read at hr
    rw [if_pos ⟨hx, hy⟩, hcol] at hr
    simp only at hr
    rw [List.getElem?_eq_getElem hlen] at hr
    exact Option.some.inj hr
  unfold unopened
  rw [List.map_set]
  have h1 := sum_set_nat (m.map (fun col => col.countP (fun v => decide (v ≠ EMPTY)))) x.toNat
    ((col.set y.toNat v).countP (fun v => decide (v ≠ EMPTY))) (by rw [List.length_map]; exact hxl)
  rw [List.getElem_map, hcol1] at h1
  have h2 := List.countP_set (fun v => decide (v ≠ EMPTY)) col y.toNat v hlen
  rw [hc0] at h2
  have h3 : (if decide (c0 ≠ EMPTY) = true then 1 else 0) ≤
      col.countP (fun v => decide (v ≠ EMPTY)) := by
    split_ifs with hc
    · rw [← hc0] at hc
      exact List.countP_pos_iff.2 ⟨_, List.getElem_mem hlen, hc⟩
    · exact Nat.zero_le _
  simp only [decide_eq_true_eq] at h2 h3
  omega

theorem write_empty_unopened {m m1 : Grid} {x y : Int} (hw : m.write x y EMPTY = some m1) :
    unopened m1 ≤ unopened m := by
  obtain ⟨c0, hc0⟩ := read_of_write hw
  have := write_unopened hw hc0
  simp only [ne_eq, not_true_eq_false, if_false] at this
  omega

/-- The first write of `setMaze`; the later writes keep what every write keeps. -/
theorem setMaze_first {c : MazeConfig} {w h : Int} {v : Int} {m m1 : Grid} {x y : Int}
    (hs : setMaze m x y v c w h = some m1) :
    ∃ x1 y1 m0, cmod (x + w) w = some x1 ∧ cmod (y + h) h = some y1 ∧
      m.write x1 y1 v = some m0 ∧
      ∀ P : Grid → Prop, (∀ a p q b, P a → a.write p q v = some b → P b) → P m0 → P m1 := by
  unfold setMaze at hs
  cases hx : cmod (x + w) w with
  | none => simp [hx] at hs
  | some x1 =>
    cases hy : cmod (y + h) h with
    | none => simp [hx, hy] at hs
    | some y1 =>
      simp only [hx, hy] at hs
      cases hm0 : m.write x1 y1 v with
      | none => simp [hm0] at hs
      | some m0 =>
        simp only [hm0] at hs
        refine ⟨x1, y1, m0, rfl, rfl, hm0, fun P hP p0 => ?_⟩
        generalize (w - x1 - if effectiveWrap c.horizontal = true then 0 else 1) = u at hs
        generalize (h - y1 - if effectiveWrap c.vertical = true then 0 else 1) = v1 at hs
        by_cases hA : (c.horizontal.symmetry && decide (u < w)) = true
        · simp only [hA, if_true] at hs
          cases h1 : m0.write u y1 v with
          | none => simp [h1] at hs
          | some ma =>
            simp only [h1] at hs
            have pa := hP _ _ _ _ p0 h1
            by_cases hB : (c.vertical.symmetry && decide (v1 < h)) = true
            · simp only [hB, if_true] at hs
              cases h2 : ma.write u v1 v with
              | none => simp [h2] at hs
              | some mb =>
                simp only [h2] at hs
                exact hP _ _ _ _ (hP _ _ _ _ pa h2) hs
            · simp only [hB, if_false] at hs
              cases hs
              exact pa
        · simp only [hA, if_false] at hs
          by_cases hB : (c.vertical.symmetry && decide (v1 < h)) = true
          · simp only [hB, if_true] at hs
            exact hP _ _ _ _ p0 hs
          · simp only [hB, if_false] at hs
            cases hs
            exact p0

theorem setMaze_unopened {c : MazeConfig} {w h : Int} {m m1 : Grid} {x y : Int}
    (hs : setMaze m x y EMPTY c w h = some m1) : unopened m1 ≤ unopened m :=
  setMaze_preserves (fun g => unopened g ≤ unopened m)
    (fun _ _ _ _ ha hw => le_trans (write_empty_unopened hw) ha) (le_refl _) hs

/-- Carving a cell that is inside the grid and not Passage lowers the number of cells
that are not Passage. -/
theorem setMaze_unopened_lt {c : MazeConfig} {w h : Int} {m m1 : Grid} {x y c0 : Int}
    (hx0 : 0 ≤ x) (hx1 : x < w) (hy0 : 0 ≤ y) (hy1 : y < h)
    (hr : m.read x y = some c0) (hc0 : c0 ≠ EMPTY)
    (hs : setMaze m x y EMPTY c w h = some m1) : unopened m1 + 1 ≤ unopened m := by
  obtain ⟨x1, y1, m0, hx, hy, hw, hrest⟩ := setMaze_first hs
  rw [cmod_inRange _ _ hx0 hx1] at hx
  rw [cmod_inRange _ _ hy0 hy1] at hy
  cases hx
  cases hy
  have h1 := write_unopened hw hr
  rw [if_pos hc0] at h1
  simp only [ne_eq, not_true_eq_false, if_false] at h1
  have h2 : unopened m1 ≤ unopened m0 :=
    hrest (fun g => unopened g ≤ unopened m0)
      (fun _ _ _ _ ha hw1 => le_trans (write_empty_unopened hw1) ha) (le_refl _)
  omega

theorem swapAt_length (l : List Direction) (i j : Nat) : (swapAt l i j).length = l.length := by
  unfold swapAt
  split
  · rw [List.length_set, List.length_set]
  · rfl

theorem shuffleFrom_length {σ : Type} (R : RandomSource σ) (i : Nat) :
    ∀ (l : List Direction) (s : σ), (shuffleFrom R i l s).1.length = l.length := by
  induction i with
  | zero => intro l s; rfl
  | succ n ih =>
    intro l s
    unfold shuffleFrom
    rw [ih, swapAt_length]

theorem prioritize_length (l : List Direction) (step : Direction) :
    (prioritize l step).length = l.length := by
  unfold prioritize
  split
  · exact swapAt_length _ _ _
  · rfl

theorem pushNeighbours_length (m : Grid) (hWrap vWrap : Bool) (w h : Int) (cur : StackEntry)
    (ign : Int) (ds : List Direction) :
    ∀ (stack : List StackEntry) (dead : Bool) (r : List StackEntry × Bool),
      pushNeighbours m hWrap vWrap w h cur ign ds stack dead = some r →
      r.1.length ≤ stack.length + ds.length := by
  induction ds with
  | nil =>
    intro stack dead r hs
    unfold pushNeighbours at hs
    cases hs
    exact Nat.le_add_right _ _
  | cons step rest ih =>
    intro stack dead r hs
    unfold pushNeighbours at hs
    split at hs
    · split_ifs at hs
      · split at hs
        · have := ih _ _ _ hs
          simp only [List.length_cons] at this ⊢
          omega
        · have := ih _ _ _ hs
          simp only [List.length_cons] at this ⊢
          omega
        · exact Option.noConfusion hs
      · have := ih _ _ _ hs
        simp only [List.length_cons] at this ⊢
        omega
    · exact Option.noConfusion hs

theorem unexplored_true {m : Grid} {x y ign : Int}
    (hu : unexplored m x y ign = some true) : ∃ v, m.read x y = some v ∧ v ≠ EMPTY := by
  unfold unexplored at hu
  split at hu
  · rename_i v hv
    refine ⟨v, hv, ?_⟩
    intro h0
    subst h0
    simp at hu
  · exact Option.noConfusion hu

/-- One iteration of the carver does not raise four times the number of cells that are not
Passage plus the length of the stack, keeps the size of the grid and the length of the
direction list. -/
theorem carveStep_measure {σ : Type} {R : RandomSource σ} {c : MazeConfig} {w h : Int}
    {cur : StackEntry} {st st1 : CarveState σ} (hdom : Dom w h st.maze)
    (hdir : st.directions.length ≤ 4) (hs : carveStep R c w h cur st = some st1) :
    Dom w h st1.maze ∧ st1.directions.length ≤ 4 ∧
      4 * unopened st1.maze + st1.stack.length ≤ 4 * unopened st.maze + st.stack.length := by
  have hcases := carveStep_cases hs
  rcases hcases with ⟨-, heq⟩ | ⟨hu, m1, dead, hs1, hs2, hpush, -⟩
  · subst heq
    exact ⟨hdom, hdir, le_refl _⟩
  · obtain ⟨v0, hv0, hne⟩ := unexplored_true hu
    obtain ⟨hx0, hx1, hy0, hy1⟩ := (hdom cur.x cur.y).1 (by rw [hv0]; rfl)
    have h1 := setMaze_unopened_lt hx0 hx1 hy0 hy1 hv0 hne hs1
    have h2 := setMaze_unopened hs2
    have h3 := pushNeighbours_length _ _ _ _ _ _ _ _ _ _ _ hpush
    have hlen : st1.directions.length = st.directions.length := by
      unfold carveStep at hs
      rw [hu] at hs
      simp only [hs1] at hs
      split at hs
      · exact Option.noConfusion hs
      · split at hs
        · exact Option.noConfusion hs
        · cases hs
          simp only
          split_ifs
          · rw [prioritize_length]
            exact shuffleFrom_length R _ _ _
          · exact shuffleFrom_length R _ _ _
    refine ⟨setMaze_dom _ _ _ _ (setMaze_dom _ _ _ _ hdom hs1) hs2, by omega, ?_⟩
    simp only at h3
    omega

theorem unopened_le (l : Grid) (H : Nat) (hl : ∀ col ∈ l, col.length = H) :
    unopened l ≤ l.length * H := by
  induction l with
  | nil => simp [unopened]
  | cons col rest ih =>
    have h1 := ih (fun c hc => hl c (List.mem_cons_of_mem _ hc))
    have h2 : col.countP (fun v => decide (v ≠ EMPTY)) ≤ H := by
      rw [← hl col (List.mem_cons_self _ _)]
      exact List.countP_le_length _
    unfold unopened at h1 ⊢
    simp only [List.map_cons, List.sum_cons, List.length_cons]
    rw [Nat.succ_mul]
    omega

/-- After the horizontal copy with offset 1 on a grid of odd width a cell holds its old
value or the old value of its mirror cell. -/
theorem mirrorRows_from {w h : Int} (hw0 : 0 ≤ w) (hodd : w % 2 = 1) (m m1 : Grid)
    (hs : mirrorRows w 1 (intRange 0 (Int.tdiv w 2)) (intRange 0 (h - 1)) m = some m1) :
    ∀ x y, m1.read x y = m.read x y ∨
      (0 ≤ x ∧ x < w ∧ m1.read x y = m.read (w - 1 - x) y) := by
  intro x y
  rw [mirrorRows_spec _ _ _ _ _ _ hs (nodup_intRange _ _)]
  by_cases hy : y ∈ intRange 0 (h - 1)
  · rw [if_pos hy]
    obtain ⟨k, hk⟩ : ∃ k, w = 2 * k + 1 := ⟨w / 2, by omega⟩
    rw [copied_odd w k (by omega) hk]
    by_cases hc : k ≤ x ∧ x ≤ 2 * k
    · rw [if_pos hc]
      exact Or.inr ⟨by omega, by omega, rfl⟩
    · rw [if_neg hc]
      exact Or.inl rfl
  · rw [if_neg hy]
    exact Or.inl rfl

/-- After the vertical copy with offset 1 on a grid of odd height a cell holds its old
value or the old value of its mirror cell. -/
theorem mirrorColumns_from {w h : Int} (hh0 : 0 ≤ h) (hodd : h % 2 = 1) (m m1 : Grid)
    (hs : mirrorColumns h 1 (intRange 0 (Int.tdiv h 2)) (intRange 0 (w - 1)) m = some m1) :
    ∀ x y, m1.read x y = m.read x y ∨
      (0 ≤ y ∧ y < h ∧ m1.read x y = m.read x (h - 1 - y)) := by
  intro x y
  rw [mirrorColumns_spec _ _ _ _ _ _ hs (nodup_intRange _ _)]
  by_cases hx : x ∈ intRange 0 (w - 1)
  · rw [if_pos hx]
    obtain ⟨k, hk⟩ : ∃ k, h = 2 * k + 1 := ⟨h / 2, by omega⟩
    rw [copied_odd h k (by omega) hk]
    by_cases hc : k ≤ y ∧ y ≤ 2 * k
    · rw [if_pos hc]
      exact Or.inr ⟨by omega, by omega, rfl⟩
    · rw [if_neg hc]
      exact Or.inl rfl
  · rw [if_neg hx]
    exact Or.inl rfl

theorem mirrorCoord_plain (a : Axis) (size x : Int) (hl : a.loop = false) :
    mirrorCoord a size x = size - 1 - x := by
  unfold mirrorCoord
  rw [effectiveWrap_of_loop_false a hl]
  simp only [Bool.false_eq_true, if_false]
  omega

/-- The restoring copies of `addRooms`, on symmetric axes with `loop = false`, keep the
Passage cells of a grid `m0` whose Passage set is mirror symmetric and contained in the
Passage set of the grid that is copied. -/
theorem restoreSymmetry_keeps {w h : Int} {c : MazeConfig} {m0 m1 g : Grid}
    (hw0 : 0 ≤ w) (hh0 : 0 ≤ h) (hwodd : effectiveWrap c.horizontal = false → w % 2 = 1)
    (hhodd : effectiveWrap c.vertical = false → h % 2 = 1)
    (hH : c.horizontal.symmetry = true → c.horizontal.loop = false ∧ MirrorH c w m0)
    (hV : c.vertical.symmetry = true → c.vertical.loop = false ∧ MirrorV c h m0)
    (hk : PassageKept m0 m1) (hs : restoreSymmetry m1 c w h = some g) :
    PassageKept m0 g := by
  unfold restoreSymmetry at hs
  simp only at hs
  split at hs
  · exact Option.noConfusion hs
  · rename_i m2 hm2
    have hk2 : PassageKept m0 m2 := by
      by_cases hsym : c.horizontal.symmetry = true
      · obtain ⟨hloop, hmir⟩ := hH hsym
        rw [if_pos hsym, hloop] at hm2
        simp only [Bool.false_eq_true, if_false] at hm2
        have hodd := hwodd (effectiveWrap_of_loop_false _ hloop)
        intro x y hxy
        rcases mirrorRows_from hw0 hodd m1 m2 hm2 x y with h1 | ⟨hx0, hx1, h1⟩
        · rw [h1]; exact hk x y hxy
        · rw [h1]
          have hm := (hmir x y hx0 hx1 (by rw [mirrorCoord_plain _ _ _ hloop]; omega)
            (by rw [mirrorCoord_plain _ _ _ hloop]; omega)).1 hxy
          rw [mirrorCoord_plain _ _ _ hloop] at hm
          exact hk _ _ hm
      · rw [if_neg hsym] at hm2
        cases hm2
        exact hk
    by_cases hsym : c.vertical.symmetry = true
    · obtain ⟨hloop, hmir⟩ := hV hsym
      rw [if_pos hsym, hloop] at hs
      simp only [Bool.false_eq_true, if_false] at hs
      have hodd := hhodd (effectiveWrap_of_loop_false _ hloop)
      intro x y hxy
      rcases mirrorColumns_from hh0 hodd m2 g hs x y with h1 | ⟨hy0, hy1, h1⟩
      · rw [h1]; exact hk2 x y hxy
      · rw [h1]
        have hm := (hmir x y hy0 hy1 (by rw [mirrorCoord_plain _ _ _ hloop]; omega)
          (by rw [mirrorCoord_plain _ _ _ hloop]; omega)).1 hxy
        rw [mirrorCoord_plain _ _ _ hloop] at hm
        exact hk2 _ _ hm
    · rw [if_neg hsym] at hs
      cases hs
      exact hk2

/-- A Passage cell of the grid after the imperfection injector is a Passage cell of the
returned grid, when there are no rooms or no symmetric axis has `loop = true`. -/
theorem imperfected_passageKept {σ : Type} {R : RandomSource σ} {entropy : Nat} {w h : Int}
    {c : MazeConfig} {r : Grid × List DeadEnd} {g : Grid}
    (hcase : c.roomsFraction.num ≤ 0 ∨
      ((c.horizontal.symmetry = true → c.horizontal.loop = false) ∧
        (c.vertical.symmetry = true → c.vertical.loop = false)))
    (hr : imperfected R entropy w h c = some r) (hg : generate R entropy w h c = some g) :
    PassageKept r.1 g := by
  by_cases hrooms : c.roomsFraction.num ≤ 0
  · obtain ⟨d, hd⟩ := generate_eq_imperfected hrooms hg
    rw [hr] at hd
    cases hd
    exact passageKept_refl _
  · rcases hcase with h0 | ⟨hH, hV⟩
    · exact absurd h0 hrooms
    · obtain ⟨m, d, hi, ha⟩ := generate_eq_addRooms (by omega) hg
      rw [hr] at hi
      cases hi
      have hrect : Rect (normalizeSize c.horizontal w) (normalizeSize c.vertical h) m :=
        imperfected_invariant (Rect _ _) (Rect _ _) solid_rect write_rect (fun _ hm => hm)
          setMaze_rect hr
      unfold addRooms at ha
      split at ha
      · exact Option.noConfusion ha
      · rename_i col rest
        split at ha
        · exact Option.noConfusion ha
        · rename_i m1 hm1
          have hlen : (((col :: rest).length : Nat) : Int) = normalizeSize c.horizontal w :=
            hrect.1
          have hcol : ((col.length : Nat) : Int) = normalizeSize c.vertical h :=
            hrect.2 col (List.mem_cons_self _ _)
          rw [hlen, hcol] at ha
          refine restoreSymmetry_keeps (by omega) (by omega)
            (normalizeSize_plain_odd _ w) (normalizeSize_plain_odd _ h)
            (fun hsym => ⟨hH hsym, ?_⟩) (fun hsym => ⟨hV hsym, ?_⟩)
            (roomsCarved_passageKept hm1) ha
          · exact imperfected_invariant NoPassage (MirrorH c _) solid_noPassage write_noPassage
              (noPassage_mirrorH c _) (setMaze_mirrorH hsym) hr
          · exact imperfected_invariant NoPassage (MirrorV c _) solid_noPassage write_noPassage
              (noPassage_mirrorV c _) (setMaze_mirrorV hsym) hr

/-- C8 (amended): the carver, the imperfection injector and the room loop of `addRooms`
only turn cells into Passage: a Passage cell of the grid at any state of one of these
loops is a Passage cell when the loop ends.  A cell that is Passage when the carver loop
has finished is Passage after the imperfection injector; a cell that is Passage after the
imperfection injector is Passage in the grid `generate` returns when there are no rooms or
no symmetric axis has `loop = true`; a cell that is Passage after the room loop is Passage
in the returned grid when no axis is symmetric. -/
theorem passage_never_reverts {σ : Type} (R : RandomSource σ) (c : MazeConfig) :
    (∀ (w h : Int) fuel (st st1 : CarveState σ), carveLoop R c w h fuel st = some st1 →
      PassageKept st.maze st1.maze) ∧
    (∀ (w h hBdry vBdry xHi yHi : Int) n m (s : σ) r,
      imperfectLoop R c w h hBdry vBdry xHi yHi n m s = some r → PassageKept m r.1) ∧
    (∀ (w h a b : Int) d idx m m1, carveRooms c w h a b d idx m = some m1 → PassageKept m m1) ∧
    (∀ entropy (w h : Int) (st : CarveState σ) r g,
      carved R entropy w h c = some st → imperfected R entropy w h c = some r →
      generate R entropy w h c = some g →
      PassageKept st.maze r.1 ∧
      ((c.roomsFraction.num ≤ 0 ∨
          ((c.horizontal.symmetry = true → c.horizontal.loop = false) ∧
            (c.vertical.symmetry = true → c.vertical.loop = false))) →
        PassageKept r.1 g) ∧
      (0 < c.roomsFraction.num → c.horizontal.symmetry = false →
        c.vertical.symmetry = false →
        ∀ m1, roomsCarved r.1 r.2 c = some m1 → PassageKept m1 g)) := by
  refine ⟨?_, ?_, ?_, ?_⟩
  · intro w h fuel st st1 hs
    exact carveLoop_preserves (PassageKept st.maze)
      (fun m x y m1 h0 h1 => passageKept_trans h0 (setMaze_passageKept h1)) fuel st st1
      (passageKept_refl _) hs
  · intro w h hBdry vBdry xHi yHi n m s r hs
    exact imperfectLoop_preserves (PassageKept m)
      (fun m x y m1 h0 h1 => passageKept_trans h0 (setMaze_passageKept h1)) _ _ _ _ n m s r
      (passageKept_refl _) hs
  · intro w h a b d idx m m1 hs
    exact carveRooms_passageKept c w h a b d idx m m1 hs
  · intro entropy w h st r g hst hr hg
    refine ⟨?_, fun hcase => imperfected_passageKept hcase hr hg, ?_⟩
    · unfold imperfected at hr
      rw [hst] at hr
      simp only at hr
      split at hr
      · exact Option.noConfusion hr
      · rename_i m s hm
        cases hr
        have hfin := addImperfections_preserves (PassageKept st.maze)
          (fun m x y m1 h0 h1 => passageKept_trans h0 (setMaze_passageKept h1))
          (passageKept_refl _) hm
        exact hfin
    · intro hrooms hh hv m1 hm1
      obtain ⟨m, d, hi, ha⟩ := generate_eq_addRooms hrooms hg
      rw [hr] at hi
      cases hi
      rw [addRooms_eq_roomsCarved hh hv, hm1] at ha
      cases ha
      exact passageKept_refl _

set_option maxRecDepth 1000000 in
/-- Witness of `passage_never_reverts`: a run without symmetry and with a room at every
dead end. -/
theorem passage_never_reverts_witness :
    ∃ st r g, carved lcg 0 6 6 roomsEverywhere = some st ∧
      imperfected lcg 0 6 6 roomsEverywhere = some r ∧
      generate lcg 0 6 6 roomsEverywhere = some g ∧
      PassageKept st.maze r.1 ∧ PassageKept r.1 g ∧
      ∀ m1, roomsCarved r.1 r.2 roomsEverywhere = some m1 → PassageKept m1 g := by
  have h1 : (carved lcg 0 6 6 roomsEverywhere).isSome = true := by decide
  have h2 : (imperfected lcg 0 6 6 roomsEverywhere).isSome = true := by decide
  have h3 : (generate lcg 0 6 6 roomsEverywhere).isSome = true := by decide
  obtain ⟨st, hst⟩ := Option.isSome_iff_exists.1 h1
  obtain ⟨r, hr⟩ := Option.isSome_iff_exists.1 h2
  obtain ⟨g, hg⟩ := Option.isSome_iff_exists.1 h3
  have hall := (passage_never_reverts lcg roomsEverywhere).2.2.2 0 6 6 st r g hst hr hg
  exact ⟨st, r, g, hst, hr, hg, hall.1,
    hall.2.1 (Or.inr ⟨fun hc => absurd hc (by decide), fun hc => absurd hc (by decide)⟩),
    hall.2.2 (by decide) (by decide) (by decide)⟩

/-- Witness of `normalizeSize_parity`: a request of 10 on a bordered axis without wrap
gives 9, on an unbordered wrapping axis 12, on an unbordered wrapping symmetric axis 10. -/
theorem normalizeSize_parity_witness :
    (normalizeSize ⟨false, 1, false⟩ 10 = 9 ∧ normalizeSize ⟨false, 1, false⟩ 10 % 2 = 1) ∧
    (normalizeSize ⟨false, 0, true⟩ 10 = 12 ∧ normalizeSize ⟨false, 0, true⟩ 10 % 2 = 0) ∧
    (normalizeSize ⟨true, 0, true⟩ 10 = 10 ∧ normalizeSize ⟨true, 0, true⟩ 10 % 4 = 2) :=
  ⟨⟨by decide, (normalizeSize_parity ⟨false, 1, false⟩ 10).1 (by decide)⟩,
    ⟨by decide, (normalizeSize_parity ⟨false, 0, true⟩ 10).2.1 (by decide)⟩,
    ⟨by decide, (normalizeSize_parity ⟨true, 0, true⟩ 10).2.2.2 (by decide) (by decide)
      (by decide) (by decide)⟩⟩

/-! ## The loop flag of a symmetric bordered axis, without rooms -/

theorem effectiveWrap_foreclosed (a : Axis) (hs : a.symmetry = true) (hb : a.border ≠ 0)
    (loop : Bool) : effectiveWrap { a with loop := loop } = false := by
  simp [effectiveWrap, hs, hb]

theorem setMaze_loop (c : MazeConfig) (hs : c.horizontal.symmetry = true)
    (hb : c.horizontal.border ≠ 0) (l1 l2 : Bool) (m : Grid) (x y v w h : Int) :
    setMaze m x y v (withHorizontalLoop c l1) w h =
      setMaze m x y v (withHorizontalLoop c l2) w h := by
  unfold setMaze withHorizontalLoop
  simp only [effectiveWrap_foreclosed c.horizontal hs hb]

theorem carveStep_loop {σ : Type} (R : RandomSource σ) (c : MazeConfig)
    (hs : c.horizontal.symmetry = true) (hb : c.horizontal.border ≠ 0) (l1 l2 : Bool)
    (w h : Int) (cur : StackEntry) (st : CarveState σ) :
    carveStep R (withHorizontalLoop c l1) w h cur st =
      carveStep R (withHorizontalLoop c l2) w h cur st := by
  unfold carveStep
  simp only [setMaze_loop c hs hb l1 l2]
  unfold withHorizontalLoop
  simp only [effectiveWrap_foreclosed c.horizontal hs hb]

theorem carveLoop_loop {σ : Type} (R : RandomSource σ) (c : MazeConfig)
    (hs : c.horizontal.symmetry = true) (hb : c.horizontal.border ≠ 0) (l1 l2 : Bool)
    (w h : Int) (fuel : Nat) : ∀ st : CarveState σ,
    carveLoop R (withHorizontalLoop c l1) w h fuel st =
      carveLoop R (withHorizontalLoop c l2) w h fuel st := by
  induction fuel with
  | zero => intro st; rfl
  | succ n ih =>
    intro st
    unfold carveLoop
    cases st.stack with
    | nil => rfl
    | cons cur rest =>
      simp only
      rw [carveStep_loop R c hs hb l1 l2]
      cases carveStep R (withHorizontalLoop c l2) w h cur { st with stack := rest } with
      | none => rfl
      | some st1 => exact ih st1

theorem remove_loop (c : MazeConfig) (hs : c.horizontal.symmetry = true)
    (hb : c.horizontal.border ≠ 0) (l1 l2 : Bool) (m : Grid) (x y w h : Int) :
    remove m x y (withHorizontalLoop c l1) w h = remove m x y (withHorizontalLoop c l2) w h := by
  unfold remove
  simp only [setMaze_loop c hs hb l1 l2]

theorem imperfectLoop_loop {σ : Type} (R : RandomSource σ) (c : MazeConfig)
    (hs : c.horizontal.symmetry = true) (hb : c.horizontal.border ≠ 0) (l1 l2 : Bool)
    (w h hBdry vBdry xHi yHi : Int) (n : Nat) : ∀ (m : Grid) (s : σ),
    imperfectLoop R (withHorizontalLoop c l1) w h hBdry vBdry xHi yHi n m s =
      imperfectLoop R (withHorizontalLoop c l2) w h hBdry vBdry xHi yHi n m s := by
  induction n with
  | zero => intro m s; rfl
  | succ k ih =>
    intro m s
    unfold imperfectLoop
    simp only [remove_loop c hs hb l1 l2, ih]

/-- Without rooms the `loop` flag of an axis with symmetry and a border has no effect on
the grid `generate` returns (stated for the horizontal axis). -/
theorem generate_loop_without_rooms {σ : Type} (R : RandomSource σ) (entropy : Nat)
    (w h : Int) (c : MazeConfig) (hs : c.horizontal.symmetry = true)
    (hb : c.horizontal.border ≠ 0) (hrooms : c.roomsFraction.num ≤ 0) (l1 l2 : Bool) :
    generate R entropy w h (withHorizontalLoop c l1) =
      generate R entropy w h (withHorizontalLoop c l2) := by
  have hwrap := effectiveWrap_foreclosed c.horizontal hs hb
  have hnorm : ∀ l, normalizeSize (withHorizontalLoop c l).horizontal w =
      normalizeSize (withHorizontalLoop c false).horizontal w := by
    intro l
    simp only [withHorizontalLoop, normalizeSize, ensureDimension, accountForEdges, hwrap]
  have hcarved : ∀ l, carved R entropy w h (withHorizontalLoop c l) =
      carved R entropy w h (withHorizontalLoop c false) := by
    intro l
    unfold carved
    rw [hnorm l]
    simp only [carveLoop_loop R c hs hb l false]
    rfl
  have himp : ∀ l, imperfected R entropy w h (withHorizontalLoop c l) =
      imperfected R entropy w h (withHorizontalLoop c false) := by
    intro l
    unfold imperfected
    rw [hcarved l, hnorm l]
    unfold addImperfections
    simp only [imperfectLoop_loop R c hs hb l false]
    simp only [withHorizontalLoop, boundary, hwrap, clampImperfect]
  have hgen : ∀ l, generate R entropy w h (withHorizontalLoop c l) =
      generate R entropy w h (withHorizontalLoop c false) := by
    intro l
    have hlt : ∀ l1, Frac.lt (Frac.ofInt 0) (withHorizontalLoop c l1).roomsFraction = false := by
      intro l1
      simp only [withHorizontalLoop, Frac.lt, Frac.ofInt, decide_eq_false_iff_not]
      omega
    unfold generate
    rw [himp l, hlt l, hlt false]
    cases imperfected R entropy w h (withHorizontalLoop c false) with
    | none => rfl
    | some p => rfl
  rw [hgen l1, hgen l2]
theorem setMaze_loopV (c : MazeConfig) (hs : c.vertical.symmetry = true)
    (hb : c.vertical.border ≠ 0) (l1 l2 : Bool) (m : Grid) (x y v w h : Int) :
    setMaze m x y v (withVerticalLoop c l1) w h =
      setMaze m x y v (withVerticalLoop c l2) w h := by
  unfold setMaze withVerticalLoop
  simp only [effectiveWrap_foreclosed c.vertical hs hb]

theorem carveStep_loopV {σ : Type} (R : RandomSource σ) (c : MazeConfig)
    (hs : c.vertical.symmetry = true) (hb : c.vertical.border ≠ 0) (l1 l2 : Bool)
    (w h : Int) (cur : StackEntry) (st : CarveState σ) :
    carveStep R (withVerticalLoop c l1) w h cur st =
      carveStep R (withVerticalLoop c l2) w h cur st := by
  unfold carveStep
  simp only [setMaze_loopV c hs hb l1 l2]
  unfold withVerticalLoop
  simp only [effectiveWrap_foreclosed c.vertical hs hb]

theorem carveLoop_loopV {σ : Type} (R : RandomSource σ) (c : MazeConfig)
    (hs : c.vertical.symmetry = true) (hb : c.vertical.border ≠ 0) (l1 l2 : Bool)
    (w h : Int) (fuel : Nat) : ∀ st : CarveState σ,
    carveLoop R (withVerticalLoop c l1) w h fuel st =
      carveLoop R (withVerticalLoop c l2) w h fuel st := by
  induction fuel with
  | zero => intro st; rfl
  | succ n ih =>
    intro st
    unfold carveLoop
    cases st.stack with
    | nil => rfl
    | cons cur rest =>
      simp only
      rw [carveStep_loopV R c hs hb l1 l2]
      cases carveStep R (withVerticalLoop c l2) w h cur { st with stack := rest } with
      | none => rfl
      | some st1 => exact ih st1

theorem remove_loopV (c : MazeConfig) (hs : c.vertical.symmetry = true)
    (hb : c.vertical.border ≠ 0) (l1 l2 : Bool) (m : Grid) (x y w h : Int) :
    remove m x y (withVerticalLoop c l1) w h = remove m x y (withVerticalLoop c l2) w h := by
  unfold remove
  simp only [setMaze_loopV c hs hb l1 l2]

theorem imperfectLoop_loopV {σ : Type} (R : RandomSource σ) (c : MazeConfig)
    (hs : c.vertical.symmetry = true) (hb : c.vertical.border ≠ 0) (l1 l2 : Bool)
    (w h hBdry vBdry xHi yHi : Int) (n : Nat) : ∀ (m : Grid) (s : σ),
    imperfectLoop R (withVerticalLoop c l1) w h hBdry vBdry xHi yHi n m s =
      imperfectLoop R (withVerticalLoop c l2) w h hBdry vBdry xHi yHi n m s := by
  induction n with
  | zero => intro m s; rfl
  | succ k ih =>
    intro m s
    unfold imperfectLoop
    simp only [remove_loopV c hs hb l1 l2, ih]

/-- The same for the vertical axis. -/
theorem generate_loop_without_roomsV {σ : Type} (R : RandomSource σ) (entropy : Nat)
    (w h : Int) (c : MazeConfig) (hs : c.vertical.symmetry = true)
    (hb : c.vertical.border ≠ 0) (hrooms : c.roomsFraction.num ≤ 0) (l1 l2 : Bool) :
    generate R entropy w h (withVerticalLoop c l1) =
      generate R entropy w h (withVerticalLoop c l2) := by
  have hwrap := effectiveWrap_foreclosed c.vertical hs hb
  have hnorm : ∀ l, normalizeSize (withVerticalLoop c l).vertical h =
      normalizeSize (withVerticalLoop c false).vertical h := by
    intro l
    simp only [withVerticalLoop, normalizeSize, ensureDimension, accountForEdges, hwrap]
  have hcarved : ∀ l, carved R entropy w h (withVerticalLoop c l) =
      carved R entropy w h (withVerticalLoop c false) := by
    intro l
    unfold carved
    rw [hnorm l]
    simp only [carveLoop_loopV R c hs hb l false]
    rfl
  have himp : ∀ l, imperfected R entropy w h (withVerticalLoop c l) =
      imperfected R entropy w h (withVerticalLoop c false) := by
    intro l
    unfold imperfected
    rw [hcarved l, hnorm l]
    unfold addImperfections
    simp only [imperfectLoop_loopV R c hs hb l false]
    simp only [withVerticalLoop, boundary, hwrap, clampImperfect]
  have hgen : ∀ l, generate R entropy w h (withVerticalLoop c l) =
      generate R entropy w h (withVerticalLoop c false) := by
    intro l
    have hlt : ∀ l1, Frac.lt (Frac.ofInt 0) (withVerticalLoop c l1).roomsFraction = false := by
      intro l1
      simp only [withVerticalLoop, Frac.lt, Frac.ofInt, decide_eq_false_iff_not]
      omega
    unfold generate
    rw [himp l, hlt l, hlt false]
    cases imperfected R entropy w h (withVerticalLoop c false) with
    | none => rfl
    | some p => rfl
  rw [hgen l1, hgen l2]

/-! ## The symmetric write rule -/

/-- A write inside the grid succeeds. -/
theorem write_total {w h : Int} {m : Grid} (hdom : Dom w h m) (x y v : Int)
    (hx0 : 0 ≤ x) (hx1 : x < w) (hy0 : 0 ≤ y) (hy1 : y < h) :
    ∃ m1, m.write x y v = some m1 ∧ Dom w h m1 := by
  obtain ⟨c0, hc0⟩ := Option.isSome_iff_exists.1 ((hdom x y).2 ⟨hx0, hx1, hy0, hy1⟩)
  obtain ⟨m1, hm1⟩ := write_of_read v hc0
  exact ⟨m1, hm1, write_dom _ _ _ _ hdom hm1⟩

/-- On a `w` by `h` grid `setMaze` with a target whose wrapped coordinates are inside the
grid uses no index outside the grid. -/
theorem setMaze_total {w h : Int} {m : Grid} (hdom : Dom w h m) (c : MazeConfig)
    (x y v x1 y1 : Int) (hx : cmod (x + w) w = some x1) (hy : cmod (y + h) h = some y1)
    (hx0 : 0 ≤ x1) (hx1 : x1 < w) (hy0 : 0 ≤ y1) (hy1 : y1 < h) :
    ∃ m1, setMaze m x y v c w h = some m1 := by
  unfold setMaze
  simp only [hx, hy]
  obtain ⟨m0, hm0, hd0⟩ := write_total hdom x1 y1 v hx0 hx1 hy0 hy1
  simp only [hm0]
  have hu0 : 0 ≤ w - x1 - (if effectiveWrap c.horizontal = true then 0 else 1) := by
    split_ifs <;> omega
  have hv0 : 0 ≤ h - y1 - (if effectiveWrap c.vertical = true then 0 else 1) := by
    split_ifs <;> omega
  generalize (w - x1 - if effectiveWrap c.horizontal = true then 0 else 1) = u at hu0 ⊢
  generalize (h - y1 - if effectiveWrap c.vertical = true then 0 else 1) = v1 at hv0 ⊢
  by_cases hA : (c.horizontal.symmetry && decide (u < w)) = true
  · have hu1 : u < w := by simp at hA; exact hA.2
    obtain ⟨ma, hma, hda⟩ := write_total hd0 u y1 v hu0 hu1 hy0 hy1
    simp only [hA, if_true, hma]
    by_cases hB : (c.vertical.symmetry && decide (v1 < h)) = true
    · have hv1 : v1 < h := by simp at hB; exact hB.2
      obtain ⟨mb, hmb, hdb⟩ := write_total hda u v1 v hu0 hu1 hv0 hv1
      obtain ⟨mc, hmc, -⟩ := write_total hdb x1 v1 v hx0 hx1 hv0 hv1
      simp only [hB, if_true, hmb, hmc]
      exact ⟨mc, rfl⟩
    · simp only [Bool.eq_false_iff.2 hB, Bool.false_eq_true, if_false]
      exact ⟨ma, rfl⟩
  · simp only [Bool.eq_false_iff.2 hA, Bool.false_eq_true, if_false]
    by_cases hB : (c.vertical.symmetry && decide (v1 < h)) = true
    · have hv1 : v1 < h := by simp at hB; exact hB.2
      obtain ⟨mc, hmc, -⟩ := write_total hd0 x1 v1 v hx0 hx1 hv0 hv1
      simp only [hB, if_true, hmc]
      exact ⟨mc, rfl⟩
    · simp only [Bool.eq_false_iff.2 hB, Bool.false_eq_true, if_false]
      exact ⟨m0, rfl⟩

/-- C16 (counterexample): on the non-wrapping axis of scenario A the adjustment
`w += ~(w & 1)` turns the even size 10 into 9, not 10, and the odd size 9 into 7, not
10. -/
theorem ensureDimension_not_add_one :
    effectiveWrap scenarioA.horizontal = false ∧
    (10 : Int) % 2 = 0 ∧ ensureDimension scenarioA.horizontal 10 = 9 ∧
    ensureDimension scenarioA.horizontal 10 ≠ 10 ∧
    (9 : Int) % 2 = 1 ∧ ensureDimension scenarioA.horizontal 9 = 7 ∧
    ensureDimension scenarioA.horizontal 9 ≠ 9 + 1 := by
  decide

/-- C16 (amended): on a non-wrapping axis the adjustment `w += ~(w & 1)` subtracts 2 from
an odd size and 1 from an even size, for every integer size `s`; the result is odd, the
largest odd number below `s`. -/
theorem ensureDimension_plain (a : Axis) (s : Int) (hw : effectiveWrap a = false) :
    (s % 2 = 1 → ensureDimension a s = s - 2) ∧ (s % 2 = 0 → ensureDimension a s = s - 1) ∧
    ensureDimension a s % 2 = 1 ∧ ensureDimension a s < s ∧ s ≤ ensureDimension a s + 2 := by
  simp only [ensureDimension, hw, lowBit, bitNot, Bool.false_eq_true, if_false]
  refine ⟨?_, ?_, ?_, ?_, ?_⟩ <;> omega

/-- Witness of `ensureDimension_plain`: the sizes 9 and 10 on the horizontal axis of
scenario A. -/
theorem ensureDimension_plain_witness :
    effectiveWrap scenarioA.horizontal = false ∧
    ((9 : Int) % 2 = 1 → ensureDimension scenarioA.horizontal 9 = 9 - 2) ∧
    ((9 : Int) % 2 = 0 → ensureDimension scenarioA.horizontal 9 = 9 - 1) ∧
    ensureDimension scenarioA.horizontal 9 % 2 = 1 ∧ ensureDimension scenarioA.horizontal 9 < 9 ∧
    9 ≤ ensureDimension scenarioA.horizontal 9 + 2 :=
  ⟨by decide, ensureDimension_plain scenarioA.horizontal 9 (by decide)⟩

/-! ## Room placement on sample inputs -/

set_option maxRecDepth 1000000 in
/-- C17 (the code at the failing input): for the 5 by 5 grid and the dead ends `(1, 1)`,
`(1, 3)` that `generate(6, 6)` hands to `addRooms` with `wallWidth = 1`, the room loop
writes the cell `(1, 4)` of the last row, for which `y > h - 1 - wallWidth`. -/
theorem roomsCarved_writes_margin :
    ∃ m ds g, imperfected lcg 0 6 6 roomsEverywhere = some (m, ds) ∧
      ds = [⟨1, 1⟩, ⟨1, 3⟩] ∧ Rect 5 5 m ∧ roomsEverywhere.wallWidth = 1 ∧
      roomsCarved m ds roomsEverywhere = some g ∧
      m.read 1 4 = some SOLID ∧ g.read 1 4 = some EMPTY ∧ (4 : Int) > 5 - 1 - 1 := by
  have h1 : (imperfected lcg 0 6 6 roomsEverywhere) =
      some ([[255, 255, 255, 255, 255], [255, 0, 255, 0, 255], [255, 0, 255, 0, 255],
        [255, 0, 0, 0, 255], [255, 255, 255, 255, 255]], [⟨1, 1⟩, ⟨1, 3⟩]) := by decide
  exact ⟨_, _, [[255, 255, 255, 255, 255], [255, 0, 0, 0, 0], [255, 0, 0, 0, 0],
    [255, 0, 0, 0, 255], [255, 255, 255, 255, 255]], h1, rfl, ⟨by decide, by decide⟩, rfl,
    by decide, by decide, by decide, by decide⟩

set_option maxRecDepth 1000000 in
/-- C18 (counterexample): `generate(10, 10)` with `seed = 17` and `roomsFraction = 1 / 2`,
on the stream of `std::mt19937`, has two dead ends; the claimed prefix length
`floor((2 - 1) * 1 / 2)` is 0, yet the room loop visits index 0 and carves a room at the
dead end `(3, 3)`, opening the Solid cell `(2, 2)`. -/
theorem roomsCarved_one_more :
    ∃ m ds g, imperfected mt19937 0 10 10 roomsHalf = some (m, ds) ∧
      ds = [⟨3, 3⟩, ⟨1, 7⟩] ∧
      Frac.floor (Frac.mul (Frac.ofInt ((ds.length : Int) - 1)) roomsHalf.roomsFraction) = 0 ∧
      roomIndices (lastRoom ds (clampRooms roomsHalf)) = [0] ∧
      roomsCarved m ds roomsHalf = some g ∧
      m.read 2 2 = some SOLID ∧ g.read 2 2 = some EMPTY := by
  have h1 : ((imperfected mt19937 0 10 10 roomsHalf).map (fun p => p.2) = some [⟨3, 3⟩, ⟨1, 7⟩]) ∧
      ((imperfected mt19937 0 10 10 roomsHalf).bind (fun p => p.1.read 2 2) = some SOLID) ∧
      ((imperfected mt19937 0 10 10 roomsHalf).bind (fun p =>
        (roomsCarved p.1 p.2 roomsHalf).bind (fun g => g.read 2 2)) = some EMPTY) := by
    decide
  cases him : imperfected mt19937 0 10 10 roomsHalf with
  | none => rw [him] at h1; exact absurd h1.1 (by simp)
  | some p =>
    obtain ⟨m, ds⟩ := p
    rw [him] at h1
    simp only [Option.map_some', Option.some.injEq, Option.some_bind] at h1
    obtain ⟨hds, hm, hg⟩ := h1
    cases hrc : roomsCarved m ds roomsHalf with
    | none => rw [hrc] at hg; exact absurd hg (by simp)
    | some g =>
      rw [hrc] at hg
      simp only [Option.some_bind] at hg
      subst hds
      exact ⟨m, _, g, rfl, rfl, by decide, by decide, hrc, hm, hg⟩

set_option maxRecDepth 1000000 in
/-- C19 (the code at the failing input): with horizontal symmetry, a border and
`loop = true` the copy of `addRooms` uses the offset `hallWidth + 1 = 2`; on the 5 by 5
grid of `generate(6, 6)` the grid after `addRooms` holds Passage at `(1, 1)` and Solid at
its mirror cell `(mirrorX 1, 1) = (3, 1)`. -/
theorem addRooms_breaks_mirror :
    ∃ m ds g, imperfected lcg 0 6 6 (mirroredRooms true 42) = some (m, ds) ∧
      (mirroredRooms true 42).horizontal.symmetry = true ∧ Rect 5 5 m ∧
      addRooms m ds (mirroredRooms true 42) = some g ∧
      mirrorCoord (mirroredRooms true 42).horizontal 5 1 = 3 ∧
      g.read 1 1 = some EMPTY ∧ g.read 3 1 = some SOLID := by
  have h1 : (imperfected lcg 0 6 6 (mirroredRooms true 42)) =
      some ([[255, 255, 255, 255, 255], [255, 0, 0, 0, 255], [255, 255, 255, 255, 255],
        [255, 0, 0, 0, 255], [255, 255, 255, 255, 255]], [⟨1, 1⟩, ⟨1, 3⟩]) := by decide
  exact ⟨_, _, [[255, 255, 255, 255, 255], [255, 0, 0, 0, 0], [255, 0, 0, 0, 0],
    [255, 255, 255, 255, 255], [255, 255, 255, 255, 255]], h1, rfl, ⟨by decide, by decide⟩,
    by decide, by decide, by decide, by decide⟩

/-! ## The dead ends that receive a room -/

/-- The index `last` of the room loop, for a non-empty dead-end list of at most `2^24 + 1`
entries and a fraction in `(0, 1]`: `count - 1` is a `float`, and the clamp leaves the
value of the fraction as it is. -/
theorem lastRoom_clamped (c : MazeConfig) (ds : List DeadEnd) (hn : 1 ≤ ds.length)
    (hmax : ds.length ≤ 16777217)
    (h0 : 0 < c.roomsFraction.num) (h1 : c.roomsFraction.num ≤ c.roomsFraction.den) :
    ∃ k : Nat, lastRoom ds (clampRooms c) =
        Frac.floor (Frac.f32 (Frac.mul ⟨((ds.length : Int) - 1) * 2 ^ k, 2 ^ k⟩ (clampRooms c))) ∧
      0 < (clampRooms c).den ∧
      (clampRooms c).num * c.roomsFraction.den = c.roomsFraction.num * (clampRooms c).den := by
  have hsz : sizeMinusOne ds.length = (ds.length : Int) - 1 := by
    unfold sizeMinusOne
    rw [if_neg (by omega)]
  obtain ⟨k, hk⟩ := f32_floatOfInt ((ds.length : Int) - 1)
  rw [floatOfInt_exact _ (by omega) (by omega)] at hk
  refine ⟨k, ?_, ?_, ?_⟩
  · unfold lastRoom
    rw [hsz, hk]
  · unfold clampRooms
    by_cases hlt : c.roomsFraction.num < c.roomsFraction.den
    · have hmin : Frac.min (Frac.ofInt 1) c.roomsFraction = c.roomsFraction := by
        simp [Frac.min, Frac.lt, Frac.ofInt, hlt]
      have hmax : Frac.max (Frac.ofInt 0) c.roomsFraction = c.roomsFraction := by
        simp [Frac.max, Frac.lt, Frac.ofInt, h0]
      rw [hmin, hmax]
      omega
    · have hmin : Frac.min (Frac.ofInt 1) c.roomsFraction = Frac.ofInt 1 := by
        simp [Frac.min, Frac.lt, Frac.ofInt, hlt]
      have hmax : Frac.max (Frac.ofInt 0) (Frac.ofInt 1) = Frac.ofInt 1 := by
        simp [Frac.max, Frac.lt, Frac.ofInt]
      rw [hmin, hmax]
      decide
  · unfold clampRooms
    by_cases hlt : c.roomsFraction.num < c.roomsFraction.den
    · have hmin : Frac.min (Frac.ofInt 1) c.roomsFraction = c.roomsFraction := by
        simp [Frac.min, Frac.lt, Frac.ofInt, hlt]
      have hmax : Frac.max (Frac.ofInt 0) c.roomsFraction = c.roomsFraction := by
        simp [Frac.max, Frac.lt, Frac.ofInt, h0]
      rw [hmin, hmax]
    · have heq : c.roomsFraction.num = c.roomsFraction.den := by omega
      have hmin : Frac.min (Frac.ofInt 1) c.roomsFraction = Frac.ofInt 1 := by
        simp [Frac.min, Frac.lt, Frac.ofInt, hlt]
      have hmax : Frac.max (Frac.ofInt 0) (Frac.ofInt 1) = Frac.ofInt 1 := by
        simp [Frac.max, Frac.lt, Frac.ofInt]
      rw [hmin, hmax]
      simp [Frac.ofInt, heq]

/-- The index `last` of the room loop lies between the floor of the exact product
`(count - 1) * roomsFraction` and that floor plus one, and below `count`. -/
theorem lastRoom_bounds (c : MazeConfig) (ds : List DeadEnd) (hn : 1 ≤ ds.length)
    (hmax : ds.length ≤ 16777217)
    (h0 : 0 < c.roomsFraction.num) (h1 : c.roomsFraction.num ≤ c.roomsFraction.den) :
    Frac.floor (Frac.mul (Frac.ofInt ((ds.length : Int) - 1)) c.roomsFraction)
      ≤ lastRoom ds (clampRooms c) ∧
    lastRoom ds (clampRooms c)
      ≤ Frac.floor (Frac.mul (Frac.ofInt ((ds.length : Int) - 1)) c.roomsFraction) + 1 ∧
    0 ≤ lastRoom ds (clampRooms c) ∧ lastRoom ds (clampRooms c) + 1 ≤ ds.length := by
  obtain ⟨k, hk, hcd, hcv⟩ := lastRoom_clamped c ds hn hmax h0 h1
  rw [hk]
  generalize clampRooms c = q at hk hcd hcv
  have hden : (0 : Int) < (c.roomsFraction.den : Int) := by omega
  have hqd : (0 : Int) < (q.den : Int) := by exact_mod_cast hcd
  have hp : (0 : Int) < 2 ^ k := pow_pos (by decide) _
  have hqn : 0 < q.num := by
    by_contra hc
    have : q.num * c.roomsFraction.den ≤ 0 :=
      mul_nonpos_of_nonpos_of_nonneg (by omega) (le_of_lt hden)
    have : 0 < c.roomsFraction.num * q.den := mul_pos h0 hqd
    omega
  have hqle : q.num ≤ q.den := by
    by_contra hc
    have h2 : (q.den : Int) * c.roomsFraction.den < q.num * c.roomsFraction.den :=
      mul_lt_mul_of_pos_right (by omega) hden
    have h3 : c.roomsFraction.num * q.den ≤ c.roomsFraction.den * q.den :=
      mul_le_mul_of_nonneg_right h1 (le_of_lt hqd)
    have h4 : (q.den : Int) * c.roomsFraction.den = c.roomsFraction.den * q.den := mul_comm _ _
    omega
  set n : Int := (ds.length : Int) - 1 with hnn
  have hn0 : 0 ≤ n := by omega
  set X : Int := Frac.floor (Frac.mul (Frac.ofInt n) c.roomsFraction) with hX
  have hXdef : X = n * c.roomsFraction.num / c.roomsFraction.den := by
    simp [hX, Frac.floor, Frac.mul, Frac.ofInt]
  have hX0 : 0 ≤ X := by
    rw [hXdef]; exact Int.ediv_nonneg (mul_nonneg hn0 (le_of_lt h0)) (le_of_lt hden)
  have hX1 : X * c.roomsFraction.den ≤ n * c.roomsFraction.num := by
    rw [hXdef]; exact Int.ediv_mul_le _ (by omega)
  have hX2 : n * c.roomsFraction.num < (X + 1) * c.roomsFraction.den := by
    rw [hXdef]; exact Int.lt_ediv_add_one_mul_self _ hden
  have hY1 : X * q.den ≤ n * q.num := by
    have : X * q.den * c.roomsFraction.den ≤ n * q.num * c.roomsFraction.den := by
      calc X * q.den * c.roomsFraction.den = X * c.roomsFraction.den * q.den := by ring
        _ ≤ n * c.roomsFraction.num * q.den := mul_le_mul_of_nonneg_right hX1 (le_of_lt hqd)
        _ = n * (c.roomsFraction.num * q.den) := by ring
        _ = n * (q.num * c.roomsFraction.den) := by rw [hcv]
        _ = n * q.num * c.roomsFraction.den := by ring
    exact le_of_mul_le_mul_right this hden
  have hY2 : n * q.num ≤ (X + 1) * q.den := by
    have : n * q.num * c.roomsFraction.den ≤ (X + 1) * q.den * c.roomsFraction.den := by
      calc n * q.num * c.roomsFraction.den = n * (q.num * c.roomsFraction.den) := by ring
        _ = n * (c.roomsFraction.num * q.den) := by rw [hcv]
        _ = n * c.roomsFraction.num * q.den := by ring
        _ ≤ (X + 1) * c.roomsFraction.den * q.den :=
          mul_le_mul_of_nonneg_right (le_of_lt hX2) (le_of_lt hqd)
        _ = (X + 1) * q.den * c.roomsFraction.den := by ring
    exact le_of_mul_le_mul_right this hden
  have hY3 : n * q.num ≤ n * q.den := mul_le_mul_of_nonneg_left hqle hn0
  have hXn : X ≤ n := by
    by_contra hc
    have : n * (q.den : Int) < X * q.den := mul_lt_mul_of_pos_right (by omega) hqd
    omega
  have hmul : Frac.mul ⟨n * 2 ^ k, 2 ^ k⟩ q = ⟨n * 2 ^ k * q.num, 2 ^ k * q.den⟩ := rfl
  rw [hmul]
  have hd2 : 0 < 2 ^ k * q.den := Nat.mul_pos (pow_pos (by decide) _) hcd
  have hcast : (((2 ^ k * q.den : Nat)) : Int) = 2 ^ k * (q.den : Int) := by push_cast; ring
  have hlow := floor_f32_between ⟨n * 2 ^ k * q.num, 2 ^ k * q.den⟩ X (min (X + 1) n) hd2 hX0
    (by have : min (X + 1) n ≤ n := min_le_right _ _; omega)
    (by
      show X * ((2 ^ k * q.den : Nat) : Int) ≤ n * 2 ^ k * q.num
      rw [hcast]
      calc X * (2 ^ k * (q.den : Int)) = (X * q.den) * 2 ^ k := by ring
        _ ≤ (n * q.num) * 2 ^ k := mul_le_mul_of_nonneg_right hY1 (le_of_lt hp)
        _ = n * 2 ^ k * q.num := by ring)
    (by
      show n * 2 ^ k * q.num ≤ min (X + 1) n * ((2 ^ k * q.den : Nat) : Int)
      rw [hcast]
      rcases min_choice (X + 1) n with hm | hm <;> rw [hm]
      · calc n * 2 ^ k * q.num = (n * q.num) * 2 ^ k := by ring
          _ ≤ ((X + 1) * q.den) * 2 ^ k := mul_le_mul_of_nonneg_right hY2 (le_of_lt hp)
          _ = (X + 1) * (2 ^ k * (q.den : Int)) := by ring
      · calc n * 2 ^ k * q.num = (n * q.num) * 2 ^ k := by ring
          _ ≤ (n * q.den) * 2 ^ k := mul_le_mul_of_nonneg_right hY3 (le_of_lt hp)
          _ = n * (2 ^ k * (q.den : Int)) := by ring)
  have hm1 : min (X + 1) n ≤ X + 1 := min_le_left _ _
  have hm2 : min (X + 1) n ≤ n := min_le_right _ _
  refine ⟨hlow.1, by omega, by omega, by omega⟩

/-- C18 (amended): for a dead-end list of `1 <= count <= 2^24 + 1` entries and
`roomsFraction` in `(0, 1]`, the index `last` of line 260, the floor of the `float` product
of `count - 1` and `roomsFraction`, is the floor of the exact product or that floor plus
one, and `0 <= last < count`; the room loop visits the indices `last, last - 1, ..., 0` in
this order: the dead ends that receive a room are the contiguous prefix of length
`last + 1` of the list, all of them entries of the list, and no other index is visited. -/
theorem roomIndices_prefix (c : MazeConfig) (ds : List DeadEnd) (hn : 1 ≤ ds.length)
    (hmax : ds.length ≤ 16777217)
    (h0 : 0 < c.roomsFraction.num) (h1 : c.roomsFraction.num ≤ c.roomsFraction.den) :
    Frac.floor (Frac.mul (Frac.ofInt ((ds.length : Int) - 1)) c.roomsFraction)
      ≤ lastRoom ds (clampRooms c) ∧
    lastRoom ds (clampRooms c)
      ≤ Frac.floor (Frac.mul (Frac.ofInt ((ds.length : Int) - 1)) c.roomsFraction) + 1 ∧
    0 ≤ lastRoom ds (clampRooms c) ∧ lastRoom ds (clampRooms c) + 1 ≤ ds.length ∧
    ((roomIndices (lastRoom ds (clampRooms c))).length : Int) =
      lastRoom ds (clampRooms c) + 1 ∧
    (∀ i : Nat, i ∈ roomIndices (lastRoom ds (clampRooms c)) ↔
      (i : Int) ≤ lastRoom ds (clampRooms c)) ∧
    (roomIndices (lastRoom ds (clampRooms c))).Pairwise (fun i j => j < i) ∧
    (roomIndices (lastRoom ds (clampRooms c))).head? =
      some (lastRoom ds (clampRooms c)).toNat ∧
    (∀ maze col rest, maze = col :: rest → roomsCarved maze ds c =
      carveRooms c maze.length col.length (roomSize c (clampRooms c)) (roomSize c (clampRooms c))
        ds (List.range ((lastRoom ds (clampRooms c)).toNat + 1)).reverse maze) := by
  obtain ⟨hX1, hX2, hL0, hL1⟩ := lastRoom_bounds c ds hn hmax h0 h1
  generalize Frac.floor (Frac.mul (Frac.ofInt ((ds.length : Int) - 1)) c.roomsFraction) = X
    at hX1 hX2
  have hroom : ∀ maze col rest, maze = col :: rest → roomsCarved maze ds c =
      carveRooms c maze.length col.length (roomSize c (clampRooms c))
        (roomSize c (clampRooms c)) ds (roomIndices (lastRoom ds (clampRooms c))) maze := by
    intro maze col rest hm
    subst hm
    rfl
  generalize lastRoom ds (clampRooms c) = L at hX1 hX2 hL0 hL1 hroom ⊢
  have hto : (L + 1).toNat = L.toNat + 1 := by omega
  refine ⟨hX1, hX2, hL0, hL1, ?_, ?_, ?_, ?_, ?_⟩
  · simp only [roomIndices, List.length_reverse, List.length_range]
    omega
  · intro i
    simp only [roomIndices, List.mem_reverse, List.mem_range]
    omega
  · simp only [roomIndices]
    rw [List.pairwise_reverse]
    exact List.pairwise_lt_range _
  · simp only [roomIndices, hto, List.range_succ, List.reverse_append, List.reverse_singleton,
      List.singleton_append, List.head?_cons]
  · intro maze col rest hm
    rw [hroom maze col rest hm]
    simp only [roomIndices, hto]

set_option maxRecDepth 1000000 in
/-- Witness of `roomIndices_prefix`: eleven dead ends with `roomsFraction = 0.7f`, where the
exact product `10 * 0.7f` is below 7 and the `float` product is 7: `last = 7` and the loop
visits the indices 7 down to 0. -/
theorem roomIndices_prefix_witness :
    roomIndices (lastRoom (List.replicate 11 ⟨1, 1⟩) (clampRooms roomsSeventy))
      = [7, 6, 5, 4, 3, 2, 1, 0] ∧
    Frac.floor (Frac.mul (Frac.ofInt (((List.replicate 11 (⟨1, 1⟩ : DeadEnd)).length : Int) - 1))
      roomsSeventy.roomsFraction) = 6 ∧
    lastRoom (List.replicate 11 ⟨1, 1⟩) (clampRooms roomsSeventy) = 7 ∧
    (Frac.floor (Frac.mul
        (Frac.ofInt (((List.replicate 11 (⟨1, 1⟩ : DeadEnd)).length : Int) - 1))
        roomsSeventy.roomsFraction)
      ≤ lastRoom (List.replicate 11 ⟨1, 1⟩) (clampRooms roomsSeventy) ∧
    lastRoom (List.replicate 11 ⟨1, 1⟩) (clampRooms roomsSeventy)
      ≤ Frac.floor (Frac.mul
        (Frac.ofInt (((List.replicate 11 (⟨1, 1⟩ : DeadEnd)).length : Int) - 1))
        roomsSeventy.roomsFraction) + 1 ∧
    0 ≤ lastRoom (List.replicate 11 ⟨1, 1⟩) (clampRooms roomsSeventy) ∧
    lastRoom (List.replicate 11 ⟨1, 1⟩) (clampRooms roomsSeventy) + 1
      ≤ (List.replicate 11 (⟨1, 1⟩ : DeadEnd)).length ∧
    ((roomIndices (lastRoom (List.replicate 11 ⟨1, 1⟩) (clampRooms roomsSeventy))).length : Int)
      = lastRoom (List.replicate 11 ⟨1, 1⟩) (clampRooms roomsSeventy) + 1 ∧
    (∀ i : Nat, i ∈ roomIndices (lastRoom (List.replicate 11 ⟨1, 1⟩) (clampRooms roomsSeventy)) ↔
      (i : Int) ≤ lastRoom (List.replicate 11 ⟨1, 1⟩) (clampRooms roomsSeventy)) ∧
    (roomIndices (lastRoom (List.replicate 11 ⟨1, 1⟩) (clampRooms roomsSeventy))).Pairwise
      (fun i j => j < i) ∧
    (roomIndices (lastRoom (List.replicate 11 ⟨1, 1⟩) (clampRooms roomsSeventy))).head? =
      some (lastRoom (List.replicate 11 ⟨1, 1⟩) (clampRooms roomsSeventy)).toNat ∧
    (∀ maze col rest, maze = col :: rest →
      roomsCarved maze (List.replicate 11 ⟨1, 1⟩) roomsSeventy =
      carveRooms roomsSeventy maze.length col.length
        (roomSize roomsSeventy (clampRooms roomsSeventy))
        (roomSize roomsSeventy (clampRooms roomsSeventy)) (List.replicate 11 ⟨1, 1⟩)
        (List.range ((lastRoom (List.replicate 11 ⟨1, 1⟩)
          (clampRooms roomsSeventy)).toNat + 1)).reverse maze)) :=
  ⟨by decide, by decide, by decide,
    roomIndices_prefix roomsSeventy (List.replicate 11 ⟨1, 1⟩) (by decide) (by decide)
      (by decide) (by decide)⟩

/-! ## The course of the carver loop -/

/-- The carver of `generate` is its loop run from the start state. -/
theorem carved_eq_start {σ : Type} (R : RandomSource σ) (entropy : Nat) (w h : Int)
    (c : MazeConfig) :
    carved R entropy w h c = (carveStart R entropy w h c).bind
      (carveLoop R c (normalizeSize c.horizontal w) (normalizeSize c.vertical h)
        (carveFuel (normalizeSize c.horizontal w) (normalizeSize c.vertical h))) := by
  unfold carved carveStart
  cases Grid.solid (normalizeSize c.horizontal w) (normalizeSize c.vertical h) with
  | none => rfl
  | some m0 =>
    simp only
    cases seedReservations R c.fill (normalizeSize c.horizontal w) (normalizeSize c.vertical h) m0
      (initialRng R entropy c) with
    | none => rfl
    | some r => rfl

/-- A property kept by every iteration of the carver holds in every state the loop
reaches. -/
theorem carveReached_induction {σ : Type} {R : RandomSource σ} {c : MazeConfig} {w h : Int}
    (P : CarveState σ → Prop)
    (hP : ∀ st cur rest st1, P st → st.stack = cur :: rest →
      carveStep R c w h cur { st with stack := rest } = some st1 → P st1)
    {st0 st : CarveState σ} (h0 : P st0) (hr : CarveReached R c w h st0 st) : P st := by
  induction hr with
  | refl => exact h0
  | tail _ hstep ih =>
    obtain ⟨cur, rest, hstack, hs⟩ := hstep
    exact hP _ _ _ _ ih hstack hs

/-- The state in which the carver loop ends is one of the states it reaches. -/
theorem carveLoop_reached {σ : Type} {R : RandomSource σ} {c : MazeConfig} {w h : Int}
    (fuel : Nat) : ∀ (st st1 : CarveState σ), carveLoop R c w h fuel st = some st1 →
      CarveReached R c w h st st1 ∧ st1.stack = [] := by
  induction fuel with
  | zero =>
    intro st st1 hs
    unfold carveLoop at hs
    split at hs
    · rename_i hnil
      cases hs
      exact ⟨Relation.ReflTransGen.refl, hnil⟩
    · exact Option.noConfusion hs
  | succ n ih =>
    intro st st1 hs
    unfold carveLoop at hs
    split at hs
    · rename_i hnil
      cases hs
      exact ⟨Relation.ReflTransGen.refl, hnil⟩
    · rename_i cur rest hstack
      cases hstep : carveStep R c w h cur { st with stack := rest } with
      | none => simp [hstep] at hs
      | some st2 =>
        simp only [hstep] at hs
        obtain ⟨hr, hnil⟩ := ih st2 st1 hs
        exact ⟨Relation.ReflTransGen.head ⟨cur, rest, hstack, hstep⟩ hr, hnil⟩

/-- The grid of the start state of the carver has no Passage cell and is the normalized
rectangle. -/
theorem carveStart_spec {σ : Type} {R : RandomSource σ} {entropy : Nat} {w h : Int}
    {c : MazeConfig} {st0 : CarveState σ} (hs : carveStart R entropy w h c = some st0) :
    ∃ m s, st0 = carveInit (normalizeSize c.horizontal w) (normalizeSize c.vertical h) m s ∧
      NoPassage m ∧ Rect (normalizeSize c.horizontal w) (normalizeSize c.vertical h) m ∧
      StatesOnly m := by
  unfold carveStart at hs
  split at hs
  · exact Option.noConfusion hs
  · rename_i m0 hm0
    split at hs
    · exact Option.noConfusion hs
    · rename_i m1 s1 hseed
      cases hs
      exact ⟨m1, s1, rfl,
        seedReservations_preserves NoPassage write_noPassage (solid_noPassage m0 hm0) hseed,
        seedReservations_preserves (Rect _ _) write_rect (solid_rect m0 hm0) hseed,
        seedReservations_preserves StatesOnly write_statesOnly (solid_statesOnly m0 hm0) hseed⟩

/-- The carver starts only on a grid of non-negative sizes. -/
theorem carveStart_sizes {σ : Type} {R : RandomSource σ} {entropy : Nat} {w h : Int}
    {c : MazeConfig} {st0 : CarveState σ} (hs : carveStart R entropy w h c = some st0) :
    0 ≤ normalizeSize c.horizontal w ∧ 0 ≤ normalizeSize c.vertical h := by
  unfold carveStart at hs
  split at hs
  · exact Option.noConfusion hs
  · rename_i m0 hm0
    unfold Grid.solid at hm0
    split_ifs at hm0 with hc
    exact hc

/-- A grid property kept by every `setMaze(.., EMPTY, ..)` that holds at the start of the
carver holds in every state the carver reaches. -/
theorem carveReached_preserves {σ : Type} {R : RandomSource σ} {c : MazeConfig} {w h : Int}
    (P : Grid → Prop) (hP : ∀ m x y m1, P m → setMaze m x y EMPTY c w h = some m1 → P m1)
    {st0 st : CarveState σ} (h0 : P st0.maze) (hr : CarveReached R c w h st0 st) :
    P st.maze :=
  carveReached_induction (fun s => P s.maze)
    (fun s _ rest _ hs _ hstep =>
      carveStep_preserves P hP (show P ({ s with stack := rest } : CarveState σ).maze from hs)
        hstep) h0 hr

/-! ## Symmetry of the Passage set at every point -/

/-- C15: for a configuration with `roomsFraction = 0`, on an axis with symmetry enabled a
cell is Passage exactly when its mirror cell is, for every cell whose mirror is in range:
(1) every call `setMaze(.., EMPTY, ..)`, the only write of the carver and of the
imperfection injector, keeps this; (2) it holds in every state the carver loop reaches;
(3) it holds after any number of iterations of the injector loop; (4) it holds in the
returned grid, where the exported tile values of a cell and its mirror cell are equal. -/
theorem passage_mirror_invariant {σ : Type} (R : RandomSource σ) (entropy : Nat) (w h : Int)
    (c : MazeConfig) (hrooms : c.roomsFraction.num = 0) :
    (c.horizontal.symmetry = true →
      (∀ m x y m1, MirrorH c (normalizeSize c.horizontal w) m →
        setMaze m x y EMPTY c (normalizeSize c.horizontal w) (normalizeSize c.vertical h)
          = some m1 → MirrorH c (normalizeSize c.horizontal w) m1) ∧
      (∀ st0 st, carveStart R entropy w h c = some st0 →
        CarveReached R c (normalizeSize c.horizontal w) (normalizeSize c.vertical h) st0 st →
        MirrorH c (normalizeSize c.horizontal w) st.maze) ∧
      (∀ st n r, carved R entropy w h c = some st →
        imperfectLoop R c (normalizeSize c.horizontal w) (normalizeSize c.vertical h)
          (boundary c.horizontal) (boundary c.vertical)
          (wallDistHi (normalizeSize c.horizontal w) (boundary c.horizontal))
          (wallDistHi (normalizeSize c.vertical h) (boundary c.vertical)) n st.maze st.rng
          = some r → MirrorH c (normalizeSize c.horizontal w) r.1) ∧
      (∀ g, generate R entropy w h c = some g →
        MirrorH c (normalizeSize c.horizontal w) g ∧
        ∀ x y a b, g.read x y = some a →
          g.read (mirrorCoord c.horizontal (normalizeSize c.horizontal w) x) y = some b →
          convertTileValue a = convertTileValue b)) ∧
    (c.vertical.symmetry = true →
      (∀ m x y m1, MirrorV c (normalizeSize c.vertical h) m →
        setMaze m x y EMPTY c (normalizeSize c.horizontal w) (normalizeSize c.vertical h)
          = some m1 → MirrorV c (normalizeSize c.vertical h) m1) ∧
      (∀ st0 st, carveStart R entropy w h c = some st0 →
        CarveReached R c (normalizeSize c.horizontal w) (normalizeSize c.vertical h) st0 st →
        MirrorV c (normalizeSize c.vertical h) st.maze) ∧
      (∀ st n r, carved R entropy w h c = some st →
        imperfectLoop R c (normalizeSize c.horizontal w) (normalizeSize c.vertical h)
          (boundary c.horizontal) (boundary c.vertical)
          (wallDistHi (normalizeSize c.horizontal w) (boundary c.horizontal))
          (wallDistHi (normalizeSize c.vertical h) (boundary c.vertical)) n st.maze st.rng
          = some r → MirrorV c (normalizeSize c.vertical h) r.1) ∧
      (∀ g, generate R entropy w h c = some g →
        MirrorV c (normalizeSize c.vertical h) g ∧
        ∀ x y a b, g.read x y = some a →
          g.read x (mirrorCoord c.vertical (normalizeSize c.vertical h) y) = some b →
          convertTileValue a = convertTileValue b)) := by
  constructor
  · intro hsym
    refine ⟨fun m x y m1 => setMaze_mirrorH hsym m x y m1, ?_, ?_, ?_⟩
    · intro st0 st hst0 hr
      obtain ⟨m, s, rfl, hno, -, -⟩ := carveStart_spec hst0
      exact carveReached_preserves (MirrorH c _) (setMaze_mirrorH hsym)
        (noPassage_mirrorH c _ m hno) hr
    · intro st n r hst hloop
      have hM : MirrorH c (normalizeSize c.horizontal w) st.maze :=
        carved_invariant NoPassage (MirrorH c _) solid_noPassage write_noPassage
          (noPassage_mirrorH c _) (setMaze_mirrorH hsym) hst
      exact imperfectLoop_preserves (MirrorH c _) (setMaze_mirrorH hsym) _ _ _ _ _ _ _ _ hM hloop
    · intro g hg
      obtain ⟨d, hi⟩ := generate_eq_imperfected (le_of_eq hrooms) hg
      have hM : MirrorH c (normalizeSize c.horizontal w) g :=
        imperfected_invariant NoPassage (MirrorH c _) solid_noPassage write_noPassage
          (noPassage_mirrorH c _) (setMaze_mirrorH hsym) hi
      exact ⟨hM, fun x y a b ha hb =>
        (((norooms_mirror_tiles R entropy w h c g (le_of_eq hrooms) hg).1 hsym) x y a b ha hb).2⟩
  · intro hsym
    refine ⟨fun m x y m1 => setMaze_mirrorV hsym m x y m1, ?_, ?_, ?_⟩
    · intro st0 st hst0 hr
      obtain ⟨m, s, rfl, hno, -, -⟩ := carveStart_spec hst0
      exact carveReached_preserves (MirrorV c _) (setMaze_mirrorV hsym)
        (noPassage_mirrorV c _ m hno) hr
    · intro st n r hst hloop
      have hM : MirrorV c (normalizeSize c.vertical h) st.maze :=
        carved_invariant NoPassage (MirrorV c _) solid_noPassage write_noPassage
          (noPassage_mirrorV c _) (setMaze_mirrorV hsym) hst
      exact imperfectLoop_preserves (MirrorV c _) (setMaze_mirrorV hsym) _ _ _ _ _ _ _ _ hM hloop
    · intro g hg
      obtain ⟨d, hi⟩ := generate_eq_imperfected (le_of_eq hrooms) hg
      have hM : MirrorV c (normalizeSize c.vertical h) g :=
        imperfected_invariant NoPassage (MirrorV c _) solid_noPassage write_noPassage
          (noPassage_mirrorV c _) (setMaze_mirrorV hsym) hi
      exact ⟨hM, fun x y a b ha hb =>
        (((norooms_mirror_tiles R entropy w h c g (le_of_eq hrooms) hg).2 hsym) x y a b ha hb).2⟩

set_option maxRecDepth 1000000 in
/-- Witness of `passage_mirror_invariant`: the horizontally mirrored sample on a 6 by 6
request, whose returned grid is the 5 by 5 grid `mirroredCarve`. -/
theorem passage_mirror_invariant_witness :
    mirrored.roomsFraction.num = 0 ∧ mirrored.horizontal.symmetry = true ∧
    generate lcg 0 6 6 mirrored = some mirroredCarve ∧
    normalizeSize mirrored.horizontal 6 = 5 ∧
    MirrorH mirrored (normalizeSize mirrored.horizontal 6) mirroredCarve ∧
    (∀ x y a b, mirroredCarve.read x y = some a →
      mirroredCarve.read (mirrorCoord mirrored.horizontal
        (normalizeSize mirrored.horizontal 6) x) y = some b →
      convertTileValue a = convertTileValue b) ∧
    (∀ st0 st, carveStart lcg 0 6 6 mirrored = some st0 →
      CarveReached lcg mirrored (normalizeSize mirrored.horizontal 6)
        (normalizeSize mirrored.vertical 6) st0 st →
      MirrorH mirrored (normalizeSize mirrored.horizontal 6) st.maze) :=
  ⟨by decide, by decide, by decide, by decide,
    (((passage_mirror_invariant lcg 0 6 6 mirrored (by decide)).1 (by decide)).2.2.2
      mirroredCarve (by decide)).1,
    (((passage_mirror_invariant lcg 0 6 6 mirrored (by decide)).1 (by decide)).2.2.2
      mirroredCarve (by decide)).2,
    ((passage_mirror_invariant lcg 0 6 6 mirrored (by decide)).1 (by decide)).2.1⟩

/-! ## Cells on odd coordinates, walls between them -/

theorem normalizeSize_sizeParity (a : Axis) (size : Int) : SizeParity a (normalizeSize a size) :=
  ⟨normalizeSize_wrap_even a size, normalizeSize_plain_odd a size⟩

/-- The mirror of a coordinate has the parity of the coordinate. -/
theorem mirrorOrSelf_parity {a : Axis} {size : Int} (hp : SizeParity a size) (x : Int) :
    mirrorOrSelf a size x % 2 = x % 2 := by
  unfold mirrorOrSelf mirrorCoord
  cases hw : effectiveWrap a with
  | false =>
    have := hp.2 hw
    simp only [Bool.false_eq_true, if_false]
    split_ifs <;> omega
  | true =>
    have := hp.1 hw
    simp only [if_true]
    split_ifs <;> omega

/-- Carving a target with an odd wrapped coordinate leaves no Passage cell with two even
coordinates. -/
theorem setMaze_noEven {c : MazeConfig} {w h : Int} (hpw : SizeParity c.horizontal w)
    (hph : SizeParity c.vertical h) {m m1 : Grid} {x y x1 y1 : Int}
    (hx : cmod (x + w) w = some x1) (hy : cmod (y + h) h = some y1)
    (hodd : x1 % 2 = 1 ∨ y1 % 2 = 1) (h0 : NoEvenPassage m)
    (hs : setMaze m x y EMPTY c w h = some m1) : NoEvenPassage m1 := by
  obtain ⟨x2, y2, hx2, hy2, hp⟩ := setMaze_passage hs
  rw [hx] at hx2
  rw [hy] at hy2
  cases hx2
  cases hy2
  intro p q hpe hqe hpq
  rcases (hp p q).1 hpq with hold | hW
  · exact h0 p q hpe hqe hold
  · obtain ⟨hpc, hqc⟩ := written_cases hW
    have h1 : p % 2 = x1 % 2 := by
      rcases hpc with hpc | ⟨-, hpc⟩
      · rw [hpc]
      · rw [hpc]; exact mirrorOrSelf_parity hpw x1
    have h2 : q % 2 = y1 % 2 := by
      rcases hqc with hqc | ⟨-, hqc⟩
      · rw [hqc]
      · rw [hqc]; exact mirrorOrSelf_parity hph y1
    omega

/-- The wall coordinate `(a - s + size) % size` of an entry inside the grid. -/
theorem wall_coord (size a s : Int) (ha0 : 0 ≤ a) (ha1 : a < size)
    (hs : s = 0 ∨ s = 1 ∨ s = -1) :
    ∃ wa, cmod (a - s + size) size = some wa ∧ 0 ≤ wa ∧ wa < size ∧ (s = 0 → wa = a) := by
  unfold cmod
  rw [if_neg (by omega)]
  refine ⟨_, rfl, ?_⟩
  rcases tmod_cases (a - s + size) size (by omega) (by omega) (by omega) with
    ⟨h1, he⟩ | ⟨h1, h2, he⟩ | ⟨h1, he⟩ <;> rw [he] <;> refine ⟨?_, ?_, ?_⟩ <;> omega

/-- A neighbour two steps away has the parity of the coordinate it is reached from. -/
theorem neighbour_parity (wrap : Bool) (size a s x : Int) (ha0 : 0 ≤ a) (ha1 : a < size)
    (hs : s = 0 ∨ s = 1 ∨ s = -1) (hev : wrap = true → size % 2 = 0)
    (hx : (if wrap = true then cmod (a + s * 2 + size) size else some (a + s * 2)) = some x) :
    x % 2 = a % 2 := by
  cases wrap with
  | false =>
    simp only [Bool.false_eq_true, if_false, Option.some.injEq] at hx
    omega
  | true =>
    have hev1 := hev rfl
    simp only [if_true] at hx
    unfold cmod at hx
    rw [if_neg (by omega)] at hx
    have hx1 := Option.some.inj hx
    rcases tmod_cases (a + s * 2 + size) size (by omega) (by omega) (by omega) with h | h | h <;>
      omega

theorem unitStep_cases {d : Direction} (hd : UnitStep d ∨ (d.x = 0 ∧ d.y = 0)) :
    (d.x = 0 ∨ d.x = 1 ∨ d.x = -1) ∧ (d.y = 0 ∨ d.y = 1 ∨ d.y = -1) ∧ (d.x = 0 ∨ d.y = 0) := by
  unfold UnitStep at hd
  omega

/-- One iteration of the carver keeps the parity invariant. -/
theorem carveStep_odd {σ : Type} {R : RandomSource σ} {c : MazeConfig} {w h : Int}
    (hpw : SizeParity c.horizontal w) (hph : SizeParity c.vertical h)
    {cur : StackEntry} {rest : List StackEntry} {st st1 : CarveState σ}
    (hstack : st.stack = cur :: rest) (hinv : CarveOdd w h st)
    (hs : carveStep R c w h cur { st with stack := rest } = some st1) : CarveOdd w h st1 := by
  obtain ⟨hdom, hdir, hst, hno⟩ := hinv
  have hrest : ∀ e ∈ rest, e.x % 2 = 1 ∧ e.y % 2 = 1 ∧
      (UnitStep e.step ∨ (e.step.x = 0 ∧ e.step.y = 0)) := fun e he =>
    hst e (by rw [hstack]; exact List.mem_cons_of_mem _ he)
  rcases carveStep_cases hs with ⟨-, heq⟩ | ⟨hu, m1, dead, hs1, hs2, hpush, hds⟩
  · subst heq
    exact ⟨hdom, hdir, hrest, hno⟩
  · simp only at hu hs1 hpush hds
    obtain ⟨v0, hv0⟩ := unexplored_some hu
    obtain ⟨hcx0, hcx1, hcy0, hcy1⟩ := (hdom cur.x cur.y).1 (by rw [hv0]; rfl)
    obtain ⟨hox, hoy, hstep⟩ := hst cur (by rw [hstack]; exact List.mem_cons_self _ _)
    obtain ⟨hsx, hsy, hzero⟩ := unitStep_cases hstep
    have hno1 : NoEvenPassage m1 :=
      setMaze_noEven hpw hph (cmod_inRange _ _ hcx0 hcx1) (cmod_inRange _ _ hcy0 hcy1)
        (Or.inl hox) hno hs1
    obtain ⟨wx, hwx, -, -, hwx0⟩ := wall_coord w cur.x cur.step.x hcx0 hcx1 hsx
    obtain ⟨wy, hwy, -, -, hwy0⟩ := wall_coord h cur.y cur.step.y hcy0 hcy1 hsy
    have hwodd : wx % 2 = 1 ∨ wy % 2 = 1 := by
      rcases hzero with hz | hz
      · left; rw [hwx0 hz]; exact hox
      · right; rw [hwy0 hz]; exact hoy
    have hno2 : NoEvenPassage st1.maze := setMaze_noEven hpw hph hwx hwy hwodd hno1 hs2
    have hdom1 : Dom w h st1.maze := setMaze_dom _ _ _ _ (setMaze_dom _ _ _ _ hdom hs1) hs2
    refine ⟨hdom1, fun d hd => hdir d (hds d hd), ?_, hno2⟩
    intro e he
    rcases pushNeighbours_spec _ _ _ _ _ _ _ _ _ _ _ hpush e he with h1 | ⟨h1, h2, h3, -⟩
    · exact hrest e h1
    · have hunit := hdir _ (hds _ h1)
      obtain ⟨hex, hey, -⟩ := unitStep_cases (Or.inl hunit)
      have hpx := neighbour_parity _ w cur.x e.step.x e.x hcx0 hcx1 hex hpw.1 h2
      have hpy := neighbour_parity _ h cur.y e.step.y e.y hcy0 hcy1 hey hph.1 h3
      exact ⟨by omega, by omega, Or.inl hunit⟩

/-- The start coordinate of an axis is odd for every size from 0 to `2^25`, the range in
which the value `2 * floor(size / 4.0f) - 1` of line 82 is a `float`. -/
theorem startCoord_odd (size : Int) (h0 : 0 ≤ size) (h1 : size ≤ 33554432) :
    startCoord size % 2 = 1 :=
  startCoord_small size (by omega) h1

/-- The start state of the carver satisfies the parity invariant when the start cell has
odd coordinates. -/
theorem carveInit_odd {σ : Type} (w h : Int) (m : Grid) (s : σ) (hdom : Dom w h m)
    (hno : NoPassage m) (hsx : startCoord w % 2 = 1) (hsy : startCoord h % 2 = 1) :
    CarveOdd w h (carveInit w h m s) := by
  refine ⟨hdom, ?_, ?_, fun x y _ _ => hno x y⟩
  · intro d hd
    simp only [carveInit, List.mem_cons, List.mem_singleton, List.not_mem_nil, or_false] at hd
    rcases hd with hd | hd | hd | hd <;> subst hd <;> simp [UnitStep]
  · intro e he
    simp only [carveInit, List.mem_singleton] at he
    subst he
    exact ⟨hsx, hsy, Or.inr ⟨rfl, rfl⟩⟩

/-- The largest odd coordinate `2 * hi + 1` that a wall distribution yields lies inside
the axis. -/
theorem wallDistHi_bound {a : Axis} {size : Int} (hp : SizeParity a size)
    (h0 : 0 ≤ wallDistHi size (boundary a)) : 2 * wallDistHi size (boundary a) + 1 < size := by
  unfold wallDistHi boundary at *
  simp only [Frac.trunc, Frac.sub, Frac.mul, Frac.ofInt, mul_one, one_mul, Nat.cast_ofNat,
    Nat.cast_one, Nat.cast_mul] at *
  cases hw : effectiveWrap a with
  | false =>
    have hodd := hp.2 hw
    rw [hw] at h0
    simp only [Bool.false_eq_true, if_false] at h0 ⊢
    by_cases hn : 0 ≤ size - 1 * 2 * 2 - 2
    · rw [Int.tdiv_eq_ediv hn (by norm_num)] at h0 ⊢
      omega
    · have hneg : size - 1 * 2 * 2 - 2 = -(-(size - 1 * 2 * 2 - 2)) := by omega
      rw [hneg, Int.neg_tdiv, Int.tdiv_eq_ediv (by omega) (by norm_num)] at h0
      rw [hneg, Int.neg_tdiv, Int.tdiv_eq_ediv (by omega) (by norm_num)]
      omega
  | true =>
    have hev := hp.1 hw
    rw [hw] at h0
    simp only [if_true] at h0 ⊢
    by_cases hn : 0 ≤ size - 0 * 2 * 2 - 2
    · rw [Int.tdiv_eq_ediv hn (by norm_num)] at h0 ⊢
      omega
    · have hneg : size - 0 * 2 * 2 - 2 = -(-(size - 0 * 2 * 2 - 2)) := by omega
      rw [hneg, Int.neg_tdiv, Int.tdiv_eq_ediv (by omega) (by norm_num)] at h0
      rw [hneg, Int.neg_tdiv, Int.tdiv_eq_ediv (by omega) (by norm_num)]
      omega

/-- A call of `remove` whose target has an odd coordinate inside the grid leaves no Passage
cell with two even coordinates. -/
theorem remove_noEven {c : MazeConfig} {w h : Int} (hpw : SizeParity c.horizontal w)
    (hph : SizeParity c.vertical h) {m m1 : Grid} {x y : Int}
    (hodd : (0 ≤ x ∧ x < w ∧ x % 2 = 1) ∨ (0 ≤ y ∧ y < h ∧ y % 2 = 1))
    (h0 : NoEvenPassage m) (hs : remove m x y c w h = some m1) : NoEvenPassage m1 := by
  unfold remove at hs
  split at hs
  · split at hs
    · split_ifs at hs
      · obtain ⟨x1, y1, hx, hy, -⟩ := setMaze_spec hs
        refine setMaze_noEven hpw hph hx hy ?_ h0 hs
        rcases hodd with ⟨ha, hb, hc⟩ | ⟨ha, hb, hc⟩
        · rw [cmod_inRange _ _ ha hb] at hx
          cases hx
          exact Or.inl hc
        · rw [cmod_inRange _ _ ha hb] at hy
          cases hy
          exact Or.inr hc
      · cases hs; exact h0
    · exact Option.noConfusion hs
  · exact Option.noConfusion hs

/-- The loop of the imperfection injector leaves no Passage cell with two even
coordinates: it samples only walls, cells with exactly one odd coordinate. -/
theorem imperfectLoop_noEven {σ : Type} {R : RandomSource σ} {c : MazeConfig} {w h : Int}
    (hpw : SizeParity c.horizontal w) (hph : SizeParity c.vertical h)
    (hx0 : 0 ≤ wallDistHi w (boundary c.horizontal))
    (hy0 : 0 ≤ wallDistHi h (boundary c.vertical)) (n : Nat) :
    ∀ (m : Grid) (s : σ) (r : Grid × σ), NoEvenPassage m →
      imperfectLoop R c w h (boundary c.horizontal) (boundary c.vertical)
        (wallDistHi w (boundary c.horizontal)) (wallDistHi h (boundary c.vertical)) n m s
        = some r → NoEvenPassage r.1 := by
  have hxb := wallDistHi_bound hpw hx0
  have hyb := wallDistHi_bound hph hy0
  induction n with
  | zero =>
    intro m s r h0 hs
    unfold imperfectLoop at hs
    cases hs; exact h0
  | succ k ih =>
    intro m s r h0 hs
    unfold imperfectLoop at hs
    simp only at hs
    split at hs
    · exact Option.noConfusion hs
    · rename_i m1 h1
      split at hs
      · exact Option.noConfusion hs
      · rename_i m2 h2
        have hm1 : NoEvenPassage m1 := by
          refine remove_noEven hpw hph (Or.inl ?_) h0 h1
          have ha := R.int_ge 0 (wallDistHi w (boundary c.horizontal))
            (R.int 0 (wallDistHi h (boundary c.vertical)) s).2 hx0
          have hb := R.int_le 0 (wallDistHi w (boundary c.horizontal))
            (R.int 0 (wallDistHi h (boundary c.vertical)) s).2 hx0
          refine ⟨?_, ?_, ?_⟩ <;> omega
        have hm2 : NoEvenPassage m2 := by
          refine remove_noEven hpw hph (Or.inr ?_) hm1 h2
          have ha := R.int_ge 0 (wallDistHi h (boundary c.vertical))
            (R.int 0 (wallDistHi w (boundary c.horizontal))
              (R.int 0 (wallDistHi h (boundary c.vertical)) s).2).2 hy0
          have hb := R.int_le 0 (wallDistHi h (boundary c.vertical))
            (R.int 0 (wallDistHi w (boundary c.horizontal))
              (R.int 0 (wallDistHi h (boundary c.vertical)) s).2).2 hy0
          refine ⟨?_, ?_, ?_⟩ <;> omega
        exact ih _ _ _ hm2 hs

theorem addImperfections_noEven {σ : Type} {R : RandomSource σ} {c : MazeConfig} {w h : Int}
    (hpw : SizeParity c.horizontal w) (hph : SizeParity c.vertical h)
    {m : Grid} {s : σ} {r : Grid × σ} (h0 : NoEvenPassage m)
    (hs : addImperfections R c w h m s = some r) : NoEvenPassage r.1 := by
  unfold addImperfections at hs
  split_ifs at hs with h1 h2
  · exact imperfectLoop_noEven hpw hph h2.1 h2.2 _ _ _ _ h0 hs
  · cases hs; exact h0

/-- The parity invariant holds in every state the carver of `generate` reaches, when the
normalized width and height are at most `2^25`. -/
theorem carveReached_odd {σ : Type} {R : RandomSource σ} {entropy : Nat} {w h : Int}
    {c : MazeConfig} {st0 st : CarveState σ}
    (hwmax : normalizeSize c.horizontal w ≤ 33554432)
    (hhmax : normalizeSize c.vertical h ≤ 33554432)
    (hst0 : carveStart R entropy w h c = some st0)
    (hr : CarveReached R c (normalizeSize c.horizontal w) (normalizeSize c.vertical h) st0 st) :
    CarveOdd (normalizeSize c.horizontal w) (normalizeSize c.vertical h) st := by
  obtain ⟨hw0, hh0⟩ := carveStart_sizes hst0
  obtain ⟨m, s, rfl, hno, hrect, -⟩ := carveStart_spec hst0
  exact carveReached_induction (CarveOdd _ _)
    (fun s1 cur rest s2 hinv hstack hstep =>
      carveStep_odd (normalizeSize_sizeParity _ w) (normalizeSize_sizeParity _ h) hstack hinv hstep)
    (carveInit_odd _ _ m s (rect_dom hrect) hno (startCoord_odd _ hw0 hwmax)
      (startCoord_odd _ hh0 hhmax)) hr

/-- What the code keeps of the odd-cell layout: for a configuration with
`roomsFraction = 0` and a normalized width and height of at most `2^25`, every entry on the
stack of every state the carver loop reaches, so every entry the carver pops, has both
coordinates odd, and in the returned grid no cell whose coordinates are both even is
Passage. -/
theorem carve_on_odd_cells {σ : Type} (R : RandomSource σ) (entropy : Nat) (w h : Int)
    (c : MazeConfig) (hrooms : c.roomsFraction.num = 0)
    (hwmax : normalizeSize c.horizontal w ≤ 33554432)
    (hhmax : normalizeSize c.vertical h ≤ 33554432) :
    (∀ st0 st, carveStart R entropy w h c = some st0 →
      CarveReached R c (normalizeSize c.horizontal w) (normalizeSize c.vertical h) st0 st →
      ∀ cur rest, st.stack = cur :: rest →
        (cur.x % 2 = 1 ∧ cur.y % 2 = 1) ∧ ∀ e ∈ rest, e.x % 2 = 1 ∧ e.y % 2 = 1) ∧
    (∀ g, generate R entropy w h c = some g →
      ∀ x y, x % 2 = 0 → y % 2 = 0 → g.read x y ≠ some EMPTY) := by
  constructor
  · intro st0 st hst0 hr cur rest hstack
    obtain ⟨-, -, hst, -⟩ := carveReached_odd hwmax hhmax hst0 hr
    rw [hstack] at hst
    have h1 := hst cur (List.mem_cons_self _ _)
    exact ⟨⟨h1.1, h1.2.1⟩, fun e he =>
      ⟨(hst e (List.mem_cons_of_mem _ he)).1, (hst e (List.mem_cons_of_mem _ he)).2.1⟩⟩
  · intro g hg
    obtain ⟨d, hi⟩ := generate_eq_imperfected (le_of_eq hrooms) hg
    unfold imperfected at hi
    split at hi
    · exact Option.noConfusion hi
    · rename_i st hst
      split at hi
      · exact Option.noConfusion hi
      · rename_i m s hm
        cases hi
        rw [carved_eq_start] at hst
        cases hst0 : carveStart R entropy w h c with
        | none => rw [hst0] at hst; exact Option.noConfusion hst
        | some st0 =>
          rw [hst0] at hst
          simp only [Option.some_bind] at hst
          obtain ⟨hr, -⟩ := carveLoop_reached _ _ _ hst
          obtain ⟨-, -, -, hno⟩ := carveReached_odd hwmax hhmax hst0 hr
          exact addImperfections_noEven (normalizeSize_sizeParity _ w)
            (normalizeSize_sizeParity _ h) hno hm

set_option maxRecDepth 1000000 in
/-- Witness of `carve_on_odd_cells`: the wrapping, mirrored sample with imperfections on an
8 by 8 request, which returns a 10 by 7 grid. -/
theorem carve_on_odd_cells_witness :
    braided.roomsFraction.num = 0 ∧ (generate lcg 0 8 8 braided).isSome = true ∧
    (∀ st0 st, carveStart lcg 0 8 8 braided = some st0 →
      CarveReached lcg braided (normalizeSize braided.horizontal 8)
        (normalizeSize braided.vertical 8) st0 st →
      ∀ cur rest, st.stack = cur :: rest →
        (cur.x % 2 = 1 ∧ cur.y % 2 = 1) ∧ ∀ e ∈ rest, e.x % 2 = 1 ∧ e.y % 2 = 1) ∧
    (∀ g, generate lcg 0 8 8 braided = some g →
      ∀ x y, x % 2 = 0 → y % 2 = 0 → g.read x y ≠ some EMPTY) :=
  ⟨by decide, by decide,
    carve_on_odd_cells lcg 0 8 8 braided (by decide) (by decide) (by decide)⟩

/-! ## Termination of the carver loop -/

/-- The neighbour loop uses no index outside the grid. -/
theorem pushNeighbours_total {w h : Int} {m : Grid} (hdom : Dom w h m) (hw : 0 < w)
    (hh : 0 < h) (hWrap vWrap : Bool) (cur : StackEntry) (ign : Int) (ds : List Direction) :
    ∀ (stack : List StackEntry) (dead : Bool),
      ∃ r, pushNeighbours m hWrap vWrap w h cur ign ds stack dead = some r := by
  induction ds with
  | nil => intro stack dead; exact ⟨_, rfl⟩
  | cons step rest ih =>
    intro stack dead
    unfold pushNeighbours
    have hx : ∃ x, (if hWrap = true then cmod (cur.x + step.x * 2 + w) w
        else some (cur.x + step.x * 2)) = some x := by
      split_ifs
      · exact ⟨_, by unfold cmod; rw [if_neg (by omega)]⟩
      · exact ⟨_, rfl⟩
    have hy : ∃ y, (if vWrap = true then cmod (cur.y + step.y * 2 + h) h
        else some (cur.y + step.y * 2)) = some y := by
      split_ifs
      · exact ⟨_, by unfold cmod; rw [if_neg (by omega)]⟩
      · exact ⟨_, rfl⟩
    obtain ⟨x, hx⟩ := hx
    obtain ⟨y, hy⟩ := hy
    rw [hx, hy]
    simp only
    split_ifs with hr
    · obtain ⟨v, hv⟩ := Option.isSome_iff_exists.1
        ((hdom x y).2 ⟨hr.1, hr.2.2.1, hr.2.1, hr.2.2.2⟩)
      have hu : ∃ b, unexplored m x y ign = some b := by
        unfold unexplored
        rw [hv]
        exact ⟨_, rfl⟩
      obtain ⟨b, hb⟩ := hu
      rw [hb]
      cases b with
      | true => exact ih _ _
      | false => exact ih _ _
    · exact ih _ _

/-- The body of the carver loop uses no index outside the grid when the popped entry lies
inside the grid and its step is zero or a unit step. -/
theorem carveStep_total {σ : Type} (R : RandomSource σ) (c : MazeConfig) {w h : Int}
    {cur : StackEntry} {st : CarveState σ} (hdom : Dom w h st.maze)
    (hx0 : 0 ≤ cur.x) (hx1 : cur.x < w) (hy0 : 0 ≤ cur.y) (hy1 : cur.y < h)
    (hstep : UnitStep cur.step ∨ (cur.step.x = 0 ∧ cur.step.y = 0)) :
    ∃ st1, carveStep R c w h cur st = some st1 := by
  obtain ⟨hsx, hsy, -⟩ := unitStep_cases hstep
  obtain ⟨v, hv⟩ := Option.isSome_iff_exists.1 ((hdom cur.x cur.y).2 ⟨hx0, hx1, hy0, hy1⟩)
  unfold carveStep
  have hu : ∃ b, unexplored st.maze cur.x cur.y st.ignoreReserved = some b := by
    unfold unexplored
    rw [hv]
    exact ⟨_, rfl⟩
  obtain ⟨b, hb⟩ := hu
  rw [hb]
  cases b with
  | false => exact ⟨_, rfl⟩
  | true =>
    simp only
    obtain ⟨m1, hm1⟩ := setMaze_total hdom c cur.x cur.y EMPTY cur.x cur.y
      (cmod_inRange _ _ hx0 hx1) (cmod_inRange _ _ hy0 hy1) hx0 hx1 hy0 hy1
    have hdom1 := setMaze_dom _ _ _ _ hdom hm1
    obtain ⟨wx, hwx, hwx0, hwx1, -⟩ := wall_coord w cur.x cur.step.x hx0 hx1 hsx
    obtain ⟨wy, hwy, hwy0, hwy1, -⟩ := wall_coord h cur.y cur.step.y hy0 hy1 hsy
    obtain ⟨m2, hm2⟩ := setMaze_total hdom1 c (cur.x - cur.step.x) (cur.y - cur.step.y) EMPTY
      wx wy hwx hwy hwx0 hwx1 hwy0 hwy1
    have hdom2 := setMaze_dom _ _ _ _ hdom1 hm2
    rw [hm1]
    simp only
    rw [hm2]
    simp only
    obtain ⟨r, hr⟩ := pushNeighbours_total hdom2 (by omega) (by omega)
      (effectiveWrap c.horizontal) (effectiveWrap c.vertical) cur (st.ignoreReserved - 1)
      (if Frac.lt (R.real (shuffle R st.directions st.rng).2).1 c.straightness = true then
        prioritize (shuffle R st.directions st.rng).1 cur.step
      else (shuffle R st.directions st.rng).1) st.stack true
    rw [hr]
    exact ⟨_, rfl⟩

/-- The counter `ignoreReserved` after one iteration of the carver: unchanged when the
entry is discarded, one less when a cell is carved. -/
theorem carveStep_counter {σ : Type} {R : RandomSource σ} {c : MazeConfig} {w h : Int}
    {cur : StackEntry} {st st1 : CarveState σ} (hs : carveStep R c w h cur st = some st1) :
    (unexplored st.maze cur.x cur.y st.ignoreReserved = some false ∧ st1 = st) ∨
    (unexplored st.maze cur.x cur.y st.ignoreReserved = some true ∧
      st1.ignoreReserved = st.ignoreReserved - 1) := by
  unfold carveStep at hs
  cases hu : unexplored st.maze cur.x cur.y st.ignoreReserved with
  | none => simp [hu] at hs
  | some b =>
    cases b with
    | false =>
      simp only [hu] at hs
      cases hs
      exact Or.inl ⟨rfl, rfl⟩
    | true =>
      simp only [hu] at hs
      split at hs
      · exact Option.noConfusion hs
      · split at hs
        · exact Option.noConfusion hs
        · split at hs
          · exact Option.noConfusion hs
          · cases hs
            exact Or.inr ⟨rfl, rfl⟩

/-- One iteration of the carver either discards the popped entry, leaving the state as it
is after the pop, or carves: the number of cells that are not Passage drops, at most four
entries are pushed and `ignoreReserved` is decremented. -/
theorem carveStep_progress {σ : Type} {R : RandomSource σ} {c : MazeConfig} {w h : Int}
    {cur : StackEntry} {st st1 : CarveState σ} (hdom : Dom w h st.maze)
    (hdir : st.directions.length ≤ 4) (hs : carveStep R c w h cur st = some st1) :
    st1 = st ∨
    (unopened st1.maze + 1 ≤ unopened st.maze ∧ st1.stack.length ≤ st.stack.length + 4 ∧
      st1.ignoreReserved = st.ignoreReserved - 1) := by
  rcases carveStep_counter hs with ⟨-, heq⟩ | ⟨hu1, hign⟩
  · exact Or.inl heq
  · rcases carveStep_cases hs with ⟨hu0, -⟩ | ⟨hu, m1, dead, hs1, hs2, hpush, -⟩
    · rw [hu1] at hu0
      exact absurd hu0 (by simp)
    · obtain ⟨v0, hv0, hne⟩ := unexplored_true hu
      obtain ⟨hx0, hx1, hy0, hy1⟩ := (hdom cur.x cur.y).1 (by rw [hv0]; rfl)
      have h1 := setMaze_unopened_lt hx0 hx1 hy0 hy1 hv0 hne hs1
      have h2 := setMaze_unopened hs2
      have h3 := pushNeighbours_length _ _ _ _ _ _ _ _ _ _ _ hpush
      have h4 := (carveStep_measure hdom hdir hs).2.1
      simp only at h3
      exact Or.inr ⟨by omega, by omega, hign⟩

/-- One iteration of the carver keeps the index-safety invariant. -/
theorem carveStep_safe {σ : Type} {R : RandomSource σ} {c : MazeConfig} {w h : Int}
    {cur : StackEntry} {rest : List StackEntry} {st st1 : CarveState σ}
    (hstack : st.stack = cur :: rest) (hinv : CarveSafe w h st)
    (hs : carveStep R c w h cur { st with stack := rest } = some st1) : CarveSafe w h st1 := by
  obtain ⟨hdom, hdir, hlen, hst⟩ := hinv
  have hrest : ∀ e ∈ rest, 0 ≤ e.x ∧ e.x < w ∧ 0 ≤ e.y ∧ e.y < h ∧
      (UnitStep e.step ∨ (e.step.x = 0 ∧ e.step.y = 0)) := fun e he =>
    hst e (by rw [hstack]; exact List.mem_cons_of_mem _ he)
  have hmeas := carveStep_measure
    (show Dom w h ({ st with stack := rest } : CarveState σ).maze from hdom) hlen hs
  rcases carveStep_cases hs with ⟨-, heq⟩ | ⟨hu, m1, dead, hs1, hs2, hpush, hds⟩
  · subst heq
    exact ⟨hdom, hdir, hlen, hrest⟩
  · simp only at hpush hds
    refine ⟨hmeas.1, fun d hd => hdir d (hds d hd), hmeas.2.1, ?_⟩
    intro e he
    rcases pushNeighbours_spec _ _ _ _ _ _ _ _ _ _ _ hpush e he with
      h1 | ⟨h1, -, -, h4, h5, h6, h7⟩
    · exact hrest e h1
    · exact ⟨h4, h5, h6, h7, Or.inl (hdir _ (hds _ h1))⟩

/-- The carver loop with fuel above the measure of a safe state ends with an empty stack;
it decrements `ignoreReserved`, once for each cell it carves, at most as often as it
lowers the number of cells that are not Passage. -/
theorem carveLoop_total {σ : Type} (R : RandomSource σ) (c : MazeConfig) {w h : Int}
    (n : Nat) : ∀ (st : CarveState σ), CarveSafe w h st →
      4 * unopened st.maze + st.stack.length ≤ n →
      ∃ st1, carveLoop R c w h n st = some st1 ∧ st1.stack = [] ∧
        st.ignoreReserved - st1.ignoreReserved + (unopened st1.maze : Int)
          ≤ (unopened st.maze : Int) := by
  induction n with
  | zero =>
    intro st hinv hm
    have hnil : st.stack = [] := List.length_eq_zero.1 (by omega)
    refine ⟨st, ?_, hnil, by omega⟩
    unfold carveLoop
    rw [hnil]
  | succ n ih =>
    intro st hinv hm
    unfold carveLoop
    cases hstack : st.stack with
    | nil => exact ⟨st, rfl, hstack, by omega⟩
    | cons cur rest =>
      simp only
      obtain ⟨hdom, hdir, hlen, hst⟩ := hinv
      obtain ⟨hx0, hx1, hy0, hy1, hstep⟩ := hst cur (by rw [hstack]; exact List.mem_cons_self _ _)
      obtain ⟨st2, hst2⟩ := carveStep_total R c
        (show Dom w h ({ st with stack := rest } : CarveState σ).maze from hdom)
        hx0 hx1 hy0 hy1 hstep
      rw [hst2]
      simp only
      have hsafe := carveStep_safe hstack ⟨hdom, hdir, hlen, hst⟩ hst2
      have hprog := carveStep_progress
        (show Dom w h ({ st with stack := rest } : CarveState σ).maze from hdom) hlen hst2
      rw [hstack] at hm
      simp only [List.length_cons] at hm
      have hm2 : 4 * unopened st2.maze + st2.stack.length ≤ n := by
        rcases hprog with heq | ⟨h1, h2, -⟩
        · rw [heq]
          simp only
          omega
        · simp only at h1 h2
          omega
      obtain ⟨st1, hloop, hnil, hcount⟩ := ih st2 hsafe hm2
      refine ⟨st1, hloop, hnil, ?_⟩
      rcases hprog with heq | ⟨h1, -, h3⟩
      · rw [heq] at hcount
        simp only at hcount
        exact hcount
      · simp only at h1 h3
        omega

/-- A `w` by `h` grid has at most `w * h` cells that are not Passage. -/
theorem unopened_rect {w h : Int} {m : Grid} (hr : Rect w h m) :
    (unopened m : Int) ≤ w * h ∧ unopened m ≤ (w * h).toNat := by
  have hw : 0 ≤ w := by have := hr.1; omega
  have hlen : m.length = w.toNat := by have := hr.1; omega
  have hcols : ∀ col ∈ m, col.length = h.toNat := fun col hcol => by
    have := hr.2 col hcol
    omega
  have hb := unopened_le m h.toNat hcols
  rw [hlen] at hb
  by_cases hh : 0 ≤ h
  · have hprod : ((w.toNat * h.toNat : Nat) : Int) = w * h := by
      push_cast
      rw [Int.toNat_of_nonneg hw, Int.toNat_of_nonneg hh]
    have hnn : 0 ≤ w * h := mul_nonneg hw hh
    constructor <;> omega
  · have hz : h.toNat = 0 := by omega
    rw [hz, Nat.mul_zero] at hb
    have hm : m = [] := by
      cases m with
      | nil => rfl
      | cons col rest =>
        have := hr.2 col (List.mem_cons_self _ _)
        omega
    have hw0 : w = 0 := by
      have := hr.1
      rw [hm] at this
      simpa using this.symm
    rw [hw0, zero_mul]
    constructor <;> omega

/-- The start state of the carver on a `w` by `h` grid with the start cell inside the grid
satisfies the index-safety invariant. -/
theorem carveInit_safe {σ : Type} {w h : Int} {m : Grid} (s : σ) (hdom : Dom w h m)
    (hsx0 : 0 ≤ startCoord w) (hsx1 : startCoord w < w)
    (hsy0 : 0 ≤ startCoord h) (hsy1 : startCoord h < h) : CarveSafe w h (carveInit w h m s) := by
  refine ⟨hdom, ?_, by simp [carveInit], ?_⟩
  · intro d hd
    simp only [carveInit, List.mem_cons, List.mem_singleton, List.not_mem_nil, or_false] at hd
    rcases hd with hd | hd | hd | hd <;> subst hd <;> simp [UnitStep]
  · intro e he
    simp only [carveInit, List.mem_singleton] at he
    subst he
    exact ⟨hsx0, hsx1, hsy0, hsy1, Or.inr ⟨rfl, rfl⟩⟩

theorem carveColumn_frame (x : Int) (ys : List Int) :
    ∀ m m1, carveColumn x ys m = some m1 →
      ∀ p q, ¬ (p = x ∧ q ∈ ys) → m1.read p q = m.read p q := by
  induction ys with
  | nil => intro m m1 hs p q _; unfold carveColumn at hs; cases hs; rfl
  | cons y rest ih =>
    intro m m1 hs p q hpq
    unfold carveColumn at hs
    split at hs
    · rename_i m2 hm2
      rw [ih _ _ hs p q (fun hc => hpq ⟨hc.1, List.mem_cons_of_mem _ hc.2⟩)]
      exact (read_write hm2 p q).2 (fun hc => hpq ⟨hc.1, by rw [hc.2]; exact List.mem_cons_self _ _⟩)
    · exact Option.noConfusion hs

theorem carveRect_frame (ys xs : List Int) :
    ∀ m m1, carveRect ys xs m = some m1 →
      ∀ p q, ¬ (p ∈ xs ∧ q ∈ ys) → m1.read p q = m.read p q := by
  induction xs with
  | nil => intro m m1 hs p q _; unfold carveRect at hs; cases hs; rfl
  | cons x rest ih =>
    intro m m1 hs p q hpq
    unfold carveRect at hs
    split at hs
    · rename_i m2 hm2
      rw [ih _ _ hs p q (fun hc => hpq ⟨List.mem_cons_of_mem _ hc.1, hc.2⟩)]
      exact carveColumn_frame x ys _ _ hm2 p q
        (fun hc => hpq ⟨by rw [hc.1]; exact List.mem_cons_self _ _, hc.2⟩)
    · exact Option.noConfusion hs

/-- What the room loop does leave alone: every cell with `x < wallWidth`,
`x > w - 1 - wallWidth`, `y < wallWidth` or `y > h - wallWidth`. -/
theorem carveRooms_frame (c : MazeConfig) (w h a b : Int) (d : List DeadEnd) (is : List Nat) :
    ∀ m m1, carveRooms c w h a b d is m = some m1 →
      ∀ p q, (p < c.wallWidth ∨ w - 1 - c.wallWidth < p ∨ q < c.wallWidth ∨
        h - c.wallWidth < q) → m1.read p q = m.read p q := by
  induction is with
  | nil => intro m m1 hs p q _; unfold carveRooms at hs; cases hs; rfl
  | cons i rest ih =>
    intro m m1 hs p q hpq
    unfold carveRooms at hs
    split at hs
    · exact Option.noConfusion hs
    · rename_i e he
      split at hs
      · rename_i m2 hm2
        rw [ih _ _ hs p q hpq]
        refine carveRect_frame _ _ _ _ hm2 p q ?_
        rintro ⟨hp, hq⟩
        have hp1 := (mem_intRange _ _ _).1 hp
        have hq1 := (mem_intRange _ _ _).1 hq
        have h1 := le_max_left c.wallWidth (roomCorner e.x a - a)
        have h2 := min_le_left (w - c.wallWidth - 1) (roomCorner e.x a + a)
        have h3 := le_max_left c.wallWidth (roomCorner e.y b - b)
        have h4 := min_le_left (h - c.wallWidth) (roomCorner e.y b + b)
        omega
      · exact Option.noConfusion hs

/-- The room loop of `addRooms` writes no cell with `x < wallWidth`,
`x > w - 1 - wallWidth`, `y < wallWidth` or `y > h - wallWidth` of a `w` by `h` grid. -/
theorem roomsCarved_frame {w h : Int} {c : MazeConfig} {d : List DeadEnd} {m m1 : Grid}
    (hr : Rect w h m) (hs : roomsCarved m d c = some m1) :
    ∀ p q, (p < c.wallWidth ∨ w - 1 - c.wallWidth < p ∨ q < c.wallWidth ∨
      h - c.wallWidth < q) → m1.read p q = m.read p q := by
  unfold roomsCarved at hs
  split at hs
  · exact Option.noConfusion hs
  · rename_i col rest
    have hlen : (((col :: rest).length : Nat) : Int) = w := hr.1
    have hcol : ((col.length : Nat) : Int) = h := hr.2 col (List.mem_cons_self _ _)
    rw [hlen, hcol] at hs
    exact carveRooms_frame c w h _ _ d _ _ _ hs


/-! ## Reading numbers and tokens -/

theorem digitValue_digitChar (k : Nat) (hk : k < 10) :
    digitValue (Nat.digitChar k) = some k ∧ 48 ≤ (Nat.digitChar k).toNat ∧
      (Nat.digitChar k).toNat ≤ 57 := by
  interval_cases k <;> decide

/-- Reading the digits that `Nat.toDigitsCore` puts in front of `ds`. -/
theorem readDigits_toDigitsCore (fuel : Nat) :
    ∀ (n : Nat) (ds : List Char) (seen : Bool), n < fuel →
      readDigits (Nat.toDigitsCore 10 fuel n ds) 0 seen = readDigits ds n true := by
  induction fuel with
  | zero => intro n ds seen hn; omega
  | succ f ih =>
    intro n ds seen hn
    unfold Nat.toDigitsCore
    simp only
    have hd := digitValue_digitChar (n % 10) (Nat.mod_lt _ (by decide))
    split_ifs with h0
    · rw [readDigits, hd.1]
      simp only
      congr 1
      omega
    · rw [ih (n / 10) _ seen (by omega), readDigits, hd.1]
      simp only
      congr 1
      omega

/-- The decimal digits of a number start with a digit. -/
theorem toDigitsCore_head (fuel : Nat) :
    ∀ (n : Nat) (ds : List Char), n < fuel →
      ∃ c cs, Nat.toDigitsCore 10 fuel n ds = c :: cs ∧ 48 ≤ c.toNat ∧ c.toNat ≤ 57 := by
  induction fuel with
  | zero => intro n ds hn; omega
  | succ f ih =>
    intro n ds hn
    unfold Nat.toDigitsCore
    simp only
    have hd := digitValue_digitChar (n % 10) (Nat.mod_lt _ (by decide))
    split_ifs with h0
    · exact ⟨_, _, rfl, hd.2.1, hd.2.2⟩
    · exact ih (n / 10) _ (by omega)

/-- The decimal digits of a number are digits. -/
theorem toDigitsCore_digits (fuel : Nat) :
    ∀ (n : Nat) (ds : List Char), (∀ c ∈ ds, 48 ≤ c.toNat ∧ c.toNat ≤ 57) →
      ∀ c ∈ Nat.toDigitsCore 10 fuel n ds, 48 ≤ c.toNat ∧ c.toNat ≤ 57 := by
  induction fuel with
  | zero => intro n ds hds; unfold Nat.toDigitsCore; exact hds
  | succ f ih =>
    intro n ds hds
    unfold Nat.toDigitsCore
    simp only
    have hd := digitValue_digitChar (n % 10) (Nat.mod_lt _ (by decide))
    have hds1 : ∀ c ∈ Nat.digitChar (n % 10) :: ds, 48 ≤ c.toNat ∧ c.toNat ≤ 57 := by
      intro c hc
      rcases List.mem_cons.1 hc with h1 | h1
      · rw [h1]; exact hd.2
      · exact hds c h1
    split_ifs with h0
    · exact hds1
    · exact ih (n / 10) _ hds1

theorem natRepr_data (n : Nat) : (toString ((n : Nat) : Int)).data = Nat.toDigits 10 n := rfl

theorem negRepr_data (n : Nat) :
    (toString (Int.negSucc n)).data = Char.ofNat 45 :: Nat.toDigits 10 (n + 1) := rfl

/-- `std::stoi` reads back the decimal text of an `int` that is not negative. -/
theorem stoi_natRepr (n : Nat) (hn : n ≤ 2147483647) :
    stoi (toString ((n : Nat) : Int)).data = some (n : Int) := by
  rw [natRepr_data]
  obtain ⟨c, cs, hcs, hc0, hc1⟩ := toDigitsCore_head (n + 1) n [] (Nat.lt_succ_self _)
  have hread := readDigits_toDigitsCore (n + 1) n [] false (Nat.lt_succ_self _)
  unfold Nat.toDigits
  rw [hcs] at hread ⊢
  have hsp : isSpace c = false := by
    simp only [isSpace, Bool.or_eq_false_iff, decide_eq_false_iff_not, Bool.and_eq_false_iff]
    exact ⟨by omega, Or.inr (by omega)⟩
  unfold stoi
  rw [List.dropWhile_cons_of_neg (by rw [hsp]; simp)]
  simp only
  rw [if_neg (by omega), if_neg (by omega), hread]
  simp only [readDigits, if_true, Option.map_some']
  rw [if_pos (by omega)]

/-- `std::stoi` reads back the decimal text of a negative `int`. -/
theorem stoi_negRepr (n : Nat) (hn : n + 1 ≤ 2147483648) :
    stoi (toString (Int.negSucc n)).data = some (Int.negSucc n) := by
  rw [negRepr_data]
  have hread := readDigits_toDigitsCore (n + 1 + 1) (n + 1) [] false (Nat.lt_succ_self _)
  unfold Nat.toDigits
  unfold stoi
  rw [List.dropWhile_cons_of_neg (by decide)]
  simp only
  rw [if_pos (by decide), hread]
  simp only [readDigits, if_true, Option.map_some']
  rw [if_pos (by omega)]
  rfl

/-- `std::stoi` reads back the decimal text of every `int`. -/
theorem stoi_toString (v : Int) (h0 : -2147483648 ≤ v) (h1 : v ≤ 2147483647) :
    stoi (toString v).data = some v := by
  cases v with
  | ofNat n =>
    have hn : (n : Int) ≤ 2147483647 := h1
    exact stoi_natRepr n (by omega)
  | negSucc n =>
    have hn : -2147483648 ≤ -((n : Int) + 1) := by
      rw [← Int.negSucc_eq]; exact h0
    exact stoi_negRepr n (by omega)

/-- A token that holds no delimiter and is followed by one is returned whole. -/
theorem tokens_append_delim (delim : Char) (l rest : List Char) (hl : delim ∉ l) :
    tokens delim (l ++ delim :: rest) = l :: tokens delim rest := by
  induction l with
  | nil => simp [tokens]
  | cons c cs ih =>
    have hc : c ≠ delim := fun h => hl (by rw [h]; exact List.mem_cons_self _ _)
    have hcs : delim ∉ cs := fun h => hl (List.mem_cons_of_mem _ h)
    rw [List.cons_append, tokens, if_neg hc, ih hcs]

/-- A non-empty text without delimiter is one token. -/
theorem tokens_single (delim : Char) (l : List Char) (hl : delim ∉ l) (hne : l ≠ []) :
    tokens delim l = [l] := by
  induction l with
  | nil => exact absurd rfl hne
  | cons c cs ih =>
    have hc : c ≠ delim := fun h => hl (by rw [h]; exact List.mem_cons_self _ _)
    have hcs : delim ∉ cs := fun h => hl (List.mem_cons_of_mem _ h)
    rw [tokens, if_neg hc]
    cases cs with
    | nil => simp [tokens]
    | cons d ds => rw [ih hcs (List.cons_ne_nil _ _)]

/-- The lines of a text made of lines that each end in a newline. -/
theorem tokens_lines (ls : List (List Char)) (hls : ∀ l ∈ ls, Char.ofNat 10 ∉ l) :
    tokens (Char.ofNat 10) (ls.map (fun l => l ++ [Char.ofNat 10])).flatten = ls := by
  induction ls with
  | nil => rfl
  | cons l rest ih =>
    rw [List.map_cons, List.flatten_cons, List.append_assoc, List.singleton_append,
      tokens_append_delim _ _ _ (hls l (List.mem_cons_self _ _)),
      ih (fun l1 h1 => hls l1 (List.mem_cons_of_mem _ h1))]

theorem tileIndex_lt {w h x y : Nat} (hx : x < w) (hy : y < h) : y * w + x < w * h := by
  have h1 : (y + 1) * w ≤ h * w := Nat.mul_le_mul_right w hy
  have h2 : (y + 1) * w = y * w + w := by ring
  have h3 : h * w = w * h := Nat.mul_comm h w
  omega

theorem tileIndex_inj {w x y p q : Nat} (hx : x < w) (hp : p < w)
    (he : y * w + x = q * w + p) : x = p ∧ y = q := by
  have hw : 0 < w := by omega
  have h1 : (y * w + x) % w = x := by
    rw [Nat.mul_comm, Nat.mul_add_mod, Nat.mod_eq_of_lt hx]
  have h2 : (q * w + p) % w = p := by
    rw [Nat.mul_comm, Nat.mul_add_mod, Nat.mod_eq_of_lt hp]
  have h3 : (y * w + x) / w = y := by
    rw [Nat.mul_comm, Nat.mul_add_div hw, Nat.div_eq_of_lt hx, Nat.add_zero]
  have h4 : (q * w + p) / w = q := by
    rw [Nat.mul_comm, Nat.mul_add_div hw, Nat.div_eq_of_lt hp, Nat.add_zero]
  rw [he] at h1 h3
  exact ⟨by omega, by omega⟩

theorem tileIndex_cast (w x y : Nat) :
    (((y : Int) * (w : Int) + (x : Int)).toNat = y * w + x) ∧
      0 ≤ (y : Int) * (w : Int) + (x : Int) := by
  have h : (y : Int) * (w : Int) + (x : Int) = ((y * w + x : Nat) : Int) := by push_cast; ring
  rw [h]
  exact ⟨Int.toNat_ofNat _, Int.ofNat_nonneg _⟩

theorem isValidPosition_cast {t : Tilemap} {w h : Nat} (hs : t.Sized w h) (x y : Nat) :
    t.isValidPosition (x : Int) (y : Int) = (decide (x < w) && decide (y < h)) := by
  obtain ⟨hw, hh, -⟩ := hs
  unfold Tilemap.isValidPosition
  rw [hw, hh]
  by_cases h1 : x < w <;> by_cases h2 : y < h <;> simp [h1, h2]

/-- Reading a tile inside a sized tile map. -/
theorem getTile_sized {t : Tilemap} {w h : Nat} (hs : t.Sized w h) {x y : Nat}
    (hx : x < w) (hy : y < h) : t.getTile (x : Int) (y : Int) = t.tiles_[y * w + x]? := by
  unfold Tilemap.getTile
  rw [isValidPosition_cast hs, hs.1]
  simp only [hx, hy, decide_True, Bool.and_self, if_true]
  rw [if_pos (tileIndex_cast w x y).2, (tileIndex_cast w x y).1]

/-- Writing a tile inside a sized tile map. -/
theorem setTile_sized {t : Tilemap} {w h : Nat} (hs : t.Sized w h) {x y : Nat}
    (hx : x < w) (hy : y < h) (type : Nat) (solid : Bool) (variant : Nat) :
    ∃ t1, t.setTile (x : Int) (y : Int) type solid variant = some t1 ∧ t1.Sized w h ∧
      t1.tiles_ = t.tiles_.set (y * w + x) ⟨type, variant, solid⟩ := by
  unfold Tilemap.setTile
  rw [isValidPosition_cast hs, hs.1]
  simp only [hx, hy, decide_True, Bool.and_self, if_true]
  have hlt : y * w + x < t.tiles_.length := by rw [hs.2.2]; exact tileIndex_lt hx hy
  rw [(tileIndex_cast w x y).1, if_pos ⟨(tileIndex_cast w x y).2, hlt⟩]
  exact ⟨_, rfl, ⟨rfl, hs.2.1, by simp [hs.2.2]⟩, rfl⟩

/-- The map after `resize(w, h)` and `clear()` holds `w * h` empty tiles, when the product
`w * h` is a value of `int`. -/
theorem resize_clear (t : Tilemap) (w h : Nat) (hprod : w * h ≤ 2147483647) :
    ∃ t1, t.resize (w : Int) (h : Int) = some t1 ∧ t1.clear.Sized w h ∧
      ∀ i, i < w * h → t1.clear.tiles_[i]? = some emptyTile := by
  have hnn : (0 : Int) ≤ (w : Int) * (h : Int) := by positivity
  have hto : ((w : Int) * (h : Int)).toNat = w * h := by
    rw [← Nat.cast_mul]; exact Int.toNat_ofNat _
  have hle : (w : Int) * (h : Int) ≤ 2147483647 := by
    rw [← Nat.cast_mul]; exact_mod_cast hprod
  unfold Tilemap.resize
  rw [if_pos ⟨hnn, hle⟩, hto]
  refine ⟨_, rfl, ⟨rfl, rfl, ?_⟩, ?_⟩
  · simp only [Tilemap.clear, List.length_map, List.length_append, List.length_take,
      List.length_replicate]
    omega
  · intro i hi
    have hlen : i < ((t.tiles_.take (w * h) ++
        List.replicate (w * h - t.tiles_.length) emptyTile).map (fun _ => emptyTile)).length := by
      simp only [List.length_map, List.length_append, List.length_take, List.length_replicate]
      omega
    simp only [Tilemap.clear]
    rw [List.getElem?_eq_getElem hlen, List.getElem_map]

/-- The inner loop of the loader on a row of cells that all convert: the cells are stored
from column `col` on in row `row`, every other tile is left as it is. -/
theorem loadCells_spec {w h : Nat} (row : Nat) (hrow : row < h) (f : Nat → Int)
    (cells : List (List Char)) :
    ∀ (col : Nat) (t : Tilemap), t.Sized w h → col + cells.length ≤ w →
      (∀ k cell, cells[k]? = some cell → stoi cell = some (f (col + k))) →
      ∃ t1, loadCells (row : Int) cells (col : Int) t = some t1 ∧ t1.Sized w h ∧
        ∀ x y, x < w → y < h → t1.tiles_[y * w + x]? =
          if y = row ∧ col ≤ x ∧ x < col + cells.length then some (tileOfId (f x))
          else t.tiles_[y * w + x]? := by
  induction cells with
  | nil =>
    intro col t hs _ _
    refine ⟨t, rfl, hs, fun x y _ _ => ?_⟩
    rw [if_neg]
    simp only [List.length_nil]
    omega
  | cons cell rest ih =>
    intro col t hs hlen hcells
    simp only [List.length_cons] at hlen
    have hcol : col < w := by omega
    have hstoi : stoi cell = some (f col) := hcells 0 cell (by simp)
    obtain ⟨t2, hset, hs2, htiles⟩ :=
      setTile_sized hs hcol hrow (tileOfId (f col)).type (tileOfId (f col)).solid 0
    have hrest : ∀ k c1, rest[k]? = some c1 → stoi c1 = some (f (col + 1 + k)) := by
      intro k c1 hk
      have := hcells (k + 1) c1 (by simpa using hk)
      rw [show col + 1 + k = col + (k + 1) from by omega]
      exact this
    obtain ⟨t1, hload, hs1, hspec⟩ := ih (col + 1) t2 hs2 (by omega) hrest
    refine ⟨t1, ?_, hs1, ?_⟩
    · unfold loadCells
      rw [hs.1, if_pos (by exact_mod_cast hcol), hstoi]
      simp only
      rw [hset]
      simp only
      rw [← hload]
      push_cast
      rfl
    · intro x y hx hy
      rw [hspec x y hx hy, htiles]
      simp only [List.length_cons]
      by_cases hxy : y = row ∧ x = col
      · obtain ⟨rfl, rfl⟩ := hxy
        rw [if_neg (by omega), if_pos ⟨rfl, by omega, by omega⟩]
        rw [List.getElem?_set_self (by rw [hs.2.2]; exact tileIndex_lt hx hy)]
        rfl
      · have hne : row * w + col ≠ y * w + x := by
          intro he
          have := tileIndex_inj hcol hx he
          exact hxy ⟨this.2.symm, this.1.symm⟩
        rw [List.getElem?_set_ne hne]
        by_cases hc : y = row ∧ col + 1 ≤ x ∧ x < col + 1 + rest.length
        · rw [if_pos hc, if_pos ⟨hc.1, by omega, by omega⟩]
        · rw [if_neg hc, if_neg]
          intro hc2
          have : x ≠ col := fun hx2 => hxy ⟨hc2.1, hx2⟩
          exact hc ⟨hc2.1, by omega, by omega⟩

/-- The outer loop of the loader on lines of `w` cells that all convert: the lines are
stored from row `row` on, every other tile is left as it is. -/
theorem loadRows_spec {w h : Nat} (g : Nat → Nat → Int) (lines : List (List Char)) :
    ∀ (row : Nat) (t : Tilemap), t.Sized w h → row + lines.length ≤ h →
      (∀ k line, lines[k]? = some line →
        (tokens (Char.ofNat 44) line).length = w ∧
        ∀ i cell, (tokens (Char.ofNat 44) line)[i]? = some cell →
          stoi cell = some (g i (row + k))) →
      ∃ t1, loadRows lines (row : Int) t = some t1 ∧ t1.Sized w h ∧
        ∀ x y, x < w → y < h → t1.tiles_[y * w + x]? =
          if row ≤ y ∧ y < row + lines.length then some (tileOfId (g x y))
          else t.tiles_[y * w + x]? := by
  induction lines with
  | nil =>
    intro row t hs _ _
    refine ⟨t, rfl, hs, fun x y _ _ => ?_⟩
    rw [if_neg]
    simp only [List.length_nil]
    omega
  | cons line rest ih =>
    intro row t hs hlen hlines
    simp only [List.length_cons] at hlen
    have hrow : row < h := by omega
    obtain ⟨hw, hcells⟩ := hlines 0 line (by simp)
    obtain ⟨t2, hload2, hs2, hspec2⟩ := loadCells_spec row hrow (fun i => g i row)
      (tokens (Char.ofNat 44) line) 0 t hs (by omega)
      (fun k cell hk => by
        have := hcells k cell hk
        simpa using this)
    have hrest : ∀ k l1, rest[k]? = some l1 →
        (tokens (Char.ofNat 44) l1).length = w ∧
        ∀ i cell, (tokens (Char.ofNat 44) l1)[i]? = some cell →
          stoi cell = some (g i (row + 1 + k)) := by
      intro k l1 hk
      have := hlines (k + 1) l1 (by simpa using hk)
      rw [show row + 1 + k = row + (k + 1) from by omega]
      exact this
    obtain ⟨t1, hload, hs1, hspec⟩ := ih (row + 1) t2 hs2 (by omega) hrest
    refine ⟨t1, ?_, hs1, ?_⟩
    · unfold loadRows
      rw [hs.2.1, if_pos (by exact_mod_cast hrow)]
      have h0 : ((0 : Nat) : Int) = 0 := rfl
      rw [h0] at hload2
      rw [hload2]
      simp only
      rw [← hload]
      push_cast
      rfl
    · intro x y hx hy
      rw [hspec x y hx hy, hspec2 x y hx hy]
      simp only [List.length_cons, hw]
      by_cases hy1 : y = row
      · subst hy1
        rw [if_neg (by omega), if_pos ⟨rfl, by omega, by omega⟩, if_pos ⟨le_refl _, by omega⟩]
      · by_cases hc : row + 1 ≤ y ∧ y < row + 1 + rest.length
        · rw [if_pos hc, if_pos ⟨by omega, by omega⟩]
        · rw [if_neg hc, if_neg (fun hc2 => hy1 hc2.1), if_neg]
          intro hc2
          exact hc ⟨by omega, by omega⟩

/-! ## Export followed by load -/

/-- The decimal text of a number holds neither a comma nor a newline and is not empty. -/
theorem natRepr_chars (n : Nat) :
    Char.ofNat 44 ∉ (toString ((n : Nat) : Int)).data ∧
    Char.ofNat 10 ∉ (toString ((n : Nat) : Int)).data ∧
    (toString ((n : Nat) : Int)).data ≠ [] := by
  rw [natRepr_data]
  have hd := toDigitsCore_digits (n + 1) n [] (fun c hc => absurd hc (List.not_mem_nil _))
  obtain ⟨c, cs, hcs, -, -⟩ := toDigitsCore_head (n + 1) n [] (Nat.lt_succ_self _)
  unfold Nat.toDigits
  refine ⟨fun h => ?_, fun h => ?_, by rw [hcs]; exact List.cons_ne_nil _ _⟩
  · have := hd _ h
    have h44 : (Char.ofNat 44).toNat = 44 := by decide
    omega
  · have := hd _ h
    have h10 : (Char.ofNat 10).toNat = 10 := by decide
    omega

/-- Loading a file of `h` lines of `w` cells that all convert, after the header `w,h`. -/
theorem loadFromCSV_lines (t0 : Tilemap) (w h : Nat) (hwi : w ≤ 2147483647)
    (hhi : h ≤ 2147483647) (hprod : w * h ≤ 2147483647) (g : Nat → Nat → Int)
    (lines : List (List Char))
    (hlen : lines.length = h) (hnl : ∀ l ∈ lines, Char.ofNat 10 ∉ l)
    (hlines : ∀ k line, lines[k]? = some line →
      (tokens (Char.ofNat 44) line).length = w ∧
      ∀ i cell, (tokens (Char.ofNat 44) line)[i]? = some cell → stoi cell = some (g i k)) :
    ∃ t1, loadFromCSV t0 (some (((toString ((w : Nat) : Int)).data ++
        Char.ofNat 44 :: (toString ((h : Nat) : Int)).data) ++
        Char.ofNat 10 :: (lines.map (fun l => l ++ [Char.ofNat 10])).flatten)) = some (true, t1) ∧
      t1.Sized w h ∧
      ∀ x y, x < w → y < h → t1.getTile (x : Int) (y : Int) = some (tileOfId (g x y)) := by
  have hcw := natRepr_chars w
  have hch := natRepr_chars h
  have hheader : Char.ofNat 10 ∉ (toString ((w : Nat) : Int)).data ++
      Char.ofNat 44 :: (toString ((h : Nat) : Int)).data := by
    intro hc
    rcases List.mem_append.1 hc with h1 | h1
    · exact hcw.2.1 h1
    · rcases List.mem_cons.1 h1 with h2 | h2
      · exact absurd h2 (by decide)
      · exact hch.2.1 h2
  obtain ⟨t1, hres, hsz, hempty⟩ := resize_clear t0 w h hprod
  obtain ⟨t2, hload, hs2, hspec⟩ := loadRows_spec g lines 0 t1.clear hsz (by omega)
    (fun k line hk => by
      have := hlines k line hk
      simpa using this)
  refine ⟨t2, ?_, hs2, ?_⟩
  · unfold loadFromCSV
    simp only
    rw [tokens_append_delim _ _ _ hheader, tokens_lines lines hnl]
    simp only
    rw [tokens_append_delim _ _ _ hcw.1, tokens_single _ _ hch.1 hch.2.2]
    simp only
    rw [stoi_natRepr w hwi, stoi_natRepr h hhi]
    simp only
    rw [hres]
    simp only
    have h0 : ((0 : Nat) : Int) = 0 := rfl
    rw [h0] at hload
    rw [hload]
    rfl
  · intro x y hx hy
    rw [getTile_sized hs2 hx hy, hspec x y hx hy, if_pos ⟨Nat.zero_le _, by omega⟩]

set_option maxRecDepth 1000000 in
/-- C13 (counterexample): the map file with the single tile value 3, a value other than 1
and 2, loads as a solid tile of type 3 (`WALL_TOP`). -/
theorem loadFromCSV_solid_three :
    (3 : Int) ≠ 1 ∧ (3 : Int) ≠ 2 ∧
    loadFromCSV ⟨0, 0, []⟩ (some ("1,1\n3\n").data) = some (true, ⟨1, 1, [⟨3, 0, true⟩]⟩) ∧
    Tilemap.isSolid ⟨1, 1, [⟨3, 0, true⟩]⟩ 0 0 = some true := by
  decide

/-- The decimal text of an `int` holds neither a comma nor a newline and is not empty. -/
theorem intRepr_chars (v : Int) :
    Char.ofNat 44 ∉ (toString v).data ∧ Char.ofNat 10 ∉ (toString v).data ∧
      (toString v).data ≠ [] := by
  cases v with
  | ofNat n => exact natRepr_chars n
  | negSucc n =>
    rw [negRepr_data]
    have hd := toDigitsCore_digits (n + 1 + 1) (n + 1) []
      (fun c hc => absurd hc (List.not_mem_nil _))
    have h44 : (Char.ofNat 44).toNat = 44 := by decide
    have h10 : (Char.ofNat 10).toNat = 10 := by decide
    refine ⟨fun h => ?_, fun h => ?_, List.cons_ne_nil _ _⟩
    · rcases List.mem_cons.1 h with h1 | h1
      · exact absurd h1 (by decide)
      · have := hd _ h1
        omega
    · rcases List.mem_cons.1 h with h1 | h1
      · exact absurd h1 (by decide)
      · have := hd _ h1
        omega

/-- The tile the loader stores for the tile value `v`. -/
theorem tileOfId_solid (v : Int) :
    tileOfId v = ⟨(v % 256).toNat, 0, decide (2 ≤ v % 256 ∧ v % 256 ≤ 14)⟩ := by
  have hsolid : (tileOfId v).solid = decide (2 ≤ v % 256 ∧ v % 256 ≤ 14) := by
    have hnn : 0 ≤ v % 256 := Int.emod_nonneg v (by decide)
    simp only [tileOfId, TileType.WALL_BRICK, TileType.WALL_INNER_BOTTOM_RIGHT, ge_iff_le]
    by_cases h2 : 2 ≤ v % 256 <;> by_cases h14 : v % 256 ≤ 14 <;>
      simp [h2, h14] <;> omega
  rw [← hsolid]
  rfl

/-- C13 (amended): for every map file with the header `w,h` followed by `h` lines of `w`
comma-separated cells that `std::stoi` converts (`w`, `h` and `w * h` values of `int`), the
load succeeds, and for every position `(x, y)` of the map, with `v` the `int` value of the
cell at `(x, y)`: the stored tile has the type `v mod 256` (the cast to the `uint8_t`
enumeration) and is solid exactly when `2 <= v mod 256 <= 14`, the wall types `WALL_BRICK`
to `WALL_INNER_BOTTOM_RIGHT`; every other value, such as 0, 1 and 15 to 255, gives a tile
that is not solid, and of the two values the exporter writes 1 is not solid and 2 is. -/
theorem loadFromCSV_solid_iff (t0 : Tilemap) (w h : Nat) (hwi : w ≤ 2147483647)
    (hhi : h ≤ 2147483647) (hprod : w * h ≤ 2147483647) (v : Nat → Nat → Int)
    (lines : List (List Char))
    (hlen : lines.length = h) (hnl : ∀ l ∈ lines, Char.ofNat 10 ∉ l)
    (hlines : ∀ k line, lines[k]? = some line →
      (tokens (Char.ofNat 44) line).length = w ∧
      ∀ i cell, (tokens (Char.ofNat 44) line)[i]? = some cell → stoi cell = some (v i k)) :
    ∃ t1, loadFromCSV t0 (some (((toString ((w : Nat) : Int)).data ++
        Char.ofNat 44 :: (toString ((h : Nat) : Int)).data) ++
        Char.ofNat 10 :: (lines.map (fun l => l ++ [Char.ofNat 10])).flatten)) = some (true, t1) ∧
      t1.getWidth = (w : Int) ∧ t1.getHeight = (h : Int) ∧
      ∀ x y : Nat, x < w → y < h →
        t1.getTile x y =
          some ⟨(v x y % 256).toNat, 0, decide (2 ≤ v x y % 256 ∧ v x y % 256 ≤ 14)⟩ ∧
        (t1.isSolid x y = some true ↔ (2 ≤ v x y % 256 ∧ v x y % 256 ≤ 14)) ∧
        (t1.isSolid x y = some false ↔ (v x y % 256 < 2 ∨ 14 < v x y % 256)) := by
  obtain ⟨t1, hload, hsz, htiles⟩ :=
    loadFromCSV_lines t0 w h hwi hhi hprod v lines hlen hnl hlines
  refine ⟨t1, hload, hsz.1, hsz.2.1, fun x y hx hy => ?_⟩
  have ht := htiles x y hx hy
  rw [tileOfId_solid] at ht
  refine ⟨ht, ?_, ?_⟩
  · rw [Tilemap.isSolid, ht]
    simp
  · rw [Tilemap.isSolid, ht]
    simp only [Option.map_some', Option.some.injEq, decide_eq_false_iff_not]
    omega

set_option maxRecDepth 1000000 in
/-- Witness of `loadFromCSV_solid_iff`: the map file of two rows `1,2,3` and `14,15,-254`;
the values 2, 3, 14 and -254 (type 2) give solid tiles, the values 1 and 15 do not. -/
theorem loadFromCSV_solid_iff_witness :
    (((toString ((3 : Nat) : Int)).data ++ Char.ofNat 44 :: (toString ((2 : Nat) : Int)).data) ++
      Char.ofNat 10 :: ((["1,2,3".data, "14,15,-254".data] : List (List Char)).map
        (fun l => l ++ [Char.ofNat 10])).flatten) = ("3,2\n1,2,3\n14,15,-254\n").data ∧
    loadFromCSV ⟨0, 0, []⟩ (some ("3,2\n1,2,3\n14,15,-254\n").data) =
      some (true, ⟨3, 2, [⟨1, 0, false⟩, ⟨2, 0, true⟩, ⟨3, 0, true⟩, ⟨14, 0, true⟩,
        ⟨15, 0, false⟩, ⟨2, 0, true⟩]⟩) ∧
    ∃ t1, loadFromCSV ⟨0, 0, []⟩ (some (((toString ((3 : Nat) : Int)).data ++
        Char.ofNat 44 :: (toString ((2 : Nat) : Int)).data) ++
        Char.ofNat 10 :: ((["1,2,3".data, "14,15,-254".data] : List (List Char)).map
          (fun l => l ++ [Char.ofNat 10])).flatten)) = some (true, t1) ∧
      t1.getWidth = ((3 : Nat) : Int) ∧ t1.getHeight = ((2 : Nat) : Int) ∧
      ∀ x y : Nat, x < 3 → y < 2 →
        t1.getTile x y =
          some ⟨(sampleTiles x y % 256).toNat, 0,
            decide (2 ≤ sampleTiles x y % 256 ∧ sampleTiles x y % 256 ≤ 14)⟩ ∧
        (t1.isSolid x y = some true ↔
          (2 ≤ sampleTiles x y % 256 ∧ sampleTiles x y % 256 ≤ 14)) ∧
        (t1.isSolid x y = some false ↔
          (sampleTiles x y % 256 < 2 ∨ 14 < sampleTiles x y % 256)) :=
  ⟨by decide, by decide,
    loadFromCSV_solid_iff ⟨0, 0, []⟩ 3 2 (by decide) (by decide) (by decide) sampleTiles
      ["1,2,3".data, "14,15,-254".data] rfl (by decide)
      (fun k line hk => by
        match k, hk with
        | 0, hk =>
          simp only [List.getElem?_cons_zero, Option.some.injEq] at hk
          subst hk
          have htok : tokens (Char.ofNat 44) "1,2,3".data = ["1".data, "2".data, "3".data] := by
            decide
          rw [htok]
          refine ⟨rfl, fun i cell hi => ?_⟩
          match i, hi with
          | 0, hi => cases hi; decide
          | 1, hi => cases hi; decide
          | 2, hi => cases hi; decide
          | n + 3, hi => simp at hi
        | 1, hk =>
          simp only [List.getElem?_cons_succ, List.getElem?_cons_zero, Option.some.injEq] at hk
          subst hk
          have htok : tokens (Char.ofNat 44) "14,15,-254".data =
              ["14".data, "15".data, "-254".data] := by
            decide
          rw [htok]
          refine ⟨rfl, fun i cell hi => ?_⟩
          match i, hi with
          | 0, hi => cases hi; decide
          | 1, hi => cases hi; decide
          | 2, hi => cases hi; decide
          | n + 3, hi => simp at hi
        | n + 2, hk => simp at hk)⟩

/-! ## The wall test of the imperfection injector -/

/-- The seeder of one column writes inside the grid. -/
theorem reserveColumn_total {σ : Type} (R : RandomSource σ) (fill : Frac) {w h : Int} (x : Int)
    (hx0 : 0 ≤ x) (hx1 : x < w) (ys : List Int) :
    (∀ y ∈ ys, 0 ≤ y ∧ y < h) → ∀ (m : Grid) (s : σ), Dom w h m →
      ∃ r, reserveColumn R fill x ys m s = some r ∧ Dom w h r.1 := by
  induction ys with
  | nil => intro _ m s hd; exact ⟨(m, s), rfl, hd⟩
  | cons y rest ih =>
    intro hys m s hd
    have hrest : ∀ y ∈ rest, 0 ≤ y ∧ y < h := fun z hz => hys z (List.mem_cons_of_mem _ hz)
    unfold reserveColumn
    split_ifs
    · obtain ⟨m1, hm1, hd1⟩ := write_total hd x y RESERVED hx0 hx1
        (hys y (List.mem_cons_self _ _)).1 (hys y (List.mem_cons_self _ _)).2
      rw [hm1]
      exact ih hrest m1 _ hd1
    · exact ih hrest m _ hd

/-- The seeder writes inside the grid. -/
theorem reserveCells_total {σ : Type} (R : RandomSource σ) (fill : Frac) {w h : Int}
    (xs : List Int) :
    (∀ x ∈ xs, 0 ≤ x ∧ x < w) → ∀ (m : Grid) (s : σ), Dom w h m →
      ∃ r, reserveCells R fill h xs m s = some r ∧ Dom w h r.1 := by
  induction xs with
  | nil => intro _ m s hd; exact ⟨(m, s), rfl, hd⟩
  | cons x rest ih =>
    intro hxs m s hd
    have hrest : ∀ x ∈ rest, 0 ≤ x ∧ x < w := fun z hz => hxs z (List.mem_cons_of_mem _ hz)
    have hys : ∀ y ∈ oddCoords h, 0 ≤ y ∧ y < h := by
      intro y hy
      unfold oddCoords at hy
      obtain ⟨i, hi, rfl⟩ := List.mem_map.1 hy
      have := List.mem_range.1 hi
      constructor <;> omega
    unfold reserveCells
    obtain ⟨r, hr, hd1⟩ := reserveColumn_total R fill x (hxs x (List.mem_cons_self _ _)).1
      (hxs x (List.mem_cons_self _ _)).2 (oddCoords h) hys m s hd
    rw [hr]
    exact ih hrest r.1 r.2 hd1

/-- The lines before the carver loop use no index outside the grid when the normalized
sizes are not negative. -/
theorem carveStart_total {σ : Type} (R : RandomSource σ) (entropy : Nat) (w h : Int)
    (c : MazeConfig) (hw : 0 ≤ normalizeSize c.horizontal w)
    (hh : 0 ≤ normalizeSize c.vertical h) : ∃ st0, carveStart R entropy w h c = some st0 := by
  unfold carveStart
  have hsolid : ∃ m0, Grid.solid (normalizeSize c.horizontal w) (normalizeSize c.vertical h)
      = some m0 := by
    unfold Grid.solid
    rw [if_pos ⟨hw, hh⟩]
    exact ⟨_, rfl⟩
  obtain ⟨m0, hm0⟩ := hsolid
  rw [hm0]
  simp only
  have hseed : ∃ r, seedReservations R c.fill (normalizeSize c.horizontal w)
      (normalizeSize c.vertical h) m0 (initialRng R entropy c) = some r := by
    unfold seedReservations
    split_ifs
    · have hxs : ∀ x ∈ oddCoords (normalizeSize c.horizontal w),
          0 ≤ x ∧ x < normalizeSize c.horizontal w := by
        intro x hx
        unfold oddCoords at hx
        obtain ⟨i, hi, rfl⟩ := List.mem_map.1 hx
        have := List.mem_range.1 hi
        constructor <;> omega
      obtain ⟨r, hr, -⟩ := reserveCells_total R c.fill (oddCoords (normalizeSize c.horizontal w))
        hxs m0 (initialRng R entropy c) (solid_dom m0 hm0)
      exact ⟨r, hr⟩
    · exact ⟨_, rfl⟩
  obtain ⟨r, hr⟩ := hseed
  rw [hr]
  exact ⟨_, rfl⟩

/-- A swap keeps every element of the list. -/
theorem swapAt_contains (l : List Direction) (i j : Nat) (d : Direction) (hd : d ∈ l) :
    d ∈ swapAt l i j := by
  unfold swapAt
  split
  · rename_i a b ha hb
    obtain ⟨hi, -⟩ := List.getElem?_eq_some.1 ha
    obtain ⟨hj, -⟩ := List.getElem?_eq_some.1 hb
    obtain ⟨k, hk⟩ := List.mem_iff_getElem?.1 hd
    rw [List.mem_iff_getElem?]
    by_cases hki : k = i
    · subst hki
      rw [ha] at hk
      cases hk
      exact ⟨j, by rw [List.getElem?_set_self (by rw [List.length_set]; exact hj)]⟩
    · by_cases hkj : k = j
      · subst hkj
        rw [hb] at hk
        cases hk
        exact ⟨i, by
          rw [List.getElem?_set_ne (fun h => hki h), List.getElem?_set_self hi]⟩
      · exact ⟨k, by
          rw [List.getElem?_set_ne (fun h => hkj h.symm),
            List.getElem?_set_ne (fun h => hki h.symm), hk]⟩
  · exact hd

theorem shuffleFrom_contains {σ : Type} (R : RandomSource σ) (i : Nat) :
    ∀ (l : List Direction) (s : σ) (d : Direction), d ∈ l → d ∈ (shuffleFrom R i l s).1 := by
  induction i with
  | zero => intro l s d hd; exact hd
  | succ n ih =>
    intro l s d hd
    unfold shuffleFrom
    exact ih _ _ _ (swapAt_contains _ _ _ _ hd)

theorem prioritize_contains (l : List Direction) (step d : Direction) (hd : d ∈ l) :
    d ∈ prioritize l step := by
  unfold prioritize
  split
  · exact swapAt_contains _ _ _ _ hd
  · exact hd

/-- The state after an iteration of the carver that carves. -/
theorem carveStep_carved {σ : Type} {R : RandomSource σ} {c : MazeConfig} {w h : Int}
    {cur : StackEntry} {st st1 : CarveState σ}
    (hu : unexplored st.maze cur.x cur.y st.ignoreReserved = some true)
    (hs : carveStep R c w h cur st = some st1) :
    st1.directions =
      (if Frac.lt (R.real (shuffle R st.directions st.rng).2).1 c.straightness = true then
        prioritize (shuffle R st.directions st.rng).1 cur.step
      else (shuffle R st.directions st.rng).1) ∧
    st1.ignoreReserved = st.ignoreReserved - 1 ∧
    ∃ dead, pushNeighbours st1.maze (effectiveWrap c.horizontal) (effectiveWrap c.vertical) w h
      cur st1.ignoreReserved st1.directions st.stack true = some (st1.stack, dead) := by
  unfold carveStep at hs
  simp only [hu] at hs
  split at hs
  · exact Option.noConfusion hs
  · split at hs
    · exact Option.noConfusion hs
    · split at hs
      · exact Option.noConfusion hs
      · rename_i stack1 dead hpush
        cases hs
        exact ⟨rfl, rfl, dead, hpush⟩

/-- The direction list of every iteration holds each of the four unit steps and has
length 4. -/
theorem carveStep_directions {σ : Type} {R : RandomSource σ} {c : MazeConfig} {w h : Int}
    {cur : StackEntry} {st st1 : CarveState σ}
    (hinv : st.directions.length = 4 ∧
      ∀ d ∈ ([⟨-1, 0⟩, ⟨1, 0⟩, ⟨0, 1⟩, ⟨0, -1⟩] : List Direction), d ∈ st.directions)
    (hs : carveStep R c w h cur st = some st1) :
    st1.directions.length = 4 ∧
      ∀ d ∈ ([⟨-1, 0⟩, ⟨1, 0⟩, ⟨0, 1⟩, ⟨0, -1⟩] : List Direction), d ∈ st1.directions := by
  rcases carveStep_counter hs with ⟨-, heq⟩ | ⟨hu, -⟩
  · rw [heq]; exact hinv
  · obtain ⟨hds, -, -⟩ := carveStep_carved hu hs
    rw [hds]
    split_ifs
    · refine ⟨by rw [prioritize_length]; unfold shuffle; rw [shuffleFrom_length]; exact hinv.1,
        fun d hd => prioritize_contains _ _ _ ?_⟩
      exact shuffleFrom_contains R _ _ _ _ (hinv.2 d hd)
    · exact ⟨by unfold shuffle; rw [shuffleFrom_length]; exact hinv.1,
        fun d hd => shuffleFrom_contains R _ _ _ _ (hinv.2 d hd)⟩

/-- The iteration of the carver that pops an unexplored entry turns its cell into
Passage. -/
theorem carveStep_opens {σ : Type} {R : RandomSource σ} {c : MazeConfig} {w h : Int}
    {cur : StackEntry} {st st1 : CarveState σ} (hdom : Dom w h st.maze)
    (hu : unexplored st.maze cur.x cur.y st.ignoreReserved = some true)
    (hs : carveStep R c w h cur st = some st1) : st1.maze.read cur.x cur.y = some EMPTY := by
  rcases carveStep_cases hs with ⟨hu0, -⟩ | ⟨-, m1, dead, hs1, hs2, -, -⟩
  · rw [hu] at hu0
    exact absurd hu0 (by simp)
  · obtain ⟨v, hv⟩ := unexplored_some hu
    obtain ⟨hx0, hx1, hy0, hy1⟩ := (hdom cur.x cur.y).1 (by rw [hv]; rfl)
    obtain ⟨x1, y1, hx, hy, hup⟩ := setMaze_spec hs1
    rw [cmod_inRange _ _ hx0 hx1] at hx
    rw [cmod_inRange _ _ hy0 hy1] at hy
    cases hx
    cases hy
    exact setMaze_passageKept hs2 _ _ (hup.1 _ _ (Or.inl ⟨rfl, rfl⟩)).1

/-- A unit step is one of the four entries of the direction list. -/
theorem unitStep_mem {d : Direction} (hd : UnitStep d) :
    d ∈ ([⟨-1, 0⟩, ⟨1, 0⟩, ⟨0, 1⟩, ⟨0, -1⟩] : List Direction) := by
  obtain ⟨dx, dy⟩ := d
  unfold UnitStep at hd
  simp only at hd
  rcases hd with ⟨h1, h2⟩ | ⟨h1, h2⟩ | ⟨h1, h2⟩ | ⟨h1, h2⟩ <;> subst h1 <;> subst h2 <;> simp

/-- C20 (the code at the failing input): the carver does not always pop cells with odd
coordinates.  For the sample
configuration (border on both axes, no rooms) and the request 33554437 by 8 the normalized
grid is 33554435 by 7.  Line 82 converts the width to `float`, which gives 33554436;
`floor(33554436 / 4) * 2 - 1 = 16777217` is not a `float` and becomes 16777216.  So for
every random stream the first entry on the stack, the one the first iteration pops, is
`(16777216, 1)`, with an even x-coordinate; the iteration runs and turns that cell into
Passage. -/
theorem carver_pops_even_cell {σ : Type} (R : RandomSource σ) (entropy : Nat) :
    scenarioA.roomsFraction.num = 0 ∧
    normalizeSize scenarioA.horizontal 33554437 = 33554435 ∧
    normalizeSize scenarioA.vertical 8 = 7 ∧
    floatOfInt 33554435 = 33554436 ∧ floatOfInt (33554436 / 4 * 2 - 1) = 16777216 ∧
    startCoord 33554435 = 16777216 ∧ startCoord 7 = 1 ∧
    ∃ st0 st1 cur, carveStart R entropy 33554437 8 scenarioA = some st0 ∧
      st0.stack = [cur] ∧ cur.x = 16777216 ∧ cur.y = 1 ∧ cur.x % 2 = 0 ∧
      carveNext R scenarioA (normalizeSize scenarioA.horizontal 33554437)
        (normalizeSize scenarioA.vertical 8) st0 st1 ∧
      st0.maze.read 16777216 1 = some SOLID ∧
      st1.maze.read 16777216 1 = some EMPTY := by
  have hW : normalizeSize scenarioA.horizontal 33554437 = 33554435 := by decide
  have hH : normalizeSize scenarioA.vertical 8 = 7 := by decide
  have hsx : startCoord 33554435 = 16777216 := by decide
  have hsy : startCoord 7 = 1 := by decide
  refine ⟨by decide, hW, hH, by decide, by decide, hsx, hsy, ?_⟩
  obtain ⟨st0, hst0⟩ := carveStart_total R entropy 33554437 8 scenarioA
    (by rw [hW]; decide) (by rw [hH]; decide)
  have hres : ∀ x y, st0.maze.read x y ≠ some RESERVED := by
    intro x y hxy
    have h0 := hst0
    unfold carveStart at h0
    split at h0
    · exact Option.noConfusion h0
    · rename_i m0 hm0
      unfold seedReservations at h0
      have hfill : reservePositive scenarioA.fill = false := by decide
      rw [hfill] at h0
      simp only [Bool.false_eq_true, if_false] at h0
      cases h0
      have := solid_read hm0 x y RESERVED hxy
      exact absurd this (by decide)
  obtain ⟨m, s, heq, hno, hrect, hstates⟩ := carveStart_spec hst0
  rw [hW, hH] at heq hrect
  rw [hW, hH]
  have hdom := rect_dom hrect
  subst heq
  have hin : (m.read 16777216 1).isSome = true :=
    (hdom 16777216 1).2 ⟨by omega, by omega, by omega, by omega⟩
  obtain ⟨v, hv⟩ := Option.isSome_iff_exists.1 hin
  have hv1 : v = SOLID := by
    rcases hstates 16777216 1 v hv with h1 | h1 | h1
    · rw [h1] at hv; exact absurd hv (hno _ _)
    · rw [h1] at hv; exact absurd hv (hres _ _)
    · exact h1
  subst hv1
  have hu : unexplored m 16777216 1 (max 33554435 7) = some true := by
    unfold unexplored
    rw [hv]
    decide
  have hex : ∃ st1, carveStep R scenarioA 33554435 7 ⟨16777216, 1, ⟨0, 0⟩⟩
      ({ carveInit 33554435 7 m s with stack := [] } : CarveState σ) = some st1 :=
    carveStep_total R scenarioA hdom (show (0 : Int) ≤ 16777216 by omega)
      (show (16777216 : Int) < 33554435 by omega) (show (0 : Int) ≤ 1 by omega)
      (show (1 : Int) < 7 by omega) (Or.inr ⟨rfl, rfl⟩)
  obtain ⟨st1, hst1⟩ := hex
  have hstack : (carveInit 33554435 7 m s).stack = [⟨16777216, 1, ⟨0, 0⟩⟩] := by
    simp only [carveInit, hsx, hsy]
  refine ⟨_, st1, ⟨16777216, 1, ⟨0, 0⟩⟩, hst0, hstack, rfl, rfl,
    (show (16777216 : Int) % 2 = 0 by omega),
    ⟨⟨16777216, 1, ⟨0, 0⟩⟩, [], hstack, hst1⟩, hv, ?_⟩
  have hopen : st1.maze.read (⟨16777216, 1, ⟨0, 0⟩⟩ : StackEntry).x
      (⟨16777216, 1, ⟨0, 0⟩⟩ : StackEntry).y = some EMPTY :=
    carveStep_opens
      (show Dom 33554435 7 ({ carveInit 33554435 7 m s with stack := [] } : CarveState σ).maze
        from hdom)
      (show unexplored ({ carveInit 33554435 7 m s with stack := [] } : CarveState σ).maze
        (⟨16777216, 1, ⟨0, 0⟩⟩ : StackEntry).x (⟨16777216, 1, ⟨0, 0⟩⟩ : StackEntry).y
        ({ carveInit 33554435 7 m s with stack := [] } : CarveState σ).ignoreReserved
        = some true from hu) hst1
  exact hopen

/-! ## The carve spans the grid -/

/-- The neighbour of the mirror image of an odd coordinate is the mirror image of a
neighbour of the coordinate. -/
theorem mirror_neighbour {a : Axis} {size : Int} (hp : SizeParity a size) (x s y : Int)
    (hx0 : 0 ≤ x) (hx1 : x < size) (hodd : x % 2 = 1) (hs : s = 0 ∨ s = 1 ∨ s = -1)
    (hy : (if effectiveWrap a = true then cmod (mirrorOrSelf a size x + s * 2 + size) size
      else some (mirrorOrSelf a size x + s * 2)) = some y)
    (hy0 : 0 ≤ y) (hy1 : y < size) :
    ∃ x2, (if effectiveWrap a = true then cmod (x + (-s) * 2 + size) size
        else some (x + (-s) * 2)) = some x2 ∧ 0 ≤ x2 ∧ x2 < size ∧
      y = mirrorOrSelf a size x2 := by
  unfold mirrorOrSelf mirrorCoord at *
  cases hw : effectiveWrap a with
  | false =>
    have hpar := hp.2 hw
    rw [hw] at hy
    simp only [Bool.false_eq_true, if_false, Option.some.injEq] at hy ⊢
    refine ⟨_, rfl, ?_⟩
    split_ifs at hy ⊢ <;> refine ⟨?_, ?_, ?_⟩ <;> omega
  | true =>
    have hpar := hp.1 hw
    rw [hw] at hy
    simp only [if_true] at hy ⊢
    unfold cmod at hy ⊢
    rw [if_neg (by omega)] at hy ⊢
    refine ⟨_, rfl, ?_⟩
    have hy2 := Option.some.inj hy
    rw [if_pos (by omega)] at hy2
    rcases tmod_cases (size - x - 0 + s * 2 + size) size (by omega) (by omega) (by omega) with
      ⟨h1, he⟩ | ⟨h1, h2, he⟩ | ⟨h1, he⟩ <;>
    rcases tmod_cases (x + -s * 2 + size) size (by omega) (by omega) (by omega) with
      ⟨h3, he2⟩ | ⟨h3, h4, he2⟩ | ⟨h3, he2⟩ <;>
    rw [he2] <;> rw [he] at hy2 <;> split_ifs <;> refine ⟨?_, ?_, ?_⟩ <;> omega

/-- A neighbour of a cell written together with an odd coordinate `cx` is written together
with a neighbour of `cx`. -/
theorem axis_source {a : Axis} {size : Int} (hp : SizeParity a size) {cx p s x : Int}
    (hc0 : 0 ≤ cx) (hc1 : cx < size) (hodd : cx % 2 = 1) (hs : s = 0 ∨ s = 1 ∨ s = -1)
    (hpc : p = cx ∨ (a.symmetry = true ∧ p = mirrorOrSelf a size cx))
    (hx : (if effectiveWrap a = true then cmod (p + s * 2 + size) size
      else some (p + s * 2)) = some x)
    (hx0 : 0 ≤ x) (hx1 : x < size) :
    ∃ s2 x2, (s2 = s ∨ s2 = -s) ∧
      (if effectiveWrap a = true then cmod (cx + s2 * 2 + size) size
        else some (cx + s2 * 2)) = some x2 ∧ 0 ≤ x2 ∧ x2 < size ∧
      (x = x2 ∨ (a.symmetry = true ∧ x = mirrorOrSelf a size x2)) := by
  rcases hpc with hpc | ⟨hsym, hpc⟩
  · subst hpc
    exact ⟨s, x, Or.inl rfl, hx, hx0, hx1, Or.inl rfl⟩
  · subst hpc
    obtain ⟨x2, h1, h2, h3, h4⟩ := mirror_neighbour hp cx s x hc0 hc1 hodd hs hx hx0 hx1
    exact ⟨-s, x2, Or.inr rfl, h1, h2, h3, Or.inr ⟨hsym, h4⟩⟩

/-- The neighbour loop keeps the stack it starts with, and for every direction of the list
whose neighbour lies inside the grid that neighbour is explored or its entry is pushed. -/
theorem pushNeighbours_complete (m : Grid) (hWrap vWrap : Bool) (w h : Int) (cur : StackEntry)
    (ign : Int) (ds : List Direction) :
    ∀ (stack : List StackEntry) (dead : Bool) (r : List StackEntry × Bool),
      pushNeighbours m hWrap vWrap w h cur ign ds stack dead = some r →
      (∀ e ∈ stack, e ∈ r.1) ∧
      ∀ d ∈ ds, ∀ x y,
        (if hWrap = true then cmod (cur.x + d.x * 2 + w) w else some (cur.x + d.x * 2))
          = some x →
        (if vWrap = true then cmod (cur.y + d.y * 2 + h) h else some (cur.y + d.y * 2))
          = some y →
        0 ≤ x ∧ 0 ≤ y ∧ x < w ∧ y < h →
        unexplored m x y ign = some false ∨ (⟨x, y, d⟩ : StackEntry) ∈ r.1 := by
  induction ds with
  | nil =>
    intro stack dead r hs
    unfold pushNeighbours at hs
    cases hs
    exact ⟨fun e he => he, fun d hd => absurd hd (List.not_mem_nil _)⟩
  | cons step rest ih =>
    intro stack dead r hs
    unfold pushNeighbours at hs
    split at hs
    · rename_i x0 y0 hx0 hy0
      split_ifs at hs with hr
      · split at hs
        · rename_i hu
          obtain ⟨ih1, ih2⟩ := ih _ _ _ hs
          refine ⟨fun e he => ih1 e (List.mem_cons_of_mem _ he), ?_⟩
          intro d hd x y hx hy hxy
          rcases List.mem_cons.1 hd with hd1 | hd1
          · subst hd1
            rw [hx0] at hx
            rw [hy0] at hy
            cases hx
            cases hy
            exact Or.inr (ih1 _ (List.mem_cons_self _ _))
          · exact ih2 d hd1 x y hx hy hxy
        · rename_i hu
          obtain ⟨ih1, ih2⟩ := ih _ _ _ hs
          refine ⟨ih1, ?_⟩
          intro d hd x y hx hy hxy
          rcases List.mem_cons.1 hd with hd1 | hd1
          · subst hd1
            rw [hx0] at hx
            rw [hy0] at hy
            cases hx
            cases hy
            exact Or.inl hu
          · exact ih2 d hd1 x y hx hy hxy
        · exact Option.noConfusion hs
      · obtain ⟨ih1, ih2⟩ := ih _ _ _ hs
        refine ⟨ih1, ?_⟩
        intro d hd x y hx hy hxy
        rcases List.mem_cons.1 hd with hd1 | hd1
        · subst hd1
          rw [hx0] at hx
          rw [hy0] at hy
          cases hx
          cases hy
          exact absurd hxy hr
        · exact ih2 d hd1 x y hx hy hxy
    · exact Option.noConfusion hs

/-- A cell written together with a Passage cell of a mirrored grid is Passage. -/
theorem passage_written {c : MazeConfig} {w h : Int} {m : Grid} (hdom : Dom w h m)
    (hMH : c.horizontal.symmetry = true → MirrorH c w m)
    (hMV : c.vertical.symmetry = true → MirrorV c h m) {a b x y : Int}
    (hp : m.read a b = some EMPTY)
    (hx : x = a ∨ (c.horizontal.symmetry = true ∧ x = mirrorOrSelf c.horizontal w a))
    (hy : y = b ∨ (c.vertical.symmetry = true ∧ y = mirrorOrSelf c.vertical h b)) :
    m.read x y = some EMPTY := by
  have h1 : m.read x b = some EMPTY := by
    rcases hx with hx | ⟨hs, hx⟩
    · rw [hx]; exact hp
    · rw [hx]; exact passage_mirrorOrSelfH hdom (hMH hs) hp
  rcases hy with hy | ⟨hs, hy⟩
  · rw [hy]; exact h1
  · rw [hy]; exact passage_mirrorOrSelfV hdom (hMV hs) h1

/-- The cell of the target and its mirror images, per axis, are written by `setMaze`. -/
theorem written_of_cases {c : MazeConfig} {w h a b x y : Int}
    (hx : x = a ∨ (c.horizontal.symmetry = true ∧ x = mirrorOrSelf c.horizontal w a))
    (hy : y = b ∨ (c.vertical.symmetry = true ∧ y = mirrorOrSelf c.vertical h b)) :
    Written c w h a b x y := by
  have h0 : Written c w h a b a b := Or.inl ⟨rfl, rfl⟩
  have h1 : Written c w h a b x b := by
    rcases hx with hx | ⟨hs, hx⟩
    · rw [hx]; exact h0
    · rw [hx]; exact written_mirrorOrSelfH hs h0
  rcases hy with hy | ⟨hs, hy⟩
  · rw [hy]; exact h1
  · rw [hy]; exact written_mirrorOrSelfV hs h1

/-- An explored cell of a grid without Reserved cells is Passage. -/
theorem explored_passage {m : Grid} (hst : StatesOnly m)
    (hres : ∀ x y, m.read x y ≠ some RESERVED) {x y ign : Int}
    (hu : unexplored m x y ign = some false) : m.read x y = some EMPTY := by
  unfold unexplored at hu
  split at hu
  · rename_i v hv
    rcases hst x y v hv with h1 | h1 | h1
    · rw [hv, h1]
    · rw [h1] at hv; exact absurd hv (hres x y)
    · rw [h1] at hu; simp at hu
  · exact Option.noConfusion hu

/-- Writes of Passage leave a grid without Reserved cells without Reserved cells. -/
theorem setMaze_noReserved {c : MazeConfig} {w h : Int} (m : Grid) (x y : Int) (m1 : Grid)
    (h0 : ∀ p q, m.read p q ≠ some RESERVED) (hs : setMaze m x y EMPTY c w h = some m1) :
    ∀ p q, m1.read p q ≠ some RESERVED := by
  classical
  obtain ⟨x1, y1, -, -, hup⟩ := setMaze_spec hs
  intro p q
  by_cases hW : Written c w h x1 y1 p q
  · rw [(hup.1 p q hW).1]
    simp
  · rw [hup.2 p q hW]
    exact h0 p q

/-- The wall coordinate of an entry with an odd coordinate has the parity of the coordinate
minus the step. -/
theorem wall_parity {a : Axis} {size : Int} (hp : SizeParity a size) {x s wx : Int}
    (hx0 : 0 ≤ x) (hx1 : x < size) (hodd : x % 2 = 1) (hs : s = 0 ∨ s = 1 ∨ s = -1)
    (hwx : cmod (x - s + size) size = some wx) : wx % 2 = (x - s) % 2 := by
  unfold cmod at hwx
  rw [if_neg (by omega)] at hwx
  have h1 := Option.some.inj hwx
  cases hw : effectiveWrap a with
  | false =>
    have hpar := hp.2 hw
    rcases tmod_cases (x - s + size) size (by omega) (by omega) (by omega) with
      ⟨h2, he⟩ | ⟨h2, h3, he⟩ | ⟨h2, he⟩ <;> omega
  | true =>
    have hpar := hp.1 hw
    rcases tmod_cases (x - s + size) size (by omega) (by omega) (by omega) with
      ⟨h2, he⟩ | ⟨h2, h3, he⟩ | ⟨h2, he⟩ <;> omega

/-- Steps of two along one axis lead from a coordinate to every coordinate of its parity
inside the axis. -/
theorem line_closed (P : Int → Prop) (s size : Int) (hs : P s)
    (hup : ∀ a, 0 ≤ a → a + 2 < size → a % 2 = s % 2 → P a → P (a + 2))
    (hdown : ∀ a, 0 ≤ a - 2 → a < size → a % 2 = s % 2 → P a → P (a - 2))
    (hs0 : 0 ≤ s) (hs1 : s < size) :
    ∀ a, 0 ≤ a → a < size → a % 2 = s % 2 → P a := by
  have key : ∀ k : Nat, ∀ a, 0 ≤ a → a < size → a % 2 = s % 2 → a - s ≤ 2 * k →
      s - a ≤ 2 * k → P a := by
    intro k
    induction k with
    | zero =>
      intro a _ _ _ h1 h2
      have : a = s := by omega
      rw [this]; exact hs
    | succ n ih =>
      intro a ha0 ha1 hpar h1 h2
      by_cases hlt : a < s
      · have := hdown (a + 2) (by omega) (by omega) (by omega)
          (ih (a + 2) (by omega) (by omega) (by omega) (by omega) (by omega))
        simpa using this
      · by_cases hgt : s < a
        · have := hup (a - 2) (by omega) (by omega) (by omega)
            (ih (a - 2) (by omega) (by omega) (by omega) (by omega) (by omega))
          simpa using this
        · have : a = s := by omega
          rw [this]; exact hs
  intro a ha0 ha1 hpar
  exact key (a - s).natAbs a ha0 ha1 hpar (by omega) (by omega)

/-- The neighbour two steps away inside the axis is reached without wrapping. -/
theorem neighbour_plain (wrap : Bool) (size a s : Int) (h0 : 0 ≤ a + s * 2)
    (h1 : a + s * 2 < size) :
    (if wrap = true then cmod (a + s * 2 + size) size else some (a + s * 2))
      = some (a + s * 2) := by
  cases wrap with
  | false => rfl
  | true => exact cmod_inRange _ _ h0 h1

/-- A unit step with the sign of a component changed is a unit step. -/
theorem unitStep_flip {d : Direction} (hd : UnitStep d) {s t : Int}
    (hs : s = d.x ∨ s = -d.x) (ht : t = d.y ∨ t = -d.y) : UnitStep ⟨s, t⟩ := by
  unfold UnitStep at hd ⊢
  simp only
  omega

/-- One iteration of the carver keeps the invariant about the frontier, on a grid without
Reserved cells. -/
theorem carveStep_span {σ : Type} {R : RandomSource σ} {c : MazeConfig} {w h : Int}
    (hpw : SizeParity c.horizontal w) (hph : SizeParity c.vertical h)
    {cur : StackEntry} {rest : List StackEntry} {st st1 : CarveState σ}
    (hstack : st.stack = cur :: rest) (hsafe : CarveSafe w h st) (hodd : CarveOdd w h st)
    (hdirs : ∀ d, UnitStep d → d ∈ st1.directions)
    (hMH : c.horizontal.symmetry = true → MirrorH c w st.maze)
    (hMV : c.vertical.symmetry = true → MirrorV c h st.maze)
    (hstates : StatesOnly st.maze) (hres : ∀ x y, st.maze.read x y ≠ some RESERVED)
    (hspan : CarveSpan c w h st)
    (hs : carveStep R c w h cur { st with stack := rest } = some st1) :
    CarveSpan c w h st1 := by
  obtain ⟨hdom, -, -, hin⟩ := hsafe
  obtain ⟨hcx0, hcx1, hcy0, hcy1, hstepc⟩ :=
    hin cur (by rw [hstack]; exact List.mem_cons_self _ _)
  obtain ⟨hox, hoy, -⟩ := hodd.2.2.1 cur (by rw [hstack]; exact List.mem_cons_self _ _)
  rcases carveStep_cases hs with ⟨hu, heq⟩ | ⟨hu, m1, dead, hs1, hs2, hpush, -⟩
  · subst heq
    simp only at hu
    have hpass := explored_passage hstates hres hu
    rcases hspan with ⟨hno, -⟩ | ⟨hstart, hfr⟩
    · exact absurd hpass (hno _ _)
    · refine Or.inr ⟨hstart, ?_⟩
      intro p q hp hq hpq d hd x y hx hy hx0 hx1 hy0 hy1
      rcases hfr p q hp hq hpq d hd x y hx hy hx0 hx1 hy0 hy1 with h1 | ⟨e, he, hW⟩
      · exact Or.inl h1
      · rw [hstack] at he
        rcases List.mem_cons.1 he with he1 | he1
        · subst he1
          obtain ⟨hxc, hyc⟩ := written_cases hW
          exact Or.inl (passage_written hdom hMH hMV hpass hxc hyc)
        · exact Or.inr ⟨e, he1, hW⟩
  · simp only at hu hs1 hs2 hpush
    have hdom1 := setMaze_dom _ _ _ _ hdom hs1
    have hdom2 := setMaze_dom _ _ _ _ hdom1 hs2
    have hk1 := setMaze_passageKept hs1
    have hk2 := setMaze_passageKept hs2
    obtain ⟨x1, y1, hx1e, hy1e, hp1⟩ := setMaze_passage hs1
    rw [cmod_inRange _ _ hcx0 hcx1] at hx1e
    rw [cmod_inRange _ _ hcy0 hcy1] at hy1e
    cases hx1e
    cases hy1e
    obtain ⟨wx, wy, hwx, hwy, hp2⟩ := setMaze_passage hs2
    have hMH2 : c.horizontal.symmetry = true → MirrorH c w st1.maze := fun hsym =>
      setMaze_mirrorH hsym _ _ _ _ (setMaze_mirrorH hsym _ _ _ _ (hMH hsym) hs1) hs2
    have hMV2 : c.vertical.symmetry = true → MirrorV c h st1.maze := fun hsym =>
      setMaze_mirrorV hsym _ _ _ _ (setMaze_mirrorV hsym _ _ _ _ (hMV hsym) hs1) hs2
    have hstates2 : StatesOnly st1.maze :=
      setMaze_statesOnly _ _ _ _ (setMaze_statesOnly _ _ _ _ hstates hs1) hs2
    have hres2 : ∀ x y, st1.maze.read x y ≠ some RESERVED :=
      setMaze_noReserved _ _ _ _ (setMaze_noReserved _ _ _ _ hres hs1) hs2
    obtain ⟨hkeep, hcomp⟩ := pushNeighbours_complete _ _ _ _ _ _ _ _ _ _ _ hpush
    have hcurP : st1.maze.read cur.x cur.y = some EMPTY :=
      hk2 _ _ ((hp1 _ _).2 (Or.inr (Or.inl ⟨rfl, rfl⟩)))
    have hnew : ∀ p q, p % 2 = 1 → q % 2 = 1 → st1.maze.read p q = some EMPTY →
        st.maze.read p q = some EMPTY ∨ Written c w h cur.x cur.y p q := by
      intro p q hp hq hpq
      rcases (hp2 p q).1 hpq with h1 | hW
      · exact (hp1 p q).1 h1
      · obtain ⟨hpc, hqc⟩ := written_cases hW
        have h1 : p % 2 = wx % 2 := by
          rcases hpc with hpc | ⟨-, hpc⟩
          · rw [hpc]
          · rw [hpc]; exact mirrorOrSelf_parity hpw wx
        have h2 : q % 2 = wy % 2 := by
          rcases hqc with hqc | ⟨-, hqc⟩
          · rw [hqc]
          · rw [hqc]; exact mirrorOrSelf_parity hph wy
        obtain ⟨hsx, hsy, hsz⟩ := unitStep_cases hstepc
        have h3 := wall_parity hpw hcx0 hcx1 hox hsx hwx
        have h4 := wall_parity hph hcy0 hcy1 hoy hsy hwy
        have hzx : cur.step.x = 0 := by omega
        have hzy : cur.step.y = 0 := by omega
        rw [hzx, sub_zero, cmod_inRange _ _ hcx0 hcx1] at hwx
        rw [hzy, sub_zero, cmod_inRange _ _ hcy0 hcy1] at hwy
        cases hwx
        cases hwy
        exact Or.inr hW
    have hstart1 : st1.maze.read (startCoord w) (startCoord h) = some EMPTY := by
      rcases hspan with ⟨-, hst⟩ | ⟨hstart, -⟩
      · rw [hstack] at hst
        have hc := (List.cons.inj hst).1
        rw [hc] at hcurP
        exact hcurP
      · exact hk2 _ _ (hk1 _ _ hstart)
    refine Or.inr ⟨hstart1, ?_⟩
    intro p q hp hq hpq d hd x y hx hy hx0 hx1 hy0 hy1
    rcases hnew p q hp hq hpq with hold | hW
    · rcases hspan with ⟨hno, -⟩ | ⟨-, hfr⟩
      · exact absurd hold (hno _ _)
      · rcases hfr p q hp hq hold d hd x y hx hy hx0 hx1 hy0 hy1 with h1 | ⟨e, he, hWe⟩
        · exact Or.inl (hk2 _ _ (hk1 _ _ h1))
        · rw [hstack] at he
          rcases List.mem_cons.1 he with he1 | he1
          · subst he1
            exact Or.inl (hk2 _ _ ((hp1 _ _).2 (Or.inr hWe)))
          · exact Or.inr ⟨e, hkeep e he1, hWe⟩
    · obtain ⟨hpc, hqc⟩ := written_cases hW
      obtain ⟨hdx, hdy, -⟩ := unitStep_cases (Or.inl hd)
      obtain ⟨s2, x2, hs2c, hx2, hx20, hx21, hxx⟩ :=
        axis_source hpw hcx0 hcx1 hox hdx hpc hx hx0 hx1
      obtain ⟨t2, y2, ht2c, hy2, hy20, hy21, hyy⟩ :=
        axis_source hph hcy0 hcy1 hoy hdy hqc hy hy0 hy1
      have hd2 : UnitStep ⟨s2, t2⟩ := unitStep_flip hd hs2c ht2c
      rcases hcomp ⟨s2, t2⟩ (hdirs _ hd2) x2 y2 hx2 hy2 ⟨hx20, hy20, hx21, hy21⟩ with
        hu2 | hmem
      · exact Or.inl (passage_written hdom2 hMH2 hMV2
          (explored_passage hstates2 hres2 hu2) hxx hyy)
      · exact Or.inr ⟨_, hmem, written_of_cases hxx hyy⟩

/-- A grid whose start cell has odd coordinates and is Passage and whose Passage cells
with odd coordinates have only Passage neighbours two steps away holds Passage at every cell
with odd coordinates inside the grid. -/
theorem frontier_empty_spans {c : MazeConfig} {w h : Int} {m : Grid}
    (hsx0 : 0 ≤ startCoord w) (hsx1 : startCoord w < w)
    (hsy0 : 0 ≤ startCoord h) (hsy1 : startCoord h < h)
    (hox : startCoord w % 2 = 1) (hoy : startCoord h % 2 = 1)
    (hstart : m.read (startCoord w) (startCoord h) = some EMPTY)
    (hfr : Frontier c w h m []) :
    ∀ x y, 0 ≤ x → x < w → 0 ≤ y → y < h → x % 2 = 1 → y % 2 = 1 →
      m.read x y = some EMPTY := by
  have hstep : ∀ p q, p % 2 = 1 → q % 2 = 1 → m.read p q = some EMPTY →
      ∀ d : Direction, UnitStep d → 0 ≤ p + d.x * 2 → p + d.x * 2 < w →
      0 ≤ q + d.y * 2 → q + d.y * 2 < h → m.read (p + d.x * 2) (q + d.y * 2) = some EMPTY := by
    intro p q hp hq hpq d hd h1 h2 h3 h4
    rcases hfr p q hp hq hpq d hd _ _ (neighbour_plain _ _ _ _ h1 h2)
      (neighbour_plain _ _ _ _ h3 h4) h1 h2 h3 h4 with h5 | ⟨e, he, -⟩
    · exact h5
    · exact absurd he (List.not_mem_nil _)
  have hE : ∀ p q, p % 2 = 1 → q % 2 = 1 → m.read p q = some EMPTY → 0 ≤ p → p + 2 < w →
      0 ≤ q → q < h → m.read (p + 2) q = some EMPTY := by
    intro p q hp hq hpq h1 h2 h3 h4
    have := hstep p q hp hq hpq ⟨1, 0⟩ (Or.inl ⟨rfl, rfl⟩) (by show 0 ≤ p + 1 * 2; omega)
      (by show p + 1 * 2 < w; omega) (by show 0 ≤ q + 0 * 2; omega)
      (by show q + 0 * 2 < h; omega)
    have e1 : p + (⟨1, 0⟩ : Direction).x * 2 = p + 2 := by show p + 1 * 2 = p + 2; omega
    have e2 : q + (⟨1, 0⟩ : Direction).y * 2 = q := by show q + 0 * 2 = q; omega
    rw [e1, e2] at this
    exact this
  have hW : ∀ p q, p % 2 = 1 → q % 2 = 1 → m.read p q = some EMPTY → 0 ≤ p - 2 → p < w →
      0 ≤ q → q < h → m.read (p - 2) q = some EMPTY := by
    intro p q hp hq hpq h1 h2 h3 h4
    have := hstep p q hp hq hpq ⟨-1, 0⟩ (Or.inr (Or.inl ⟨rfl, rfl⟩))
      (by show 0 ≤ p + (-1) * 2; omega) (by show p + (-1) * 2 < w; omega)
      (by show 0 ≤ q + 0 * 2; omega) (by show q + 0 * 2 < h; omega)
    have e1 : p + (⟨-1, 0⟩ : Direction).x * 2 = p - 2 := by show p + (-1) * 2 = p - 2; omega
    have e2 : q + (⟨-1, 0⟩ : Direction).y * 2 = q := by show q + 0 * 2 = q; omega
    rw [e1, e2] at this
    exact this
  have hS : ∀ p q, p % 2 = 1 → q % 2 = 1 → m.read p q = some EMPTY → 0 ≤ p → p < w →
      0 ≤ q → q + 2 < h → m.read p (q + 2) = some EMPTY := by
    intro p q hp hq hpq h1 h2 h3 h4
    have := hstep p q hp hq hpq ⟨0, 1⟩ (Or.inr (Or.inr (Or.inl ⟨rfl, rfl⟩)))
      (by show 0 ≤ p + 0 * 2; omega) (by show p + 0 * 2 < w; omega)
      (by show 0 ≤ q + 1 * 2; omega) (by show q + 1 * 2 < h; omega)
    have e1 : p + (⟨0, 1⟩ : Direction).x * 2 = p := by show p + 0 * 2 = p; omega
    have e2 : q + (⟨0, 1⟩ : Direction).y * 2 = q + 2 := by show q + 1 * 2 = q + 2; omega
    rw [e1, e2] at this
    exact this
  have hN : ∀ p q, p % 2 = 1 → q % 2 = 1 → m.read p q = some EMPTY → 0 ≤ p → p < w →
      0 ≤ q - 2 → q < h → m.read p (q - 2) = some EMPTY := by
    intro p q hp hq hpq h1 h2 h3 h4
    have := hstep p q hp hq hpq ⟨0, -1⟩ (Or.inr (Or.inr (Or.inr ⟨rfl, rfl⟩)))
      (by show 0 ≤ p + 0 * 2; omega) (by show p + 0 * 2 < w; omega)
      (by show 0 ≤ q + (-1) * 2; omega) (by show q + (-1) * 2 < h; omega)
    have e1 : p + (⟨0, -1⟩ : Direction).x * 2 = p := by show p + 0 * 2 = p; omega
    have e2 : q + (⟨0, -1⟩ : Direction).y * 2 = q - 2 := by
      show q + (-1) * 2 = q - 2; omega
    rw [e1, e2] at this
    exact this
  have hrow : ∀ x, 0 ≤ x → x < w → x % 2 = startCoord w % 2 →
      m.read x (startCoord h) = some EMPTY :=
    line_closed (fun x => m.read x (startCoord h) = some EMPTY) (startCoord w) w hstart
      (fun a h1 h2 hpar hpa => hE a _ (by omega) hoy hpa h1 h2 hsy0 hsy1)
      (fun a h1 h2 hpar hpa => hW a _ (by omega) hoy hpa h1 h2 hsy0 hsy1) hsx0 hsx1
  intro x y hx0 hx1 hy0 hy1 hxo hyo
  exact line_closed (fun y => m.read x y = some EMPTY) (startCoord h) h
    (hrow x hx0 hx1 (by omega))
    (fun a h1 h2 hpar hpa => hS x a hxo (by omega) hpa hx0 hx1 h1 h2)
    (fun a h1 h2 hpar hpa => hN x a hxo (by omega) hpa hx0 hx1 h1 h2) hsy0 hsy1 y hy0 hy1
    (by omega)

/-- What the code keeps of the spanning carve: the carve spans the whole grid when nothing
is reserved and the normalized sizes are at most `2^25`.  (1) When the reserve probability is not positive (`fill = 1`, for
instance) the grid holds no Reserved cell when carving starts.  (2) For every
configuration and random stream with a normalized width and height of at least 4 and at
most `2^25` and no Reserved cell in the grid when carving starts, the carver loop finishes
and every cell inside the grid with both coordinates odd is then Passage.  Above `2^25`
the start cell of lines 82-83, computed in `float`, can have an even coordinate. -/
theorem carve_spans {σ : Type} (R : RandomSource σ) (entropy : Nat) (w h : Int)
    (c : MazeConfig) :
    (reservePositive c.fill = false → ∀ st0, carveStart R entropy w h c = some st0 →
      ∀ x y, st0.maze.read x y ≠ some RESERVED) ∧
    (4 ≤ normalizeSize c.horizontal w → 4 ≤ normalizeSize c.vertical h →
      normalizeSize c.horizontal w ≤ 33554432 → normalizeSize c.vertical h ≤ 33554432 →
      (∀ st0, carveStart R entropy w h c = some st0 →
        ∀ x y, st0.maze.read x y ≠ some RESERVED) →
      ∃ st, carved R entropy w h c = some st ∧
        ∀ x y, 0 ≤ x → x < normalizeSize c.horizontal w → 0 ≤ y →
          y < normalizeSize c.vertical h → x % 2 = 1 → y % 2 = 1 →
          st.maze.read x y = some EMPTY) := by
  constructor
  · intro hfill st0 hst0 x y hxy
    unfold carveStart at hst0
    split at hst0
    · exact Option.noConfusion hst0
    · rename_i m0 hm0
      unfold seedReservations at hst0
      rw [hfill] at hst0
      simp only [Bool.false_eq_true, if_false] at hst0
      cases hst0
      have := solid_read hm0 x y RESERVED hxy
      exact absurd this (by decide)
  · intro hw hh hwmax hhmax hnores
    have hpw := normalizeSize_sizeParity c.horizontal w
    have hph := normalizeSize_sizeParity c.vertical h
    have hox := startCoord_odd _ (show 0 ≤ normalizeSize c.horizontal w by omega) hwmax
    have hoy := startCoord_odd _ (show 0 ≤ normalizeSize c.vertical h by omega) hhmax
    obtain ⟨st0, hst0⟩ := carveStart_total R entropy w h c (by omega) (by omega)
    have hres0 := hnores st0 hst0
    obtain ⟨m, s, heq, hno, hrect, hstates⟩ := carveStart_spec hst0
    subst heq
    have hdom := rect_dom hrect
    have hsx := (startCoord_range _).2 hw
    have hsy := (startCoord_range _).2 hh
    have hsafe0 := carveInit_safe s hdom hsx.1 hsx.2 hsy.1 hsy.2
    have hb := unopened_rect hrect
    have hfuel : 4 * unopened (carveInit (normalizeSize c.horizontal w)
        (normalizeSize c.vertical h) m s).maze + (carveInit (normalizeSize c.horizontal w)
        (normalizeSize c.vertical h) m s).stack.length
        ≤ carveFuel (normalizeSize c.horizontal w) (normalizeSize c.vertical h) := by
      simp only [carveInit, carveFuel, List.length_singleton]
      omega
    obtain ⟨st1, hloop, hnil, -⟩ := carveLoop_total R c _ _ hsafe0 hfuel
    obtain ⟨hreach, -⟩ := carveLoop_reached _ _ _ hloop
    refine ⟨st1, by rw [carved_eq_start, hst0]; exact hloop, ?_⟩
    have hinv := carveReached_induction
      (fun st : CarveState σ =>
        CarveSafe (normalizeSize c.horizontal w) (normalizeSize c.vertical h) st ∧
        CarveOdd (normalizeSize c.horizontal w) (normalizeSize c.vertical h) st ∧
        (st.directions.length = 4 ∧
          ∀ d ∈ ([⟨-1, 0⟩, ⟨1, 0⟩, ⟨0, 1⟩, ⟨0, -1⟩] : List Direction), d ∈ st.directions) ∧
        (c.horizontal.symmetry = true → MirrorH c (normalizeSize c.horizontal w) st.maze) ∧
        (c.vertical.symmetry = true → MirrorV c (normalizeSize c.vertical h) st.maze) ∧
        StatesOnly st.maze ∧ (∀ x y, st.maze.read x y ≠ some RESERVED) ∧
        CarveSpan c (normalizeSize c.horizontal w) (normalizeSize c.vertical h) st)
      (fun st cur rest st2 hall hstack hstep => by
        obtain ⟨h1, h2, h3, h4, h5, h6, h7, h8⟩ := hall
        have hdirs1 := carveStep_directions
          (show ({ st with stack := rest } : CarveState σ).directions.length = 4 ∧ _ from h3)
          hstep
        exact ⟨carveStep_safe hstack h1 hstep, carveStep_odd hpw hph hstack h2 hstep, hdirs1,
          fun hsym => carveStep_preserves (MirrorH c _)
            (fun m0 x y m1 => setMaze_mirrorH hsym m0 x y m1)
            (show MirrorH c _ ({ st with stack := rest } : CarveState σ).maze from h4 hsym)
            hstep,
          fun hsym => carveStep_preserves (MirrorV c _)
            (fun m0 x y m1 => setMaze_mirrorV hsym m0 x y m1)
            (show MirrorV c _ ({ st with stack := rest } : CarveState σ).maze from h5 hsym)
            hstep,
          carveStep_preserves StatesOnly (fun m0 x y m1 => setMaze_statesOnly m0 x y m1)
            (show StatesOnly ({ st with stack := rest } : CarveState σ).maze from h6) hstep,
          carveStep_preserves (fun m0 : Grid => ∀ x y, m0.read x y ≠ some RESERVED)
            (fun m0 x y m1 => setMaze_noReserved m0 x y m1)
            (show ∀ x y, ({ st with stack := rest } : CarveState σ).maze.read x y
              ≠ some RESERVED from h7) hstep,
          carveStep_span hpw hph hstack h1 h2 (fun d hd => hdirs1.2 d (unitStep_mem hd))
            h4 h5 h6 h7 h8 hstep⟩)
      (show CarveSafe _ _ (carveInit (normalizeSize c.horizontal w)
          (normalizeSize c.vertical h) m s) ∧ _ from
        ⟨hsafe0, carveInit_odd _ _ m s hdom hno hox hoy, ⟨rfl, fun _ hd => hd⟩,
          fun _ => noPassage_mirrorH c _ m hno, fun _ => noPassage_mirrorV c _ m hno,
          hstates, hres0, Or.inl ⟨hno, rfl⟩⟩) hreach
    obtain ⟨-, -, -, -, -, -, -, hspan⟩ := hinv
    rcases hspan with ⟨-, hst⟩ | ⟨hstart, hfr⟩
    · rw [hnil] at hst
      exact absurd hst (by simp)
    · rw [hnil] at hfr
      exact frontier_empty_spans hsx.1 hsx.2 hsy.1 hsy.2 hox hoy hstart hfr

set_option maxRecDepth 1000000 in
/-- Witness of `carve_spans`: the wrapping, mirrored sample on an 8 by 8 request, a 10 by 7
grid, with `fill = 1`. -/
theorem carve_spans_witness :
    reservePositive braided.fill = false ∧ normalizeSize braided.horizontal 8 = 10 ∧
    normalizeSize braided.vertical 8 = 7 ∧
    ∃ st, carved lcg 0 8 8 braided = some st ∧
      ∀ x y, 0 ≤ x → x < normalizeSize braided.horizontal 8 → 0 ≤ y →
        y < normalizeSize braided.vertical 8 → x % 2 = 1 → y % 2 = 1 →
        st.maze.read x y = some EMPTY :=
  ⟨by decide, by decide, by decide,
    (carve_spans lcg 0 8 8 braided).2 (by decide) (by decide) (by decide) (by decide)
      ((carve_spans lcg 0 8 8 braided).1 (by decide))⟩

/-! ## The carve is a tree -/

/-- A graph with a forest certificate has no closed walk along distinct wall cells. -/
theorem cert_acyclic {c : MazeConfig} {w h : Int} {m : Grid} {depth : Int × Int → Nat}
    {child : Int × Int → Int × Int} (hc : TreeCert c w h m depth child) (k : Nat)
    (v e : ZMod (k + 1) → Int × Int) (hinj : Function.Injective e)
    (hj : ∀ i, Joins c w h m (e i) (v i) (v (i + 1))) : False := by
  obtain ⟨i0, hmax⟩ := Finite.exists_max (fun i => depth (v i))
  have hchild : ∀ e0 a b, Joins c w h m e0 a b →
      (child e0 = a ∧ depth b < depth a) ∨ (child e0 = b ∧ depth a < depth b) := by
    rintro e0 a b ⟨hw, hp, hs | hs⟩
    · obtain ⟨-, -, -, -, h5⟩ := hc.1 e0 hw hp
      rw [hs] at h5
      exact h5
    · obtain ⟨-, -, -, -, h5⟩ := hc.1 e0 hw hp
      rw [hs] at h5
      exact h5.symm
  have h1 := hchild _ _ _ (hj i0)
  have h2 := hchild _ _ _ (hj (i0 - 1))
  rw [sub_add_cancel] at h2
  rcases h1 with ⟨hc1, hd1⟩ | ⟨-, hd1⟩
  · rcases h2 with ⟨-, hd2⟩ | ⟨hc2, hd2⟩
    · have := hmax (i0 - 1)
      simp only at this
      omega
    · have he : e i0 = e (i0 - 1) :=
        hc.2 _ _ (hj i0).1 (hj i0).2.1 (hj (i0 - 1)).1 (hj (i0 - 1)).2.1 (hc1.trans hc2.symm)
      have hi := hinj he
      have h10 : (1 : ZMod (k + 1)) = 0 := sub_eq_self.1 hi.symm
      have hi1 : i0 + 1 = i0 := by rw [h10, add_zero]
      rw [hi1] at hd1
      exact lt_irrefl _ hd1
  · have := hmax (i0 + 1)
    simp only at this
    omega

theorem mem_gridCells (w h : Int) (p : Int × Int) :
    p ∈ gridCells w h ↔ (0 ≤ p.1 ∧ p.1 < w ∧ 0 ≤ p.2 ∧ p.2 < h) := by
  obtain ⟨a, b⟩ := p
  unfold gridCells
  rw [List.pair_mem_product, mem_intRange, mem_intRange]
  constructor
  · rintro ⟨⟨h1, h2⟩, h3, h4⟩
    exact ⟨h1, by omega, h3, by omega⟩
  · rintro ⟨h1, h2, h3, h4⟩
    exact ⟨⟨h1, by omega⟩, h3, by omega⟩

theorem mem_passageCells (sel : Int × Int → Bool) (w h : Int) (m : Grid) (p : Int × Int) :
    p ∈ passageCells sel w h m ↔
      (0 ≤ p.1 ∧ p.1 < w ∧ 0 ≤ p.2 ∧ p.2 < h) ∧ sel p = true ∧
        m.read p.1 p.2 = some EMPTY := by
  unfold passageCells
  rw [List.mem_filter, mem_gridCells]
  simp only [Bool.and_eq_true, decide_eq_true_eq]

theorem nodup_passageCells (sel : Int × Int → Bool) (w h : Int) (m : Grid) :
    (passageCells sel w h m).Nodup :=
  List.Nodup.filter _ (List.Nodup.product (nodup_intRange _ _) (nodup_intRange _ _))

/-- Grids with the same Passage cells have the same number of selected Passage cells. -/
theorem passageCells_congr (sel : Int × Int → Bool) (w h : Int) {m m1 : Grid}
    (hup : ∀ p : Int × Int, m1.read p.1 p.2 = some EMPTY ↔ m.read p.1 p.2 = some EMPTY) :
    (passageCells sel w h m1).length = (passageCells sel w h m).length := by
  refine List.Perm.length_eq ((List.perm_ext_iff_of_nodup (nodup_passageCells _ _ _ _)
    (nodup_passageCells _ _ _ _)).2 fun p => ?_)
  rw [mem_passageCells, mem_passageCells, hup]

/-- Turning one cell inside the grid into Passage raises the number of selected Passage
cells by one when the cell is selected, and leaves it otherwise. -/
theorem passageCells_insert (sel : Int × Int → Bool) {w h : Int} {m m1 : Grid}
    {q : Int × Int} (hq : 0 ≤ q.1 ∧ q.1 < w ∧ 0 ≤ q.2 ∧ q.2 < h)
    (hnot : m.read q.1 q.2 ≠ some EMPTY)
    (hup : ∀ p : Int × Int, m1.read p.1 p.2 = some EMPTY ↔
      (m.read p.1 p.2 = some EMPTY ∨ p = q)) :
    (passageCells sel w h m1).length =
      (passageCells sel w h m).length + (if sel q = true then 1 else 0) := by
  by_cases hsel : sel q = true
  · rw [if_pos hsel]
    have hnd : (q :: passageCells sel w h m).Nodup :=
      List.nodup_cons.2 ⟨fun hmem => hnot ((mem_passageCells _ _ _ _ _).1 hmem).2.2,
        nodup_passageCells _ _ _ _⟩
    have hperm : (passageCells sel w h m1).Perm (q :: passageCells sel w h m) := by
      refine (List.perm_ext_iff_of_nodup (nodup_passageCells _ _ _ _) hnd).2 fun p => ?_
      rw [List.mem_cons, mem_passageCells, mem_passageCells, hup]
      constructor
      · rintro ⟨h1, h2, h3 | h3⟩
        · exact Or.inr ⟨h1, h2, h3⟩
        · exact Or.inl h3
      · rintro (h1 | ⟨h1, h2, h3⟩)
        · subst h1
          exact ⟨hq, hsel, Or.inr rfl⟩
        · exact ⟨h1, h2, Or.inl h3⟩
    rw [hperm.length_eq, List.length_cons]
  · rw [if_neg hsel, add_zero]
    refine List.Perm.length_eq ((List.perm_ext_iff_of_nodup (nodup_passageCells _ _ _ _)
      (nodup_passageCells _ _ _ _)).2 fun p => ?_)
    rw [mem_passageCells, mem_passageCells, hup]
    constructor
    · rintro ⟨h1, h2, h3 | h3⟩
      · exact ⟨h1, h2, h3⟩
      · subst h3
        exact absurd h2 hsel
    · rintro ⟨h1, h2, h3⟩
      exact ⟨h1, h2, Or.inl h3⟩

/-- A grid without Passage cells has no selected Passage cells. -/
theorem passageCells_noPassage (sel : Int × Int → Bool) (w h : Int) {m : Grid}
    (hno : NoPassage m) : passageCells sel w h m = [] := by
  rw [List.eq_nil_iff_forall_not_mem]
  intro p hp
  exact hno _ _ ((mem_passageCells _ _ _ _ _).1 hp).2.2

theorem emod_cases (n w : Int) (h0 : 0 ≤ n) (hw : 0 < w) (h3 : n < 3 * w) :
    (n < w ∧ n % w = n) ∨ (w ≤ n ∧ n < 2 * w ∧ n % w = n - w) ∨
      (2 * w ≤ n ∧ n % w = n - 2 * w) := by
  have := tmod_cases n w h0 hw h3
  rwa [Int.tmod_eq_emod h0 (le_of_lt hw)] at this

/-- The wall coordinate of an entry pushed from an odd coordinate `a0` with the step `s` is
even and lies between `a0` and the coordinate of the entry. -/
theorem wall_sides_coord {a : Axis} {size : Int} (hp : SizeParity a size) {a0 s x wx : Int}
    (h0 : 0 ≤ a0) (h1 : a0 < size) (hodd : a0 % 2 = 1) (hs : s = 1 ∨ s = -1)
    (hx : (if effectiveWrap a = true then cmod (a0 + s * 2 + size) size
      else some (a0 + s * 2)) = some x)
    (hx0 : 0 ≤ x) (hx1 : x < size) (hwx : cmod (x - s + size) size = some wx) :
    wx % 2 = 0 ∧ stepCoord (effectiveWrap a) size wx (-s) = a0 ∧
      stepCoord (effectiveWrap a) size wx s = x := by
  unfold cmod at hwx
  rw [if_neg (by omega)] at hwx
  have hwx1 := Option.some.inj hwx
  unfold stepCoord
  cases hw : effectiveWrap a with
  | false =>
    have hpar := hp.2 hw
    rw [hw] at hx
    simp only [Bool.false_eq_true, if_false, Option.some.injEq] at hx ⊢
    rcases tmod_cases (x - s + size) size (by omega) (by omega) (by omega) with
      ⟨h2, he⟩ | ⟨h2, h3, he⟩ | ⟨h2, he⟩ <;> refine ⟨?_, ?_, ?_⟩ <;> omega
  | true =>
    have hpar := hp.1 hw
    rw [hw] at hx
    simp only [if_true] at hx ⊢
    unfold cmod at hx
    rw [if_neg (by omega)] at hx
    have hx2 := Option.some.inj hx
    rcases tmod_cases (a0 + s * 2 + size) size (by omega) (by omega) (by omega) with
      ⟨h2, he⟩ | ⟨h2, h3, he⟩ | ⟨h2, he⟩ <;>
    rcases tmod_cases (x - s + size) size (by omega) (by omega) (by omega) with
      ⟨h4, he2⟩ | ⟨h4, h5, he2⟩ | ⟨h4, he2⟩ <;>
    rcases emod_cases (wx + -s + size) size (by omega) (by omega) (by omega) with
      ⟨h6, he3⟩ | ⟨h6, h7, he3⟩ | ⟨h6, he3⟩ <;>
    rcases emod_cases (wx + s + size) size (by omega) (by omega) (by omega) with
      ⟨h8, he4⟩ | ⟨h8, h9, he4⟩ | ⟨h8, he4⟩ <;>
    rw [he3, he4] <;> refine ⟨?_, ?_, ?_⟩ <;> omega

/-- The cells on either side of a coordinate are its neighbours. -/
theorem stepCoord_adjacent (wrap : Bool) (size a : Int) (h0 : 0 ≤ a) (h1 : a < size) :
    adjacentCoord wrap size (stepCoord wrap size a (-1)) a ∧
      adjacentCoord wrap size a (stepCoord wrap size a 1) := by
  unfold adjacentCoord stepCoord
  cases wrap with
  | false =>
    exact ⟨Or.inl (by simp), Or.inl (by simp)⟩
  | true =>
    simp only [if_true, true_and]
    rcases emod_cases (a + -1 + size) size (by omega) (by omega) (by omega) with
      ⟨h2, he⟩ | ⟨h2, h3, he⟩ | ⟨h2, he⟩ <;>
    rcases emod_cases (a + 1 + size) size (by omega) (by omega) (by omega) with
      ⟨h4, he2⟩ | ⟨h4, h5, he2⟩ | ⟨h4, he2⟩ <;>
    rw [he, he2] <;> constructor <;> omega

theorem isCentre_iff (p : Int × Int) : isCentre p = true ↔ (p.1 % 2 = 1 ∧ p.2 % 2 = 1) := by
  unfold isCentre
  simp only [Bool.and_eq_true, decide_eq_true_eq]

theorem centre_not_wall {p : Int × Int} (h : isCentre p = true) : isWall p = false := by
  obtain ⟨h1, h2⟩ := (isCentre_iff p).1 h
  unfold isWall
  rw [decide_eq_false (by omega), decide_eq_false (by omega)]
  rfl

theorem isWall_even_odd {x y : Int} (hx : x % 2 = 0) (hy : y % 2 = 1) :
    isWall (x, y) = true := by
  unfold isWall
  rw [decide_eq_true hx, decide_eq_false (by simp only; omega)]
  rfl

theorem isWall_odd_even {x y : Int} (hx : x % 2 = 1) (hy : y % 2 = 0) :
    isWall (x, y) = true := by
  unfold isWall
  rw [decide_eq_false (by simp only; omega), decide_eq_true hy]
  rfl

/-- The entry that the neighbour loop pushes from a Passage cell centre has that cell
centre behind its wall cell. -/
theorem entry_parent_new {c : MazeConfig} {w h : Int} (hpw : SizeParity c.horizontal w)
    (hph : SizeParity c.vertical h) {m : Grid} {cur e : StackEntry}
    (hcx0 : 0 ≤ cur.x) (hcx1 : cur.x < w) (hcy0 : 0 ≤ cur.y) (hcy1 : cur.y < h)
    (hox : cur.x % 2 = 1) (hoy : cur.y % 2 = 1)
    (hp : m.read cur.x cur.y = some EMPTY) (hstep : UnitStep e.step)
    (hx : (if effectiveWrap c.horizontal = true then cmod (cur.x + e.step.x * 2 + w) w
      else some (cur.x + e.step.x * 2)) = some e.x)
    (hy : (if effectiveWrap c.vertical = true then cmod (cur.y + e.step.y * 2 + h) h
      else some (cur.y + e.step.y * 2)) = some e.y)
    (hex0 : 0 ≤ e.x) (hex1 : e.x < w) (hey0 : 0 ≤ e.y) (hey1 : e.y < h) :
    EntryParent c w h m e := by
  obtain ⟨hsx, hsy, -⟩ := unitStep_cases (Or.inl hstep)
  obtain ⟨wx, hwx, -⟩ := wall_coord w e.x e.step.x hex0 hex1 hsx
  obtain ⟨wy, hwy, -⟩ := wall_coord h e.y e.step.y hey0 hey1 hsy
  have hparC : isCentre (cur.x, cur.y) = true := (isCentre_iff _).2 ⟨hox, hoy⟩
  refine ⟨hstep, wx, wy, (cur.x, cur.y), hwx, hwy, ?_⟩
  rcases hstep with ⟨h1, h2⟩ | ⟨h1, h2⟩ | ⟨h1, h2⟩ | ⟨h1, h2⟩
  · rw [h1] at hx hwx
    rw [h2] at hy hwy
    obtain ⟨hev, hsa, hsb⟩ := wall_sides_coord hpw hcx0 hcx1 hox (Or.inl rfl) hx hex0 hex1 hwx
    obtain ⟨hye, hwy2⟩ := still_coord _ h cur.y e.y hcy0 hcy1 hy
    rw [hwy2] at hwy
    cases hwy
    refine ⟨isWall_even_odd hev hoy, hparC, hp, Or.inl ?_⟩
    unfold wallSides
    simp only
    rw [if_pos hev, hsa, hsb, hye]
  · rw [h1] at hx hwx
    rw [h2] at hy hwy
    obtain ⟨hev, hsa, hsb⟩ := wall_sides_coord hpw hcx0 hcx1 hox (Or.inr rfl) hx hex0 hex1 hwx
    obtain ⟨hye, hwy2⟩ := still_coord _ h cur.y e.y hcy0 hcy1 hy
    rw [hwy2] at hwy
    cases hwy
    rw [neg_neg] at hsa
    refine ⟨isWall_even_odd hev hoy, hparC, hp, Or.inr ?_⟩
    unfold wallSides
    simp only
    rw [if_pos hev, hsa, hsb, hye]
  · rw [h1] at hx hwx
    rw [h2] at hy hwy
    obtain ⟨hev, hsa, hsb⟩ := wall_sides_coord hph hcy0 hcy1 hoy (Or.inl rfl) hy hey0 hey1 hwy
    obtain ⟨hxe, hwx2⟩ := still_coord _ w cur.x e.x hcx0 hcx1 hx
    rw [hwx2] at hwx
    cases hwx
    refine ⟨isWall_odd_even hox hev, hparC, hp, Or.inl ?_⟩
    unfold wallSides
    simp only
    rw [if_neg (by omega), hsa, hsb, hxe]
  · rw [h1] at hx hwx
    rw [h2] at hy hwy
    obtain ⟨hev, hsa, hsb⟩ := wall_sides_coord hph hcy0 hcy1 hoy (Or.inr rfl) hy hey0 hey1 hwy
    obtain ⟨hxe, hwx2⟩ := still_coord _ w cur.x e.x hcx0 hcx1 hx
    rw [hwx2] at hwx
    cases hwx
    rw [neg_neg] at hsa
    refine ⟨isWall_odd_even hox hev, hparC, hp, Or.inr ?_⟩
    unfold wallSides
    simp only
    rw [if_neg (by omega), hsa, hsb, hxe]

theorem entryParent_mono {c : MazeConfig} {w h : Int} {m m1 : Grid} (hk : PassageKept m m1)
    {e : StackEntry} (he : EntryParent c w h m e) : EntryParent c w h m1 e := by
  obtain ⟨h0, wx, wy, par, h1, h2, h3, h4, h5, h6⟩ := he
  exact ⟨h0, wx, wy, par, h1, h2, h3, h4, hk _ _ h5, h6⟩

theorem linked_mono {c : MazeConfig} {w h : Int} {m m1 : Grid} (hk : PassageKept m m1)
    {a b : Int × Int} (hr : Relation.ReflTransGen (Linked c w h m) a b) :
    Relation.ReflTransGen (Linked c w h m1) a b :=
  Relation.ReflTransGen.mono
    (fun _ _ ⟨e, h1, h2, h3⟩ => ⟨e, h1, hk _ _ h2, h3⟩) hr

/-- Carving a cell centre `cur`, not Passage so far, and the wall cell `wl` between it and
the Passage cell centre `par` extends a forest certificate. -/
theorem treeCert_extend {c : MazeConfig} {w h : Int} {m m2 : Grid} {depth : Int × Int → Nat}
    {child : Int × Int → Int × Int} {cur wl par : Int × Int}
    (hc : TreeCert c w h m depth child)
    (hup : ∀ p : Int × Int, m2.read p.1 p.2 = some EMPTY ↔
      (m.read p.1 p.2 = some EMPTY ∨ p = cur ∨ p = wl))
    (hcurC : isCentre cur = true) (hcurNot : m.read cur.1 cur.2 ≠ some EMPTY)
    (hwlW : isWall wl = true) (hparC : isCentre par = true)
    (hparP : m.read par.1 par.2 = some EMPTY)
    (hsides : wallSides c w h wl = (par, cur) ∨ wallSides c w h wl = (cur, par)) :
    TreeCert c w h m2 (Function.update depth cur (depth par + 1))
      (Function.update child wl cur) := by
  have hne : par ≠ cur := fun hpc => hcurNot (by rw [← hpc]; exact hparP)
  have hwlNot : m.read wl.1 wl.2 ≠ some EMPTY := by
    intro hp
    obtain ⟨-, -, h3, h4, -⟩ := hc.1 wl hwlW hp
    rcases hsides with hs | hs
    · rw [hs] at h4; exact hcurNot h4
    · rw [hs] at h3; exact hcurNot h3
  have hold : ∀ e, isWall e = true → m2.read e.1 e.2 = some EMPTY →
      e = wl ∨ m.read e.1 e.2 = some EMPTY := by
    intro e hw hp
    rcases (hup e).1 hp with h1 | h1 | h1
    · exact Or.inr h1
    · rw [h1, centre_not_wall hcurC] at hw
      exact absurd hw (by simp)
    · exact Or.inl h1
  have hchildOld : ∀ e, isWall e = true → m.read e.1 e.2 = some EMPTY → child e ≠ cur := by
    intro e hw hp hce
    obtain ⟨-, -, h3, h4, h5⟩ := hc.1 e hw hp
    rcases h5 with ⟨h5, -⟩ | ⟨h5, -⟩
    · rw [← h5, hce] at h3; exact hcurNot h3
    · rw [← h5, hce] at h4; exact hcurNot h4
  have hneWl : ∀ e, m.read e.1 e.2 = some EMPTY → e ≠ wl :=
    fun e hp hewl => hwlNot (by rw [← hewl]; exact hp)
  constructor
  · intro e hw hp
    rcases hold e hw hp with h1 | h1
    · subst h1
      rcases hsides with hs | hs
      · rw [hs]
        simp only
        refine ⟨hparC, hcurC, (hup _).2 (Or.inl hparP), (hup _).2 (Or.inr (Or.inl rfl)),
          Or.inr ⟨Function.update_same _ _ _, ?_⟩⟩
        rw [Function.update_same, Function.update_noteq hne]
        exact Nat.lt_succ_self _
      · rw [hs]
        simp only
        refine ⟨hcurC, hparC, (hup _).2 (Or.inr (Or.inl rfl)), (hup _).2 (Or.inl hparP),
          Or.inl ⟨Function.update_same _ _ _, ?_⟩⟩
        rw [Function.update_same, Function.update_noteq hne]
        exact Nat.lt_succ_self _
    · obtain ⟨h2, h3, h4, h5, h6⟩ := hc.1 e hw h1
      have ha : (wallSides c w h e).1 ≠ cur := fun hac => hcurNot (by rw [← hac]; exact h4)
      have hb : (wallSides c w h e).2 ≠ cur := fun hbc => hcurNot (by rw [← hbc]; exact h5)
      refine ⟨h2, h3, (hup _).2 (Or.inl h4), (hup _).2 (Or.inl h5), ?_⟩
      rw [Function.update_noteq (hneWl e h1), Function.update_noteq ha,
        Function.update_noteq hb]
      exact h6
  · intro e e2 hw hp hw2 hp2 heq
    rcases hold e hw hp with h1 | h1 <;> rcases hold e2 hw2 hp2 with h2 | h2
    · rw [h1, h2]
    · rw [h1, Function.update_same, Function.update_noteq (hneWl e2 h2)] at heq
      exact absurd heq.symm (hchildOld e2 hw2 h2)
    · rw [h2, Function.update_same, Function.update_noteq (hneWl e h1)] at heq
      exact absurd heq (hchildOld e hw h1)
    · rw [Function.update_noteq (hneWl e h1), Function.update_noteq (hneWl e2 h2)] at heq
      exact hc.2 e e2 hw h1 hw2 h2 heq

/-- Without symmetry a call `setMaze(.., EMPTY, ..)` with a target inside the grid adds the
target to the Passage cells. -/
theorem setMaze_plain_passage {c : MazeConfig} (hH : c.horizontal.symmetry = false)
    (hV : c.vertical.symmetry = false) {w h : Int} {m m1 : Grid} {x y x1 y1 : Int}
    (hx : cmod (x + w) w = some x1) (hy : cmod (y + h) h = some y1)
    (hs : setMaze m x y EMPTY c w h = some m1) (p : Int × Int) :
    m1.read p.1 p.2 = some EMPTY ↔ (m.read p.1 p.2 = some EMPTY ∨ p = (x1, y1)) := by
  obtain ⟨x2, y2, hx2, hy2, hp⟩ := setMaze_passage hs
  rw [hx] at hx2
  rw [hy] at hy2
  cases hx2
  cases hy2
  rw [hp, written_plain hH hV, Prod.ext_iff]

/-- One iteration of the carver without symmetry keeps the invariant about the shape of
the carve. -/
theorem carveStep_tree {σ : Type} {R : RandomSource σ} {c : MazeConfig} {w h : Int}
    (hH : c.horizontal.symmetry = false) (hV : c.vertical.symmetry = false)
    (hpw : SizeParity c.horizontal w) (hph : SizeParity c.vertical h)
    {cur : StackEntry} {rest : List StackEntry} {st st1 : CarveState σ}
    (hstack : st.stack = cur :: rest) (hsafe : CarveSafe w h st) (hodd : CarveOdd w h st)
    (hstates : StatesOnly st.maze) (htree : CarveTree c w h st)
    (hs : carveStep R c w h cur { st with stack := rest } = some st1) :
    CarveTree c w h st1 := by
  obtain ⟨hdom, hdir, -, hin⟩ := hsafe
  obtain ⟨hcx0, hcx1, hcy0, hcy1, hstepc⟩ :=
    hin cur (by rw [hstack]; exact List.mem_cons_self _ _)
  obtain ⟨hox, hoy, -⟩ := hodd.2.2.1 cur (by rw [hstack]; exact List.mem_cons_self _ _)
  have hcounter := carveStep_counter hs
  rcases carveStep_cases hs with ⟨hu, heq⟩ | ⟨hu, m1, dead, hs1, hs2, hpush, hds⟩
  · subst heq
    simp only at hu
    rcases htree with ⟨hno, hst, hign⟩ | ⟨hcount, hcert, hconn, hent⟩
    · exfalso
      obtain ⟨v, hv⟩ := unexplored_some hu
      unfold unexplored at hu
      rw [hv] at hu
      rcases hstates _ _ v hv with h1 | h1 | h1
      · rw [h1] at hv; exact hno _ _ hv
      · rw [h1] at hu
        simp at hu
        omega
      · rw [h1] at hu
        simp at hu
    · exact Or.inr ⟨hcount, hcert, hconn, fun e he =>
        hent e (by rw [hstack]; exact List.mem_cons_of_mem _ he)⟩
  · simp only at hu hs1 hs2 hpush hds
    have hdom1 := setMaze_dom _ _ _ _ hdom hs1
    have hdom2 := setMaze_dom _ _ _ _ hdom1 hs2
    have hk1 := setMaze_passageKept hs1
    have hk2 := setMaze_passageKept hs2
    have hk : PassageKept st.maze st1.maze := passageKept_trans hk1 hk2
    obtain ⟨hsx, hsy, -⟩ := unitStep_cases hstepc
    obtain ⟨wx, hwx, hwx0, hwx1, hwxz⟩ := wall_coord w cur.x cur.step.x hcx0 hcx1 hsx
    obtain ⟨wy, hwy, hwy0, hwy1, hwyz⟩ := wall_coord h cur.y cur.step.y hcy0 hcy1 hsy
    have hP1 := setMaze_plain_passage hH hV (cmod_inRange _ _ hcx0 hcx1)
      (cmod_inRange _ _ hcy0 hcy1) hs1
    have hP2 := setMaze_plain_passage hH hV hwx hwy hs2
    obtain ⟨v0, hv0, hv0ne⟩ := unexplored_true hu
    have hcurNot : st.maze.read cur.x cur.y ≠ some EMPTY := by
      rw [hv0]
      exact fun h0 => hv0ne (Option.some.inj h0)
    have hcurC : isCentre (cur.x, cur.y) = true := (isCentre_iff _).2 ⟨hox, hoy⟩
    have hcur2 : st1.maze.read cur.x cur.y = some EMPTY :=
      hk2 _ _ ((hP1 (cur.x, cur.y)).2 (Or.inr rfl))
    have hnewE : ∀ e ∈ st1.stack, e ∈ rest ∨ EntryParent c w h st1.maze e := by
      intro e he
      rcases pushNeighbours_spec _ _ _ _ _ _ _ _ _ _ _ hpush e he with
        h1 | ⟨h1, h2, h3, h4, h5, h6, h7⟩
      · exact Or.inl h1
      · exact Or.inr (entry_parent_new hpw hph hcx0 hcx1 hcy0 hcy1 hox hoy hcur2
          (hdir _ (hds _ h1)) h2 h3 h4 h5 h6 h7)
    rcases htree with ⟨hno, hst, hign⟩ | ⟨hcount, ⟨depth, child, hcert⟩, hconn, hent⟩
    · rw [hstack] at hst
      obtain ⟨hc0, hr0⟩ := List.cons.inj hst
      have hzx : cur.step.x = 0 := by rw [hc0]
      have hzy : cur.step.y = 0 := by rw [hc0]
      have hcx : cur.x = startCoord w := by rw [hc0]
      have hcy : cur.y = startCoord h := by rw [hc0]
      have hwxe := hwxz hzx
      have hwye := hwyz hzy
      subst hwxe
      subst hwye
      have hP : ∀ p : Int × Int, st1.maze.read p.1 p.2 = some EMPTY ↔
          (st.maze.read p.1 p.2 = some EMPTY ∨ p = (cur.x, cur.y)) := by
        intro p
        rw [hP2, hP1]
        exact ⟨fun hh => hh.elim id Or.inr, Or.inl⟩
      have hP0 : ∀ p : Int × Int, st1.maze.read p.1 p.2 = some EMPTY → p = (cur.x, cur.y) := by
        intro p hp
        rcases (hP p).1 hp with h1 | h1
        · exact absurd h1 (hno _ _)
        · exact h1
      have hcw := passageCells_insert isWall (q := (cur.x, cur.y)) ⟨hcx0, hcx1, hcy0, hcy1⟩
        hcurNot hP
      have hcc := passageCells_insert isCentre (q := (cur.x, cur.y))
        ⟨hcx0, hcx1, hcy0, hcy1⟩ hcurNot hP
      rw [passageCells_noPassage _ _ _ hno, centre_not_wall hcurC] at hcw
      rw [passageCells_noPassage _ _ _ hno, hcurC] at hcc
      refine Or.inr ⟨?_, ⟨fun _ => 0, fun e => e, ?_, ?_⟩, ?_, ?_⟩
      · rw [hcw, hcc]
        rfl
      · intro e hw hp
        rw [hP0 e hp, centre_not_wall hcurC] at hw
        exact absurd hw (by simp)
      · intro e e2 hw hp _ _ _
        rw [hP0 e hp, centre_not_wall hcurC] at hw
        exact absurd hw (by simp)
      · intro a _ hp
        rw [hP0 a hp, hcx, hcy]
      · intro e he
        rcases hnewE e he with h1 | h1
        · rw [hr0] at h1
          exact absurd h1 (List.not_mem_nil _)
        · exact h1
    · obtain ⟨hunit, wx2, wy2, par, hwx2, hwy2, hwlW, hparC, hparP, hsides⟩ :=
        hent cur (by rw [hstack]; exact List.mem_cons_self _ _)
      rw [hwx] at hwx2
      rw [hwy] at hwy2
      cases hwx2
      cases hwy2
      have hwlNeCur : ((wx, wy) : Int × Int) ≠ (cur.x, cur.y) := by
        intro heq
        rw [heq, centre_not_wall hcurC] at hwlW
        exact absurd hwlW (by simp)
      have hwlNot : st.maze.read wx wy ≠ some EMPTY := by
        intro hp
        obtain ⟨-, -, h3, h4, -⟩ := hcert.1 (wx, wy) hwlW hp
        rcases hsides with hs0 | hs0
        · rw [hs0] at h4; exact hcurNot h4
        · rw [hs0] at h3; exact hcurNot h3
      have hwl1 : m1.read wx wy ≠ some EMPTY := by
        intro hp
        rcases (hP1 (wx, wy)).1 hp with h1 | h1
        · exact hwlNot h1
        · exact hwlNeCur h1
      have hcc1 := passageCells_insert isCentre (q := (cur.x, cur.y))
        ⟨hcx0, hcx1, hcy0, hcy1⟩ hcurNot hP1
      have hcw1 := passageCells_insert isWall (q := (cur.x, cur.y))
        ⟨hcx0, hcx1, hcy0, hcy1⟩ hcurNot hP1
      have hcc2 := passageCells_insert isCentre (q := (wx, wy))
        ⟨hwx0, hwx1, hwy0, hwy1⟩ hwl1 hP2
      have hcw2 := passageCells_insert isWall (q := (wx, wy))
        ⟨hwx0, hwx1, hwy0, hwy1⟩ hwl1 hP2
      rw [hcurC] at hcc1
      rw [centre_not_wall hcurC] at hcw1
      rw [hwlW] at hcw2
      have hwlC : isCentre (wx, wy) = false := by
        cases hcw : isCentre (wx, wy) with
        | false => rfl
        | true =>
          rw [centre_not_wall hcw] at hwlW
          exact absurd hwlW (by simp)
      rw [hwlC] at hcc2
      simp only [if_true, Bool.false_eq_true, if_false, add_zero] at hcc1 hcw1 hcc2 hcw2
      have hP : ∀ p : Int × Int, st1.maze.read p.1 p.2 = some EMPTY ↔
          (st.maze.read p.1 p.2 = some EMPTY ∨ p = (cur.x, cur.y) ∨ p = (wx, wy)) := by
        intro p
        rw [hP2, hP1, or_assoc]
      have hsides2 : wallSides c w h (wx, wy) = (par, (cur.x, cur.y)) ∨
          wallSides c w h (wx, wy) = ((cur.x, cur.y), par) := hsides
      refine Or.inr ⟨by omega, ⟨_, _, treeCert_extend hcert hP hcurC hcurNot hwlW hparC hparP
        hsides2⟩, ?_, ?_⟩
      · intro a ha hp
        rcases (hP a).1 hp with h1 | h1 | h1
        · exact linked_mono hk (hconn a ha h1)
        · rw [h1]
          exact Relation.ReflTransGen.tail (linked_mono hk (hconn par hparC hparP))
            ⟨(wx, wy), hwlW, (hP _).2 (Or.inr (Or.inr rfl)), hsides2⟩
        · rw [h1, hwlC] at ha
          exact absurd ha (by simp)
      · intro e he
        rcases hnewE e he with h1 | h1
        · exact entryParent_mono hk
            (hent e (by rw [hstack]; exact List.mem_cons_of_mem _ h1))
        · exact h1

/-- The carver gets through only on a grid with a normalized width and height of at least
4. -/
theorem carved_some_sizes {σ : Type} {R : RandomSource σ} {entropy : Nat} {w h : Int}
    {c : MazeConfig} {st : CarveState σ} (hst : carved R entropy w h c = some st) :
    4 ≤ normalizeSize c.horizontal w ∧ 4 ≤ normalizeSize c.vertical h := by
  by_contra hsmall
  rw [carved_eq_start] at hst
  cases hst0 : carveStart R entropy w h c with
  | none => rw [hst0] at hst; exact Option.noConfusion hst
  | some st0 =>
    rw [hst0] at hst
    obtain ⟨m, s, heq, -, -, -⟩ := carveStart_spec hst0
    have hneg : startCoord (normalizeSize c.horizontal w) < 0 ∨
        startCoord (normalizeSize c.vertical h) < 0 := by
      by_cases hw4 : normalizeSize c.horizontal w < 4
      · exact Or.inl (startCoord_neg _ hw4)
      · exact Or.inr (startCoord_neg _ (by omega))
    have hread : m.read (startCoord (normalizeSize c.horizontal w))
        (startCoord (normalizeSize c.vertical h)) = none := by
      unfold Grid.read
      rw [if_neg (by omega)]
    have hnone : carveLoop R c (normalizeSize c.horizontal w) (normalizeSize c.vertical h)
        (carveFuel (normalizeSize c.horizontal w) (normalizeSize c.vertical h)) st0
        = none := by
      rw [heq]
      unfold carveFuel
      unfold carveLoop
      simp only [carveInit, carveStep, unexplored, hread]
    rw [Option.some_bind, hnone] at hst
    exact Option.noConfusion hst

/-- What the code keeps of the tree shape: the carve is a tree when the normalized sizes are
at most `2^25`.  For every
configuration without symmetry on either axis, every random stream and a normalized width
and height of at most `2^25`, when the carver loop has finished: (1) the number of Passage wall
cells (exactly one coordinate even) plus one is the number of Passage cell centres (both
coordinates odd); (2) every Passage wall cell has a Passage cell centre on either side,
each adjacent to it; (3) any two Passage cell centres are connected by a path that goes
from cell centre to cell centre through a Passage wall cell between them; (4) there is no
closed walk of that kind along distinct wall cells, so the Passage graph on cell centres
is connected and acyclic.  Above `2^25` the start cell of lines 82-83, computed in `float`,
can have an even coordinate, and the cell centres of the carve are then not the cells with
odd coordinates. -/
theorem carve_is_tree {σ : Type} (R : RandomSource σ) (entropy : Nat) (w h : Int)
    (c : MazeConfig) (st : CarveState σ) (hH : c.horizontal.symmetry = false)
    (hV : c.vertical.symmetry = false)
    (hwmax : normalizeSize c.horizontal w ≤ 33554432)
    (hhmax : normalizeSize c.vertical h ≤ 33554432)
    (hst : carved R entropy w h c = some st) :
    (passageCells isWall (normalizeSize c.horizontal w) (normalizeSize c.vertical h)
        st.maze).length + 1 =
      (passageCells isCentre (normalizeSize c.horizontal w) (normalizeSize c.vertical h)
        st.maze).length ∧
    (∀ e : Int × Int, isWall e = true → st.maze.read e.1 e.2 = some EMPTY →
      isCentre (wallSides c (normalizeSize c.horizontal w) (normalizeSize c.vertical h) e).1
        = true ∧
      isCentre (wallSides c (normalizeSize c.horizontal w) (normalizeSize c.vertical h) e).2
        = true ∧
      st.maze.read
        (wallSides c (normalizeSize c.horizontal w) (normalizeSize c.vertical h) e).1.1
        (wallSides c (normalizeSize c.horizontal w) (normalizeSize c.vertical h) e).1.2
        = some EMPTY ∧
      st.maze.read
        (wallSides c (normalizeSize c.horizontal w) (normalizeSize c.vertical h) e).2.1
        (wallSides c (normalizeSize c.horizontal w) (normalizeSize c.vertical h) e).2.2
        = some EMPTY ∧
      adjacent c (normalizeSize c.horizontal w) (normalizeSize c.vertical h)
        (wallSides c (normalizeSize c.horizontal w) (normalizeSize c.vertical h) e).1 e ∧
      adjacent c (normalizeSize c.horizontal w) (normalizeSize c.vertical h) e
        (wallSides c (normalizeSize c.horizontal w) (normalizeSize c.vertical h) e).2) ∧
    (∀ a b : Int × Int, isCentre a = true → st.maze.read a.1 a.2 = some EMPTY →
      isCentre b = true → st.maze.read b.1 b.2 = some EMPTY →
      Relation.ReflTransGen
        (Linked c (normalizeSize c.horizontal w) (normalizeSize c.vertical h) st.maze) a b) ∧
    (∀ (k : Nat) (v e : ZMod (k + 1) → Int × Int), Function.Injective e →
      (∀ i, Joins c (normalizeSize c.horizontal w) (normalizeSize c.vertical h) st.maze
        (e i) (v i) (v (i + 1))) → False) := by
  obtain ⟨hw, hh⟩ := carved_some_sizes hst
  have hpw := normalizeSize_sizeParity c.horizontal w
  have hph := normalizeSize_sizeParity c.vertical h
  have hox := startCoord_odd _ (show 0 ≤ normalizeSize c.horizontal w by omega) hwmax
  have hoy := startCoord_odd _ (show 0 ≤ normalizeSize c.vertical h by omega) hhmax
  rw [carved_eq_start] at hst
  cases hst0 : carveStart R entropy w h c with
  | none => rw [hst0] at hst; exact Option.noConfusion hst
  | some st0 =>
    rw [hst0, Option.some_bind] at hst
    obtain ⟨hreach, hnil⟩ := carveLoop_reached _ _ _ hst
    obtain ⟨m, s, heq, hno, hrect, hstates⟩ := carveStart_spec hst0
    subst heq
    have hdom := rect_dom hrect
    have hsx := (startCoord_range _).2 hw
    have hsy := (startCoord_range _).2 hh
    have hsafe0 := carveInit_safe s hdom hsx.1 hsx.2 hsy.1 hsy.2
    have hinv := carveReached_induction
      (fun st : CarveState σ =>
        CarveSafe (normalizeSize c.horizontal w) (normalizeSize c.vertical h) st ∧
        CarveOdd (normalizeSize c.horizontal w) (normalizeSize c.vertical h) st ∧
        StatesOnly st.maze ∧
        CarveTree c (normalizeSize c.horizontal w) (normalizeSize c.vertical h) st)
      (fun st cur rest st2 hall hstack hstep => by
        obtain ⟨h1, h2, h3, h4⟩ := hall
        exact ⟨carveStep_safe hstack h1 hstep, carveStep_odd hpw hph hstack h2 hstep,
          carveStep_preserves StatesOnly (fun m0 x y m1 => setMaze_statesOnly m0 x y m1)
            (show StatesOnly ({ st with stack := rest } : CarveState σ).maze from h3) hstep,
          carveStep_tree hH hV hpw hph hstack h1 h2 h3 h4 hstep⟩)
      (show CarveSafe _ _ (carveInit (normalizeSize c.horizontal w)
          (normalizeSize c.vertical h) m s) ∧ _ from
        ⟨hsafe0, carveInit_odd _ _ m s hdom hno hox hoy, hstates,
          Or.inl ⟨hno, rfl, by show 0 < max _ _; omega⟩⟩) hreach
    obtain ⟨hsafe, -, -, htree⟩ := hinv
    rcases htree with ⟨-, hstk, -⟩ | ⟨hcount, ⟨depth, child, hcert⟩, hconn, -⟩
    · rw [hnil] at hstk
      exact absurd hstk (by simp)
    · refine ⟨hcount, ?_, ?_, fun k v e hinj hj => cert_acyclic hcert k v e hinj hj⟩
      · intro e hwl hp
        obtain ⟨h1, h2, h3, h4, -⟩ := hcert.1 e hwl hp
        obtain ⟨hx0, hx1, hy0, hy1⟩ := (hsafe.1 e.1 e.2).1 (by rw [hp]; rfl)
        refine ⟨h1, h2, h3, h4, ?_⟩
        unfold wallSides adjacent
        split_ifs
        · exact ⟨Or.inl ⟨rfl, (stepCoord_adjacent _ _ _ hx0 hx1).1⟩,
            Or.inl ⟨rfl, (stepCoord_adjacent _ _ _ hx0 hx1).2⟩⟩
        · exact ⟨Or.inr ⟨rfl, (stepCoord_adjacent _ _ _ hy0 hy1).1⟩,
            Or.inr ⟨rfl, (stepCoord_adjacent _ _ _ hy0 hy1).2⟩⟩
      · intro a b ha hpa hb hpb
        have hsymm : Symmetric (Linked c (normalizeSize c.horizontal w)
            (normalizeSize c.vertical h) st.maze) :=
          fun _ _ ⟨e, h1, h2, h3⟩ => ⟨e, h1, h2, h3.symm⟩
        exact Relation.ReflTransGen.trans
          (Relation.ReflTransGen.symmetric hsymm (hconn a ha hpa)) (hconn b hb hpb)

set_option maxRecDepth 1000000 in
/-- Witness of `carve_is_tree`: the sample configuration and the wrapping configuration
without symmetry on an 8 by 8 request. -/
theorem carve_is_tree_witness :
    scenarioA.horizontal.symmetry = false ∧ scenarioA.vertical.symmetry = false ∧
    ∃ st, carved lcg 0 8 8 scenarioA = some st ∧
      (passageCells isWall (normalizeSize scenarioA.horizontal 8)
          (normalizeSize scenarioA.vertical 8) st.maze).length + 1 =
        (passageCells isCentre (normalizeSize scenarioA.horizontal 8)
          (normalizeSize scenarioA.vertical 8) st.maze).length ∧
      (∀ a b : Int × Int, isCentre a = true → st.maze.read a.1 a.2 = some EMPTY →
        isCentre b = true → st.maze.read b.1 b.2 = some EMPTY →
        Relation.ReflTransGen
          (Linked scenarioA (normalizeSize scenarioA.horizontal 8)
            (normalizeSize scenarioA.vertical 8) st.maze) a b) ∧
      (∀ (k : Nat) (v e : ZMod (k + 1) → Int × Int), Function.Injective e →
        (∀ i, Joins scenarioA (normalizeSize scenarioA.horizontal 8)
          (normalizeSize scenarioA.vertical 8) st.maze (e i) (v i) (v (i + 1))) → False) := by
  have hsome : (carved lcg 0 8 8 scenarioA).isSome = true := by decide
  obtain ⟨st, hst⟩ := Option.isSome_iff_exists.1 hsome
  exact ⟨by decide, by decide, st, hst,
    (carve_is_tree lcg 0 8 8 scenarioA st (by decide) (by decide) (by decide) (by decide)
      hst).1,
    (carve_is_tree lcg 0 8 8 scenarioA st (by decide) (by decide) (by decide) (by decide)
      hst).2.2.1,
    (carve_is_tree lcg 0 8 8 scenarioA st (by decide) (by decide) (by decide) (by decide)
      hst).2.2.2⟩

/-! ## The carve from a start cell on an even column -/

/-- The selected Passage cells of a stronger selection are fewer. -/
theorem passageCells_le (sel1 sel2 : Int × Int → Bool) (w h : Int) (m : Grid)
    (hsel : ∀ p, sel1 p = true → sel2 p = true) :
    (passageCells sel1 w h m).length ≤ (passageCells sel2 w h m).length := by
  refine List.Subperm.length_le (List.Nodup.subperm (nodup_passageCells sel1 w h m) ?_)
  intro p hp
  obtain ⟨h1, h2, h3⟩ := (mem_passageCells sel1 w h m p).1 hp
  exact (mem_passageCells sel2 w h m p).2 ⟨h1, hsel p h2, h3⟩

theorem isShifted_iff (p : Int × Int) : isShifted p = true ↔ p.1 % 2 = 0 ∧ p.2 % 2 = 1 := by
  unfold isShifted
  simp only [Bool.and_eq_true, decide_eq_true_eq]

theorem shifted_not_centre {p : Int × Int} (hp : isShifted p = true) : isCentre p = false := by
  obtain ⟨h1, h2⟩ := (isShifted_iff p).1 hp
  cases hc : isCentre p with
  | false => rfl
  | true =>
    have := ((isCentre_iff p).1 hc).1
    omega

/-- One iteration of the carver keeps the invariant `CarveShifted`, without symmetry. -/
theorem carveStep_shifted {σ : Type} {R : RandomSource σ} {c : MazeConfig} {w h : Int}
    (hH : c.horizontal.symmetry = false) (hV : c.vertical.symmetry = false)
    (hpw : SizeParity c.horizontal w) (hph : SizeParity c.vertical h)
    {cur : StackEntry} {rest : List StackEntry} {st st1 : CarveState σ}
    (hstack : st.stack = cur :: rest) (hsafe : CarveSafe w h st) (hinv : CarveShifted w h st)
    (hs : carveStep R c w h cur { st with stack := rest } = some st1) :
    CarveShifted w h st1 := by
  obtain ⟨hdom, hdir, -, hin⟩ := hsafe
  obtain ⟨hpar, hcount⟩ := hinv
  obtain ⟨hcx0, hcx1, hcy0, hcy1, hstepc⟩ :=
    hin cur (by rw [hstack]; exact List.mem_cons_self _ _)
  obtain ⟨hex, hoy⟩ := hpar cur (by rw [hstack]; exact List.mem_cons_self _ _)
  have hrestPar : ∀ e ∈ rest, e.x % 2 = 0 ∧ e.y % 2 = 1 := fun e he =>
    hpar e (by rw [hstack]; exact List.mem_cons_of_mem _ he)
  rcases carveStep_cases hs with ⟨hu, heq⟩ | ⟨hu, m1, dead, hs1, hs2, hpush, hds⟩
  · subst heq
    refine ⟨hrestPar, ?_⟩
    rcases hcount with ⟨hno, hzero⟩ | hle
    · exact Or.inl ⟨hno, fun e he =>
        hzero e (by rw [hstack]; exact List.mem_cons_of_mem _ he)⟩
    · exact Or.inr hle
  · simp only at hu hs1 hs2 hpush hds
    obtain ⟨hsx, hsy, -⟩ := unitStep_cases hstepc
    obtain ⟨wx, hwx, hwx0, hwx1, hwxz⟩ := wall_coord w cur.x cur.step.x hcx0 hcx1 hsx
    obtain ⟨wy, hwy, hwy0, hwy1, hwyz⟩ := wall_coord h cur.y cur.step.y hcy0 hcy1 hsy
    have hP1 := setMaze_plain_passage hH hV (cmod_inRange _ _ hcx0 hcx1)
      (cmod_inRange _ _ hcy0 hcy1) hs1
    have hP2 := setMaze_plain_passage hH hV hwx hwy hs2
    obtain ⟨v0, hv0, hv0ne⟩ := unexplored_true hu
    have hcurNot : st.maze.read cur.x cur.y ≠ some EMPTY := by
      rw [hv0]
      exact fun h0 => hv0ne (Option.some.inj h0)
    have hcurS : isShifted (cur.x, cur.y) = true := (isShifted_iff _).2 ⟨hex, hoy⟩
    have hcurC : isCentre (cur.x, cur.y) = false := shifted_not_centre hcurS
    have hs1c := passageCells_insert isShifted (q := (cur.x, cur.y))
      ⟨hcx0, hcx1, hcy0, hcy1⟩ hcurNot hP1
    have hc1c := passageCells_insert isCentre (q := (cur.x, cur.y))
      ⟨hcx0, hcx1, hcy0, hcy1⟩ hcurNot hP1
    rw [hcurS] at hs1c
    rw [hcurC] at hc1c
    simp only [if_true, Bool.false_eq_true, if_false, add_zero] at hs1c hc1c
    have hnewPar : ∀ e ∈ st1.stack, e.x % 2 = 0 ∧ e.y % 2 = 1 := by
      intro e he
      rcases pushNeighbours_spec _ _ _ _ _ _ _ _ _ _ _ hpush e he with h1 | ⟨h1, h2, h3, -⟩
      · exact hrestPar e h1
      · have hunit := hdir _ (hds _ h1)
        obtain ⟨hux, huy, -⟩ := unitStep_cases (Or.inl hunit)
        have hpx := neighbour_parity _ w cur.x e.step.x e.x hcx0 hcx1 hux hpw.1 h2
        have hpy := neighbour_parity _ h cur.y e.step.y e.y hcy0 hcy1 huy hph.1 h3
        exact ⟨by omega, by omega⟩
    refine ⟨hnewPar, Or.inr ?_⟩
    by_cases hwp : m1.read wx wy = some EMPTY
    · have hP : ∀ p : Int × Int, st1.maze.read p.1 p.2 = some EMPTY ↔
          m1.read p.1 p.2 = some EMPTY := by
        intro p
        rw [hP2]
        constructor
        · rintro (h1 | h1)
          · exact h1
          · rw [h1]; exact hwp
        · exact Or.inl
      have hs2c := passageCells_congr isShifted w h hP
      have hc2c := passageCells_congr isCentre w h hP
      rw [hs2c, hc2c, hs1c, hc1c]
      rcases hcount with ⟨hno, -⟩ | hle
      · rw [passageCells_noPassage _ _ _ hno, passageCells_noPassage _ _ _ hno]
      · omega
    · have hs2c := passageCells_insert isShifted (q := (wx, wy))
        ⟨hwx0, hwx1, hwy0, hwy1⟩ hwp hP2
      have hc2c := passageCells_insert isCentre (q := (wx, wy))
        ⟨hwx0, hwx1, hwy0, hwy1⟩ hwp hP2
      rw [hs2c, hc2c, hs1c, hc1c]
      rcases hcount with ⟨hno, hzero⟩ | hle
      · exfalso
        obtain ⟨hzx, hzy⟩ := hzero cur (by rw [hstack]; exact List.mem_cons_self _ _)
        have h1 := hwxz hzx
        have h2 := hwyz hzy
        rw [h1, h2] at hwp
        exact hwp ((hP1 (cur.x, cur.y)).2 (Or.inr rfl))
      · have h1 : (if isCentre (wx, wy) = true then 1 else 0) ≤ 1 := by split_ifs <;> omega
        omega

/-- The carver gets through on every grid with a normalized width and height of at least
4: it starts, the loop ends, and the final state is reached from the start state. -/
theorem carved_total {σ : Type} (R : RandomSource σ) (entropy : Nat) (w h : Int)
    (c : MazeConfig) (hw : 4 ≤ normalizeSize c.horizontal w)
    (hh : 4 ≤ normalizeSize c.vertical h) :
    ∃ st0 st1, carveStart R entropy w h c = some st0 ∧ carved R entropy w h c = some st1 ∧
      CarveReached R c (normalizeSize c.horizontal w) (normalizeSize c.vertical h) st0 st1 ∧
      st1.stack = [] ∧
      CarveSafe (normalizeSize c.horizontal w) (normalizeSize c.vertical h) st0 := by
  obtain ⟨st0, hst0⟩ := carveStart_total R entropy w h c (by omega) (by omega)
  obtain ⟨m, s, heq, -, hrect, -⟩ := carveStart_spec hst0
  have hdom := rect_dom hrect
  have hinit : CarveSafe (normalizeSize c.horizontal w) (normalizeSize c.vertical h) st0 := by
    rw [heq]
    exact carveInit_safe s hdom ((startCoord_range _).2 hw).1 ((startCoord_range _).2 hw).2
      ((startCoord_range _).2 hh).1 ((startCoord_range _).2 hh).2
  have hb := unopened_rect hrect
  have hfuel : 4 * unopened st0.maze + st0.stack.length
      ≤ carveFuel (normalizeSize c.horizontal w) (normalizeSize c.vertical h) := by
    rw [heq]
    simp only [carveInit, carveFuel, List.length_singleton]
    omega
  obtain ⟨st1, hloop, hnil, -⟩ := carveLoop_total R c _ st0 hinit hfuel
  obtain ⟨hreach, -⟩ := carveLoop_reached _ _ _ hloop
  refine ⟨st0, st1, hst0, ?_, hreach, hnil, hinit⟩
  rw [carved_eq_start, hst0]
  exact hloop

/-- The carve of the wide sample run: for the request 33554436 by 8 with wrap on the
horizontal axis the normalized grid is 33554436 by 7 and the start cell is `(16777216, 1)`;
the loop ends, and in its final state the invariant `CarveShifted` holds. -/
theorem carved_wide {σ : Type} (R : RandomSource σ) (entropy : Nat) :
    ∃ st, carved R entropy 33554436 8 wide = some st ∧
      Dom 33554436 7 st.maze ∧ CarveShifted 33554436 7 st ∧ st.stack = [] := by
  have hW : normalizeSize wide.horizontal 33554436 = 33554436 := by decide
  have hH : normalizeSize wide.vertical 8 = 7 := by decide
  have hsx : startCoord 33554436 = 16777216 := by decide
  have hsy : startCoord 7 = 1 := by decide
  obtain ⟨st0, st1, hst0, hcarved, hreach, hnil, hsafe0⟩ :=
    carved_total R entropy 33554436 8 wide (by rw [hW]; omega) (by rw [hH]; omega)
  obtain ⟨m, s, heq, hno, hrect, -⟩ := carveStart_spec hst0
  have hpw := normalizeSize_sizeParity wide.horizontal 33554436
  have hph := normalizeSize_sizeParity wide.vertical 8
  simp only [hW, hH] at heq hreach hsafe0 hpw hph
  have hinit : CarveShifted 33554436 7 st0 := by
    rw [heq]
    refine ⟨?_, Or.inl ⟨hno, ?_⟩⟩
    · intro e he
      simp only [carveInit, List.mem_singleton] at he
      subst he
      show startCoord 33554436 % 2 = 0 ∧ startCoord 7 % 2 = 1
      rw [hsx, hsy]
      constructor <;> omega
    · intro e he
      simp only [carveInit, List.mem_singleton] at he
      subst he
      exact ⟨rfl, rfl⟩
  have hinv := carveReached_induction
    (fun st : CarveState σ => CarveSafe 33554436 7 st ∧ CarveShifted 33554436 7 st)
    (fun st cur rest st2 hall hstack hstep =>
      ⟨carveStep_safe hstack hall.1 hstep,
        carveStep_shifted (show wide.horizontal.symmetry = false from rfl)
          (show wide.vertical.symmetry = false from rfl) hpw hph hstack hall.1 hall.2 hstep⟩)
    ⟨hsafe0, hinit⟩ hreach
  exact ⟨st1, hcarved, hinv.1.1, hinv.2, hnil⟩

/-- C23 (the code at the failing input): the carve is not always a tree on the cells with
odd coordinates.  For the request
33554436 by 8 with wrap on the horizontal axis, no symmetry and no Reserved cell, the
normalized grid is 33554436 by 7 and the start cell of lines 82-83, computed in `float`, is
`(16777216, 1)`, on an even column.  For every random stream the carver loop ends, and in
its final state the number of Passage wall cells (exactly one coordinate even) plus one is
not the number of Passage cell centres (both coordinates odd): the cells the carver visits
have an even x-coordinate, and there are more of them than Passage cells with two odd
coordinates. -/
theorem carve_counts_on_even_column {σ : Type} (R : RandomSource σ) (entropy : Nat) :
    wide.horizontal.symmetry = false ∧ wide.vertical.symmetry = false ∧
    normalizeSize wide.horizontal 33554436 = 33554436 ∧ normalizeSize wide.vertical 8 = 7 ∧
    startCoord 33554436 = 16777216 ∧ startCoord 7 = 1 ∧
    ∃ st, carved R entropy 33554436 8 wide = some st ∧
      (passageCells isWall 33554436 7 st.maze).length + 1 ≠
        (passageCells isCentre 33554436 7 st.maze).length ∧
      (passageCells isCentre 33554436 7 st.maze).length
        ≤ (passageCells isWall 33554436 7 st.maze).length := by
  refine ⟨rfl, rfl, by decide, by decide, by decide, by decide, ?_⟩
  obtain ⟨st, hst, -, ⟨-, hcount⟩, -⟩ := carved_wide R entropy
  have hle := passageCells_le isShifted isWall 33554436 7 st.maze (fun p hp =>
    isWall_even_odd ((isShifted_iff p).1 hp).1 ((isShifted_iff p).1 hp).2)
  refine ⟨st, hst, ?_⟩
  rcases hcount with ⟨hno, -⟩ | hc
  · rw [passageCells_noPassage _ _ _ hno, passageCells_noPassage _ _ _ hno]
    exact ⟨by decide, le_refl _⟩
  · constructor <;> omega

/-- C24 (the code at the failing input): the carve does not always reach every cell with
odd coordinates.  For the request
33554436 by 8 with wrap on the horizontal axis and `fill = 1` no cell is Reserved, the
normalized grid is 33554436 by 7 (both sizes at least 4) and the start cell of lines 82-83,
computed in `float`, is `(16777216, 1)`, on an even column.  For every random stream the
carver loop ends, and in its final state some cell inside the grid with both coordinates
odd is not Passage: the carver visits cells with an even x-coordinate, every carving
iteration opens one of them and at most one cell with two odd coordinates, and on the
wrapping axis there are as many odd columns as even ones. -/
theorem carve_misses_odd_cell {σ : Type} (R : RandomSource σ) (entropy : Nat) :
    reservePositive wide.fill = false ∧
    normalizeSize wide.horizontal 33554436 = 33554436 ∧ normalizeSize wide.vertical 8 = 7 ∧
    startCoord 33554436 = 16777216 ∧ startCoord 7 = 1 ∧
    ∃ st, carved R entropy 33554436 8 wide = some st ∧
      ∃ x y, 0 ≤ x ∧ x < normalizeSize wide.horizontal 33554436 ∧ 0 ≤ y ∧
        y < normalizeSize wide.vertical 8 ∧ x % 2 = 1 ∧ y % 2 = 1 ∧
        st.maze.read x y ≠ some EMPTY := by
  have hW : normalizeSize wide.horizontal 33554436 = 33554436 := by decide
  have hH : normalizeSize wide.vertical 8 = 7 := by decide
  refine ⟨by decide, hW, hH, by decide, by decide, ?_⟩
  rw [hW, hH]
  obtain ⟨st, hst, hdom, ⟨-, hcount⟩, -⟩ := carved_wide R entropy
  refine ⟨st, hst, ?_⟩
  by_contra hall
  have hodd : ∀ x y, 0 ≤ x → x < 33554436 → 0 ≤ y → y < 7 → x % 2 = 1 → y % 2 = 1 →
      st.maze.read x y = some EMPTY := by
    intro x y h1 h2 h3 h4 h5 h6
    by_contra hne
    exact hall ⟨x, y, h1, h2, h3, h4, h5, h6, hne⟩
  rcases hcount with ⟨hno, -⟩ | hc
  · exact hno 1 1 (hodd 1 1 (by omega) (by omega) (by omega) (by omega) (by omega) (by omega))
  · have hsub : (passageCells isShifted 33554436 7 st.maze).map
        (fun p : Int × Int => (p.1 + 1, p.2)) ⊆ passageCells isCentre 33554436 7 st.maze := by
      intro q hq
      obtain ⟨p, hp, rfl⟩ := List.mem_map.1 hq
      obtain ⟨⟨h1, h2, h3, h4⟩, h5, -⟩ := (mem_passageCells _ _ _ _ p).1 hp
      obtain ⟨h6, h7⟩ := (isShifted_iff p).1 h5
      refine (mem_passageCells _ _ _ _ _).2 ⟨⟨?_, ?_, h3, h4⟩, ?_, ?_⟩
      · show 0 ≤ p.1 + 1; omega
      · show p.1 + 1 < 33554436; omega
      · exact (isCentre_iff _).2 ⟨by show (p.1 + 1) % 2 = 1; omega, h7⟩
      · exact hodd (p.1 + 1) p.2 (by omega) (by omega) h3 h4 (by omega) h7
    have hnd : ((passageCells isShifted 33554436 7 st.maze).map
        (fun p : Int × Int => (p.1 + 1, p.2))).Nodup := by
      refine List.Nodup.map ?_ (nodup_passageCells _ _ _ _)
      intro a b hab
      simp only [Prod.mk.injEq] at hab
      exact Prod.ext (by omega) hab.2
    have hlen := List.Subperm.length_le (List.Nodup.subperm hnd hsub)
    rw [List.length_map] at hlen
    omega

end MazeGenerator
